import Mathlib

/-!
Training evaluation analytics.

A shallow embedding of the aggregation code of the evaluation application:

* `calculateAnalytics` and the display pipelines of
  `src/components/AdminDashboard.jsx`;
* `loadInstructorRatings`, `calculateTrends` and `getFilteredAndSortedInstructors` of
  `src/components/InstructorRatings.jsx`;
* the question catalogue and the option lists of `src/data/formQuestions.js`;
* the state handlers and `handleSubmit` of `src/components/EvaluationForm.jsx`;
* the state and the returned element of `src/components/ProtectedRoute.jsx`.

JavaScript values are embedded as follows.

* Strings are `String`; `null`/`undefined` in an optional position is
  `Option.none`.
* A plain object used as a dictionary is a `JsObject`: the list of its own
  properties in creation order.  `Object.entries` enumerates array-index keys
  first, in ascending numeric order, and then the remaining keys in creation
  order, as ECMAScript prescribes.
* The dictionaries of the source are created as `{}` or by an object literal, so that
  a property read which finds no own property goes on to `Object.prototype`
  (`JsObject.lookup`): for one of the names inherited from it (`inheritedNames`) the
  read yields a built-in object.  A write of a property of such a built-in object is
  not tracked: the properties it creates (`sum`, `count`, with the value `NaN`) are
  read nowhere as anything but a falsy value.
* Counters are natural numbers (they are exact integers in binary64 far beyond any
  list that fits in memory).  A sum or a tally is a `JsValue`: a natural number, or,
  once `+` has met a built-in object, a string that denotes no number.  The one
  genuinely fractional computation, `(sum / count).toFixed(2)`, is embedded
  bit-exactly: the quotient is rounded to binary64 (round to nearest, ties to even)
  and the resulting double is rounded to hundredths the way `toFixed` does it; for a
  sum that is no number the quotient is `NaN`.
* An exception is the result `none` of a function into `Option`: the accumulator of
  the loop that throws is lost, and what follows the loop does not run.
* `Array.prototype.sort` is a stable comparison sort.
* Dates are time values in milliseconds.  The calendar functions of `Date` and the
  string methods `localeCompare` and `toLowerCase` belong to the host and are taken as
  a parameter (`Host`); `utcHost` is a concrete host used for instances.
* A number parsed from a two-decimal numeral (`parseFloat(x.toFixed(2))`) is kept as
  that numeral in hundredths, and `NaN` is `none`.
* React state is passed explicitly: a handler is the function from the previous state
  to the next one that it hands to the setter.  Where aliasing matters, arrays are
  objects of an `ArrayStore` and are addressed by reference.
-/

namespace EvalForm

/-! ## JavaScript objects as dictionaries -/

/-- Own properties of a plain object, in creation order. -/
abbrev JsObject (α : Type) := List (String × α)

namespace JsObject

/-- The own property `k` of `o`; `none` when `o` has no own property of that name.  A
property read `o[k]` goes on to the prototype chain: see `lookup`. -/
def get {α : Type} (o : JsObject α) (k : String) : Option α :=
  match o with
  | [] => none
  | (k', v) :: rest => if k' = k then some v else get rest k

/-- Creation or replacement of the own property `k`: an existing property keeps its
place, a new one is created after all existing ones. -/
def set {α : Type} (o : JsObject α) (k : String) (v : α) : JsObject α :=
  match o with
  | [] => [(k, v)]
  | (k', v') :: rest => if k' = k then (k', v) :: rest else (k', v') :: set rest k v

/-- In-place update of an existing own property, `o[k] = f(o[k])`. -/
def modify {α : Type} (o : JsObject α) (k : String) (f : α → α) : JsObject α :=
  match o with
  | [] => []
  | (k', v') :: rest => if k' = k then (k', f v') :: rest else (k', v') :: modify rest k f

/-- The own property names in creation order. -/
def keys {α : Type} (o : JsObject α) : List String := o.map Prod.fst

end JsObject

/-- Value of a decimal digit string, most significant digit first. -/
def digitsValue (cs : List Char) : Nat :=
  cs.foldl (fun acc c => 10 * acc + (c.toNat - 48)) 0

/-- The array index denoted by a property name, if it is one: a canonical
decimal numeral (no sign, no leading zero) with value at most `2^32 - 2`. -/
def arrayIndex (s : String) : Option Nat :=
  match s.data with
  | [] => none
  | c :: cs =>
    if (c :: cs).all Char.isDigit && (c != '0' || cs.isEmpty) then
      if digitsValue (c :: cs) ≤ 4294967294 then some (digitsValue (c :: cs)) else none
    else none

/-- The properties whose name is an array index, tagged with that index. -/
def indexEntries {α : Type} (o : JsObject α) : List (Nat × (String × α)) :=
  o.filterMap (fun p => (arrayIndex p.1).map (fun i => (i, p)))

/-- The properties whose name is not an array index. -/
def nameEntries {α : Type} (o : JsObject α) : JsObject α :=
  o.filter (fun p => (arrayIndex p.1).isNone)

/-- Enumeration `Object.entries(o)`: array-index keys in ascending numeric order,
then all other keys in creation order. -/
def entries {α : Type} (o : JsObject α) : List (String × α) :=
  ((indexEntries o).insertionSort (fun a b => a.1 ≤ b.1)).map Prod.snd ++ nameEntries o

/-- Stable sort `xs.sort(cmp)` for a comparator returning a number: `a` is placed
before `b` when `cmp a b < 0`, and equal elements keep their order.  This determines
the result when the comparator is consistent on the elements; for another comparator
the order is left to the engine, and the one taken here is that of an insertion
sort. -/
def jsSort {α : Type} (cmp : α → α → Int) (xs : List α) : List α :=
  xs.insertionSort (fun a b => cmp a b ≤ 0)

/-- Search `xs.indexOf(x)`, with `-1` when `x` does not occur. -/
def jsIndexOf (xs : List String) (x : String) : Int :=
  match xs with
  | [] => -1
  | y :: ys => if y = x then 0 else
    let i := jsIndexOf ys x
    if i < 0 then -1 else i + 1

/-! ## binary64 division and `toFixed(2)` -/

/-- Auxiliary loop of `ilog2`: halve `n` until it is below 2, at most `fuel` times. -/
def ilog2Aux : Nat → Nat → Nat
  | 0, _ => 0
  | fuel + 1, n => if n < 2 then 0 else ilog2Aux fuel (n / 2) + 1

/-- Position of the leading binary digit, `⌊log₂ n⌋` (and `0` for `n = 0`). -/
def ilog2 (n : Nat) : Nat := ilog2Aux n n

/-- The binary64 quotient of two positive integers `p / q < 2^53`, returned as
`(m, s)` for the double `m * 2^(-s)` with `2^52 ≤ m ≤ 2^53`: the exact
quotient scaled into the 53-bit significand range and rounded to nearest, ties
to even. -/
def divDouble (p q : Nat) : Nat × Nat :=
  let s0 := 52 + ilog2 q - ilog2 p
  let s := if 2 ^ 52 * q ≤ p * 2 ^ s0 then s0 else s0 + 1
  let a := p * 2 ^ s / q
  let b := p * 2 ^ s % q
  let m := if 2 * b < q then a else if q < 2 * b then a + 1 else if a % 2 = 0 then a else a + 1
  (m, s)

/-- Embedding of `(sum / count).toFixed(2)`, in hundredths: the integer `n` nearest
to `100 * x` for the double `x = sum / count`, the larger one on a tie.  `none`
stands for the non-numeric outputs `"NaN"` and `"Infinity"` of a zero count. -/
def toFixed2 (sum count : Nat) : Option Nat :=
  if count = 0 then none
  else if sum = 0 then some 0
  else
    let d := divDouble sum count
    some ((200 * d.1 + 2 ^ d.2) / 2 ^ (d.2 + 1))

/-! ## The prototype chain of plain objects

The dictionaries of the source are plain objects (`{}` and object literals): a property
read that finds no own property goes on to `Object.prototype`. -/

/-- The property names that a plain object inherits from `Object.prototype`: eleven
built-in functions and the accessor `__proto__`, which yields the prototype object. -/
def inheritedNames : List String :=
  ["constructor", "hasOwnProperty", "isPrototypeOf", "propertyIsEnumerable",
   "toLocaleString", "toString", "valueOf", "__defineGetter__", "__defineSetter__",
   "__lookupGetter__", "__lookupSetter__", "__proto__"]

/-- What a property read `o[k]` on a plain object finds: the value of an own property;
or, for one of the `inheritedNames` with no own property, a built-in object (a
function, or the prototype object), which is truthy and is no number; or
`undefined`. -/
inductive Lookup (α : Type) where
  | own (v : α)
  | builtin
  | undefined
  deriving DecidableEq, Repr

namespace JsObject

/-- Property read `o[k]` on a plain object. -/
def lookup {α : Type} (o : JsObject α) (k : String) : Lookup α :=
  match o.get k with
  | some v => .own v
  | none => if inheritedNames.contains k then .builtin else .undefined

/-- Property write `o[k] = v` of a value that is not an object: it creates or replaces
the own property `k`, except for `__proto__`, whose inherited setter ignores such a
value. -/
def assign {α : Type} (o : JsObject α) (k : String) (v : α) : JsObject α :=
  if k = "__proto__" then o else o.set k v

end JsObject

/-- A value met where the code computes with numbers: a number (here always a natural
number), a built-in object read through the prototype chain, or the string that `+`
yields when an operand is no number.  Such a string contains the text of a built-in
object (`"0function Object() { [native code] }"`, `"[object Object]1"`), which depends
on the host; it is not empty and denotes no number, and only that is kept. -/
inductive JsValue where
  | number (n : Nat)
  | builtin
  | text
  deriving DecidableEq, Repr

namespace JsValue

/-- Truthiness: every value but the number 0. -/
def truthy : JsValue → Bool
  | .number n => n != 0
  | .builtin => true
  | .text => true

/-- The operator `+`: the sum of two numbers, and otherwise the concatenation of the
operands converted to strings. -/
def add : JsValue → JsValue → JsValue
  | .number a, .number b => .number (a + b)
  | _, _ => .text

/-- The expression `(sum / count).toFixed(2)` in hundredths; `none` stands for the
output `"NaN"` (or `"Infinity"`), which is what a `sum` that is no number gives. -/
def divToFixed2 (sum : JsValue) (count : Nat) : Option Nat :=
  match sum with
  | .number s => toFixed2 s count
  | _ => none

end JsValue

/-! ## Data model -/

/-- One entry of an evaluation's `ratings` array. -/
structure Rating where
  group : String
  question : String
  rating : String
  deriving DecidableEq, Repr

/-- One entry of an evaluation's `suggestions` array; a missing field is `none`. -/
structure Suggestion where
  name : Option String
  phone : Option String
  email : Option String
  deriving DecidableEq, Repr

/-- The fields of an evaluation record read by the dashboard and by the instructor
page.  `sources` and `suggestions` are `none` when the stored value is `null` or not an
array; `submitted_at` is the time value, in milliseconds, of `new Date(submitted_at)`. -/
structure Evaluation where
  ratings : List Rating
  sources : Option (List String) := none
  suggestions : Option (List Suggestion) := none
  additional_comments : Option String := none
  submitted_at : Int := 0
  instructor_name : Option String := none
  deriving DecidableEq, Repr

/-- One group of the rating-question catalogue. -/
structure QuestionGroup where
  id : Nat
  group : String
  questions : List String
  deriving DecidableEq, Repr

/-- The catalogue `ratingQuestions` of `formQuestions.js`. -/
def ratingQuestions : List QuestionGroup :=
  [ { id := 1, group := "Content Quality",
      questions := ["Objective of the training ", "Practice to my needs and interest",
        "Well organized", "Useful Visual aids and handouts"] },
    { id := 2, group := "Presentation",
      questions := ["Instructors Knowledge", "Instructors presentation style",
        "Instructor covered the matarial clearly", "Instructor responded well to questions",
        "Instructors ability to relate theory to practice"] },
    { id := 3, group := "Training Facilities",
      questions := ["Training room preparation", "Location of the Training",
        "Duration of the Training"] } ]

/-- Number of rating questions of the catalogue. -/
def catalogQuestionCount : Nat := (ratingQuestions.map (fun g => g.questions.length)).sum

/-! ## `calculateAnalytics` -/

/-- The accumulator object `{ sum, count, group }` kept per question text. -/
structure QuestionAcc where
  sum : JsValue
  count : Nat
  group : String
  deriving DecidableEq, Repr

/-- One element of the `averages` array; `average` is the output of `toFixed(2)` in
hundredths, `none` for `"NaN"`. -/
structure QuestionAverage where
  question : String
  group : String
  average : Option Nat
  count : Nat
  deriving DecidableEq, Repr

/-- The score table `ratingValues` of the dashboard. -/
def ratingValues : JsObject Nat :=
  [("excellent", 4), ("very_good", 3), ("good", 2), ("needs_improvement", 1)]

/-- The expression `ratingValues[rating.rating] || 0`. -/
def ratingValue (rating : String) : JsValue :=
  match ratingValues.lookup rating with
  | .own n => .number n
  | .builtin => .builtin
  | .undefined => .number 0

/-- Body of the inner `forEach` over `evaluation.ratings`, on the pair
`(questionAverages, ratingCounts)`.  When the question text is an inherited name,
`questionAverages[key]` is a built-in object: no accumulator is created and the two
updates write properties of that object, which are not tracked.  The last case of the
second `match` on `ratingCounts` is not reached. -/
def ratingStep (st : JsObject QuestionAcc × JsObject JsValue) (rating : Rating) :
    JsObject QuestionAcc × JsObject JsValue :=
  let key := rating.question
  let qa₀ := match st.1.lookup key with
    | .undefined => st.1.set key { sum := .number 0, count := 0, group := rating.group }
    | _ => st.1
  let value := ratingValue rating.rating
  let qa₂ := match qa₀.lookup key with
    | .own _ =>
      (qa₀.modify key (fun d => { d with sum := d.sum.add value })).modify key
        (fun d => { d with count := d.count + 1 })
    | _ => qa₀
  let rc₀ := match st.2.lookup rating.rating with
    | .undefined => st.2.assign rating.rating (.number 0)
    | .own v => if v.truthy then st.2 else st.2.assign rating.rating (.number 0)
    | .builtin => st.2
  let rc₁ := match rc₀.lookup rating.rating with
    | .own v => rc₀.assign rating.rating (v.add (.number 1))
    | .builtin => rc₀.assign rating.rating (JsValue.builtin.add (.number 1))
    | .undefined => rc₀
  (qa₂, rc₁)

/-- The first loop of `calculateAnalytics`: every rating of every evaluation, in order. -/
def ratingLoop (evaluationData : List Evaluation) : JsObject QuestionAcc × JsObject JsValue :=
  evaluationData.foldl (fun st evaluation => evaluation.ratings.foldl ratingStep st) ([], [])

/-- The array `averages`: one element per own property of `questionAverages`. -/
def averagesOf (questionAverages : JsObject QuestionAcc) : List QuestionAverage :=
  (entries questionAverages).map (fun p =>
    { question := p.1, group := p.2.group, average := p.2.sum.divToFixed2 p.2.count,
      count := p.2.count })

/-- The label list `overallEvaluationOptions`. -/
def overallEvaluationOptions : List String := ["Excellent", "Very Good", "Good", "Fair", "Poor"]

/-- The update `counts[k] = (counts[k] || 0) + 1` of a tally. -/
def tallyStep (counts : JsObject JsValue) (k : String) : JsObject JsValue :=
  let current := match counts.lookup k with
    | .own v => if v.truthy then v else .number 0
    | .builtin => .builtin
    | .undefined => .number 0
  counts.assign k (current.add (.number 1))

/-- Body of the `forEach` over `evaluation.sources`, on the pair
`(overallEvaluationCounts, sourceCounts)`. -/
def sourceStep (st : JsObject JsValue × JsObject JsValue) (source : String) :
    JsObject JsValue × JsObject JsValue :=
  if overallEvaluationOptions.contains source then (tallyStep st.1 source, st.2)
  else (st.1, tallyStep st.2 source)

/-- The second loop of `calculateAnalytics`; an evaluation whose `sources` is not an
array is skipped. -/
def sourceLoop (evaluationData : List Evaluation) : JsObject JsValue × JsObject JsValue :=
  evaluationData.foldl (fun st evaluation =>
    match evaluation.sources with
    | some sources => sources.foldl sourceStep st
    | none => st) ([], [])

/-- Truthiness of an optional string: present and not empty. -/
def truthy (s : Option String) : Bool :=
  match s with
  | none => false
  | some v => v != ""

/-- The test `suggestion.name || suggestion.phone || suggestion.email`. -/
def hasContact (s : Suggestion) : Bool := truthy s.name || truthy s.phone || truthy s.email

/-- The third loop of `calculateAnalytics`, pushing onto `allSuggestions`. -/
def suggestionLoop (evaluationData : List Evaluation) : List Suggestion :=
  evaluationData.foldl (fun acc evaluation =>
    match evaluation.suggestions with
    | some suggestions =>
      suggestions.foldl (fun acc suggestion =>
        if hasContact suggestion then acc ++ [suggestion] else acc) acc
    | none => acc) []

/-- The object handed to `setAnalytics`. -/
structure Analytics where
  totalResponses : Nat
  ratingCounts : JsObject JsValue
  questionAverages : List QuestionAverage
  sourceCounts : JsObject JsValue
  overallEvaluationCounts : JsObject JsValue
  allSuggestions : List Suggestion
  deriving DecidableEq, Repr

/-- The function `calculateAnalytics`: the argument of its `setAnalytics` call, `none`
for `setAnalytics(null)`. -/
def calculateAnalytics (evaluationData : List Evaluation) : Option Analytics :=
  if evaluationData.length = 0 then none
  else
    let st := ratingLoop evaluationData
    let src := sourceLoop evaluationData
    some { totalResponses := evaluationData.length
           ratingCounts := st.2
           questionAverages := averagesOf st.1
           sourceCounts := src.2
           overallEvaluationCounts := src.1
           allSuggestions := suggestionLoop evaluationData }

/-! ## Display pipelines of the dashboard -/

/-- The reducer of the "Question Averages by Category" card on an accumulator created
as `{}`; `none` stands for the `TypeError` of `groups[group].push(item)` when
`groups[group]` is a built-in object, which has no `push`. -/
def groupStep (groups : JsObject (List QuestionAverage)) (item : QuestionAverage) :
    Option (JsObject (List QuestionAverage)) :=
  let group := item.group
  let groups₀ := match groups.lookup group with
    | .undefined => groups.set group []
    | _ => groups
  match groups₀.lookup group with
  | .own _ => some (groups₀.modify group (fun items => items ++ [item]))
  | _ => none

/-- The rendered groups: `Object.entries(questionAverages.reduce(..., {}))`, `none` when
the reduction throws.  The reduction on `Object.create(null)` that precedes it in the
`&&` has no prototype chain: it does not throw and its result is truthy. -/
def groupedAverages (questionAverages : List QuestionAverage) :
    Option (List (String × List QuestionAverage)) :=
  (questionAverages.foldlM groupStep []).map entries

/-- The rendered rating distribution, `Object.entries(analytics.ratingCounts)`. -/
def displayedRatingCounts (a : Analytics) : List (String × JsValue) := entries a.ratingCounts

/-- The rendered overall-evaluation rows: entries sorted by position of the label. -/
def displayedOverall (a : Analytics) : List (String × JsValue) :=
  jsSort (fun x y =>
      jsIndexOf ["Excellent", "Very Good", "Good", "Fair", "Poor"] x.1
        - jsIndexOf ["Excellent", "Very Good", "Good", "Fair", "Poor"] y.1)
    (entries a.overallEvaluationCounts)

/-- The comparator `b[1] - a[1]` of two tallies as the sort reads it: a difference that
is `NaN`, as with an operand that is no number, counts as 0. -/
def tallyCompare (x y : JsValue) : Int :=
  match y, x with
  | .number b, .number a => (b : Int) - (a : Int)
  | _, _ => 0

/-- The rendered information-source rows: entries sorted by `b[1] - a[1]`. -/
def displayedSources (a : Analytics) : List (String × JsValue) :=
  jsSort (fun x y => tallyCompare x.2 y.2) (entries a.sourceCounts)

/-! ## Instructor ratings (`InstructorRatings.jsx`) -/

/-- The functions of the JavaScript host that the instructor page calls on dates and
strings.  Instants are time values in milliseconds; `getFullYear` and `getMonth` read
the local calendar, `setMonth t m` and `setFullYear t y` return the time value of the
instant `t` with its local month (a month index, possibly out of `0..11`) or year
replaced; `localeCompare` and `toLowerCase` are the string methods. -/
structure Host where
  getFullYear : Int → Int
  getMonth : Int → Nat
  setMonth : Int → Int → Int
  setFullYear : Int → Int → Int
  localeCompare : String → String → Int
  toLowerCase : String → String

/-- The fields of a training session read by the instructor page. -/
structure TrainingSession where
  id : String
  instructor_name : Option String
  training_name : String := ""
  deriving DecidableEq, Repr

/-- An element of `allEvaluations`, the object `{ ...e, session }`. -/
structure JoinedEvaluation where
  evaluation : Evaluation
  session : TrainingSession
  deriving DecidableEq, Repr

/-- One element of a `trends` array; `avgRating` is the output of `toFixed(2)`. -/
structure Trend where
  month : String
  avgRating : Option Nat
  count : Nat
  deriving DecidableEq, Repr

/-- The accumulator `{ count, sum }` kept per month key. -/
structure MonthAcc where
  count : Nat
  sum : JsValue
  deriving DecidableEq, Repr

/-- The object stored in `instructorMap` for one instructor name. -/
structure InstructorAcc where
  name : String
  sessions : List TrainingSession
  evaluations : List JoinedEvaluation
  totalRatings : Nat
  ratingSum : JsValue
  feedbackCount : Nat
  trends : List Trend
  deriving DecidableEq, Repr

/-- An element of `instructorData`: the accumulator spread, with `avgRating`,
`totalSessions`, `totalEvaluations` and `trends` set.  `avgRating` is the number that
`parseFloat` reads from the output of `toFixed(2)`: a two-decimal numeral, kept in
hundredths, or `NaN`, for which `none` stands. -/
structure Instructor extends InstructorAcc where
  avgRating : Option Nat
  totalSessions : Nat
  totalEvaluations : Nat
  deriving DecidableEq, Repr

/-- The function `getRatingValue`, `values[rating] || 0`. -/
def getRatingValue (rating : String) : JsValue :=
  match JsObject.lookup
    ([("excellent", 5), ("very_good", 4), ("good", 3), ("needs_improvement", 2)] : JsObject Nat)
    rating with
  | .own n => .number n
  | .builtin => .builtin
  | .undefined => .number 0

/-- Padding `s.padStart(2, '0')`. -/
def padStart2 (s : String) : String :=
  String.mk (List.replicate (2 - s.length) '0') ++ s

/-- The month key of an instant,
`date.getFullYear() + "-" + String(date.getMonth() + 1).padStart(2, '0')`. -/
def monthKey (host : Host) (t : Int) : String :=
  toString (host.getFullYear t) ++ "-" ++ padStart2 (toString (host.getMonth t + 1))

/-- Body of the `forEach` of `calculateTrends`, on `monthlyData`.  A month key contains
a dash and is none of the inherited names, so that `monthlyData[monthKey]` is an own
property once it has been created. -/
def trendStep (host : Host) (monthlyData : JsObject MonthAcc) (evaluation : JoinedEvaluation) :
    JsObject MonthAcc :=
  let monthKey := monthKey host evaluation.evaluation.submitted_at
  let monthlyData₀ := match monthlyData.lookup monthKey with
    | .undefined => monthlyData.set monthKey { count := 0, sum := .number 0 }
    | _ => monthlyData
  evaluation.evaluation.ratings.foldl (fun md rating =>
    let value := getRatingValue rating.rating
    (md.modify monthKey (fun d => { d with sum := d.sum.add value })).modify monthKey
      (fun d => { d with count := d.count + 1 })) monthlyData₀

/-- The function `calculateTrends`. -/
def calculateTrends (host : Host) (evaluations : List JoinedEvaluation) : List Trend :=
  let monthlyData := evaluations.foldl (trendStep host) []
  jsSort (fun a b => host.localeCompare a.month b.month)
    ((entries monthlyData).map (fun p =>
      { month := p.1, avgRating := p.2.sum.divToFixed2 p.2.count, count := p.2.count }))

/-- Body of `sessions.forEach` in `loadInstructorRatings`, on `instructorMap`; `none`
stands for the `TypeError` of `instructorMap[name].sessions.push(session)` when
`instructorMap[name]` is a built-in object, which has no `sessions`. -/
def sessionStep (instructorMap : JsObject InstructorAcc) (session : TrainingSession) :
    Option (JsObject InstructorAcc) :=
  match session.instructor_name with
  | none => some instructorMap
  | some name =>
    if name = "" then some instructorMap
    else
      let instructorMap₀ := match instructorMap.lookup name with
        | .undefined => instructorMap.set name
            { name := name, sessions := [], evaluations := [], totalRatings := 0,
              ratingSum := .number 0, feedbackCount := 0, trends := [] }
        | _ => instructorMap
      match instructorMap₀.lookup name with
      | .own _ =>
        some (instructorMap₀.modify name (fun i => { i with sessions := i.sessions ++ [session] }))
      | _ => none

/-- Body of `allEvaluations.forEach` in `loadInstructorRatings`, on `instructorMap`;
`none` stands for the `TypeError` of `instructorMap[instructorName].evaluations.push` on
a built-in object. -/
def evaluationStep (instructorMap : JsObject InstructorAcc) (evaluation : JoinedEvaluation) :
    Option (JsObject InstructorAcc) :=
  match evaluation.session.instructor_name with
  | none => some instructorMap
  | some instructorName =>
    if instructorName = "" then some instructorMap
    else
      match instructorMap.lookup instructorName with
      | .undefined => some instructorMap
      | .builtin => none
      | .own _ =>
        let m₁ := instructorMap.modify instructorName
          (fun i => { i with evaluations := i.evaluations ++ [evaluation] })
        let m₂ := evaluation.evaluation.ratings.foldl (fun m rating =>
          let ratingValue := getRatingValue rating.rating
          (m.modify instructorName (fun i => { i with totalRatings := i.totalRatings + 1 })).modify
            instructorName (fun i => { i with ratingSum := i.ratingSum.add ratingValue })) m₁
        if truthy evaluation.evaluation.additional_comments then
          some (m₂.modify instructorName (fun i => { i with feedbackCount := i.feedbackCount + 1 }))
        else some m₂

/-- The array `allEvaluations`: the evaluations fetched for each session, each joined
with that session. -/
def allEvaluations (sessions : List TrainingSession)
    (getEvaluationsByTrainingSession : String → List Evaluation) : List JoinedEvaluation :=
  sessions.flatMap (fun session =>
    (getEvaluationsByTrainingSession session.id).map (fun e => { evaluation := e, session := session }))

/-- The average of an instructor, `count > 0 ? parseFloat((sum / count).toFixed(2)) : 0`,
in hundredths; `none` stands for `NaN`, the result for a `sum` that is no number. -/
def averageOrZero (sum : JsValue) (count : Nat) : Option Nat :=
  if 0 < count then sum.divToFixed2 count else some 0

/-- The map over `Object.values(instructorMap)` that finishes one instructor. -/
def finishInstructor (host : Host) (instructor : InstructorAcc) : Instructor :=
  { toInstructorAcc := { instructor with trends := calculateTrends host instructor.evaluations }
    avgRating := averageOrZero instructor.ratingSum instructor.totalRatings
    totalSessions := instructor.sessions.length
    totalEvaluations := instructor.evaluations.length }

/-- The function `loadInstructorRatings`, for the session list and the evaluation query
answered by the store: the argument of its `setInstructorData` call, and `none` when a
loop throws, in which case the `catch` block logs the error and `setInstructorData` is
not called. -/
def loadInstructorRatings (host : Host) (sessions : List TrainingSession)
    (getEvaluationsByTrainingSession : String → List Evaluation) : Option (List Instructor) :=
  match sessions.foldlM sessionStep [] with
  | none => none
  | some instructorMap =>
    match (allEvaluations sessions getEvaluationsByTrainingSession).foldlM evaluationStep
        instructorMap with
    | none => none
    | some instructorMap => some ((entries instructorMap).map (fun p => finishInstructor host p.2))

/-- The state `filterRating`: `'all'` or one of the numerals offered by the select. -/
inductive RatingFilter where
  | all
  | band (n : Nat)
  deriving DecidableEq, Repr

/-- The state `timeRange`. -/
inductive TimeRange where
  | all
  | month
  | quarter
  | year
  deriving DecidableEq, Repr

/-- The state `sortBy`. -/
inductive SortBy where
  | rating
  | name
  | sessions
  deriving DecidableEq, Repr

/-- Substring test `s.includes(sub)`. -/
def jsIncludes (s sub : String) : Bool := decide (sub.data <:+: s.data)

/-- The instant `cutoffDate` for a time range other than `'all'`, computed from `now`. -/
def cutoffDate (host : Host) (now : Int) : TimeRange → Option Int
  | .all => none
  | .month => some (host.setMonth now ((host.getMonth now : Int) - 1))
  | .quarter => some (host.setMonth now ((host.getMonth now : Int) - 3))
  | .year => some (host.setFullYear now (host.getFullYear now - 1))

/-- The evaluations of an instructor submitted at or after the cutoff. -/
def recentEvaluations (cutoff : Int) (instructor : Instructor) : List JoinedEvaluation :=
  instructor.evaluations.filter (fun e => decide (cutoff ≤ e.evaluation.submitted_at))

/-- Body of the `map` of the time-range filter; `none` stands for `null`. -/
def restrictToWindow (cutoff : Int) (instructor : Instructor) : Option Instructor :=
  let recent := recentEvaluations cutoff instructor
  if recent.length = 0 then none
  else
    let acc := recent.foldl (fun acc e =>
      e.evaluation.ratings.foldl
        (fun acc r => (acc.1.add (getRatingValue r.rating), acc.2 + 1)) acc)
      ((.number 0, 0) : JsValue × Nat)
    some { instructor with
      avgRating := averageOrZero acc.1 acc.2
      totalEvaluations := recent.length }

/-- The test `avgRating >= minRating && avgRating <= minRating + 0.99` of the rating
filter, on hundredths; both comparisons are false for `NaN`. -/
def inBand (minRating : Nat) (avgRating : Option Nat) : Bool :=
  match avgRating with
  | some x => decide (100 * minRating ≤ x) && decide (x ≤ 100 * minRating + 99)
  | none => false

/-- The difference `b - a` of two averages as the sort reads it: a difference that is
`NaN` counts as 0. -/
def averageCompare (a b : Option Nat) : Int :=
  match b, a with
  | some y, some x => (y : Int) - (x : Int)
  | _, _ => 0

/-- The comparator of the final `sort`. -/
def sortComparator (host : Host) (sortBy : SortBy) (a b : Instructor) : Int :=
  match sortBy with
  | .rating => averageCompare a.avgRating b.avgRating
  | .name => host.localeCompare a.name b.name
  | .sessions => (b.totalSessions : Int) - (a.totalSessions : Int)

/-- The function `getFilteredAndSortedInstructors`, for the state it reads and the
instant `now` of its `new Date()`.  A rating band `n` keeps the averages `x` with
`x >= n && x <= n + 0.99`, that is, the hundredths from `100 n` to `100 n + 99`
(`band_embedding` relates the two for the bands of the select, `parsedDouble_le_iff`
the comparisons of the sort). -/
def getFilteredAndSortedInstructors (host : Host) (instructorData : List Instructor)
    (searchQuery : String) (filterRating : RatingFilter) (timeRange : TimeRange)
    (sortBy : SortBy) (now : Int) : List Instructor :=
  let filtered := instructorData
  let filtered :=
    if searchQuery != "" then
      filtered.filter (fun instructor =>
        jsIncludes (host.toLowerCase instructor.name) (host.toLowerCase searchQuery))
    else filtered
  let filtered := match filterRating with
    | .all => filtered
    | .band minRating => filtered.filter (fun instructor => inBand minRating instructor.avgRating)
  let filtered := match cutoffDate host now timeRange with
    | none => filtered
    | some cutoff => filtered.filterMap (restrictToWindow cutoff)
  jsSort (sortComparator host sortBy) filtered

/-! ### A concrete host: UTC calendar, code-point collation, ASCII case mapping -/

/-- The civil date `(year, month 1..12, day)` of a day number counted from 1970-01-01. -/
def civilFromDays (z : Int) : Int × Nat × Int :=
  let z := z + 719468
  let era := z / 146097
  let doe := z - era * 146097
  let yoe := (doe - doe / 1460 + doe / 36524 - doe / 146096) / 365
  let doy := doe - (365 * yoe + yoe / 4 - yoe / 100)
  let mp := (5 * doy + 2) / 153
  let d := doy - (153 * mp + 2) / 5 + 1
  let m := if mp < 10 then mp + 3 else mp - 9
  (yoe + era * 400 + (if m ≤ 2 then 1 else 0), m.toNat, d)

/-- The day number of a civil date; days beyond the end of the month run on into the
following months. -/
def daysFromCivil (y : Int) (m : Nat) (d : Int) : Int :=
  let y := if m ≤ 2 then y - 1 else y
  let era := y / 400
  let yoe := y - era * 400
  let doy := (153 * ((if 2 < m then (m : Int) - 3 else (m : Int) + 9)) + 2) / 5 + d - 1
  let doe := yoe * 365 + yoe / 4 - yoe / 100 + doy
  era * 146097 + doe - 719468

/-- Three-way comparison of strings by code points. -/
def codePointCompare : List Char → List Char → Int
  | [], [] => 0
  | [], _ :: _ => -1
  | _ :: _, [] => 1
  | a :: as, b :: bs =>
    if a.toNat < b.toNat then -1 else if b.toNat < a.toNat then 1 else codePointCompare as bs

/-- A host in the UTC time zone. -/
def utcHost : Host where
  getFullYear := fun t => (civilFromDays (t / 86400000)).1
  getMonth := fun t => (civilFromDays (t / 86400000)).2.1 - 1
  setMonth := fun t m =>
    let c := civilFromDays (t / 86400000)
    daysFromCivil (c.1 + m / 12) ((m % 12).toNat + 1) c.2.2 * 86400000 + t % 86400000
  setFullYear := fun t y =>
    let c := civilFromDays (t / 86400000)
    daysFromCivil y c.2.1 c.2.2 * 86400000 + t % 86400000
  localeCompare := fun a b => codePointCompare a.data b.data
  toLowerCase := fun s => String.mk (s.data.map Char.toLower)

/-! ### `getFilteredAndSortedInstructors` on array objects -/

/-- The array objects of the instructor page, in allocation order; an array reference
is the position of its object. -/
abbrev ArrayStore := List (List Instructor)

namespace ArrayStore

/-- The elements of the array behind a reference. -/
def read (store : ArrayStore) (ref : Nat) : List Instructor := store.getD ref []

/-- A new array object with the given elements: the store after the allocation and the
reference of the new array. -/
def alloc (store : ArrayStore) (xs : List Instructor) : ArrayStore × Nat :=
  (store ++ [xs], store.length)

/-- In-place replacement of the elements of the array behind a reference. -/
def write (store : ArrayStore) (ref : Nat) (xs : List Instructor) : ArrayStore :=
  store.set ref xs

end ArrayStore

/-- The function `getFilteredAndSortedInstructors` with its array objects made explicit:
`instructorData` is the reference held by the component state, the spread copy and every
`filter` allocate a new array (the `map` followed by `filter(Boolean)` is taken as one
allocation, its intermediate array being referenced by nothing else), and `sort`
rearranges in place the array that `filtered` refers to.  The result is the store after
the call and the returned reference. -/
def getFilteredAndSortedInstructorsIn (host : Host) (store : ArrayStore) (instructorData : Nat)
    (searchQuery : String) (filterRating : RatingFilter) (timeRange : TimeRange)
    (sortBy : SortBy) (now : Int) : ArrayStore × Nat :=
  let filtered := store.alloc (store.read instructorData)
  let filtered :=
    if searchQuery != "" then
      filtered.1.alloc ((filtered.1.read filtered.2).filter (fun instructor =>
        jsIncludes (host.toLowerCase instructor.name) (host.toLowerCase searchQuery)))
    else filtered
  let filtered := match filterRating with
    | .all => filtered
    | .band minRating =>
      filtered.1.alloc ((filtered.1.read filtered.2).filter (fun instructor =>
        inBand minRating instructor.avgRating))
  let filtered := match cutoffDate host now timeRange with
    | none => filtered
    | some cutoff =>
      filtered.1.alloc ((filtered.1.read filtered.2).filterMap (restrictToWindow cutoff))
  (filtered.1.write filtered.2
    (jsSort (sortComparator host sortBy) (filtered.1.read filtered.2)), filtered.2)

/-! ## The evaluation form (`EvaluationForm.jsx`, `formQuestions.js`) -/

/-- One element of an option list of `formQuestions.js`; the header element of
`ratingOptions` has no `value`. -/
structure ChoiceOption where
  value : Option String
  label : String
  isHeader : Bool := false
  deriving DecidableEq, Repr

/-- The list `ratingOptions`. -/
def ratingOptions : List ChoiceOption :=
  [ { value := none, label := "Questions", isHeader := true },
    { value := some "excellent", label := "Excellent" },
    { value := some "very_good", label := "Very Good" },
    { value := some "good", label := "Good" },
    { value := some "needs_improvement", label := "Needs Improvement" } ]

/-- The list `sourceOptions`. -/
def sourceOptions : List ChoiceOption :=
  [ { value := some "facebook", label := "Facebook" },
    { value := some "twitter", label := "Twitter" },
    { value := some "linkedin", label := "LinkedIn" },
    { value := some "instagram", label := "Instagram" },
    { value := some "Tiktok", label := "Tiktok" },
    { value := some "colleague", label := "Colleague/Friend Referral" },
    { value := some "website", label := "Company Website" },
    { value := some "other", label := "Other" } ]

/-- The list `additionalSourceOptions`. -/
def additionalSourceOptions : List ChoiceOption :=
  [ { value := some "Excellent", label := "Excellent" },
    { value := some "Very Good", label := "Very Good" },
    { value := some "Good", label := "Good" },
    { value := some "Fair", label := "Fair" },
    { value := some "Poor", label := "Poor" } ]

/-- The `value`s carried by the elements of an option list. -/
def optionValues (options : List ChoiceOption) : List String :=
  options.filterMap (fun o => o.value)

/-- One element of `openEndedQuestions`. -/
structure OpenEndedQuestion where
  id : Nat
  question : String
  deriving DecidableEq, Repr

/-- The list `openEndedQuestions`. -/
def openEndedQuestions : List OpenEndedQuestion :=
  [ { id := 1, question := "What do you perceive to be the factor that would make training such as this more participatory ?" },
    { id := 2, question := "Comments/suggestions to improve this training" },
    { id := 3, question := "Please suggest other follow-up training sessions which could help you day-to-day activity." } ]

/-- The state `formData` of the form.  `course` and `courseDate` are absent from the
initial object. -/
structure FormData where
  participantName : String := ""
  participantEmail : String := ""
  instructorName : String := ""
  ratings : JsObject String := []
  openEndedResponses : JsObject String := []
  sources : List String := []
  overallEvaluation : String := ""
  additionalComments : String := ""
  suggestions : List Suggestion := [{ name := some "", phone := some "", email := some "" }]
  course : Option String := none
  courseDate : Option String := none
  deriving DecidableEq, Repr

/-- The argument of `useState` for `formData`. -/
def initialFormData : FormData := {}

/-- The template literal of a rating key, the two indices joined by a dash. -/
def ratingKey (groupIndex questionIndex : Nat) : String :=
  toString groupIndex ++ "-" ++ toString questionIndex

/-- The state update of `handleRatingChange`. -/
def handleRatingChange (groupIndex questionIndex : Nat) (value : String) (prev : FormData) :
    FormData :=
  { prev with ratings := prev.ratings.set (ratingKey groupIndex questionIndex) value }

/-- The state update of `handleSourceChange`. -/
def handleSourceChange (value : String) (prev : FormData) : FormData :=
  { prev with
    sources :=
      if prev.sources.contains value then prev.sources.filter (fun s => s != value)
      else prev.sources ++ [value] }

/-- The state update of `handleOverallEvaluationChange`. -/
def handleOverallEvaluationChange (value : String) (prev : FormData) : FormData :=
  { prev with overallEvaluation := value }

/-- The expression `v || ''` for a string-valued property that may be missing. -/
def orEmpty (v : Option String) : String :=
  match v with
  | some s => s
  | none => ""

/-- One element of `open_ended_responses`. -/
structure OpenEndedResponse where
  question : String
  response : String
  deriving DecidableEq, Repr

/-- The object `evaluationData` that `handleSubmit` hands to `submitEvaluation`. -/
structure EvaluationData where
  training_session_id : String
  instructor_name : String
  course : Option String
  course_date : Option String
  ratings : List Rating
  open_ended_responses : List OpenEndedResponse
  sources : List String
  additional_comments : String
  suggestions : List Suggestion
  deriving DecidableEq, Repr

/-- The two nested `forEach` loops of `handleSubmit` that fill `ratingsArray`. -/
def ratingsArray (formData : FormData) : List Rating :=
  ratingQuestions.enum.foldl (fun acc g =>
    g.2.questions.enum.foldl (fun acc q =>
      acc ++ [{ group := g.2.group, question := q.2,
                rating := orEmpty (formData.ratings.get (ratingKey g.1 q.1)) }]) acc) []

/-- The function `handleSubmit`: the object it builds from the route parameter and the
form state. -/
def handleSubmit (trainingSessionId : String) (formData : FormData) : EvaluationData :=
  { training_session_id := trainingSessionId
    instructor_name := formData.instructorName
    course := formData.course
    course_date := formData.courseDate
    ratings := ratingsArray formData
    open_ended_responses := openEndedQuestions.map (fun q =>
      { question := q.question
        response := orEmpty (formData.openEndedResponses.get (toString q.id)) })
    sources :=
      if formData.overallEvaluation != "" then formData.sources ++ [formData.overallEvaluation]
      else formData.sources
    additional_comments := formData.additionalComments
    suggestions := formData.suggestions.filter hasContact }

/-- The evaluation record read back from the `evaluations` table for a submitted object;
`submitted_at` is the time value the table assigned to the row. -/
def storedEvaluation (d : EvaluationData) (submitted_at : Int) : Evaluation :=
  { ratings := d.ratings
    sources := some d.sources
    suggestions := some d.suggestions
    additional_comments := some d.additional_comments
    submitted_at := submitted_at
    instructor_name := some d.instructor_name }

/-! ## The authentication gate (`ProtectedRoute.jsx`) -/

/-- The `user` object of a session, identified by its id. -/
structure User where
  id : String
  deriving DecidableEq, Repr

/-- The `session` handed to the callbacks; `none` stands for `null`. -/
structure Session where
  user : Option User
  deriving DecidableEq, Repr

/-- The two state variables of `ProtectedRoute`. -/
structure RouteState where
  loading : Bool
  user : Option User
  deriving DecidableEq, Repr

/-- The arguments of the two `useState` calls. -/
def initialRouteState : RouteState := { loading := true, user := none }

/-- The expression `session?.user ?? null`. -/
def sessionUser (session : Option Session) : Option User := session.bind (fun s => s.user)

/-- A call of one of the two state setters. -/
inductive SetterCall where
  | setUser (user : Option User)
  | setLoading (loading : Bool)
  deriving DecidableEq, Repr

/-- The two callbacks registered by the effect, with the session each receives. -/
inductive Callback where
  | getSessionThen (session : Option Session)
  | onAuthStateChange (session : Option Session)
  deriving DecidableEq, Repr

/-- The setter calls made by a callback, in order. -/
def setterCalls : Callback → List SetterCall
  | .getSessionThen session => [.setUser (sessionUser session), .setLoading false]
  | .onAuthStateChange session => [.setUser (sessionUser session)]

/-- The state after one setter call. -/
def applySetter (s : RouteState) : SetterCall → RouteState
  | .setUser user => { s with user := user }
  | .setLoading loading => { s with loading := loading }

/-- The states the component goes through, starting in `s`, as the setter calls are
applied one by one. -/
def statesFrom (s : RouteState) : List SetterCall → List RouteState
  | [] => [s]
  | c :: cs => s :: statesFrom (applySetter s c) cs

/-- The states of a mounted `ProtectedRoute` over a run of its callbacks. -/
def routeStates (callbacks : List Callback) : List RouteState :=
  statesFrom initialRouteState (callbacks.flatMap setterCalls)

/-- What the component returns. -/
inductive View where
  | pending
  | redirect (path : String)
  | children
  deriving DecidableEq, Repr

/-- The body of `ProtectedRoute` after the hooks: the returned element. -/
def renderRoute (s : RouteState) : View :=
  if s.loading then .pending
  else if s.user.isNone then .redirect "/login"
  else .children

/-! ## The aggregation on own properties

The definitions of this section are auxiliaries of the proofs: they are the loops of
`calculateAnalytics` and of `loadInstructorRatings` with every property read taken as a
read of an own property, which is how the loops run on an input in which no property
name inherited from `Object.prototype` occurs.  The lemmas named `..._eq_own` relate
them to the functions. -/

/-- The accumulator object `{ sum, count, group }` kept per question text. -/
structure QuestionAccOwn where
  sum : Nat
  count : Nat
  group : String
  deriving DecidableEq, Repr

/-- The score of a rating value on the scale of the dashboard: the own property of
`ratingValues` for the value, 4/3/2/1 for the four enum values, and 0 for every other
value. -/
def ratingScore (rating : String) : Nat := (ratingValues.get rating).getD 0

/-- Body of the inner `forEach` over `evaluation.ratings`, on the pair
`(questionAverages, ratingCounts)`. -/
def ratingStepOwn (st : JsObject QuestionAccOwn × JsObject Nat) (rating : Rating) :
    JsObject QuestionAccOwn × JsObject Nat :=
  let key := rating.question
  let qa₀ := match st.1.get key with
    | none => st.1.set key { sum := 0, count := 0, group := rating.group }
    | some _ => st.1
  let value := ratingScore rating.rating
  let qa₁ := qa₀.modify key (fun d => { d with sum := d.sum + value })
  let qa₂ := qa₁.modify key (fun d => { d with count := d.count + 1 })
  let rc₀ := match st.2.get rating.rating with
    | none => st.2.set rating.rating 0
    | some 0 => st.2.set rating.rating 0
    | some _ => st.2
  let rc₁ := rc₀.modify rating.rating (fun c => c + 1)
  (qa₂, rc₁)

/-- The first loop of `calculateAnalyticsOwn`: every rating of every evaluation, in order. -/
def ratingLoopOwn (evaluationData : List Evaluation) : JsObject QuestionAccOwn × JsObject Nat :=
  evaluationData.foldl (fun st evaluation => evaluation.ratings.foldl ratingStepOwn st) ([], [])

/-- The array `averages`: one element per property of `questionAverages`. -/
def averagesOfOwn (questionAverages : JsObject QuestionAccOwn) : List QuestionAverage :=
  (entries questionAverages).map (fun p =>
    { question := p.1, group := p.2.group, average := toFixed2 p.2.sum p.2.count,
      count := p.2.count })

/-- Body of the `forEach` over `evaluation.sources`, on the pair
`(overallEvaluationCounts, sourceCounts)`. -/
def sourceStepOwn (st : JsObject Nat × JsObject Nat) (source : String) :
    JsObject Nat × JsObject Nat :=
  if overallEvaluationOptions.contains source then
    (st.1.set source ((st.1.get source).getD 0 + 1), st.2)
  else
    (st.1, st.2.set source ((st.2.get source).getD 0 + 1))

/-- The second loop of `calculateAnalyticsOwn`; an evaluation whose `sources` is not an
array is skipped. -/
def sourceLoopOwn (evaluationData : List Evaluation) : JsObject Nat × JsObject Nat :=
  evaluationData.foldl (fun st evaluation =>
    match evaluation.sources with
    | some sources => sources.foldl sourceStepOwn st
    | none => st) ([], [])

/-- The object handed to `setAnalytics`. -/
structure AnalyticsOwn where
  totalResponses : Nat
  ratingCounts : JsObject Nat
  questionAverages : List QuestionAverage
  sourceCounts : JsObject Nat
  overallEvaluationCounts : JsObject Nat
  allSuggestions : List Suggestion
  deriving DecidableEq, Repr

/-- The own-property version of `calculateAnalytics`: the argument of its `setAnalytics` call, `none`
for `setAnalytics(null)`. -/
def calculateAnalyticsOwn (evaluationData : List Evaluation) : Option AnalyticsOwn :=
  if evaluationData.length = 0 then none
  else
    let st := ratingLoopOwn evaluationData
    let src := sourceLoopOwn evaluationData
    some { totalResponses := evaluationData.length
           ratingCounts := st.2
           questionAverages := averagesOfOwn st.1
           sourceCounts := src.2
           overallEvaluationCounts := src.1
           allSuggestions := suggestionLoop evaluationData }

/-- The reducer of the "Question Averages by Category" card. -/
def groupStepOwn (groups : JsObject (List QuestionAverage)) (item : QuestionAverage) :
    JsObject (List QuestionAverage) :=
  let group := item.group
  let groups₀ := match groups.get group with
    | none => groups.set group []
    | some _ => groups
  groups₀.modify group (fun items => items ++ [item])

/-- The rendered groups: `Object.entries(questionAverages.reduce(..., {}))`. -/
def groupedAveragesOwn (questionAverages : List QuestionAverage) :
    List (String × List QuestionAverage) :=
  entries (questionAverages.foldl groupStepOwn [])

/-- The rendered rating distribution, `Object.entries(analytics.ratingCounts)`. -/
def displayedRatingCountsOwn (a : AnalyticsOwn) : List (String × Nat) := entries a.ratingCounts

/-- The rendered overall-evaluation rows: entries sorted by position of the label. -/
def displayedOverallOwn (a : AnalyticsOwn) : List (String × Nat) :=
  jsSort (fun x y =>
      jsIndexOf ["Excellent", "Very Good", "Good", "Fair", "Poor"] x.1
        - jsIndexOf ["Excellent", "Very Good", "Good", "Fair", "Poor"] y.1)
    (entries a.overallEvaluationCounts)

/-- The rendered information-source rows: entries sorted by `b[1] - a[1]`. -/
def displayedSourcesOwn (a : AnalyticsOwn) : List (String × Nat) :=
  jsSort (fun x y => (y.2 : Int) - (x.2 : Int)) (entries a.sourceCounts)

/-- The accumulator `{ count, sum }` kept per month key. -/
structure MonthAccOwn where
  count : Nat
  sum : Nat
  deriving DecidableEq, Repr

/-- The object stored in `instructorMap` for one instructor name. -/
structure InstructorAccOwn where
  name : String
  sessions : List TrainingSession
  evaluations : List JoinedEvaluation
  totalRatings : Nat
  ratingSum : Nat
  feedbackCount : Nat
  trends : List Trend
  deriving DecidableEq, Repr

/-- An element of `instructorData`: the accumulator spread, with `avgRating`,
`totalSessions`, `totalEvaluations` and `trends` set.  `avgRating` is a number parsed
from a two-decimal numeral and is kept as that numeral, in hundredths. -/
structure InstructorOwn extends InstructorAccOwn where
  avgRating : Nat
  totalSessions : Nat
  totalEvaluations : Nat
  deriving DecidableEq, Repr

/-- The score of a rating value on the scale of the instructor page: the own property
of the table of `getRatingValue` for the value, 5/4/3/2 for the four enum values, and 0
for every other value. -/
def instructorScore (rating : String) : Nat :=
  (JsObject.get [("excellent", 5), ("very_good", 4), ("good", 3), ("needs_improvement", 2)]
    rating).getD 0

/-- Body of the `forEach` of `calculateTrendsOwn`, on `monthlyData`. -/
def trendStepOwn (host : Host) (monthlyData : JsObject MonthAccOwn) (evaluation : JoinedEvaluation) :
    JsObject MonthAccOwn :=
  let monthKey := monthKey host evaluation.evaluation.submitted_at
  let monthlyData₀ := match monthlyData.get monthKey with
    | none => monthlyData.set monthKey { count := 0, sum := 0 }
    | some _ => monthlyData
  evaluation.evaluation.ratings.foldl (fun md rating =>
    let value := instructorScore rating.rating
    (md.modify monthKey (fun d => { d with sum := d.sum + value })).modify monthKey
      (fun d => { d with count := d.count + 1 })) monthlyData₀

/-- The own-property version of `calculateTrends`. -/
def calculateTrendsOwn (host : Host) (evaluations : List JoinedEvaluation) : List Trend :=
  let monthlyData := evaluations.foldl (trendStepOwn host) []
  jsSort (fun a b => host.localeCompare a.month b.month)
    ((entries monthlyData).map (fun p =>
      { month := p.1, avgRating := toFixed2 p.2.sum p.2.count, count := p.2.count }))

/-- Body of `sessions.forEach` in `loadInstructorRatingsOwn`, on `instructorMap`. -/
def sessionStepOwn (instructorMap : JsObject InstructorAccOwn) (session : TrainingSession) :
    JsObject InstructorAccOwn :=
  match session.instructor_name with
  | none => instructorMap
  | some name =>
    if name = "" then instructorMap
    else
      let instructorMap₀ := match instructorMap.get name with
        | none => instructorMap.set name
            { name := name, sessions := [], evaluations := [], totalRatings := 0,
              ratingSum := 0, feedbackCount := 0, trends := [] }
        | some _ => instructorMap
      instructorMap₀.modify name (fun i => { i with sessions := i.sessions ++ [session] })

/-- Body of `allEvaluations.forEach` in `loadInstructorRatingsOwn`, on `instructorMap`. -/
def evaluationStepOwn (instructorMap : JsObject InstructorAccOwn) (evaluation : JoinedEvaluation) :
    JsObject InstructorAccOwn :=
  match evaluation.session.instructor_name with
  | none => instructorMap
  | some instructorName =>
    if instructorName = "" then instructorMap
    else
      match instructorMap.get instructorName with
      | none => instructorMap
      | some _ =>
        let m₁ := instructorMap.modify instructorName
          (fun i => { i with evaluations := i.evaluations ++ [evaluation] })
        let m₂ := evaluation.evaluation.ratings.foldl (fun m rating =>
          let ratingScore := instructorScore rating.rating
          (m.modify instructorName (fun i => { i with totalRatings := i.totalRatings + 1 })).modify
            instructorName (fun i => { i with ratingSum := i.ratingSum + ratingScore })) m₁
        if truthy evaluation.evaluation.additional_comments then
          m₂.modify instructorName (fun i => { i with feedbackCount := i.feedbackCount + 1 })
        else m₂

/-- The average of an instructor, `count > 0 ? parseFloat((sum / count).toFixed(2)) : 0`,
in hundredths; `toFixed` yields a numeral whenever the count is positive. -/
def averageOrZeroOwn (sum count : Nat) : Nat :=
  if 0 < count then (toFixed2 sum count).getD 0 else 0

/-- The map over `Object.values(instructorMap)` that finishes one instructor. -/
def finishInstructorOwn (host : Host) (instructor : InstructorAccOwn) : InstructorOwn :=
  { toInstructorAccOwn := { instructor with trends := calculateTrendsOwn host instructor.evaluations }
    avgRating := averageOrZeroOwn instructor.ratingSum instructor.totalRatings
    totalSessions := instructor.sessions.length
    totalEvaluations := instructor.evaluations.length }

/-- The own-property version of `loadInstructorRatings`: the argument of its `setInstructorData` call,
for the session list and the evaluation query answered by the store. -/
def loadInstructorRatingsOwn (host : Host) (sessions : List TrainingSession)
    (getEvaluationsByTrainingSession : String → List Evaluation) : List InstructorOwn :=
  let instructorMap := sessions.foldl sessionStepOwn []
  let instructorMap := (allEvaluations sessions getEvaluationsByTrainingSession).foldl
    evaluationStepOwn instructorMap
  (entries instructorMap).map (fun p => finishInstructorOwn host p.2)

/-! ## Reference notions used in the statements -/

/-- Every rating entry of every evaluation, in evaluation order and then in
per-evaluation order. -/
def allRatings (evaluationData : List Evaluation) : List Rating :=
  evaluationData.flatMap (fun e => e.ratings)

/-- Every `sources` entry of every evaluation, in order. -/
def allSources (evaluationData : List Evaluation) : List String :=
  evaluationData.flatMap (fun e => e.sources.getD [])

/-- Every `suggestions` entry of every evaluation, in order. -/
def allSuggestionEntries (evaluationData : List Evaluation) : List Suggestion :=
  evaluationData.flatMap (fun e => e.suggestions.getD [])

/-- Sum of the values of a tally object. -/
def tallyTotal (o : JsObject Nat) : Nat := (o.map Prod.snd).sum

/-- The distinct elements of a list in order of first occurrence. -/
def firstSeen : List String → List String
  | [] => []
  | x :: xs => x :: (firstSeen xs).filter (fun y => y != x)

/-- Sum of the scores `ratingScore` of a list of rating entries: 4/3/2/1 for the four
enum values and 0 for every other value. -/
def scoreSum (l : List Rating) : Nat := (l.map (fun r => ratingScore r.rating)).sum

/-- The rating entries whose question text is `q`. -/
def ratingsFor (q : String) (rs : List Rating) : List Rating :=
  rs.filter (fun r => r.question == q)

/-- A field is non-empty when it is present and not the empty string. -/
def NonEmptyField (s : Option String) : Prop := ∃ v, s = some v ∧ v ≠ ""

/-! ## Dictionary lemmas -/

namespace JsObject

variable {α : Type}

theorem get_set (o : JsObject α) (k k' : String) (v : α) :
    (o.set k v).get k' = if k = k' then some v else o.get k' := by
  induction o with
  | nil => simp [set, get]
  | cons p rest ih =>
    obtain ⟨a, b⟩ := p
    by_cases h : a = k
    · subst h
      by_cases h' : a = k' <;> simp [set, get, h']
    · by_cases h' : a = k'
      · subst h'
        have : ¬ k = a := fun e => h e.symm
        simp [set, get, h, this]
      · simp [set, get, h, h', ih]

theorem get_modify (o : JsObject α) (k k' : String) (f : α → α) :
    (o.modify k f).get k' = if k = k' then (o.get k').map f else o.get k' := by
  induction o with
  | nil => simp [modify, get]
  | cons p rest ih =>
    obtain ⟨a, b⟩ := p
    by_cases h : a = k
    · subst h
      by_cases h' : a = k' <;> simp [modify, get, h']
    · by_cases h' : a = k'
      · subst h'
        have : ¬ k = a := fun e => h e.symm
        simp [modify, get, h, this]
      · simp [modify, get, h, h', ih]

theorem keys_modify (o : JsObject α) (k : String) (f : α → α) :
    (o.modify k f).keys = o.keys := by
  induction o with
  | nil => simp [modify, keys]
  | cons p rest ih =>
    obtain ⟨a, b⟩ := p
    by_cases h : a = k
    · simp [modify, keys, h]
    · simp only [keys] at ih
      simp [modify, keys, h, ih]

theorem keys_set (o : JsObject α) (k : String) (v : α) :
    (o.set k v).keys = if k ∈ o.keys then o.keys else o.keys ++ [k] := by
  induction o with
  | nil => simp [set, keys]
  | cons p rest ih =>
    obtain ⟨a, b⟩ := p
    by_cases h : a = k
    · subst h
      simp [set, keys]
    · have hne : ¬ k = a := fun e => h e.symm
      simp only [keys] at ih
      by_cases hk : k ∈ rest.map Prod.fst
      · simp [set, keys, h, hne, hk, ih]
      · simp [set, keys, h, hne, hk, ih]

theorem get_eq_none_iff (o : JsObject α) (k : String) : o.get k = none ↔ k ∉ o.keys := by
  induction o with
  | nil => simp [get, keys]
  | cons p rest ih =>
    obtain ⟨a, b⟩ := p
    simp only [keys] at ih
    by_cases h : a = k
    · simp [get, keys, h]
    · have hne : ¬ k = a := fun e => h e.symm
      simp [get, keys, h, hne, ih]

theorem mem_keys_iff (o : JsObject α) (k : String) : k ∈ o.keys ↔ ∃ v, o.get k = some v := by
  rw [← not_iff_not, ← get_eq_none_iff]
  cases o.get k <;> simp

theorem filter_key_eq (o : JsObject α) (k : String) (v : α) (hn : o.keys.Nodup)
    (hg : o.get k = some v) : o.filter (fun p => p.1 == k) = [(k, v)] := by
  induction o with
  | nil => simp [get] at hg
  | cons p rest ih =>
    obtain ⟨a, b⟩ := p
    simp only [keys, List.map_cons, List.nodup_cons] at hn
    by_cases h : a = k
    · subst h
      simp only [get, if_true, Option.some.injEq] at hg
      subst hg
      have : rest.filter (fun p => p.1 == a) = [] := by
        rw [List.filter_eq_nil_iff]
        intro x hx hxa
        exact hn.1 (List.mem_map.2 ⟨x, hx, by simpa using hxa⟩)
      simp [List.filter_cons, this]
    · simp only [get, h, if_false] at hg
      simp [List.filter_cons, h, ih hn.2 hg]

end JsObject

namespace JsObject

variable {α : Type}

theorem modify_modify (o : JsObject α) (k : String) (f g : α → α) :
    (o.modify k f).modify k g = o.modify k (fun x => g (f x)) := by
  induction o with
  | nil => rfl
  | cons p rest ih =>
    obtain ⟨a, b⟩ := p
    by_cases h : a = k <;> simp [modify, h, ih]

theorem modify_set (o : JsObject α) (k : String) (v : α) (f : α → α) :
    (o.set k v).modify k f = o.set k (f v) := by
  induction o with
  | nil => simp [set, modify]
  | cons p rest ih =>
    obtain ⟨a, b⟩ := p
    by_cases h : a = k <;> simp [set, modify, h, ih]

theorem modify_eq_set (o : JsObject α) (k : String) (v : α) (f : α → α)
    (hg : o.get k = some v) : o.modify k f = o.set k (f v) := by
  induction o with
  | nil => simp [get] at hg
  | cons p rest ih =>
    obtain ⟨a, b⟩ := p
    by_cases h : a = k
    · simp only [get, h, if_true, Option.some.injEq] at hg
      simp [set, modify, h, hg]
    · simp only [get, h, if_false] at hg
      simp [set, modify, h, ih hg]

/-- Create-if-absent followed by an in-place update, the idiom
`if (!o[k]) o[k] = init; o[k] = f(o[k])` for truthy stored values. -/
def upsert (o : JsObject α) (k : String) (init : α) (f : α → α) : JsObject α :=
  (match o.get k with
    | none => o.set k init
    | some _ => o).modify k f

theorem get_upsert (o : JsObject α) (k k' : String) (init : α) (f : α → α) :
    (o.upsert k init f).get k' =
      if k = k' then some (f ((o.get k').getD init)) else o.get k' := by
  unfold upsert
  by_cases h : k = k'
  · subst h
    cases hg : o.get k <;> simp [get_modify, get_set, hg]
  · cases hg : o.get k <;> simp [get_modify, get_set, h]

theorem keys_upsert (o : JsObject α) (k : String) (init : α) (f : α → α) :
    (o.upsert k init f).keys = if k ∈ o.keys then o.keys else o.keys ++ [k] := by
  unfold upsert
  rw [keys_modify]
  cases hg : o.get k with
  | none =>
    have := (get_eq_none_iff o k).1 hg
    simp [keys_set, this]
  | some v =>
    have : k ∈ o.keys := (mem_keys_iff o k).2 ⟨v, hg⟩
    simp [this]

/-- The counting idiom `o[k] = (o[k] || 0) + 1`. -/
def bump (o : JsObject Nat) (k : String) : JsObject Nat :=
  o.set k ((o.get k).getD 0 + 1)

theorem get_bump (o : JsObject Nat) (k k' : String) :
    (o.bump k).get k' = if k = k' then some ((o.get k').getD 0 + 1) else o.get k' := by
  unfold bump
  rw [get_set]
  by_cases h : k = k'
  · subst h; simp
  · simp [h]

theorem keys_bump (o : JsObject Nat) (k : String) :
    (o.bump k).keys = if k ∈ o.keys then o.keys else o.keys ++ [k] := keys_set o k _

theorem nodup_keys_step (o : JsObject α) (k : String) (h : o.keys.Nodup) :
    (if k ∈ o.keys then o.keys else o.keys ++ [k]).Nodup := by
  by_cases hk : k ∈ o.keys
  · simpa [hk] using h
  · simp only [hk, if_false]
    exact List.Nodup.append h (List.nodup_singleton k) (by simpa using hk)

end JsObject

theorem tallyTotal_bump (o : JsObject Nat) (k : String) :
    tallyTotal (o.bump k) = tallyTotal o + 1 := by
  unfold JsObject.bump
  induction o with
  | nil => simp [tallyTotal, JsObject.set, JsObject.get]
  | cons p rest ih =>
    obtain ⟨a, b⟩ := p
    by_cases h : a = k
    · simp [tallyTotal, JsObject.set, JsObject.get, h]
      omega
    · simp only [tallyTotal] at ih
      simp [tallyTotal, JsObject.set, JsObject.get, h, ih]
      omega

theorem get_foldl_bump (ks : List String) (o : JsObject Nat) (k : String) :
    (ks.foldl JsObject.bump o).get k =
      if ks.count k = 0 then o.get k else some ((o.get k).getD 0 + ks.count k) := by
  induction ks generalizing o with
  | nil => simp
  | cons x rest ih =>
    rw [List.foldl_cons, ih, JsObject.get_bump]
    by_cases hx : x = k
    · subst hx
      by_cases hc : List.count x rest = 0
      · simp [hc]
      · simp [hc]; omega
    · have hx' : (x == k) = false := by simpa using hx
      simp [hx, hx', List.count_cons]

theorem keys_foldl_bump_nodup (ks : List String) (o : JsObject Nat) (h : o.keys.Nodup) :
    (ks.foldl JsObject.bump o).keys.Nodup := by
  induction ks generalizing o with
  | nil => simpa using h
  | cons x rest ih =>
    rw [List.foldl_cons]
    apply ih
    rw [JsObject.keys_bump]
    exact JsObject.nodup_keys_step o x h

theorem tallyTotal_foldl_bump (ks : List String) (o : JsObject Nat) :
    tallyTotal (ks.foldl JsObject.bump o) = tallyTotal o + ks.length := by
  induction ks generalizing o with
  | nil => simp
  | cons x rest ih =>
    rw [List.foldl_cons, ih, tallyTotal_bump, List.length_cons]
    omega

theorem entries_perm {α : Type} (o : JsObject α) : (entries o).Perm o := by
  have h1 : (indexEntries o).map Prod.snd = o.filter (fun p => (arrayIndex p.1).isSome) := by
    induction o with
    | nil => rfl
    | cons p rest ih =>
      simp only [indexEntries] at ih
      cases h : arrayIndex p.1 <;> simp [indexEntries, List.filterMap_cons, List.filter_cons, h, ih]
  have h2 : nameEntries o = o.filter (fun p => !(arrayIndex p.1).isSome) := by
    unfold nameEntries
    congr 1
    funext p
    cases arrayIndex p.1 <;> rfl
  unfold entries
  rw [h2]
  refine List.Perm.trans (List.Perm.append_right _ ?_) (List.filter_append_perm _ o)
  rw [← h1]
  exact (List.perm_insertionSort _ _).map _

/-- When no key is an array index, enumeration is creation order. -/
theorem entries_eq_self {α : Type} (o : JsObject α)
    (h : ∀ k ∈ o.keys, arrayIndex k = none) : entries o = o := by
  have h1 : indexEntries o = [] := by
    unfold indexEntries
    rw [List.filterMap_eq_nil_iff]
    intro p hp
    rw [h p.1 (List.mem_map.2 ⟨p, hp, rfl⟩)]
    rfl
  have h2 : nameEntries o = o := by
    unfold nameEntries
    rw [List.filter_eq_self]
    intro p hp
    rw [h p.1 (List.mem_map.2 ⟨p, hp, rfl⟩)]
    rfl
  simp [entries, h1, h2]

/-! ## The loops as folds over the flattened input, on own properties -/

theorem ratingLoopOwn_eq (evaluationData : List Evaluation) :
    ratingLoopOwn evaluationData = (allRatings evaluationData).foldl ratingStepOwn ([], []) := by
  unfold ratingLoopOwn allRatings
  generalize (([], []) : JsObject QuestionAccOwn × JsObject Nat) = st
  induction evaluationData generalizing st with
  | nil => rfl
  | cons e rest ih => simp [List.flatMap_cons, List.foldl_append, ih]

theorem sourceLoopOwn_eq (evaluationData : List Evaluation) :
    sourceLoopOwn evaluationData = (allSources evaluationData).foldl sourceStepOwn ([], []) := by
  unfold sourceLoopOwn allSources
  generalize (([], []) : JsObject Nat × JsObject Nat) = st
  induction evaluationData generalizing st with
  | nil => rfl
  | cons e rest ih =>
    cases h : e.sources <;> simp [List.flatMap_cons, List.foldl_append, ih, h]

theorem push_fold (xs : List Suggestion) (acc : List Suggestion) :
    xs.foldl (fun acc s => if hasContact s then acc ++ [s] else acc) acc
      = acc ++ xs.filter hasContact := by
  induction xs generalizing acc with
  | nil => simp
  | cons x rest ih =>
    by_cases h : hasContact x <;> simp [List.foldl_cons, List.filter_cons, h, ih]

theorem suggestionLoop_eq (evaluationData : List Evaluation) :
    suggestionLoop evaluationData = (allSuggestionEntries evaluationData).filter hasContact := by
  unfold suggestionLoop allSuggestionEntries
  have key : ∀ (l : List Evaluation) (acc : List Suggestion),
      l.foldl (fun acc evaluation =>
        match evaluation.suggestions with
        | some suggestions =>
          suggestions.foldl (fun acc suggestion =>
            if hasContact suggestion then acc ++ [suggestion] else acc) acc
        | none => acc) acc
        = acc ++ (l.flatMap (fun e => e.suggestions.getD [])).filter hasContact := by
    intro l
    induction l with
    | nil => intro acc; simp
    | cons e rest ih =>
      intro acc
      simp only [List.foldl_cons, List.flatMap_cons, List.filter_append]
      rw [ih]
      cases h : e.suggestions <;> simp [push_fold]
  simpa using key evaluationData []

/-- The `questionAverages` half of `ratingStepOwn`. -/
def accStepOwn (qa : JsObject QuestionAccOwn) (rating : Rating) : JsObject QuestionAccOwn :=
  qa.upsert rating.question { sum := 0, count := 0, group := rating.group }
    (fun d => { sum := d.sum + ratingScore rating.rating, count := d.count + 1, group := d.group })

theorem ratingStepOwn_fst (st : JsObject QuestionAccOwn × JsObject Nat) (r : Rating) :
    (ratingStepOwn st r).1 = accStepOwn st.1 r := by
  unfold ratingStepOwn accStepOwn JsObject.upsert
  simp only [JsObject.modify_modify]
  cases st.1.get r.question <;> rfl

theorem ratingStepOwn_snd (st : JsObject QuestionAccOwn × JsObject Nat) (r : Rating) :
    (ratingStepOwn st r).2 = st.2.bump r.rating := by
  unfold ratingStepOwn JsObject.bump
  simp only
  cases hg : st.2.get r.rating with
  | none => simp [JsObject.modify_set]
  | some n =>
    cases n with
    | zero => simp [JsObject.modify_set]
    | succ m => simp [JsObject.modify_eq_set _ _ _ _ hg]

theorem foldl_ratingStepOwn (rs : List Rating) (st : JsObject QuestionAccOwn × JsObject Nat) :
    rs.foldl ratingStepOwn st
      = (rs.foldl accStepOwn st.1, (rs.map (fun r => r.rating)).foldl JsObject.bump st.2) := by
  induction rs generalizing st with
  | nil => rfl
  | cons r rest ih =>
    rw [List.foldl_cons, ih, ratingStepOwn_fst, ratingStepOwn_snd]
    rfl

theorem sourceStepOwn_eq (st : JsObject Nat × JsObject Nat) (s : String) :
    sourceStepOwn st s =
      if s ∈ overallEvaluationOptions then (st.1.bump s, st.2) else (st.1, st.2.bump s) := by
  unfold sourceStepOwn JsObject.bump
  by_cases h : s ∈ overallEvaluationOptions
  · have : overallEvaluationOptions.contains s = true := by simpa using h
    simp [h, this]
  · have : overallEvaluationOptions.contains s = false := by simpa using h
    simp [h, this]

theorem foldl_sourceStepOwn (ss : List String) (st : JsObject Nat × JsObject Nat) :
    ss.foldl sourceStepOwn st
      = ((ss.filter (fun s => decide (s ∈ overallEvaluationOptions))).foldl JsObject.bump st.1,
         (ss.filter (fun s => decide (s ∉ overallEvaluationOptions))).foldl JsObject.bump st.2) := by
  induction ss generalizing st with
  | nil => rfl
  | cons x rest ih =>
    rw [List.foldl_cons, ih, sourceStepOwn_eq]
    by_cases h : x ∈ overallEvaluationOptions <;> simp [h, List.filter_cons]

theorem count_filter_decide (p : String → Prop) [DecidablePred p] (ss : List String) (s : String) :
    (ss.filter (fun x => decide (p x))).count s = if p s then ss.count s else 0 := by
  by_cases h : p s
  · simp only [h, if_true]
    exact List.count_filter (by simpa using h)
  · simp only [h, if_false]
    rw [List.count_eq_zero]
    intro hm
    exact h (by simpa using (List.mem_filter.1 hm).2)

theorem calculateAnalyticsOwn_of_ne_nil (evaluationData : List Evaluation)
    (h : evaluationData ≠ []) :
    calculateAnalyticsOwn evaluationData = some
      { totalResponses := evaluationData.length
        ratingCounts := (ratingLoopOwn evaluationData).2
        questionAverages := averagesOfOwn (ratingLoopOwn evaluationData).1
        sourceCounts := (sourceLoopOwn evaluationData).2
        overallEvaluationCounts := (sourceLoopOwn evaluationData).1
        allSuggestions := suggestionLoop evaluationData } := by
  unfold calculateAnalyticsOwn
  have : evaluationData.length ≠ 0 := by simpa using h
  simp [this]

theorem hasContact_iff (s : Suggestion) :
    hasContact s = true ↔ NonEmptyField s.name ∨ NonEmptyField s.phone ∨ NonEmptyField s.email := by
  have t : ∀ o : Option String, truthy o = true ↔ NonEmptyField o := by
    intro o
    cases o <;> simp [truthy, NonEmptyField]
  simp [hasContact, t, or_assoc]

/-! ## Folds of create-if-absent updates -/

theorem mem_firstSeen (l : List String) (x : String) : x ∈ firstSeen l ↔ x ∈ l := by
  induction l with
  | nil => simp [firstSeen]
  | cons y ys ih =>
    by_cases h : x = y
    · simp [firstSeen, h]
    · simp [firstSeen, h, List.mem_filter, ih]

theorem nodup_firstSeen (l : List String) : (firstSeen l).Nodup := by
  induction l with
  | nil => simp [firstSeen]
  | cons y ys ih =>
    simp only [firstSeen, List.nodup_cons]
    refine ⟨?_, ih.filter _⟩
    simp [List.mem_filter]

theorem get_foldl_upsert {α β : Type} (key : β → String) (init : β → α) (f : β → α → α)
    (xs : List β) (o : JsObject α) (k : String) :
    (xs.foldl (fun o x => o.upsert (key x) (init x) (f x)) o).get k =
      (xs.filter (fun x => key x == k)).foldl
        (fun v x => some (f x (v.getD (init x)))) (o.get k) := by
  induction xs generalizing o with
  | nil => rfl
  | cons x rest ih =>
    rw [List.foldl_cons, ih, JsObject.get_upsert]
    by_cases h : key x = k
    · simp [List.filter_cons, h]
    · simp [List.filter_cons, h]

theorem keys_foldl_upsert {α β : Type} (key : β → String) (init : β → α) (f : β → α → α)
    (xs : List β) (o : JsObject α) :
    (xs.foldl (fun o x => o.upsert (key x) (init x) (f x)) o).keys =
      o.keys ++ (firstSeen (xs.map key)).filter (fun k => decide (k ∉ o.keys)) := by
  induction xs generalizing o with
  | nil => simp [firstSeen]
  | cons x rest ih =>
    rw [List.foldl_cons, ih, JsObject.keys_upsert]
    simp only [List.map_cons, firstSeen]
    by_cases h : key x ∈ o.keys
    · simp only [h, if_true, List.filter_cons, not_true_eq_false, decide_False,
        List.filter_filter]
      congr 1
      apply List.filter_congr
      intro y _
      by_cases hy : y = key x
      · subst hy; simp [h]
      · simp [hy]
    · simp only [h, if_false, List.filter_cons, not_false_eq_true, decide_True, if_true,
        List.filter_filter, List.append_assoc, List.singleton_append]
      congr 2
      apply List.filter_congr
      intro y _
      by_cases hy : y = key x
      · subst hy; simp
      · simp [hy]

theorem foldl_acc_some (l : List Rating) (d : QuestionAccOwn) :
    l.foldl (fun v r => some
        ({ sum := (v.getD { sum := 0, count := 0, group := r.group }).sum + ratingScore r.rating,
           count := (v.getD { sum := 0, count := 0, group := r.group }).count + 1,
           group := (v.getD { sum := 0, count := 0, group := r.group }).group } : QuestionAccOwn))
      (some d)
      = some { sum := d.sum + scoreSum l, count := d.count + l.length, group := d.group } := by
  induction l generalizing d with
  | nil => simp [scoreSum]
  | cons r rest ih =>
    rw [List.foldl_cons]
    simp only [Option.getD_some]
    rw [ih]
    simp only [scoreSum, List.map_cons, List.sum_cons, List.length_cons, Option.some.injEq,
      QuestionAccOwn.mk.injEq, and_true]
    omega

/-- The accumulator stored for a question after the rating loop. -/
theorem get_foldl_accStepOwn (rs : List Rating) (q : String) :
    (rs.foldl accStepOwn []).get q =
      match ratingsFor q rs with
      | [] => none
      | r :: l => some { sum := scoreSum (r :: l), count := (r :: l).length, group := r.group } := by
  have h := get_foldl_upsert (fun r : Rating => r.question)
    (fun r => ({ sum := 0, count := 0, group := r.group } : QuestionAccOwn))
    (fun r d => { sum := d.sum + ratingScore r.rating, count := d.count + 1, group := d.group })
    rs [] q
  have e : (rs.foldl accStepOwn []) = rs.foldl (fun (o : JsObject QuestionAccOwn) x =>
      JsObject.upsert o x.question ({ sum := 0, count := 0, group := x.group } : QuestionAccOwn)
      (fun d => { sum := d.sum + ratingScore x.rating, count := d.count + 1, group := d.group }))
      [] := rfl
  rw [e, h]
  unfold ratingsFor
  cases rs.filter (fun r => r.question == q) with
  | nil => rfl
  | cons r l =>
    rw [List.foldl_cons]
    simp only [JsObject.get, Option.getD_none]
    rw [foldl_acc_some]
    simp only [scoreSum, List.map_cons, List.sum_cons, List.length_cons, Option.some.injEq,
      QuestionAccOwn.mk.injEq, and_true]
    omega

theorem keys_foldl_accStepOwn (rs : List Rating) :
    (rs.foldl accStepOwn []).keys = firstSeen (rs.map (fun r => r.question)) := by
  have h := keys_foldl_upsert (fun r : Rating => r.question)
    (fun r => ({ sum := 0, count := 0, group := r.group } : QuestionAccOwn))
    (fun r d => { sum := d.sum + ratingScore r.rating, count := d.count + 1, group := d.group })
    rs []
  have e : (rs.foldl accStepOwn []) = rs.foldl (fun (o : JsObject QuestionAccOwn) x =>
      JsObject.upsert o x.question ({ sum := 0, count := 0, group := x.group } : QuestionAccOwn)
      (fun d => { sum := d.sum + ratingScore x.rating, count := d.count + 1, group := d.group }))
      [] := rfl
  rw [e, h]
  simp [JsObject.keys]

theorem ratingScore_le (v : String) : ratingScore v ≤ 4 := by
  unfold ratingScore ratingValues
  simp only [JsObject.get]
  split_ifs <;> simp

theorem ratingScore_ge (v : String)
    (h : v ∈ ["excellent", "very_good", "good", "needs_improvement"]) : 1 ≤ ratingScore v := by
  simp only [List.mem_cons, List.mem_singleton, List.not_mem_nil, or_false] at h
  rcases h with h | h | h | h <;> subst h <;> decide

theorem scoreSum_le (l : List Rating) : scoreSum l ≤ 4 * l.length := by
  induction l with
  | nil => simp [scoreSum]
  | cons r rest ih =>
    have := ratingScore_le r.rating
    simp only [scoreSum, List.map_cons, List.sum_cons, List.length_cons] at ih ⊢
    omega

theorem scoreSum_ge (l : List Rating)
    (h : ∀ r ∈ l, r.rating ∈ ["excellent", "very_good", "good", "needs_improvement"]) :
    l.length ≤ scoreSum l := by
  induction l with
  | nil => simp [scoreSum]
  | cons r rest ih =>
    have := ratingScore_ge r.rating (h r (List.mem_cons_self _ _))
    have := ih (fun x hx => h x (List.mem_cons_of_mem _ hx))
    simp only [scoreSum, List.map_cons, List.sum_cons, List.length_cons] at this ⊢
    omega

/-! ## Arithmetic of the binary64 quotient and of `toFixed(2)` -/

theorem ilog2Aux_spec (fuel n : Nat) (hf : n ≤ fuel) (hn : n ≠ 0) :
    2 ^ ilog2Aux fuel n ≤ n ∧ n < 2 ^ (ilog2Aux fuel n + 1) := by
  induction fuel generalizing n with
  | zero => omega
  | succ f ih =>
    unfold ilog2Aux
    by_cases h2 : n < 2
    · have : n = 1 := by omega
      subst this
      simp
    · simp only [h2, if_false]
      have hdiv : n / 2 ≤ f := by omega
      have hne : n / 2 ≠ 0 := by omega
      obtain ⟨h1, h3⟩ := ih (n / 2) hdiv hne
      rw [pow_succ] at h3
      constructor
      · rw [pow_succ]; omega
      · rw [pow_succ, pow_succ]; omega

theorem ilog2_spec (n : Nat) (hn : n ≠ 0) : 2 ^ ilog2 n ≤ n ∧ n < 2 ^ (ilog2 n + 1) :=
  ilog2Aux_spec n n (le_refl n) hn

/-- Quotients of at most 4 are scaled by at least `2^50`. -/
theorem divDouble_scale (p q : Nat) (hp : p ≠ 0) (hq : q ≠ 0) (h4 : p ≤ 4 * q) :
    2 ^ 50 ≤ 2 ^ (divDouble p q).2 := by
  have h1 := (ilog2_spec p hp).1
  have h2 := (ilog2_spec q hq).2
  have hlt : 2 ^ ilog2 p < 2 ^ (ilog2 q + 3) := by
    have e : 2 ^ (ilog2 q + 3) = 4 * 2 ^ (ilog2 q + 1) := by
      rw [show ilog2 q + 3 = (ilog2 q + 1) + 2 from rfl, pow_add]; ring
    omega
  have hl : ilog2 p < ilog2 q + 3 := (Nat.pow_lt_pow_iff_right (by norm_num)).1 hlt
  apply Nat.pow_le_pow_right (by norm_num)
  unfold divDouble
  simp only
  split <;> omega

/-- Rounding to nearest in `divDouble`: the significand `m` is within one half of
the scaled exact quotient `p * 2^s / q`. -/
theorem divDouble_near (p q : Nat) (hq : q ≠ 0) :
    2 * (divDouble p q).1 * q ≤ 2 * (p * 2 ^ (divDouble p q).2) + q ∧
    2 * (p * 2 ^ (divDouble p q).2) ≤ 2 * (divDouble p q).1 * q + q := by
  unfold divDouble
  simp only
  generalize p * 2 ^ (if 2 ^ 52 * q ≤ p * 2 ^ (52 + ilog2 q - ilog2 p)
    then 52 + ilog2 q - ilog2 p else 52 + ilog2 q - ilog2 p + 1) = N
  have hdm := Nat.div_add_mod N q
  have hmod := Nat.mod_lt N (Nat.pos_of_ne_zero hq)
  generalize N / q = a at *
  generalize N % q = b at *
  have e1 : 2 * a * q = 2 * (q * a) := by ring
  have e2 : 2 * (a + 1) * q = 2 * (q * a) + 2 * q := by ring
  split
  · rw [e1]; omega
  · split
    · rw [e2]; omega
    · split
      · rw [e1]; omega
      · rw [e2]; omega

/-- The integer printed by `toFixed(2)` is the floor of `100 x + 1/2`. -/
theorem toFixed2_floor (p q : Nat) (hp : p ≠ 0) (hq : q ≠ 0) :
    ∃ n, toFixed2 p q = some n ∧
      2 ^ ((divDouble p q).2 + 1) * n ≤ 200 * (divDouble p q).1 + 2 ^ (divDouble p q).2 ∧
      200 * (divDouble p q).1 + 2 ^ (divDouble p q).2 < 2 ^ ((divDouble p q).2 + 1) * (n + 1) := by
  refine ⟨(200 * (divDouble p q).1 + 2 ^ (divDouble p q).2) / 2 ^ ((divDouble p q).2 + 1),
    by simp [toFixed2, hp, hq], ?_, ?_⟩
  · exact Nat.mul_div_le _ _
  · exact Nat.lt_mul_div_succ _ (by positivity)

theorem toFixed2_zero (q : Nat) (hq : q ≠ 0) : toFixed2 0 q = some 0 := by
  simp [toFixed2, hq]

/-- Lower bound: a quotient of at least `c` prints at least `c.00`. -/
theorem toFixed2_ge (p q c n : Nat) (hq : q ≠ 0) (hc : c * q ≤ p)
    (hn : toFixed2 p q = some n) : 100 * c ≤ n := by
  by_cases hp : p = 0
  · subst hp
    have : c = 0 := by
      rcases Nat.eq_zero_or_pos c with h | h
      · exact h
      · have := Nat.mul_pos h (Nat.pos_of_ne_zero hq); omega
    omega
  obtain ⟨n', hn', _, hhi⟩ := toFixed2_floor p q hp hq
  rw [hn] at hn'
  cases hn'
  obtain ⟨_, hnear⟩ := divDouble_near p q hq
  generalize (divDouble p q).1 = m at *
  rw [pow_succ] at hhi
  generalize 2 ^ (divDouble p q).2 = S at *
  -- `2 c q S ≤ 2 p S ≤ (2 m + 1) q`, hence `c S ≤ m`
  have h1 : 2 * (c * q * S) ≤ 2 * (p * S) := by
    have := Nat.mul_le_mul_right S hc
    omega
  have h2 : (2 * (c * S)) * q ≤ (2 * m + 1) * q := by
    calc (2 * (c * S)) * q = 2 * (c * q * S) := by ring
      _ ≤ 2 * (p * S) := h1
      _ ≤ 2 * m * q + q := hnear
      _ = (2 * m + 1) * q := by ring
  have h3 : 2 * (c * S) ≤ 2 * m + 1 := Nat.le_of_mul_le_mul_right h2 (Nat.pos_of_ne_zero hq)
  have h4 : c * S ≤ m := by omega
  -- `(200 c + 1) S ≤ 200 m + S < 2 S (n + 1)`
  have h5 : (200 * c + 1) * S < (2 * (n + 1)) * S := by
    calc (200 * c + 1) * S = 200 * (c * S) + S := by ring
      _ ≤ 200 * m + S := by omega
      _ < S * 2 * (n + 1) := hhi
      _ = (2 * (n + 1)) * S := by ring
  have h6 := Nat.lt_of_mul_lt_mul_right h5
  omega

/-- Upper bound: a quotient of at most `c` prints at most `c.00`. -/
theorem toFixed2_le (p q c n : Nat) (hq : q ≠ 0) (hc : p ≤ c * q)
    (hn : toFixed2 p q = some n) : n ≤ 100 * c := by
  by_cases hp : p = 0
  · subst hp
    rw [toFixed2_zero q hq] at hn
    cases hn
    omega
  obtain ⟨n', hn', hlo, _⟩ := toFixed2_floor p q hp hq
  rw [hn] at hn'
  cases hn'
  obtain ⟨hnear, _⟩ := divDouble_near p q hq
  have hS : 0 < 2 ^ (divDouble p q).2 := by positivity
  generalize (divDouble p q).1 = m at *
  rw [pow_succ] at hlo
  generalize 2 ^ (divDouble p q).2 = S at *
  have h1 : 2 * (p * S) ≤ 2 * (c * q * S) := by
    have := Nat.mul_le_mul_right S hc
    omega
  have h2 : (2 * m) * q ≤ (2 * (c * S) + 1) * q := by
    calc (2 * m) * q = 2 * m * q := by ring
      _ ≤ 2 * (p * S) + q := hnear
      _ ≤ 2 * (c * q * S) + q := by omega
      _ = (2 * (c * S) + 1) * q := by ring
  have h3 : 2 * m ≤ 2 * (c * S) + 1 := Nat.le_of_mul_le_mul_right h2 (Nat.pos_of_ne_zero hq)
  have h4 : m ≤ c * S := by omega
  have h5 : (2 * n) * S < (200 * c + 2) * S := by
    calc (2 * n) * S = S * 2 * n := by ring
      _ ≤ 200 * m + S := hlo
      _ ≤ 200 * (c * S) + S := by omega
      _ < 200 * (c * S) + 2 * S := by omega
      _ = (200 * c + 2) * S := by ring
  have h6 := Nat.lt_of_mul_lt_mul_right h5
  omega

/-- Rounding to two decimals: for a quotient of at most 4 with a denominator of at
most `2^43`, the printed hundredths `n` satisfy `|n / 100 - p / q| ≤ 1 / 200`. -/
theorem toFixed2_nearest (p q n : Nat) (hq : q ≠ 0) (h4 : p ≤ 4 * q) (hb : q ≤ 2 ^ 43)
    (hn : toFixed2 p q = some n) :
    2 * (n * q) ≤ 200 * p + q ∧ 200 * p ≤ 2 * (n * q) + q := by
  by_cases hp : p = 0
  · subst hp
    rw [toFixed2_zero q hq] at hn
    cases hn
    omega
  obtain ⟨n', hn', hlo, hhi⟩ := toFixed2_floor p q hp hq
  rw [hn] at hn'
  cases hn'
  obtain ⟨hn1, hn2⟩ := divDouble_near p q hq
  have hS := divDouble_scale p q hp hq h4
  generalize (divDouble p q).1 = m at *
  rw [pow_succ] at hlo hhi
  generalize 2 ^ (divDouble p q).2 = S at *
  have hSq : 100 * q < S := by
    have : (100 : Nat) * 2 ^ 43 < 2 ^ 50 := by norm_num
    omega
  have hqpos : 0 < q := Nat.pos_of_ne_zero hq
  -- the two floor inequalities, multiplied by `q`
  have f1 : 2 * (n * q * S) ≤ 200 * (m * q) + q * S := by
    have := Nat.mul_le_mul_right q hlo
    calc 2 * (n * q * S) = S * 2 * n * q := by ring
      _ ≤ (200 * m + S) * q := this
      _ = 200 * (m * q) + q * S := by ring
  have f2 : 200 * (m * q) + q * S < 2 * (n * q * S) + 2 * (q * S) := by
    have := Nat.mul_lt_mul_of_pos_right hhi hqpos
    calc 200 * (m * q) + q * S = (200 * m + S) * q := by ring
      _ < S * 2 * (n + 1) * q := this
      _ = 2 * (n * q * S) + 2 * (q * S) := by ring
  have g1 : 2 * (m * q) ≤ 2 * (p * S) + q := by
    calc 2 * (m * q) = 2 * m * q := by ring
      _ ≤ 2 * (p * S) + q := hn1
  have g2 : 2 * (p * S) ≤ 2 * (m * q) + q := by
    calc 2 * (p * S) ≤ 2 * m * q + q := hn2
      _ = 2 * (m * q) + q := by ring
  constructor
  · by_contra hcon
    have hcon' : 200 * p + q + 1 ≤ 2 * (n * q) := by omega
    have := Nat.mul_le_mul_right S hcon'
    have e1 : (200 * p + q + 1) * S = 200 * (p * S) + q * S + S := by ring
    have e2 : 2 * (n * q) * S = 2 * (n * q * S) := by ring
    rw [e1, e2] at this
    omega
  · by_contra hcon
    have hcon' : 2 * (n * q) + q + 1 ≤ 200 * p := by omega
    have := Nat.mul_le_mul_right S hcon'
    have e1 : (2 * (n * q) + q + 1) * S = 2 * (n * q * S) + q * S + S := by ring
    have e2 : 200 * p * S = 200 * (p * S) := by ring
    rw [e1, e2] at this
    omega

/-! ## Absent analytics, recommendations, source tallies, rating distribution, on own properties -/

/-- Three evaluations, each with the single rating `excellent` for the question
"Instructors Knowledge" of the group "Presentation". -/
def scenarioEvaluations : List Evaluation :=
  List.replicate 3 { ratings := [⟨"Presentation", "Instructors Knowledge", "excellent"⟩] }

/-- Two evaluations with sources and suggestions; the second has no `sources` array. -/
def sampleEvaluations : List Evaluation :=
  [ { ratings := [⟨"Presentation", "Instructors Knowledge", "good"⟩,
                  ⟨"Content Quality", "Well organized", "excellent"⟩],
      sources := some ["facebook", "Good", "other", "facebook"],
      suggestions := some [⟨some "Abebe", some "", none⟩, ⟨some "", some "", some ""⟩,
                           ⟨none, none, some "k@example.org"⟩] },
    { ratings := [⟨"Presentation", "Instructors Knowledge", "very_good"⟩,
                  ⟨"Content Quality", "Well organized", ""⟩],
      sources := none,
      suggestions := some [⟨none, none, none⟩, ⟨none, some "0911", none⟩] } ]

/-- On own properties: for every list of evaluations (the empty one yields no analytics object), every
`sources` entry is counted in exactly one tally, the overall-evaluation tally when it is
one of the five labels and the source tally otherwise; the two tallies have disjoint
keys and their counts add up to the number of entries. -/
theorem sources_partition_own (evaluationData : List Evaluation) :
    (evaluationData = [] ∧ calculateAnalyticsOwn evaluationData = none) ∨
    ∃ a, calculateAnalyticsOwn evaluationData = some a ∧
      (∀ s, a.overallEvaluationCounts.get s =
        if s ∈ ["Excellent", "Very Good", "Good", "Fair", "Poor"]
            ∧ s ∈ allSources evaluationData
        then some ((allSources evaluationData).count s) else none) ∧
      (∀ s, a.sourceCounts.get s =
        if s ∉ ["Excellent", "Very Good", "Good", "Fair", "Poor"]
            ∧ s ∈ allSources evaluationData
        then some ((allSources evaluationData).count s) else none) ∧
      (∀ s, ¬ (s ∈ a.overallEvaluationCounts.keys ∧ s ∈ a.sourceCounts.keys)) ∧
      a.overallEvaluationCounts.keys.Nodup ∧ a.sourceCounts.keys.Nodup ∧
      tallyTotal a.overallEvaluationCounts + tallyTotal a.sourceCounts
        = (allSources evaluationData).length := by
  by_cases h : evaluationData = []
  · left
    subst h
    exact ⟨rfl, rfl⟩
  right
  refine ⟨_, calculateAnalyticsOwn_of_ne_nil _ h, ?_⟩
  simp only
  rw [sourceLoopOwn_eq, foldl_sourceStepOwn]
  simp only
  generalize allSources evaluationData = ss
  have g1 : ∀ s, (List.foldl JsObject.bump ([] : JsObject Nat)
      (ss.filter (fun s => decide (s ∈ overallEvaluationOptions)))).get s =
        if s ∈ ["Excellent", "Very Good", "Good", "Fair", "Poor"] ∧ s ∈ ss
        then some (ss.count s) else none := by
    intro s
    rw [get_foldl_bump, count_filter_decide (fun x => x ∈ overallEvaluationOptions)]
    by_cases hs : s ∈ overallEvaluationOptions
    · have hs' : s ∈ ["Excellent", "Very Good", "Good", "Fair", "Poor"] := hs
      by_cases hm : s ∈ ss
      · have : ss.count s ≠ 0 := fun hc => (List.count_eq_zero.1 hc) hm
        simp [hs, hs', hm, this, JsObject.get]
      · have : ss.count s = 0 := List.count_eq_zero.2 hm
        simp [hs, hm, this, JsObject.get]
    · have hs' : s ∉ ["Excellent", "Very Good", "Good", "Fair", "Poor"] := hs
      simp [hs, hs', JsObject.get]
  have g2 : ∀ s, (List.foldl JsObject.bump ([] : JsObject Nat)
      (ss.filter (fun s => decide (s ∉ overallEvaluationOptions)))).get s =
        if s ∉ ["Excellent", "Very Good", "Good", "Fair", "Poor"] ∧ s ∈ ss
        then some (ss.count s) else none := by
    intro s
    rw [get_foldl_bump, count_filter_decide (fun x => x ∉ overallEvaluationOptions)]
    by_cases hs : s ∈ overallEvaluationOptions
    · have hs' : s ∈ ["Excellent", "Very Good", "Good", "Fair", "Poor"] := hs
      simp [hs, hs', JsObject.get]
    · have hs' : s ∉ ["Excellent", "Very Good", "Good", "Fair", "Poor"] := hs
      by_cases hm : s ∈ ss
      · have : ss.count s ≠ 0 := fun hc => (List.count_eq_zero.1 hc) hm
        simp [hs, hs', hm, this, JsObject.get]
      · have : ss.count s = 0 := List.count_eq_zero.2 hm
        simp [hs, hm, this, JsObject.get]
  refine ⟨g1, g2, ?_, ?_, ?_, ?_⟩
  · intro s ⟨h1, h2⟩
    obtain ⟨v1, e1⟩ := (JsObject.mem_keys_iff _ _).1 h1
    obtain ⟨v2, e2⟩ := (JsObject.mem_keys_iff _ _).1 h2
    rw [g1] at e1
    rw [g2] at e2
    by_cases hs : s ∈ ["Excellent", "Very Good", "Good", "Fair", "Poor"]
    · simp [hs] at e2
    · simp [hs] at e1
  · exact keys_foldl_bump_nodup _ _ (by simp [JsObject.keys])
  · exact keys_foldl_bump_nodup _ _ (by simp [JsObject.keys])
  · rw [tallyTotal_foldl_bump, tallyTotal_foldl_bump]
    have hlen := (List.filter_append_perm
      (fun s => decide (s ∈ overallEvaluationOptions)) ss).length_eq
    rw [List.length_append] at hlen
    have hf : (fun s => decide (s ∉ overallEvaluationOptions))
        = (fun s => !decide (s ∈ overallEvaluationOptions)) := by
      funext s; simp
    rw [hf]
    simp only [tallyTotal, List.map_nil, List.sum_nil]
    omega

/-- On own properties: the bucket of a rating value holds the number of rating entries, over all
evaluations and questions, carrying that value; a value that never occurs has no
bucket, and no value has two buckets. -/
theorem rating_distribution_own (evaluationData : List Evaluation) (h : evaluationData ≠ []) :
    ∃ a, calculateAnalyticsOwn evaluationData = some a ∧
      (∀ v, a.ratingCounts.get v =
        if (allRatings evaluationData).countP (fun r => r.rating == v) = 0 then none
        else some ((allRatings evaluationData).countP (fun r => r.rating == v))) ∧
      a.ratingCounts.keys.Nodup := by
  refine ⟨_, calculateAnalyticsOwn_of_ne_nil _ h, ?_⟩
  simp only
  rw [ratingLoopOwn_eq, foldl_ratingStepOwn]
  simp only
  refine ⟨?_, keys_foldl_bump_nodup _ _ (by simp [JsObject.keys])⟩
  intro v
  rw [get_foldl_bump]
  have hc : List.count v ((allRatings evaluationData).map (fun r => r.rating))
      = (allRatings evaluationData).countP (fun r => r.rating == v) := by
    rw [List.count, List.countP_map]
    rfl
  rw [hc]
  simp [JsObject.get]

/-- An evaluation with one rating per catalogue question, all rated `good`. -/
def fullEvaluation : Evaluation :=
  { ratings := ratingQuestions.flatMap (fun g => g.questions.map (fun q => ⟨g.group, q, "good"⟩)) }

/-- On own properties: the rating-distribution counts sum to the total number of rating
entries of the evaluations; this is (number of evaluations) × 12 when every evaluation
carries one rating entry per catalogue question. -/
theorem rating_counts_total_own (evaluationData : List Evaluation) (h : evaluationData ≠ []) :
    ∃ a, calculateAnalyticsOwn evaluationData = some a ∧
      tallyTotal a.ratingCounts = (allRatings evaluationData).length ∧
      catalogQuestionCount = 12 ∧
      ((∀ e ∈ evaluationData, e.ratings.length = catalogQuestionCount) →
        tallyTotal a.ratingCounts = evaluationData.length * 12) := by
  refine ⟨_, calculateAnalyticsOwn_of_ne_nil _ h, ?_⟩
  simp only
  rw [ratingLoopOwn_eq, foldl_ratingStepOwn]
  simp only
  have hsum : tallyTotal ((List.map (fun r => r.rating) (allRatings evaluationData)).foldl
      JsObject.bump []) = (allRatings evaluationData).length := by
    rw [tallyTotal_foldl_bump]
    simp [tallyTotal]
  refine ⟨hsum, by decide, ?_⟩
  intro hall
  rw [hsum]
  have h12 : catalogQuestionCount = 12 := by decide
  clear hsum h
  induction evaluationData with
  | nil => rfl
  | cons e rest ih =>
    have he : e.ratings.length = 12 := by rw [hall e (List.mem_cons_self _ _), h12]
    have hr := ih (fun x hx => hall x (List.mem_cons_of_mem _ hx))
    simp only [allRatings, List.flatMap_cons, List.length_append, List.length_cons] at hr ⊢
    rw [hr, he]
    ring

/-! ## Per-question averages, on own properties -/

theorem nodup_keys_foldl_accStepOwn (rs : List Rating) : (rs.foldl accStepOwn []).keys.Nodup := by
  rw [keys_foldl_accStepOwn]
  exact nodup_firstSeen _

theorem averagesOfOwn_filter (qa : JsObject QuestionAccOwn) (q : String) (d : QuestionAccOwn)
    (hn : qa.keys.Nodup) (hg : qa.get q = some d) :
    (averagesOfOwn qa).filter (fun x => x.question == q)
      = [{ question := q, group := d.group, average := toFixed2 d.sum d.count,
           count := d.count }] := by
  unfold averagesOfOwn
  rw [List.filter_map]
  have hp : ((entries qa).filter (fun p => p.1 == q)).Perm [(q, d)] := by
    rw [← JsObject.filter_key_eq qa q d hn hg]
    exact (entries_perm qa).filter _
  have he : (entries qa).filter (fun p => p.1 == q) = [(q, d)] := List.perm_singleton.1 hp
  have hf : ((fun x : QuestionAverage => x.question == q) ∘
      (fun p : String × QuestionAccOwn =>
        ({ question := p.1, group := p.2.group, average := toFixed2 p.2.sum p.2.count,
           count := p.2.count } : QuestionAverage)))
      = (fun p => p.1 == q) := rfl
  rw [hf, he]
  rfl

theorem mem_averagesOfOwn (qa : JsObject QuestionAccOwn) (e : QuestionAverage) :
    e ∈ averagesOfOwn qa ↔ ∃ p ∈ qa, e =
      { question := p.1, group := p.2.group, average := toFixed2 p.2.sum p.2.count,
        count := p.2.count } := by
  unfold averagesOfOwn
  rw [List.mem_map]
  constructor
  · rintro ⟨p, hp, rfl⟩
    exact ⟨p, (entries_perm qa).mem_iff.1 hp, rfl⟩
  · rintro ⟨p, hp, rfl⟩
    exact ⟨p, (entries_perm qa).mem_iff.2 hp, rfl⟩

theorem get_of_mem {α : Type} (qa : JsObject α) (p : String × α)
    (hn : qa.keys.Nodup) (hp : p ∈ qa) : qa.get p.1 = some p.2 := by
  induction qa with
  | nil => simp at hp
  | cons x rest ih =>
    obtain ⟨a, b⟩ := x
    simp only [JsObject.keys, List.map_cons, List.nodup_cons] at hn
    rcases List.mem_cons.1 hp with h | h
    · subst h
      simp [JsObject.get]
    · have hne : a ≠ p.1 := by
        intro e
        exact hn.1 (List.mem_map.2 ⟨p, h, e.symm⟩)
      simp only [JsObject.get, hne, if_false]
      exact ih hn.2 h

theorem ratingsFor_ne_nil (q : String) (rs : List Rating)
    (h : ∃ r ∈ rs, r.question = q) : ratingsFor q rs ≠ [] := by
  obtain ⟨r, hr, hq⟩ := h
  intro hnil
  have : r ∈ ratingsFor q rs := List.mem_filter.2 ⟨hr, by simpa using hq⟩
  rw [hnil] at this
  simp at this

theorem length_ratingsFor_le (q : String) (rs : List Rating) :
    (ratingsFor q rs).length ≤ rs.length := List.length_filter_le _ _

theorem foldl_accStepOwn_replicate (n : Nat) (g q : String) (d : QuestionAccOwn) :
    (List.replicate n (⟨g, q, "excellent"⟩ : Rating)).foldl accStepOwn [(q, d)]
      = [(q, { sum := d.sum + 4 * n, count := d.count + n, group := d.group })] := by
  induction n generalizing d with
  | zero => simp
  | succ k ih =>
    rw [List.replicate_succ, List.foldl_cons]
    have hstep : accStepOwn [(q, d)] ⟨g, q, "excellent"⟩
        = [(q, { sum := d.sum + 4, count := d.count + 1, group := d.group })] := by
      simp [accStepOwn, JsObject.upsert, JsObject.get, JsObject.modify, ratingScore, ratingValues]
    rw [hstep, ih]
    simp only [List.cons.injEq, Prod.mk.injEq, QuestionAccOwn.mk.injEq, and_true, true_and]
    omega

theorem allRatings_replicate (n : Nat) (e : Evaluation) :
    allRatings (List.replicate n e) = (List.replicate n e.ratings).flatten := by
  unfold allRatings
  induction n with
  | zero => rfl
  | succ k ih => simp [List.replicate_succ, List.flatMap_cons, ih]

/-- On own properties: for a question text `q` occurring in the ratings, `calculateAnalyticsOwn` reports
exactly one entry for `q`; its count is the number of rating entries with question `q`
and its average is the quotient (sum of their 4/3/2/1 scores) / count rounded to two
decimals, that is, a hundredth `n / 100` within `1 / 200` of the quotient.  The rounding
goes through a binary64 quotient and is shown for inputs of at most `2^43` rating
entries, more than an engine can hold.  In particular `n ≥ 1` evaluations with the single
rating `excellent` for one question give the average `4.00` and the count `n`, for
every `n`. -/
theorem question_average_own :
    (∀ (evaluationData : List Evaluation) (q : String),
      evaluationData ≠ [] → (∃ r ∈ allRatings evaluationData, r.question = q) →
      (allRatings evaluationData).length ≤ 2 ^ 43 →
      ∃ a e n, calculateAnalyticsOwn evaluationData = some a ∧
        a.questionAverages.filter (fun x => x.question == q) = [e] ∧
        e.count = (ratingsFor q (allRatings evaluationData)).length ∧
        e.average = some n ∧
        2 * (n * e.count) ≤ 200 * scoreSum (ratingsFor q (allRatings evaluationData)) + e.count ∧
        200 * scoreSum (ratingsFor q (allRatings evaluationData)) ≤ 2 * (n * e.count) + e.count) ∧
    (∀ (n : Nat) (g q : String), 1 ≤ n →
      (calculateAnalyticsOwn (List.replicate n { ratings := [⟨g, q, "excellent"⟩] })).map
          (fun a => a.questionAverages)
        = some [{ question := q, group := g, average := some 400, count := n }]) := by
  constructor
  · intro evaluationData q hne hq hsize
    have hget := get_foldl_accStepOwn (allRatings evaluationData) q
    have hnil := ratingsFor_ne_nil q _ hq
    have hlen := length_ratingsFor_le q (allRatings evaluationData)
    have hsum := scoreSum_le (ratingsFor q (allRatings evaluationData))
    generalize ratingsFor q (allRatings evaluationData) = l at *
    cases l with
    | nil => exact absurd rfl hnil
    | cons r l =>
      simp only at hget
      have hc : (r :: l).length ≠ 0 := by simp
      obtain ⟨n, hn⟩ : ∃ n, toFixed2 (scoreSum (r :: l)) (r :: l).length = some n := by
        by_cases hz : scoreSum (r :: l) = 0
        · exact ⟨0, by rw [hz]; exact toFixed2_zero _ hc⟩
        · obtain ⟨n, hn, _⟩ := toFixed2_floor _ _ hz hc
          exact ⟨n, hn⟩
      have hnear := toFixed2_nearest _ _ n hc hsum (le_trans hlen hsize) hn
      refine ⟨_, { question := q, group := r.group, average := some n, count := (r :: l).length },
        n, calculateAnalyticsOwn_of_ne_nil _ hne, ?_, rfl, rfl, hnear⟩
      simp only
      rw [ratingLoopOwn_eq, foldl_ratingStepOwn, ← hn]
      exact averagesOfOwn_filter _ q _ (nodup_keys_foldl_accStepOwn _) hget
  · intro n g q hn
    have hne : List.replicate n ({ ratings := [⟨g, q, "excellent"⟩] } : Evaluation) ≠ [] := by
      cases n with
      | zero => omega
      | succ k => simp [List.replicate_succ]
    rw [calculateAnalyticsOwn_of_ne_nil _ hne]
    simp only [Option.map_some', Option.some.injEq]
    rw [ratingLoopOwn_eq, foldl_ratingStepOwn]
    simp only
    have hr : allRatings (List.replicate n ({ ratings := [⟨g, q, "excellent"⟩] } : Evaluation))
        = List.replicate n (⟨g, q, "excellent"⟩ : Rating) := by
      rw [allRatings_replicate]
      clear hn hne
      induction n with
      | zero => rfl
      | succ k ih => simp [List.replicate_succ, ih]
    rw [hr]
    obtain ⟨k, rfl⟩ : ∃ k, n = k + 1 := ⟨n - 1, by omega⟩
    rw [List.replicate_succ, List.foldl_cons]
    have hstep : accStepOwn [] ⟨g, q, "excellent"⟩ = [(q, { sum := 4, count := 1, group := g })] := by
      simp [accStepOwn, JsObject.upsert, JsObject.get, JsObject.set, JsObject.modify, ratingScore,
        ratingValues]
    rw [hstep, foldl_accStepOwn_replicate]
    have hent : entries [(q, ({ sum := 4 + 4 * k, count := 1 + k, group := g } : QuestionAccOwn))]
        = [(q, { sum := 4 + 4 * k, count := 1 + k, group := g })] :=
      List.perm_singleton.1 (entries_perm _)
    unfold averagesOfOwn
    rw [hent]
    simp only [List.map_cons, List.map_nil, List.cons.injEq, QuestionAverage.mk.injEq, true_and,
      and_true]
    have hc : 1 + k ≠ 0 := by omega
    have hz : 4 + 4 * k ≠ 0 := by omega
    obtain ⟨m, hm, _⟩ := toFixed2_floor (4 + 4 * k) (1 + k) hz hc
    have h1 := toFixed2_ge (4 + 4 * k) (1 + k) 4 m hc (by omega) hm
    have h2 := toFixed2_le (4 + 4 * k) (1 + k) 4 m hc (by omega) hm
    refine ⟨?_, by omega⟩
    rw [hm]
    congr 1
    omega

/-- The accumulator of every reported entry, in terms of the rating entries. -/
theorem averages_entry (rs : List Rating) (e : QuestionAverage)
    (he : e ∈ averagesOfOwn (rs.foldl accStepOwn [])) :
    ∃ r l, ratingsFor e.question rs = r :: l ∧ e.group = r.group ∧
      e.count = (r :: l).length ∧ e.average = toFixed2 (scoreSum (r :: l)) (r :: l).length := by
  obtain ⟨p, hp, rfl⟩ := (mem_averagesOfOwn _ _).1 he
  have hg := get_of_mem _ p (nodup_keys_foldl_accStepOwn rs) hp
  rw [get_foldl_accStepOwn] at hg
  simp only
  cases hl : ratingsFor p.1 rs with
  | nil => rw [hl] at hg; exact Option.noConfusion hg
  | cons r l =>
    rw [hl] at hg
    simp only [Option.some.injEq] at hg
    refine ⟨r, l, rfl, ?_, ?_, ?_⟩ <;> rw [← hg]

/-- An evaluation whose single question was left unanswered: the form stores the
empty string as its rating. -/
def unansweredEvaluations : List Evaluation :=
  [{ ratings := [⟨"Presentation", "Instructors Knowledge", ""⟩] }]

/-- On own properties: every per-question average is a number of at most `4.00`, and it is at
least `1.00` when every rating entry carries one of the four enum values. -/
theorem average_bounds_own (evaluationData : List Evaluation) (h : evaluationData ≠ []) :
    ∃ a, calculateAnalyticsOwn evaluationData = some a ∧
      ∀ e ∈ a.questionAverages, ∃ n, e.average = some n ∧ n ≤ 400 ∧
        ((∀ r ∈ allRatings evaluationData,
            r.rating ∈ ["excellent", "very_good", "good", "needs_improvement"]) → 100 ≤ n) := by
  refine ⟨_, calculateAnalyticsOwn_of_ne_nil _ h, ?_⟩
  simp only
  rw [ratingLoopOwn_eq, foldl_ratingStepOwn]
  intro e he
  obtain ⟨r, l, hl, _, _, havg⟩ := averages_entry _ e he
  have hc : (r :: l).length ≠ 0 := by simp
  obtain ⟨n, hn⟩ : ∃ n, toFixed2 (scoreSum (r :: l)) (r :: l).length = some n := by
    by_cases hz : scoreSum (r :: l) = 0
    · exact ⟨0, by rw [hz]; exact toFixed2_zero _ hc⟩
    · obtain ⟨n, hn, _⟩ := toFixed2_floor _ _ hz hc
      exact ⟨n, hn⟩
  refine ⟨n, by rw [havg, hn], ?_, ?_⟩
  · have := toFixed2_le _ _ 4 n hc (scoreSum_le (r :: l)) hn
    omega
  · intro hall
    have hsub : ∀ x ∈ r :: l,
        x.rating ∈ ["excellent", "very_good", "good", "needs_improvement"] := by
      intro x hx
      rw [← hl] at hx
      exact hall x (List.mem_filter.1 hx).1
    have := toFixed2_ge _ _ 1 n hc (by simpa using scoreSum_ge (r :: l) hsub) hn
    omega

/-- One evaluation rating the same question text under two different group labels. -/
def regroupedEvaluations : List Evaluation :=
  [{ ratings := [⟨"Presentation", "Pace", "excellent"⟩, ⟨"Content Quality", "Pace", "good"⟩] }]

/-- On own properties: there is exactly one average entry per distinct question text; it
carries the group label of the first rating entry with that question text and counts
all rating entries with that question text, whatever their group label. -/
theorem one_entry_per_question_own (evaluationData : List Evaluation) (h : evaluationData ≠ []) :
    ∃ a, calculateAnalyticsOwn evaluationData = some a ∧
      (a.questionAverages.map (fun e => e.question)).Nodup ∧
      (∀ q, q ∈ a.questionAverages.map (fun e => e.question) ↔
        ∃ r ∈ allRatings evaluationData, r.question = q) ∧
      ∀ e ∈ a.questionAverages,
        ((allRatings evaluationData).find? (fun r => r.question == e.question)).map
            (fun r => r.group) = some e.group ∧
        e.count = (ratingsFor e.question (allRatings evaluationData)).length := by
  refine ⟨_, calculateAnalyticsOwn_of_ne_nil _ h, ?_⟩
  simp only
  rw [ratingLoopOwn_eq, foldl_ratingStepOwn]
  simp only
  generalize allRatings evaluationData = rs
  have hperm : ((averagesOfOwn (rs.foldl accStepOwn [])).map (fun e => e.question)).Perm
      (firstSeen (rs.map (fun r => r.question))) := by
    rw [← keys_foldl_accStepOwn]
    unfold averagesOfOwn JsObject.keys
    rw [List.map_map]
    exact (entries_perm _).map _
  refine ⟨hperm.nodup_iff.2 (nodup_firstSeen _), ?_, ?_⟩
  · intro q
    rw [hperm.mem_iff, mem_firstSeen, List.mem_map]
  · intro e he
    obtain ⟨r, l, hl, hg, hc, _⟩ := averages_entry rs e he
    refine ⟨?_, by rw [hc, hl]⟩
    rw [← List.filter_head?]
    have : rs.filter (fun r => r.question == e.question) = r :: l := hl
    rw [this, hg]
    rfl

/-! ## Display order of the tallies, on own properties -/

theorem jsSort_perm {α : Type} (cmp : α → α → Int) (xs : List α) : (jsSort cmp xs).Perm xs :=
  List.perm_insertionSort _ _

/-- Sorting with a comparator `κ x - κ y` orders the list by non-decreasing `κ`. -/
theorem jsSort_sorted {α : Type} (cmp : α → α → Int) (κ : α → Int)
    (hcmp : ∀ x y, cmp x y ≤ 0 ↔ κ x ≤ κ y) (xs : List α) :
    (jsSort cmp xs).Pairwise (fun x y => κ x ≤ κ y) := by
  haveI : IsTotal α (fun a b => cmp a b ≤ 0) :=
    ⟨fun a b => by rw [hcmp, hcmp]; exact le_total _ _⟩
  haveI : IsTrans α (fun a b => cmp a b ≤ 0) :=
    ⟨fun a b c => by rw [hcmp, hcmp, hcmp]; exact le_trans⟩
  have hs : List.Sorted (fun a b => cmp a b ≤ 0) (jsSort cmp xs) :=
    List.sorted_insertionSort _ xs
  exact List.Pairwise.imp (fun {a b} hab => (hcmp a b).1 hab) hs

theorem jsIndexOf_injOn (x y : String)
    (hx : x ∈ ["Excellent", "Very Good", "Good", "Fair", "Poor"])
    (hy : y ∈ ["Excellent", "Very Good", "Good", "Fair", "Poor"])
    (h : jsIndexOf ["Excellent", "Very Good", "Good", "Fair", "Poor"] x
      = jsIndexOf ["Excellent", "Very Good", "Good", "Fair", "Poor"] y) : x = y := by
  simp only [List.mem_cons, List.mem_singleton, List.not_mem_nil, or_false] at hx hy
  rcases hx with hx | hx | hx | hx | hx <;> rcases hy with hy | hy | hy | hy | hy <;>
    subst hx <;> subst hy <;> first | rfl | (exfalso; revert h; decide)

theorem keys_overall_mem (ss : List String) (k : String)
    (hk : k ∈ ((ss.foldl sourceStepOwn ([], [])).1).keys) :
    k ∈ ["Excellent", "Very Good", "Good", "Fair", "Poor"] := by
  rw [foldl_sourceStepOwn] at hk
  obtain ⟨v, hv⟩ := (JsObject.mem_keys_iff _ _).1 hk
  simp only at hv
  rw [get_foldl_bump, count_filter_decide (fun x => x ∈ overallEvaluationOptions)] at hv
  by_contra hcon
  have hcon' : k ∉ overallEvaluationOptions := hcon
  simp [hcon', JsObject.get] at hv

/-- On own properties: the overall-evaluation rows are displayed in the fixed label order Excellent,
Very Good, Good, Fair, Poor (every tally key is one of these labels and the displayed
positions strictly increase), and the source rows in non-increasing order of count;
both displays show exactly the entries of their tally. -/
theorem tallies_display_order_own (evaluationData : List Evaluation) (h : evaluationData ≠ []) :
    ∃ a, calculateAnalyticsOwn evaluationData = some a ∧
      (∀ k ∈ a.overallEvaluationCounts.keys,
        k ∈ ["Excellent", "Very Good", "Good", "Fair", "Poor"]) ∧
      (displayedOverallOwn a).Perm a.overallEvaluationCounts ∧
      (displayedOverallOwn a).Pairwise (fun x y =>
        jsIndexOf ["Excellent", "Very Good", "Good", "Fair", "Poor"] x.1
          < jsIndexOf ["Excellent", "Very Good", "Good", "Fair", "Poor"] y.1) ∧
      (displayedSourcesOwn a).Perm a.sourceCounts ∧
      (displayedSourcesOwn a).Pairwise (fun x y => y.2 ≤ x.2) := by
  refine ⟨_, calculateAnalyticsOwn_of_ne_nil _ h, ?_⟩
  simp only
  rw [sourceLoopOwn_eq]
  have hkeys := keys_overall_mem (allSources evaluationData)
  have hnd : ((allSources evaluationData).foldl sourceStepOwn ([], [])).1.keys.Nodup := by
    rw [foldl_sourceStepOwn]
    exact keys_foldl_bump_nodup _ _ (by simp [JsObject.keys])
  generalize ((allSources evaluationData).foldl sourceStepOwn ([], [])).1 = ov at *
  generalize ((allSources evaluationData).foldl sourceStepOwn ([], [])).2 = sc at *
  refine ⟨hkeys, ?_, ?_, ?_, ?_⟩
  · exact (jsSort_perm _ _).trans (entries_perm ov)
  · have hperm : (displayedOverallOwn
        { totalResponses := evaluationData.length, ratingCounts := (ratingLoopOwn evaluationData).2,
          questionAverages := averagesOfOwn (ratingLoopOwn evaluationData).1, sourceCounts := sc,
          overallEvaluationCounts := ov,
          allSuggestions := suggestionLoop evaluationData }).Perm ov :=
      (jsSort_perm _ _).trans (entries_perm ov)
    have hle := jsSort_sorted
      (fun x y : String × Nat =>
        jsIndexOf ["Excellent", "Very Good", "Good", "Fair", "Poor"] x.1
          - jsIndexOf ["Excellent", "Very Good", "Good", "Fair", "Poor"] y.1)
      (fun x => jsIndexOf ["Excellent", "Very Good", "Good", "Fair", "Poor"] x.1)
      (fun x y => by beta_reduce; omega) (entries ov)
    have hne : (displayedOverallOwn
        { totalResponses := evaluationData.length, ratingCounts := (ratingLoopOwn evaluationData).2,
          questionAverages := averagesOfOwn (ratingLoopOwn evaluationData).1, sourceCounts := sc,
          overallEvaluationCounts := ov,
          allSuggestions := suggestionLoop evaluationData }).Pairwise
        (fun x y => x.1 ≠ y.1) := by
      have : (ov.map Prod.fst).Nodup := hnd
      have h2 := ((hperm.map Prod.fst).nodup_iff).2 this
      exact List.pairwise_map.1 h2
    have hmem : ∀ x ∈ displayedOverallOwn
        { totalResponses := evaluationData.length, ratingCounts := (ratingLoopOwn evaluationData).2,
          questionAverages := averagesOfOwn (ratingLoopOwn evaluationData).1, sourceCounts := sc,
          overallEvaluationCounts := ov,
          allSuggestions := suggestionLoop evaluationData },
        x.1 ∈ ["Excellent", "Very Good", "Good", "Fair", "Poor"] := by
      intro x hx
      exact hkeys x.1 (List.mem_map.2 ⟨x, hperm.mem_iff.1 hx, rfl⟩)
    have hboth := List.Pairwise.and hle hne
    refine List.Pairwise.imp_of_mem ?_ hboth
    intro x y hx hy hxy
    rcases lt_or_eq_of_le hxy.1 with hlt | heq
    · exact hlt
    · exact absurd (jsIndexOf_injOn x.1 y.1 (hmem x hx) (hmem y hy) heq) hxy.2
  · exact (jsSort_perm _ _).trans (entries_perm sc)
  · exact jsSort_sorted (fun x y : String × Nat => (y.2 : Int) - (x.2 : Int))
      (fun x => -(x.2 : Int)) (fun x y => by beta_reduce; omega) (entries sc) |>.imp
      (fun {a b} hab => by omega)

/-! ## Grouped display of the per-question averages, on own properties -/

theorem firstSeen_filter (p : String → Bool) (l : List String) :
    (firstSeen l).filter p = firstSeen (l.filter p) := by
  induction l with
  | nil => rfl
  | cons y ys ih =>
    by_cases hy : p y = true
    · simp only [firstSeen, List.filter_cons, hy, if_true]
      rw [← ih, List.filter_filter, List.filter_filter]
      congr 1
      apply List.filter_congr
      intro z _
      exact Bool.and_comm _ _
    · have hy' : p y = false := by simpa using hy
      simp only [firstSeen, List.filter_cons, hy', Bool.false_eq_true, if_false]
      rw [← ih, List.filter_filter]
      apply List.filter_congr
      intro z _
      by_cases hz : z = y
      · subst hz; simp [hy']
      · simp [hz]

theorem filter_map_filter_ne (G : String → String) (x : String) (L : List String) :
    ((L.filter (fun y => y != x)).map G).filter (fun y => y != G x)
      = (L.map G).filter (fun y => y != G x) := by
  induction L with
  | nil => rfl
  | cons z zs ih =>
    by_cases hz : z = x
    · subst hz
      simp [List.filter_cons, ih]
    · by_cases hg : G z = G x
      · simp [List.filter_cons, hz, hg, ih]
      · simp [List.filter_cons, hz, hg, ih]

theorem firstSeen_map_firstSeen (G : String → String) (l : List String) :
    firstSeen ((firstSeen l).map G) = firstSeen (l.map G) := by
  induction l with
  | nil => rfl
  | cons x xs ih =>
    simp only [firstSeen, List.map_cons]
    congr 1
    rw [firstSeen_filter, filter_map_filter_ne, ← firstSeen_filter, ih]

theorem foldl_push_some (l acc : List QuestionAverage) :
    l.foldl (fun v x => some (v.getD [] ++ [x])) (some acc) = some (acc ++ l) := by
  induction l generalizing acc with
  | nil => simp
  | cons x rest ih =>
    rw [List.foldl_cons]
    simp only [Option.getD_some]
    rw [ih]
    simp

theorem groupStepOwn_eq (groups : JsObject (List QuestionAverage)) (item : QuestionAverage) :
    groupStepOwn groups item = JsObject.upsert groups item.group [] (fun items => items ++ [item]) := by
  unfold groupStepOwn JsObject.upsert
  simp only
  cases groups.get item.group <;> rfl

theorem foldl_groupStepOwn_eq (avgs : List QuestionAverage) :
    avgs.foldl groupStepOwn [] = avgs.foldl (fun (o : JsObject (List QuestionAverage)) x =>
      JsObject.upsert o x.group [] (fun items => items ++ [x])) [] := by
  congr 1
  funext o x
  exact groupStepOwn_eq o x

/-- The list stored for a group label after the reducer has run. -/
theorem get_foldl_groupStepOwn (avgs : List QuestionAverage) (g : String) :
    (avgs.foldl groupStepOwn []).get g =
      if avgs.filter (fun e => e.group == g) = [] then none
      else some (avgs.filter (fun e => e.group == g)) := by
  rw [foldl_groupStepOwn_eq, get_foldl_upsert (fun e : QuestionAverage => e.group)
    (fun _ => ([] : List QuestionAverage)) (fun x items => items ++ [x]) avgs [] g]
  cases avgs.filter (fun e => e.group == g) with
  | nil => rfl
  | cons x l =>
    rw [List.foldl_cons]
    simp only [JsObject.get, Option.getD_none, List.nil_append]
    rw [foldl_push_some]
    simp

theorem keys_foldl_groupStepOwn (avgs : List QuestionAverage) :
    (avgs.foldl groupStepOwn []).keys = firstSeen (avgs.map (fun e => e.group)) := by
  rw [foldl_groupStepOwn_eq, keys_foldl_upsert (fun e : QuestionAverage => e.group)
    (fun _ => ([] : List QuestionAverage)) (fun x items => items ++ [x]) avgs []]
  simp [JsObject.keys]

theorem pair_mem_of_get {α : Type} (o : JsObject α) (k : String) (v : α)
    (hg : o.get k = some v) : (k, v) ∈ o := by
  induction o with
  | nil => simp [JsObject.get] at hg
  | cons x rest ih =>
    obtain ⟨a, b⟩ := x
    by_cases h : a = k
    · simp only [JsObject.get, h, if_true, Option.some.injEq] at hg
      simp [h, hg]
    · simp only [JsObject.get, h, if_false] at hg
      exact List.mem_cons_of_mem _ (ih hg)

/-- The group label of every reported entry is the label of the first rating entry
with its question text. -/
theorem averages_group (rs : List Rating) (e : QuestionAverage)
    (he : e ∈ averagesOfOwn (rs.foldl accStepOwn [])) :
    ∃ r ∈ rs, r.question = e.question ∧ e.group = r.group ∧
      rs.find? (fun x => x.question == e.question) = some r := by
  obtain ⟨r, l, hl, hg, _, _⟩ := averages_entry rs e he
  have hmem : r ∈ ratingsFor e.question rs := by rw [hl]; exact List.mem_cons_self _ _
  obtain ⟨h1, h2⟩ := List.mem_filter.1 hmem
  refine ⟨r, h1, by simpa using h2, hg, ?_⟩
  rw [← List.filter_head?]
  have : rs.filter (fun x => x.question == e.question) = r :: l := hl
  rw [this]
  rfl

/-- One evaluation whose group labels are the numerals "2" and "1", in that order. -/
def indexLabelEvaluations : List Evaluation :=
  [{ ratings := [⟨"2", "Pace", "good"⟩, ⟨"1", "Depth", "good"⟩] }]

/-- One evaluation in which the question "Pace" is rated under two group labels. -/
def mixedGroupEvaluations : List Evaluation :=
  [{ ratings := [⟨"Presentation", "Pace", "good"⟩, ⟨"Content Quality", "Pace", "good"⟩,
                 ⟨"Training Facilities", "Venue", "good"⟩, ⟨"Content Quality", "Depth", "good"⟩] }]

/-- On own properties: the averages are displayed grouped by group label, every average entry
in exactly one group, the one named by its label.  When no question text and no group
label is an array-index numeral, the entries are in the order in which their question
texts were first seen (hence also within each group) and the groups are in the order in
which their labels are first seen among the entries; when moreover every question text
is always rated under the same group label, the groups are in the order in which they
were first seen in the rating entries. -/
theorem grouped_display_own (evaluationData : List Evaluation) (h : evaluationData ≠ []) :
    ∃ a, calculateAnalyticsOwn evaluationData = some a ∧
      ((groupedAveragesOwn a.questionAverages).map Prod.fst).Nodup ∧
      (∀ p ∈ groupedAveragesOwn a.questionAverages,
        p.2 = a.questionAverages.filter (fun e => e.group == p.1) ∧ p.2 ≠ []) ∧
      (∀ e ∈ a.questionAverages, ∃ p ∈ groupedAveragesOwn a.questionAverages, p.1 = e.group) ∧
      ((∀ r ∈ allRatings evaluationData,
          arrayIndex r.question = none ∧ arrayIndex r.group = none) →
        a.questionAverages.map (fun e => e.question)
          = firstSeen ((allRatings evaluationData).map (fun r => r.question)) ∧
        (groupedAveragesOwn a.questionAverages).map Prod.fst
          = firstSeen (a.questionAverages.map (fun e => e.group)) ∧
        ((∀ r ∈ allRatings evaluationData, ∀ r' ∈ allRatings evaluationData,
            r.question = r'.question → r.group = r'.group) →
          (groupedAveragesOwn a.questionAverages).map Prod.fst
            = firstSeen ((allRatings evaluationData).map (fun r => r.group)))) := by
  refine ⟨_, calculateAnalyticsOwn_of_ne_nil _ h, ?_⟩
  simp only
  rw [ratingLoopOwn_eq, foldl_ratingStepOwn]
  simp only
  generalize allRatings evaluationData = rs
  have hentry := averages_group rs
  generalize hav : averagesOfOwn (rs.foldl accStepOwn []) = avgs at *
  have hnd : (avgs.foldl groupStepOwn []).keys.Nodup := by
    rw [keys_foldl_groupStepOwn]
    exact nodup_firstSeen _
  have hperm : (groupedAveragesOwn avgs).Perm (avgs.foldl groupStepOwn []) := entries_perm _
  refine ⟨?_, ?_, ?_, ?_⟩
  · exact ((hperm.map Prod.fst).nodup_iff).2 hnd
  · intro p hp
    have hg := get_of_mem _ p hnd (hperm.mem_iff.1 hp)
    rw [get_foldl_groupStepOwn] at hg
    by_cases hnil : avgs.filter (fun e => e.group == p.1) = []
    · simp [hnil] at hg
    · simp only [hnil, if_false, Option.some.injEq] at hg
      rw [← hg]
      exact ⟨rfl, hnil⟩
  · intro e he
    have hnil : avgs.filter (fun x => x.group == e.group) ≠ [] := by
      intro hcon
      have : e ∈ avgs.filter (fun x => x.group == e.group) :=
        List.mem_filter.2 ⟨he, by simp⟩
      rw [hcon] at this
      simp at this
    have hg : (avgs.foldl groupStepOwn []).get e.group
        = some (avgs.filter (fun x => x.group == e.group)) := by
      rw [get_foldl_groupStepOwn]
      simp [hnil]
    exact ⟨_, hperm.mem_iff.2 (pair_mem_of_get _ _ _ hg), rfl⟩
  · intro hidx
    have hq : avgs.map (fun e => e.question) = firstSeen (rs.map (fun r => r.question)) := by
      rw [← hav, ← keys_foldl_accStepOwn]
      unfold averagesOfOwn
      rw [entries_eq_self, List.map_map]
      · rfl
      · intro k hk
        rw [keys_foldl_accStepOwn, mem_firstSeen, List.mem_map] at hk
        obtain ⟨r, hr, rfl⟩ := hk
        exact (hidx r hr).1
    have hg : (groupedAveragesOwn avgs).map Prod.fst = firstSeen (avgs.map (fun e => e.group)) := by
      rw [← keys_foldl_groupStepOwn]
      unfold groupedAveragesOwn
      rw [entries_eq_self]
      · rfl
      · intro k hk
        rw [keys_foldl_groupStepOwn, mem_firstSeen, List.mem_map] at hk
        obtain ⟨e, he, rfl⟩ := hk
        obtain ⟨r, hr, _, hgr, _⟩ := hentry e he
        rw [hgr]
        exact (hidx r hr).2
    refine ⟨hq, hg, ?_⟩
    intro hfun
    rw [hg]
    have h1 : avgs.map (fun e => e.group) = (avgs.map (fun e => e.question)).map
        (fun q => ((rs.find? (fun x => x.question == q)).map (fun r => r.group)).getD "") := by
      rw [List.map_map]
      apply List.map_congr_left
      intro e he
      obtain ⟨r, _, _, hgr, hfind⟩ := hentry e he
      simp [hfind, hgr]
    have h2 : rs.map (fun r => r.group) = (rs.map (fun r => r.question)).map
        (fun q => ((rs.find? (fun x => x.question == q)).map (fun r => r.group)).getD "") := by
      rw [List.map_map]
      apply List.map_congr_left
      intro r hr
      cases hf : rs.find? (fun x => x.question == r.question) with
      | none =>
        have := List.find?_eq_none.1 hf r hr
        simp at this
      | some r' =>
        have hm := List.mem_of_find?_eq_some hf
        have hq' := List.find?_some hf
        simp only [Function.comp, hf, Option.map_some', Option.getD_some]
        have hq2 : r'.question = r.question := by simpa using hq'
        exact hfun r hr r' hm hq2.symm
    rw [h1, hq, firstSeen_map_firstSeen, ← h2]

/-! ## Instructor aggregation: reference notions -/

/-- The instructor name of a session when it is truthy (present and not empty). -/
def truthyName (o : Option String) : Option String :=
  match o with
  | none => none
  | some n => if n = "" then none else some n

/-- The sessions carrying the instructor name `name`. -/
def sessionsOf (name : String) (sessions : List TrainingSession) : List TrainingSession :=
  sessions.filter (fun s => truthyName s.instructor_name == some name)

/-- The joined evaluations whose parent session carries the instructor name `name`. -/
def evaluationsOf (name : String) (evaluations : List JoinedEvaluation) : List JoinedEvaluation :=
  evaluations.filter (fun e => truthyName e.session.instructor_name == some name)

/-- All rating entries of a list of joined evaluations. -/
def ratingEntries (evaluations : List JoinedEvaluation) : List Rating :=
  evaluations.flatMap (fun e => e.evaluation.ratings)

/-- Sum of the scores `instructorScore` of a list of rating entries: 5/4/3/2 for the
four enum values and 0 for every other value. -/
def instructorScoreSum (l : List Rating) : Nat := (l.map (fun r => instructorScore r.rating)).sum

/-- The accumulator that `loadInstructorRatingsOwn` is expected to hold for `name`. -/
def expectedAcc (name : String) (sessions : List TrainingSession)
    (evaluations : List JoinedEvaluation) : InstructorAccOwn :=
  { name := name
    sessions := sessionsOf name sessions
    evaluations := evaluationsOf name evaluations
    totalRatings := (ratingEntries (evaluationsOf name evaluations)).length
    ratingSum := instructorScoreSum (ratingEntries (evaluationsOf name evaluations))
    feedbackCount := (evaluationsOf name evaluations).countP
      (fun e => truthy e.evaluation.additional_comments)
    trends := [] }

/-! ## Instructor aggregation on own properties: the two loops -/

theorem truthyName_eq_some (o : Option String) (name : String) :
    truthyName o = some name ↔ o = some name ∧ name ≠ "" := by
  cases o with
  | none => simp [truthyName]
  | some n =>
    by_cases h : n = ""
    · subst h
      simp only [truthyName, if_true, Option.some.injEq]
      constructor
      · intro h; exact absurd h (by simp)
      · rintro ⟨h1, h2⟩; exact absurd h1.symm h2
    · simp only [truthyName, h, if_false, Option.some.injEq]
      constructor
      · rintro rfl; exact ⟨rfl, h⟩
      · rintro ⟨h1, _⟩; exact h1

/-- The empty accumulator created for a new instructor name. -/
def initAcc (name : String) : InstructorAccOwn :=
  { name := name, sessions := [], evaluations := [], totalRatings := 0, ratingSum := 0,
    feedbackCount := 0, trends := [] }

theorem sessionStepOwn_eq (m : JsObject InstructorAccOwn) (s : TrainingSession) :
    sessionStepOwn m s =
      match truthyName s.instructor_name with
      | none => m
      | some n => JsObject.upsert m n (initAcc n)
          (fun i => { i with sessions := i.sessions ++ [s] }) := by
  unfold sessionStepOwn truthyName
  cases hs : s.instructor_name with
  | none => rfl
  | some n =>
    by_cases h : n = ""
    · simp [h]
    · simp only [h, if_false]
      unfold JsObject.upsert initAcc
      cases m.get n <;> rfl

/-- The update that one evaluation applies to the accumulator of its instructor. -/
def addEvaluation (e : JoinedEvaluation) (i : InstructorAccOwn) : InstructorAccOwn :=
  { i with
    evaluations := i.evaluations ++ [e]
    totalRatings := i.totalRatings + e.evaluation.ratings.length
    ratingSum := i.ratingSum + instructorScoreSum e.evaluation.ratings
    feedbackCount := i.feedbackCount + (if truthy e.evaluation.additional_comments then 1 else 0) }

theorem modify_fixed {α : Type} (m : JsObject α) (k : String) (f : α → α)
    (hf : ∀ x, f x = x) : m.modify k f = m := by
  induction m with
  | nil => rfl
  | cons p rest ih =>
    obtain ⟨a, b⟩ := p
    by_cases h : a = k
    · simp only [JsObject.modify, h, if_true, hf]
    · simp only [JsObject.modify, h, if_false, ih]

theorem foldl_rating_modify (rs : List Rating) (m : JsObject InstructorAccOwn) (n : String) :
    rs.foldl (fun m rating =>
        (JsObject.modify m n (fun i => { i with totalRatings := i.totalRatings + 1 })).modify n
          (fun i => { i with ratingSum := i.ratingSum + instructorScore rating.rating })) m
      = m.modify n (fun i => { i with
          totalRatings := i.totalRatings + rs.length
          ratingSum := i.ratingSum + instructorScoreSum rs }) := by
  induction rs generalizing m with
  | nil =>
    simp only [List.foldl_nil, List.length_nil, instructorScoreSum, List.map_nil, List.sum_nil,
      Nat.add_zero]
    exact (modify_fixed m n _ (fun _ => rfl)).symm
  | cons r rest ih =>
    rw [List.foldl_cons, ih, JsObject.modify_modify, JsObject.modify_modify]
    congr 1
    funext i
    simp only [instructorScoreSum, List.map_cons, List.sum_cons, List.length_cons,
      InstructorAccOwn.mk.injEq, true_and, and_true]
    constructor <;> omega

theorem evaluationStepOwn_eq (m : JsObject InstructorAccOwn) (e : JoinedEvaluation) :
    evaluationStepOwn m e =
      match truthyName e.session.instructor_name with
      | none => m
      | some n => m.modify n (addEvaluation e) := by
  unfold evaluationStepOwn truthyName
  cases hs : e.session.instructor_name with
  | none => rfl
  | some n =>
    by_cases h : n = ""
    · simp [h]
    · simp only [h, if_false]
      cases hg : m.get n with
      | none =>
        simp only
        have hk : n ∉ m.keys := (JsObject.get_eq_none_iff m n).1 hg
        clear hg
        induction m with
        | nil => rfl
        | cons p rest ih =>
          obtain ⟨a, b⟩ := p
          simp only [JsObject.keys, List.map_cons, List.mem_cons, not_or] at hk
          have hne : ¬ a = n := fun e => hk.1 e.symm
          simp only [JsObject.modify, hne, if_false]
          rw [← ih hk.2]
      | some v =>
        simp only
        rw [foldl_rating_modify, JsObject.modify_modify]
        by_cases ht : truthy e.evaluation.additional_comments = true
        · simp only [ht, if_true]
          rw [JsObject.modify_modify]
          congr 1
          funext i
          simp [addEvaluation, ht]
        · have ht' : truthy e.evaluation.additional_comments = false := by simpa using ht
          simp only [ht', Bool.false_eq_true, if_false]
          rw [JsObject.modify_modify]
          congr 1
          funext i
          simp [addEvaluation, ht']

/-- The sessions with a truthy instructor name, tagged with that name. -/
def namedSessions (sessions : List TrainingSession) : List (String × TrainingSession) :=
  sessions.filterMap (fun s => (truthyName s.instructor_name).map (fun n => (n, s)))

theorem foldl_sessionStepOwn (sessions : List TrainingSession) (m : JsObject InstructorAccOwn) :
    sessions.foldl sessionStepOwn m =
      (namedSessions sessions).foldl (fun (m : JsObject InstructorAccOwn) p =>
        JsObject.upsert m p.1 (initAcc p.1) (fun i => { i with sessions := i.sessions ++ [p.2] }))
        m := by
  unfold namedSessions
  induction sessions generalizing m with
  | nil => rfl
  | cons x rest ih =>
    rw [List.foldl_cons, ih, sessionStepOwn_eq]
    cases h : truthyName x.instructor_name <;> simp [List.filterMap_cons, h]

theorem namedSessions_filter (sessions : List TrainingSession) (k : String) :
    ((namedSessions sessions).filter (fun p => p.1 == k)).map Prod.snd = sessionsOf k sessions := by
  unfold namedSessions sessionsOf
  induction sessions with
  | nil => rfl
  | cons x rest ih =>
    cases h : truthyName x.instructor_name with
    | none => simp [List.filterMap_cons, List.filter_cons, h, ih]
    | some n =>
      by_cases hk : n = k
      · simp [List.filterMap_cons, List.filter_cons, h, hk, ih]
      · simp [List.filterMap_cons, List.filter_cons, h, hk, ih]

theorem foldl_push_session (L : List (String × TrainingSession)) (a : InstructorAccOwn) :
    L.foldl (fun v p => some
        ({ (v.getD (initAcc p.1)) with sessions := (v.getD (initAcc p.1)).sessions ++ [p.2] } :
          InstructorAccOwn)) (some a)
      = some { a with sessions := a.sessions ++ L.map Prod.snd } := by
  induction L generalizing a with
  | nil => simp
  | cons p rest ih =>
    rw [List.foldl_cons]
    simp only [Option.getD_some]
    rw [ih]
    simp

/-- After the session loop, the entry of a name holds exactly its sessions. -/
theorem get_foldl_sessionStepOwn (sessions : List TrainingSession) (k : String) :
    (sessions.foldl sessionStepOwn []).get k =
      if sessionsOf k sessions = [] then none
      else some { initAcc k with sessions := sessionsOf k sessions } := by
  rw [foldl_sessionStepOwn, get_foldl_upsert (fun p : String × TrainingSession => p.1)
    (fun p => initAcc p.1) (fun p i => { i with sessions := i.sessions ++ [p.2] })
    (namedSessions sessions) [] k, ← namedSessions_filter]
  have hall : ∀ p ∈ (namedSessions sessions).filter (fun p => p.1 == k), p.1 = k := by
    intro p hp
    simpa using (List.mem_filter.1 hp).2
  generalize (namedSessions sessions).filter (fun p => p.1 == k) = L at hall
  cases L with
  | nil => rfl
  | cons p rest =>
    rw [List.foldl_cons]
    simp only [JsObject.get, Option.getD_none]
    rw [foldl_push_session]
    have hp : p.1 = k := hall p (List.mem_cons_self _ _)
    simp [initAcc, hp]

theorem keys_foldl_sessionStepOwn (sessions : List TrainingSession) :
    (sessions.foldl sessionStepOwn []).keys
      = firstSeen (sessions.filterMap (fun s => truthyName s.instructor_name)) := by
  rw [foldl_sessionStepOwn, keys_foldl_upsert (fun p : String × TrainingSession => p.1)
    (fun p => initAcc p.1) (fun p i => { i with sessions := i.sessions ++ [p.2] })
    (namedSessions sessions) []]
  have : (namedSessions sessions).map (fun p => p.1)
      = sessions.filterMap (fun s => truthyName s.instructor_name) := by
    unfold namedSessions
    rw [List.map_filterMap]
    congr 1
    funext s
    cases truthyName s.instructor_name <;> rfl
  simp [JsObject.keys, this]

theorem get_foldl_modify_opt {α β : Type} (key : β → Option String) (f : β → α → α)
    (xs : List β) (m : JsObject α) (k : String) :
    (xs.foldl (fun m x => match key x with
        | none => m
        | some n => JsObject.modify m n (f x)) m).get k
      = (m.get k).map (fun a => (xs.filter (fun x => key x == some k)).foldl
          (fun a x => f x a) a) := by
  induction xs generalizing m with
  | nil =>
    simp only [List.foldl_nil, List.filter_nil]
    cases m.get k <;> rfl
  | cons x rest ih =>
    rw [List.foldl_cons, ih]
    cases hx : key x with
    | none => simp [List.filter_cons, hx]
    | some n =>
      simp only
      rw [JsObject.get_modify]
      by_cases hn : n = k
      · subst hn
        cases m.get n <;> simp [List.filter_cons, hx]
      · cases m.get k <;> simp [List.filter_cons, hx, hn]

theorem keys_foldl_modify_opt {α β : Type} (key : β → Option String) (f : β → α → α)
    (xs : List β) (m : JsObject α) :
    (xs.foldl (fun m x => match key x with
        | none => m
        | some n => JsObject.modify m n (f x)) m).keys = m.keys := by
  induction xs generalizing m with
  | nil => rfl
  | cons x rest ih =>
    rw [List.foldl_cons, ih]
    cases hx : key x with
    | none => rfl
    | some n => exact JsObject.keys_modify m n _

theorem foldl_evaluationStepOwn (es : List JoinedEvaluation) (m : JsObject InstructorAccOwn) :
    es.foldl evaluationStepOwn m = es.foldl (fun m e =>
      match truthyName e.session.instructor_name with
      | none => m
      | some n => JsObject.modify m n (addEvaluation e)) m := by
  congr 1
  funext m e
  exact evaluationStepOwn_eq m e

theorem foldl_addEvaluation (es : List JoinedEvaluation) (a : InstructorAccOwn) :
    es.foldl (fun a e => addEvaluation e a) a =
      { a with
        evaluations := a.evaluations ++ es
        totalRatings := a.totalRatings + (ratingEntries es).length
        ratingSum := a.ratingSum + instructorScoreSum (ratingEntries es)
        feedbackCount := a.feedbackCount
          + es.countP (fun e => truthy e.evaluation.additional_comments) } := by
  induction es generalizing a with
  | nil => simp [ratingEntries, instructorScoreSum]
  | cons e rest ih =>
    rw [List.foldl_cons, ih]
    simp only [addEvaluation, ratingEntries, instructorScoreSum, List.flatMap_cons,
      List.length_append, List.map_append, List.sum_append, List.countP_cons,
      List.append_assoc, List.singleton_append, InstructorAccOwn.mk.injEq, true_and, and_true]
    refine ⟨by omega, by omega, ?_⟩
    by_cases ht : truthy e.evaluation.additional_comments = true
    · simp [ht]; omega
    · simp [ht]

/-- The object `instructorMap` after both loops. -/
def instructorMapOf (sessions : List TrainingSession)
    (getEvaluationsByTrainingSession : String → List Evaluation) : JsObject InstructorAccOwn :=
  (allEvaluations sessions getEvaluationsByTrainingSession).foldl evaluationStepOwn
    (sessions.foldl sessionStepOwn [])

theorem loadInstructorRatingsOwn_eq (host : Host) (sessions : List TrainingSession)
    (fetch : String → List Evaluation) :
    loadInstructorRatingsOwn host sessions fetch
      = (entries (instructorMapOf sessions fetch)).map (fun p => finishInstructorOwn host p.2) := rfl

/-- After both loops, the entry of a name is the expected accumulator. -/
theorem get_instructorMapOf (sessions : List TrainingSession)
    (fetch : String → List Evaluation) (k : String) :
    (instructorMapOf sessions fetch).get k =
      if sessionsOf k sessions = [] then none
      else some (expectedAcc k sessions (allEvaluations sessions fetch)) := by
  unfold instructorMapOf
  rw [foldl_evaluationStepOwn, get_foldl_modify_opt
    (fun e : JoinedEvaluation => truthyName e.session.instructor_name)
    (fun e a => addEvaluation e a), get_foldl_sessionStepOwn]
  by_cases h : sessionsOf k sessions = []
  · simp [h]
  · simp only [h, if_false, Option.map_some', Option.some.injEq]
    rw [foldl_addEvaluation]
    simp [expectedAcc, evaluationsOf, initAcc]

theorem keys_instructorMapOf (sessions : List TrainingSession)
    (fetch : String → List Evaluation) :
    (instructorMapOf sessions fetch).keys
      = firstSeen (sessions.filterMap (fun s => truthyName s.instructor_name)) := by
  unfold instructorMapOf
  rw [foldl_evaluationStepOwn, keys_foldl_modify_opt
    (fun e : JoinedEvaluation => truthyName e.session.instructor_name)
    (fun e a => addEvaluation e a), keys_foldl_sessionStepOwn]

/-! ## Instructor averages on own properties -/

theorem instructorScore_le (v : String) : instructorScore v ≤ 5 := by
  unfold instructorScore
  simp only [JsObject.get]
  split_ifs <;> simp

theorem instructorScoreSum_le (l : List Rating) : instructorScoreSum l ≤ 5 * l.length := by
  induction l with
  | nil => simp [instructorScoreSum]
  | cons r rest ih =>
    have := instructorScore_le r.rating
    simp only [instructorScoreSum, List.map_cons, List.sum_cons, List.length_cons] at ih ⊢
    omega

theorem toFixed2_isSome (p q : Nat) (hq : q ≠ 0) : ∃ n, toFixed2 p q = some n := by
  by_cases hz : p = 0
  · exact ⟨0, by rw [hz]; exact toFixed2_zero q hq⟩
  · obtain ⟨n, hn, _⟩ := toFixed2_floor p q hz hq
    exact ⟨n, hn⟩

/-- Quotients of at most 8 are scaled by at least `2^49`. -/
theorem divDouble_scale8 (p q : Nat) (hp : p ≠ 0) (hq : q ≠ 0) (h8 : p ≤ 8 * q) :
    2 ^ 49 ≤ 2 ^ (divDouble p q).2 := by
  have h1 := (ilog2_spec p hp).1
  have h2 := (ilog2_spec q hq).2
  have hlt : 2 ^ ilog2 p < 2 ^ (ilog2 q + 4) := by
    have e : 2 ^ (ilog2 q + 4) = 8 * 2 ^ (ilog2 q + 1) := by
      rw [show ilog2 q + 4 = (ilog2 q + 1) + 3 from rfl, pow_add]; ring
    omega
  have hl : ilog2 p < ilog2 q + 4 := (Nat.pow_lt_pow_iff_right (by norm_num)).1 hlt
  apply Nat.pow_le_pow_right (by norm_num)
  unfold divDouble
  simp only
  split <;> omega

/-- Rounding to two decimals for quotients of at most 8 and denominators of at most
`2^42`: the printed hundredths `n` satisfy `|n / 100 - p / q| ≤ 1 / 200`. -/
theorem toFixed2_nearest8 (p q n : Nat) (hq : q ≠ 0) (h8 : p ≤ 8 * q) (hb : q ≤ 2 ^ 42)
    (hn : toFixed2 p q = some n) :
    2 * (n * q) ≤ 200 * p + q ∧ 200 * p ≤ 2 * (n * q) + q := by
  by_cases hp : p = 0
  · subst hp
    rw [toFixed2_zero q hq] at hn
    cases hn
    omega
  obtain ⟨n', hn', hlo, hhi⟩ := toFixed2_floor p q hp hq
  rw [hn] at hn'
  cases hn'
  obtain ⟨hn1, hn2⟩ := divDouble_near p q hq
  have hS := divDouble_scale8 p q hp hq h8
  generalize (divDouble p q).1 = m at *
  rw [pow_succ] at hlo hhi
  generalize 2 ^ (divDouble p q).2 = S at *
  have hSq : 100 * q < S := by
    have : (100 : Nat) * 2 ^ 42 < 2 ^ 49 := by norm_num
    omega
  have hqpos : 0 < q := Nat.pos_of_ne_zero hq
  have f1 : 2 * (n * q * S) ≤ 200 * (m * q) + q * S := by
    have := Nat.mul_le_mul_right q hlo
    calc 2 * (n * q * S) = S * 2 * n * q := by ring
      _ ≤ (200 * m + S) * q := this
      _ = 200 * (m * q) + q * S := by ring
  have f2 : 200 * (m * q) + q * S < 2 * (n * q * S) + 2 * (q * S) := by
    have := Nat.mul_lt_mul_of_pos_right hhi hqpos
    calc 200 * (m * q) + q * S = (200 * m + S) * q := by ring
      _ < S * 2 * (n + 1) * q := this
      _ = 2 * (n * q * S) + 2 * (q * S) := by ring
  have g1 : 2 * (m * q) ≤ 2 * (p * S) + q := by
    calc 2 * (m * q) = 2 * m * q := by ring
      _ ≤ 2 * (p * S) + q := hn1
  have g2 : 2 * (p * S) ≤ 2 * (m * q) + q := by
    calc 2 * (p * S) ≤ 2 * m * q + q := hn2
      _ = 2 * (m * q) + q := by ring
  constructor
  · by_contra hcon
    have hcon' : 200 * p + q + 1 ≤ 2 * (n * q) := by omega
    have := Nat.mul_le_mul_right S hcon'
    have e1 : (200 * p + q + 1) * S = 200 * (p * S) + q * S + S := by ring
    have e2 : 2 * (n * q) * S = 2 * (n * q * S) := by ring
    rw [e1, e2] at this
    omega
  · by_contra hcon
    have hcon' : 2 * (n * q) + q + 1 ≤ 200 * p := by omega
    have := Nat.mul_le_mul_right S hcon'
    have e1 : (2 * (n * q) + q + 1) * S = 2 * (n * q * S) + q * S + S := by ring
    have e2 : 200 * p * S = 200 * (p * S) := by ring
    rw [e1, e2] at this
    omega

theorem averageOrZeroOwn_zero (s : Nat) : averageOrZeroOwn s 0 = 0 := by
  simp [averageOrZeroOwn]

theorem averageOrZeroOwn_le (s c : Nat) (h : s ≤ 5 * c) : averageOrZeroOwn s c ≤ 500 := by
  unfold averageOrZeroOwn
  by_cases hc : 0 < c
  · simp only [hc, if_true]
    obtain ⟨n, hn⟩ := toFixed2_isSome s c (by omega)
    have := toFixed2_le s c 5 n (by omega) h hn
    rw [hn]
    simpa using this
  · simp [hc]

/-- The instructor average is a nearest hundredth of `sum / count`. -/
theorem averageOrZeroOwn_nearest (s c : Nat) (h : s ≤ 5 * c) (hb : c ≤ 2 ^ 42) :
    2 * (averageOrZeroOwn s c * c) ≤ 200 * s + c ∧ 200 * s ≤ 2 * (averageOrZeroOwn s c * c) + c := by
  unfold averageOrZeroOwn
  by_cases hc : 0 < c
  · simp only [hc, if_true]
    obtain ⟨n, hn⟩ := toFixed2_isSome s c (by omega)
    rw [hn]
    exact toFixed2_nearest8 s c n (by omega) (by omega) hb hn
  · have : c = 0 := by omega
    subst this
    simp only [Nat.lt_irrefl, if_false]
    omega

theorem sessionsOf_ne_nil_iff (k : String) (sessions : List TrainingSession) :
    sessionsOf k sessions ≠ [] ↔ k ≠ "" ∧ ∃ s ∈ sessions, s.instructor_name = some k := by
  unfold sessionsOf
  rw [Ne, List.filter_eq_nil_iff]
  constructor
  · intro h
    simp only [not_forall] at h
    obtain ⟨s, hs, hk⟩ := h
    have hk' : truthyName s.instructor_name = some k := by simpa using hk
    obtain ⟨h1, h2⟩ := (truthyName_eq_some _ _).1 hk'
    exact ⟨h2, s, hs, h1⟩
  · rintro ⟨hk, s, hs, hn⟩ hall
    have := hall s hs
    have hk' : truthyName s.instructor_name = some k := (truthyName_eq_some _ _).2 ⟨hn, hk⟩
    simp [hk'] at this

theorem sessionsOf_eq (k : String) (hk : k ≠ "") (sessions : List TrainingSession) :
    sessionsOf k sessions = sessions.filter (fun s => s.instructor_name == some k) := by
  unfold sessionsOf
  apply List.filter_congr
  intro s _
  have := truthyName_eq_some s.instructor_name k
  by_cases h : s.instructor_name = some k
  · have h2 : truthyName s.instructor_name = some k := this.2 ⟨h, hk⟩
    rw [h2, h]
  · have h2 : ¬ truthyName s.instructor_name = some k := fun e => h (this.1 e).1
    simp [h, h2]

theorem evaluationsOf_eq (k : String) (hk : k ≠ "") (es : List JoinedEvaluation) :
    evaluationsOf k es = es.filter (fun e => e.session.instructor_name == some k) := by
  unfold evaluationsOf
  apply List.filter_congr
  intro e _
  have := truthyName_eq_some e.session.instructor_name k
  by_cases h : e.session.instructor_name = some k
  · have h2 : truthyName e.session.instructor_name = some k := this.2 ⟨h, hk⟩
    rw [h2, h]
  · have h2 : ¬ truthyName e.session.instructor_name = some k := fun e => h (this.1 e).1
    simp [h, h2]

theorem nodup_keys_instructorMapOf (sessions : List TrainingSession)
    (fetch : String → List Evaluation) : (instructorMapOf sessions fetch).keys.Nodup := by
  rw [keys_instructorMapOf]
  exact nodup_firstSeen _

/-- Every element of the result is the finished expected accumulator of a name that
some session carries. -/
theorem mem_loadInstructorRatingsOwn (host : Host) (sessions : List TrainingSession)
    (fetch : String → List Evaluation) (i : InstructorOwn) :
    i ∈ loadInstructorRatingsOwn host sessions fetch ↔
      ∃ k, sessionsOf k sessions ≠ [] ∧
        i = finishInstructorOwn host (expectedAcc k sessions (allEvaluations sessions fetch)) := by
  rw [loadInstructorRatingsOwn_eq, List.mem_map]
  constructor
  · rintro ⟨p, hp, rfl⟩
    have hg := get_of_mem _ p (nodup_keys_instructorMapOf sessions fetch)
      ((entries_perm _).mem_iff.1 hp)
    rw [get_instructorMapOf] at hg
    by_cases h : sessionsOf p.1 sessions = []
    · simp [h] at hg
    · simp only [h, if_false, Option.some.injEq] at hg
      exact ⟨p.1, h, by rw [hg]⟩
  · rintro ⟨k, hk, rfl⟩
    have hg : (instructorMapOf sessions fetch).get k
        = some (expectedAcc k sessions (allEvaluations sessions fetch)) := by
      rw [get_instructorMapOf]
      simp [hk]
    exact ⟨(k, _), (entries_perm _).mem_iff.2 (pair_mem_of_get _ _ _ hg), rfl⟩

/-- The result holds exactly one element for each name that some session carries. -/
theorem loadInstructorRatingsOwn_filter (host : Host) (sessions : List TrainingSession)
    (fetch : String → List Evaluation) (k : String) (hk : sessionsOf k sessions ≠ []) :
    (loadInstructorRatingsOwn host sessions fetch).filter (fun x => x.name == k)
      = [finishInstructorOwn host (expectedAcc k sessions (allEvaluations sessions fetch))] := by
  have hg : (instructorMapOf sessions fetch).get k
      = some (expectedAcc k sessions (allEvaluations sessions fetch)) := by
    rw [get_instructorMapOf]
    simp [hk]
  have hnd := nodup_keys_instructorMapOf sessions fetch
  rw [loadInstructorRatingsOwn_eq, List.filter_map]
  have hcongr : (entries (instructorMapOf sessions fetch)).filter
      ((fun x : InstructorOwn => x.name == k) ∘ fun p => finishInstructorOwn host p.2)
      = (entries (instructorMapOf sessions fetch)).filter (fun p => p.1 == k) := by
    apply List.filter_congr
    intro p hp
    have hp' := get_of_mem _ p hnd ((entries_perm _).mem_iff.1 hp)
    rw [get_instructorMapOf] at hp'
    by_cases h : sessionsOf p.1 sessions = []
    · simp [h] at hp'
    · simp only [h, if_false, Option.some.injEq] at hp'
      simp only [Function.comp, finishInstructorOwn, ← hp', expectedAcc]
  rw [hcongr]
  have hperm : ((entries (instructorMapOf sessions fetch)).filter (fun p => p.1 == k)).Perm
      [(k, expectedAcc k sessions (allEvaluations sessions fetch))] := by
    rw [← JsObject.filter_key_eq _ k _ hnd hg]
    exact (entries_perm _).filter _
  rw [List.perm_singleton.1 hperm]
  rfl

/-- All rating entries of all evaluations of all sessions carrying the instructor
name `name`. -/
def ratingsOfInstructor (name : String) (sessions : List TrainingSession)
    (getEvaluationsByTrainingSession : String → List Evaluation) : List Rating :=
  ((allEvaluations sessions getEvaluationsByTrainingSession).filter
    (fun e => e.session.instructor_name == some name)).flatMap (fun e => e.evaluation.ratings)

theorem ratingEntries_evaluationsOf (name : String) (hn : name ≠ "")
    (sessions : List TrainingSession) (fetch : String → List Evaluation) :
    ratingEntries (evaluationsOf name (allEvaluations sessions fetch))
      = ratingsOfInstructor name sessions fetch := by
  rw [evaluationsOf_eq name hn]
  rfl

/-- The scenario of the instructor "Kaleb": two sessions, the first with two
evaluations scoring 5 and 4, the second with none. -/
def kalebSessions : List TrainingSession :=
  [{ id := "s1", instructor_name := some "Kaleb" }, { id := "s2", instructor_name := some "Kaleb" }]

/-- The evaluations stored for the sessions of `kalebSessions`. -/
def kalebStore : String → List Evaluation := fun id =>
  if id = "s1" then
    [{ ratings := [⟨"Presentation", "Instructors Knowledge", "excellent"⟩] },
     { ratings := [⟨"Presentation", "Instructors Knowledge", "very_good"⟩] }]
  else []

/-- On own properties: for an instructor name carried by some session, the result holds exactly one
entry of that name; its `avgRating`, in hundredths, is within `1 / 200` of (sum of the
5/4/3/2 scores) / (number of rating entries) over all rating entries of all evaluations
of all sessions carrying the name, and it is 0 when there is no such entry.  The
rounding goes through a binary64 quotient and is shown for at most `2^42` rating
entries.  For two sessions, one with two evaluations scoring 5 and 4 and one with
none, the average is `4.50` (with 2 sessions and 2 evaluations). -/
theorem instructor_average_own :
    (∀ (host : Host) (sessions : List TrainingSession) (fetch : String → List Evaluation)
        (name : String),
      name ≠ "" → (∃ s ∈ sessions, s.instructor_name = some name) →
      (ratingsOfInstructor name sessions fetch).length ≤ 2 ^ 42 →
      ∃ i, (loadInstructorRatingsOwn host sessions fetch).filter (fun x => x.name == name) = [i] ∧
        (ratingsOfInstructor name sessions fetch = [] → i.avgRating = 0) ∧
        2 * (i.avgRating * (ratingsOfInstructor name sessions fetch).length)
          ≤ 200 * instructorScoreSum (ratingsOfInstructor name sessions fetch)
            + (ratingsOfInstructor name sessions fetch).length ∧
        200 * instructorScoreSum (ratingsOfInstructor name sessions fetch)
          ≤ 2 * (i.avgRating * (ratingsOfInstructor name sessions fetch).length)
            + (ratingsOfInstructor name sessions fetch).length) ∧
    (∀ host : Host, (loadInstructorRatingsOwn host kalebSessions kalebStore).map
        (fun i => (i.name, i.avgRating, i.totalSessions, i.totalEvaluations))
      = [("Kaleb", 450, 2, 2)]) := by
  constructor
  · intro host sessions fetch name hn hs hsize
    have hk : sessionsOf name sessions ≠ [] := (sessionsOf_ne_nil_iff _ _).2 ⟨hn, hs⟩
    refine ⟨_, loadInstructorRatingsOwn_filter host sessions fetch name hk, ?_, ?_⟩
    · intro hnil
      simp only [finishInstructorOwn, expectedAcc]
      rw [ratingEntries_evaluationsOf name hn, hnil]
      exact averageOrZeroOwn_zero _
    · simp only [finishInstructorOwn, expectedAcc]
      rw [ratingEntries_evaluationsOf name hn]
      exact averageOrZeroOwn_nearest _ _ (instructorScoreSum_le _) hsize
  · intro host
    rfl

/-! ## Monthly trends, on own properties -/

/-- The evaluations whose month key is `k`. -/
def evaluationsOfMonth (host : Host) (k : String) (evaluations : List JoinedEvaluation) :
    List JoinedEvaluation :=
  evaluations.filter (fun e => monthKey host e.evaluation.submitted_at == k)

/-- A comparator that a sort can rely on: any two elements are comparable, and the
relation "not after" is transitive. -/
def ConsistentComparator (cmp : String → String → Int) : Prop :=
  (∀ a b, cmp a b ≤ 0 ∨ cmp b a ≤ 0) ∧ (∀ a b c, cmp a b ≤ 0 → cmp b c ≤ 0 → cmp a c ≤ 0)

theorem jsSort_sorted_of_consistent {α : Type} (cmp : α → α → Int)
    (htot : ∀ a b, cmp a b ≤ 0 ∨ cmp b a ≤ 0)
    (htrans : ∀ a b c, cmp a b ≤ 0 → cmp b c ≤ 0 → cmp a c ≤ 0) (xs : List α) :
    (jsSort cmp xs).Pairwise (fun a b => cmp a b ≤ 0) := by
  haveI : IsTotal α (fun a b => cmp a b ≤ 0) := ⟨htot⟩
  haveI : IsTrans α (fun a b => cmp a b ≤ 0) := ⟨htrans⟩
  exact List.sorted_insertionSort _ xs

theorem foldl_month_modify (rs : List Rating) (m : JsObject MonthAccOwn) (k : String) :
    rs.foldl (fun md rating =>
        (JsObject.modify md k (fun d => { d with sum := d.sum + instructorScore rating.rating })).modify
          k (fun d => { d with count := d.count + 1 })) m
      = m.modify k (fun d => { count := d.count + rs.length,
                               sum := d.sum + instructorScoreSum rs }) := by
  induction rs generalizing m with
  | nil =>
    simp only [List.foldl_nil, List.length_nil, instructorScoreSum, List.map_nil, List.sum_nil,
      Nat.add_zero]
    exact (modify_fixed m k _ (fun _ => rfl)).symm
  | cons r rest ih =>
    rw [List.foldl_cons, ih, JsObject.modify_modify, JsObject.modify_modify]
    congr 1
    funext d
    simp only [instructorScoreSum, List.map_cons, List.sum_cons, List.length_cons,
      MonthAccOwn.mk.injEq]
    constructor <;> omega

theorem trendStepOwn_eq (host : Host) (md : JsObject MonthAccOwn) (e : JoinedEvaluation) :
    trendStepOwn host md e =
      JsObject.upsert md (monthKey host e.evaluation.submitted_at) { count := 0, sum := 0 }
        (fun d => { count := d.count + e.evaluation.ratings.length,
                    sum := d.sum + instructorScoreSum e.evaluation.ratings }) := by
  unfold trendStepOwn JsObject.upsert
  simp only
  rw [foldl_month_modify]
  cases md.get (monthKey host e.evaluation.submitted_at) <;> rfl

theorem foldl_trendStepOwn (host : Host) (es : List JoinedEvaluation) :
    es.foldl (trendStepOwn host) [] = es.foldl (fun (md : JsObject MonthAccOwn) e =>
      JsObject.upsert md (monthKey host e.evaluation.submitted_at) { count := 0, sum := 0 }
        (fun d => { count := d.count + e.evaluation.ratings.length,
                    sum := d.sum + instructorScoreSum e.evaluation.ratings })) [] := by
  congr 1
  funext md e
  exact trendStepOwn_eq host md e

theorem foldl_month_some (es : List JoinedEvaluation) (d : MonthAccOwn) :
    es.foldl (fun v e => some
        ({ count := (v.getD { count := 0, sum := 0 }).count + e.evaluation.ratings.length,
           sum := (v.getD { count := 0, sum := 0 }).sum
             + instructorScoreSum e.evaluation.ratings } : MonthAccOwn)) (some d)
      = some { count := d.count + (ratingEntries es).length,
               sum := d.sum + instructorScoreSum (ratingEntries es) } := by
  induction es generalizing d with
  | nil => simp [ratingEntries, instructorScoreSum]
  | cons e rest ih =>
    rw [List.foldl_cons]
    simp only [Option.getD_some]
    rw [ih]
    simp only [ratingEntries, instructorScoreSum, List.flatMap_cons, List.length_append,
      List.map_append, List.sum_append, Option.some.injEq, MonthAccOwn.mk.injEq]
    constructor <;> omega

/-- The accumulator of a month key after the loop of `calculateTrendsOwn`. -/
theorem get_foldl_trendStepOwn (host : Host) (es : List JoinedEvaluation) (k : String) :
    (es.foldl (trendStepOwn host) []).get k =
      if evaluationsOfMonth host k es = [] then none
      else some { count := (ratingEntries (evaluationsOfMonth host k es)).length,
                  sum := instructorScoreSum (ratingEntries (evaluationsOfMonth host k es)) } := by
  rw [foldl_trendStepOwn, get_foldl_upsert
    (fun e : JoinedEvaluation => monthKey host e.evaluation.submitted_at)
    (fun _ => ({ count := 0, sum := 0 } : MonthAccOwn))
    (fun e d => { count := d.count + e.evaluation.ratings.length,
                  sum := d.sum + instructorScoreSum e.evaluation.ratings }) es [] k]
  unfold evaluationsOfMonth
  cases es.filter (fun e => monthKey host e.evaluation.submitted_at == k) with
  | nil => rfl
  | cons e l =>
    rw [List.foldl_cons]
    simp only [JsObject.get, Option.getD_none]
    rw [foldl_month_some]
    simp only [ratingEntries, instructorScoreSum, List.flatMap_cons, List.length_append,
      List.map_append, List.sum_append, Nat.zero_add, if_false, Option.some.injEq,
      MonthAccOwn.mk.injEq, reduceCtorEq]

theorem keys_foldl_trendStepOwn (host : Host) (es : List JoinedEvaluation) :
    (es.foldl (trendStepOwn host) []).keys
      = firstSeen (es.map (fun e => monthKey host e.evaluation.submitted_at)) := by
  rw [foldl_trendStepOwn, keys_foldl_upsert
    (fun e : JoinedEvaluation => monthKey host e.evaluation.submitted_at)
    (fun _ => ({ count := 0, sum := 0 } : MonthAccOwn))
    (fun e d => { count := d.count + e.evaluation.ratings.length,
                  sum := d.sum + instructorScoreSum e.evaluation.ratings }) es []]
  simp [JsObject.keys]

theorem calculateTrendsOwn_perm (host : Host) (es : List JoinedEvaluation) :
    (calculateTrendsOwn host es).Perm ((es.foldl (trendStepOwn host) []).map (fun p =>
      ({ month := p.1, avgRating := toFixed2 p.2.sum p.2.count, count := p.2.count } : Trend))) :=
  (jsSort_perm _ _).trans ((entries_perm _).map _)

/-- Every bucket is the bucket of the month key of some evaluation, with the count and
the printed average of the rating entries of that month. -/
theorem mem_calculateTrendsOwn (host : Host) (es : List JoinedEvaluation) (t : Trend)
    (ht : t ∈ calculateTrendsOwn host es) :
    evaluationsOfMonth host t.month es ≠ [] ∧
    t.count = (ratingEntries (evaluationsOfMonth host t.month es)).length ∧
    t.avgRating = toFixed2 (instructorScoreSum (ratingEntries (evaluationsOfMonth host t.month es)))
      (ratingEntries (evaluationsOfMonth host t.month es)).length := by
  obtain ⟨p, hp, rfl⟩ := List.mem_map.1 ((calculateTrendsOwn_perm host es).mem_iff.1 ht)
  have hnd : (es.foldl (trendStepOwn host) []).keys.Nodup := by
    rw [keys_foldl_trendStepOwn]
    exact nodup_firstSeen _
  have hg := get_of_mem _ p hnd hp
  rw [get_foldl_trendStepOwn] at hg
  by_cases h : evaluationsOfMonth host p.1 es = []
  · simp [h] at hg
  · simp only [h, if_false, Option.some.injEq] at hg
    simp only
    refine ⟨h, ?_, ?_⟩ <;> rw [← hg]

theorem trend_month_mem (host : Host) (es : List JoinedEvaluation) (t : Trend)
    (ht : t ∈ calculateTrendsOwn host es) :
    ∃ e ∈ es, monthKey host e.evaluation.submitted_at = t.month := by
  obtain ⟨h, _⟩ := mem_calculateTrendsOwn host es t ht
  obtain ⟨e, he⟩ := List.exists_mem_of_ne_nil _ h
  obtain ⟨h1, h2⟩ := List.mem_filter.1 he
  exact ⟨e, h1, by simpa using h2⟩

theorem months_calculateTrendsOwn (host : Host) (es : List JoinedEvaluation) :
    ((calculateTrendsOwn host es).map (fun t => t.month)).Perm
      (firstSeen (es.map (fun e => monthKey host e.evaluation.submitted_at))) := by
  rw [← keys_foldl_trendStepOwn]
  have := (calculateTrendsOwn_perm host es).map (fun t => t.month)
  rw [List.map_map] at this
  exact this

/-! ## Sessions without an instructor name; one entry per name, on own properties -/

theorem foldl_filter_of_id {α β : Type} (step : α → β → α) (p : β → Bool)
    (hid : ∀ m x, p x = false → step m x = m) (xs : List β) (m : α) :
    xs.foldl step m = (xs.filter p).foldl step m := by
  induction xs generalizing m with
  | nil => rfl
  | cons x rest ih =>
    by_cases hx : p x = true
    · simp only [List.foldl_cons, List.filter_cons, hx, if_true]
      exact ih _
    · have hx' : p x = false := by simpa using hx
      simp only [List.foldl_cons, List.filter_cons, hx', Bool.false_eq_true, if_false]
      rw [hid m x hx']
      exact ih _

theorem truthyName_of_not_truthy (o : Option String) (h : truthy o = false) :
    truthyName o = none := by
  cases o with
  | none => rfl
  | some n =>
    by_cases hn : n = ""
    · simp [truthyName, hn]
    · simp [truthy, hn] at h

theorem allEvaluations_filter (p : TrainingSession → Bool) (sessions : List TrainingSession)
    (fetch : String → List Evaluation) :
    allEvaluations (sessions.filter p) fetch
      = (allEvaluations sessions fetch).filter (fun e => p e.session) := by
  unfold allEvaluations
  induction sessions with
  | nil => rfl
  | cons x rest ih =>
    by_cases hx : p x = true
    · simp only [List.filter_cons, hx, if_true, List.flatMap_cons, List.filter_append, ih]
      congr 1
      rw [List.filter_map]
      symm
      rw [List.filter_eq_self.2]
      intro e _
      simpa using hx
    · have hx' : p x = false := by simpa using hx
      simp only [List.filter_cons, hx', Bool.false_eq_true, if_false, List.flatMap_cons,
        List.filter_append, ih]
      rw [List.filter_map]
      have : (fetch x.id).filter ((fun e : JoinedEvaluation => p e.session) ∘
          fun e => ({ evaluation := e, session := x } : JoinedEvaluation)) = [] := by
        rw [List.filter_eq_nil_iff]
        intro e _
        simp [hx']
      rw [this]
      rfl

theorem instructorMapOf_filter (sessions : List TrainingSession)
    (fetch : String → List Evaluation) :
    instructorMapOf (sessions.filter (fun s => truthy s.instructor_name)) fetch
      = instructorMapOf sessions fetch := by
  unfold instructorMapOf
  have h1 : ∀ (m : JsObject InstructorAccOwn) (x : TrainingSession),
      truthy x.instructor_name = false → sessionStepOwn m x = m := by
    intro m x hx
    rw [sessionStepOwn_eq, truthyName_of_not_truthy _ hx]
  have h2 : ∀ (m : JsObject InstructorAccOwn) (e : JoinedEvaluation),
      truthy e.session.instructor_name = false → evaluationStepOwn m e = m := by
    intro m e he
    rw [evaluationStepOwn_eq, truthyName_of_not_truthy _ he]
  rw [allEvaluations_filter, ← foldl_filter_of_id sessionStepOwn _ h1,
    ← foldl_filter_of_id evaluationStepOwn (fun e => truthy e.session.instructor_name) h2]

/-- On own properties: sessions lacking an instructor name are excluded entirely: the result is the
one obtained from the sessions that have a name, so a nameless session and its
evaluations contribute to no entry, total, sum, count or trend; every entry has a
non-empty name, and all its sessions and the parent sessions of all its evaluations
carry that name. -/
theorem nameless_sessions_excluded_own (host : Host) (sessions : List TrainingSession)
    (fetch : String → List Evaluation) :
    loadInstructorRatingsOwn host sessions fetch
      = loadInstructorRatingsOwn host (sessions.filter (fun s => truthy s.instructor_name)) fetch ∧
    ∀ i ∈ loadInstructorRatingsOwn host sessions fetch,
      i.name ≠ "" ∧ (∀ s ∈ i.sessions, s.instructor_name = some i.name) ∧
      (∀ e ∈ i.evaluations, e.session.instructor_name = some i.name) ∧
      (∀ t ∈ i.trends, ∃ e ∈ i.evaluations,
        monthKey host e.evaluation.submitted_at = t.month) := by
  constructor
  · rw [loadInstructorRatingsOwn_eq, loadInstructorRatingsOwn_eq, instructorMapOf_filter]
  · intro i hi
    obtain ⟨k, hk, rfl⟩ := (mem_loadInstructorRatingsOwn host sessions fetch i).1 hi
    have hk' := ((sessionsOf_ne_nil_iff _ _).1 hk).1
    simp only [finishInstructorOwn, expectedAcc]
    refine ⟨hk', ?_, ?_, ?_⟩
    · intro s hs
      have := (List.mem_filter.1 hs).2
      exact ((truthyName_eq_some _ _).1 (by simpa using this)).1
    · intro e he
      have := (List.mem_filter.1 he).2
      exact ((truthyName_eq_some _ _).1 (by simpa using this)).1
    · intro t ht
      exact trend_month_mem host _ t ht

/-- On own properties: the result holds exactly one entry per distinct non-empty instructor name of
the sessions; its `totalSessions` is the number of sessions with that name (with or
without evaluations) and its `totalEvaluations` is the number of evaluations whose
parent session has that name. -/
theorem one_entry_per_instructor_own (host : Host) (sessions : List TrainingSession)
    (fetch : String → List Evaluation) :
    ((loadInstructorRatingsOwn host sessions fetch).map (fun i => i.name)).Nodup ∧
    (∀ name, name ∈ (loadInstructorRatingsOwn host sessions fetch).map (fun i => i.name) ↔
      name ≠ "" ∧ ∃ s ∈ sessions, s.instructor_name = some name) ∧
    ∀ i ∈ loadInstructorRatingsOwn host sessions fetch,
      i.totalSessions = (sessions.filter (fun s => s.instructor_name == some i.name)).length ∧
      i.totalEvaluations = ((allEvaluations sessions fetch).filter
        (fun e => e.session.instructor_name == some i.name)).length := by
  have hnames : ((loadInstructorRatingsOwn host sessions fetch).map (fun i => i.name)).Perm
      (instructorMapOf sessions fetch).keys := by
    rw [loadInstructorRatingsOwn_eq, List.map_map]
    have h1 : (entries (instructorMapOf sessions fetch)).map
        ((fun i : InstructorOwn => i.name) ∘ fun p => finishInstructorOwn host p.2)
        = (entries (instructorMapOf sessions fetch)).map Prod.fst := by
      apply List.map_congr_left
      intro p hp
      have hp' := get_of_mem _ p (nodup_keys_instructorMapOf sessions fetch)
        ((entries_perm _).mem_iff.1 hp)
      rw [get_instructorMapOf] at hp'
      by_cases h : sessionsOf p.1 sessions = []
      · simp [h] at hp'
      · simp only [h, if_false, Option.some.injEq] at hp'
        simp only [Function.comp, finishInstructorOwn, ← hp', expectedAcc]
    rw [h1]
    exact (entries_perm _).map _
  refine ⟨hnames.nodup_iff.2 (nodup_keys_instructorMapOf sessions fetch), ?_, ?_⟩
  · intro name
    rw [hnames.mem_iff, JsObject.mem_keys_iff, get_instructorMapOf,
      ← sessionsOf_ne_nil_iff]
    by_cases h : sessionsOf name sessions = []
    · simp [h]
    · simp [h]
  · intro i hi
    obtain ⟨k, hk, rfl⟩ := (mem_loadInstructorRatingsOwn host sessions fetch i).1 hi
    have hk' := ((sessionsOf_ne_nil_iff _ _).1 hk).1
    simp only [finishInstructorOwn, expectedAcc]
    rw [sessionsOf_eq k hk', evaluationsOf_eq k hk']
    exact ⟨rfl, rfl⟩

/-- On own properties: the four enum values score 4/3/2/1 in the session-level analytics and 5/4/3/2
in the instructor-level analytics, one more for each value, and every other value
scores 0 in both. -/
theorem rating_scales_own :
    (ratingScore "excellent" = 4 ∧ ratingScore "very_good" = 3 ∧ ratingScore "good" = 2 ∧
      ratingScore "needs_improvement" = 1) ∧
    (instructorScore "excellent" = 5 ∧ instructorScore "very_good" = 4 ∧
      instructorScore "good" = 3 ∧ instructorScore "needs_improvement" = 2) ∧
    (∀ v ∈ ["excellent", "very_good", "good", "needs_improvement"],
      instructorScore v = ratingScore v + 1) ∧
    (∀ v, v ∉ ["excellent", "very_good", "good", "needs_improvement"] →
      ratingScore v = 0 ∧ instructorScore v = 0) := by
  refine ⟨by decide, by decide, by decide, ?_⟩
  intro v hv
  simp only [List.mem_cons, List.mem_singleton, List.not_mem_nil, or_false, not_or] at hv
  obtain ⟨h1, h2, h3, h4⟩ := hv
  have e1 : ¬ "excellent" = v := fun e => h1 e.symm
  have e2 : ¬ "very_good" = v := fun e => h2 e.symm
  have e3 : ¬ "good" = v := fun e => h3 e.symm
  have e4 : ¬ "needs_improvement" = v := fun e => h4 e.symm
  simp [ratingScore, ratingValues, instructorScore, JsObject.get, e1, e2, e3, e4]

/-! ## Month keys determine the calendar month -/

theorem digitChar_spec : ∀ k, k < 10 →
    ((Nat.digitChar k).isDigit = true ∧ (Nat.digitChar k).toNat - 48 = k) := by
  decide

theorem digitsValue_append_singleton (l : List Char) (c : Char) :
    digitsValue (l ++ [c]) = 10 * digitsValue l + (c.toNat - 48) := by
  simp [digitsValue, List.foldl_append]

theorem digitsValue_zero_cons (l : List Char) : digitsValue ('0' :: l) = digitsValue l := by
  simp [digitsValue]

/-- The decimal digits produced for `n` are digits and denote `n`. -/
theorem toDigitsCore_spec (fuel n : Nat) (ds : List Char) (h : n < fuel) :
    ∃ l, Nat.toDigitsCore 10 fuel n ds = l ++ ds ∧ (∀ c ∈ l, c.isDigit = true) ∧
      digitsValue l = n := by
  induction fuel generalizing n ds with
  | zero => omega
  | succ f ih =>
    have hd := digitChar_spec (n % 10) (Nat.mod_lt _ (by norm_num))
    unfold Nat.toDigitsCore
    simp only
    by_cases h0 : n / 10 = 0
    · simp only [h0, if_true]
      refine ⟨[Nat.digitChar (n % 10)], rfl, ?_, ?_⟩
      · intro c hc
        rw [List.mem_singleton.1 hc]
        exact hd.1
      · have : digitsValue [Nat.digitChar (n % 10)]
            = (Nat.digitChar (n % 10)).toNat - 48 := by simp [digitsValue]
        rw [this, hd.2]
        omega
    · simp only [h0, if_false]
      obtain ⟨l, hl, hdig, hval⟩ := ih (n / 10) (Nat.digitChar (n % 10) :: ds) (by omega)
      refine ⟨l ++ [Nat.digitChar (n % 10)], ?_, ?_, ?_⟩
      · rw [hl]; simp
      · intro c hc
        rcases List.mem_append.1 hc with hc | hc
        · exact hdig c hc
        · rw [List.mem_singleton.1 hc]
          exact hd.1
      · rw [digitsValue_append_singleton, hval, hd.2]
        omega

theorem toDigits_spec (n : Nat) :
    (∀ c ∈ Nat.toDigits 10 n, c.isDigit = true) ∧ digitsValue (Nat.toDigits 10 n) = n := by
  obtain ⟨l, hl, hdig, hval⟩ := toDigitsCore_spec (n + 1) n [] (by omega)
  unfold Nat.toDigits
  rw [hl, List.append_nil]
  exact ⟨hdig, hval⟩

theorem toDigits_ne_nil (n : Nat) : Nat.toDigits 10 n ≠ [] := by
  unfold Nat.toDigits Nat.toDigitsCore
  simp only
  split
  · simp
  · obtain ⟨l, hl, _, _⟩ := toDigitsCore_spec n (n / 10) [Nat.digitChar (n % 10)]
      (Nat.div_lt_self (by
        by_contra h0
        have : n = 0 := by omega
        subst this
        simp at *) (by norm_num))
    rw [hl]
    simp

theorem append_cons_inj_left {x : Char} :
    ∀ (l₁ l₂ r₁ r₂ : List Char), x ∉ l₁ → x ∉ l₂ →
      l₁ ++ x :: r₁ = l₂ ++ x :: r₂ → l₁ = l₂ ∧ r₁ = r₂ := by
  intro l₁
  induction l₁ with
  | nil =>
    intro l₂ r₁ r₂ _ h2 he
    cases l₂ with
    | nil => simpa using he
    | cons b t =>
      simp only [List.nil_append, List.cons_append, List.cons.injEq] at he
      exact absurd (by rw [he.1]; exact List.mem_cons_self _ _) h2
  | cons a t ih =>
    intro l₂ r₁ r₂ h1 h2 he
    cases l₂ with
    | nil =>
      simp only [List.nil_append, List.cons_append, List.cons.injEq] at he
      exact absurd (by rw [← he.1]; exact List.mem_cons_self _ _) h1
    | cons b t' =>
      simp only [List.cons_append, List.cons.injEq] at he
      obtain ⟨hab, hrest⟩ := he
      obtain ⟨h3, h4⟩ := ih t' r₁ r₂ (fun hm => h1 (List.mem_cons_of_mem _ hm))
        (fun hm => h2 (List.mem_cons_of_mem _ hm)) hrest
      exact ⟨by rw [hab, h3], h4⟩

theorem int_repr_inj (a b : Int) (h : (toString a).data = (toString b).data) : a = b := by
  have hne : ∀ n : Nat, ∀ l, Nat.toDigits 10 n ≠ '-' :: l := by
    intro n l he
    have := (toDigits_spec n).1 '-' (by rw [he]; exact List.mem_cons_self _ _)
    exact absurd this (by decide)
  cases a with
  | ofNat m =>
    cases b with
    | ofNat k =>
      have h' : Nat.toDigits 10 m = Nat.toDigits 10 k := h
      have := congrArg digitsValue h'
      rw [(toDigits_spec m).2, (toDigits_spec k).2] at this
      rw [this]
    | negSucc k =>
      have h' : Nat.toDigits 10 m = '-' :: Nat.toDigits 10 (k + 1) := h
      exact absurd h' (hne m _)
  | negSucc m =>
    cases b with
    | ofNat k =>
      have h' : '-' :: Nat.toDigits 10 (m + 1) = Nat.toDigits 10 k := h
      exact absurd h'.symm (hne k _)
    | negSucc k =>
      have h' : '-' :: Nat.toDigits 10 (m + 1) = '-' :: Nat.toDigits 10 (k + 1) := h
      have := congrArg digitsValue (List.cons.inj h').2
      rw [(toDigits_spec (m + 1)).2, (toDigits_spec (k + 1)).2] at this
      have hmk : m = k := by omega
      rw [hmk]

theorem padStart2_spec (n : Nat) :
    (∀ c ∈ (padStart2 (toString n)).data, c.isDigit = true) ∧
    digitsValue (padStart2 (toString n)).data = n := by
  have hd : (padStart2 (toString n)).data
      = List.replicate (2 - (toString n).length) '0' ++ Nat.toDigits 10 n := by
    unfold padStart2
    rw [String.data_append]
    rfl
  rw [hd]
  obtain ⟨h1, h2⟩ := toDigits_spec n
  constructor
  · intro c hc
    rcases List.mem_append.1 hc with hc | hc
    · rw [(List.mem_replicate.1 hc).2]
      decide
    · exact h1 c hc
  · generalize 2 - (toString n).length = k
    induction k with
    | zero => simpa using h2
    | succ j ih =>
      rw [List.replicate_succ, List.cons_append, digitsValue_zero_cons]
      exact ih

/-- Two instants have the same month key exactly when the host reports the same year
and the same month for them. -/
theorem monthKey_eq_iff (host : Host) (t₁ t₂ : Int) :
    monthKey host t₁ = monthKey host t₂ ↔
      host.getFullYear t₁ = host.getFullYear t₂ ∧ host.getMonth t₁ = host.getMonth t₂ := by
  constructor
  · intro h
    have hd := congrArg String.data h
    unfold monthKey at hd
    simp only [String.data_append] at hd
    have hr := congrArg List.reverse hd
    simp only [List.reverse_append] at hr
    have hdash : ("-" : String).data.reverse = ['-'] := rfl
    rw [hdash] at hr
    simp only [List.singleton_append, List.append_assoc] at hr
    have hno : ∀ n : Nat, '-' ∉ (padStart2 (toString n)).data.reverse := by
      intro n hm
      have := (padStart2_spec n).1 '-' (List.mem_reverse.1 hm)
      exact absurd this (by decide)
    obtain ⟨hm, hy⟩ := append_cons_inj_left _ _ _ _ (hno _) (hno _) hr
    have hm' := congrArg digitsValue (List.reverse_injective hm)
    rw [(padStart2_spec _).2, (padStart2_spec _).2] at hm'
    exact ⟨int_repr_inj _ _ (List.reverse_injective hy), by omega⟩
  · rintro ⟨h1, h2⟩
    unfold monthKey
    rw [h1, h2]

/-! ## The collation of the concrete host -/

theorem codePointCompare_total : ∀ a b : List Char,
    codePointCompare a b ≤ 0 ∨ codePointCompare b a ≤ 0 := by
  intro a
  induction a with
  | nil => intro b; cases b <;> simp [codePointCompare]
  | cons x xs ih =>
    intro b
    cases b with
    | nil => simp [codePointCompare]
    | cons y ys =>
      simp only [codePointCompare]
      by_cases h1 : x.toNat < y.toNat
      · simp [h1]
      · by_cases h2 : y.toNat < x.toNat
        · simp [h1, h2]
        · simp only [h1, h2, if_false]
          exact ih ys

theorem codePointCompare_trans : ∀ a b c : List Char,
    codePointCompare a b ≤ 0 → codePointCompare b c ≤ 0 → codePointCompare a c ≤ 0 := by
  intro a
  induction a with
  | nil => intro b c _ _; cases c <;> simp [codePointCompare]
  | cons x xs ih =>
    intro b c hab hbc
    cases b with
    | nil => simp [codePointCompare] at hab
    | cons y ys =>
      cases c with
      | nil => simp [codePointCompare] at hbc
      | cons z zs =>
        simp only [codePointCompare] at hab hbc ⊢
        by_cases h1 : x.toNat < y.toNat
        · by_cases h2 : y.toNat < z.toNat
          · have : x.toNat < z.toNat := by omega
            simp [this]
          · by_cases h3 : z.toNat < y.toNat
            · simp [h2, h3] at hbc
            · have : x.toNat < z.toNat := by omega
              simp [this]
        · by_cases h1' : y.toNat < x.toNat
          · simp [h1, h1'] at hab
          · simp only [h1, h1', if_false] at hab
            by_cases h2 : y.toNat < z.toNat
            · have : x.toNat < z.toNat := by omega
              simp [this]
            · by_cases h3 : z.toNat < y.toNat
              · simp [h2, h3] at hbc
              · simp only [h2, h3, if_false] at hbc
                have e1 : ¬ x.toNat < z.toNat := by omega
                have e2 : ¬ z.toNat < x.toNat := by omega
                simp only [e1, e2, if_false]
                exact ih ys zs hab hbc

theorem utcHost_consistent : ConsistentComparator utcHost.localeCompare :=
  ⟨fun a b => codePointCompare_total a.data b.data,
   fun a b c => codePointCompare_trans a.data b.data c.data⟩

theorem length_ratingEntries_filter (p : JoinedEvaluation → Bool) (es : List JoinedEvaluation) :
    (ratingEntries (es.filter p)).length ≤ (ratingEntries es).length := by
  induction es with
  | nil => simp
  | cons e rest ih =>
    by_cases h : p e = true
    · simp only [List.filter_cons, h, if_true, ratingEntries, List.flatMap_cons,
        List.length_append] at ih ⊢
      omega
    · have h' : p e = false := by simpa using h
      simp only [List.filter_cons, h', Bool.false_eq_true, if_false, ratingEntries,
        List.flatMap_cons, List.length_append] at ih ⊢
      omega

/-- Four evaluations of one session, submitted on 2023-11-14, 2024-03-15, 2024-03-20
and 2024-01-10 (UTC), the last one without rating entries. -/
def trendEvaluations : List JoinedEvaluation :=
  [ { evaluation := { ratings := [⟨"Presentation", "Instructors Knowledge", "very_good"⟩],
                      submitted_at := 1700000000000 },
      session := { id := "s1", instructor_name := some "Kaleb" } },
    { evaluation := { ratings := [⟨"Presentation", "Instructors Knowledge", "excellent"⟩],
                      submitted_at := 1710460800000 },
      session := { id := "s1", instructor_name := some "Kaleb" } },
    { evaluation := { ratings := [⟨"Presentation", "Instructors Knowledge", "good"⟩,
                                  ⟨"Content Quality", "Well organized", "good"⟩],
                      submitted_at := 1710892800000 },
      session := { id := "s1", instructor_name := some "Kaleb" } },
    { evaluation := { ratings := [], submitted_at := 1704844800000 },
      session := { id := "s1", instructor_name := some "Kaleb" } } ]

/-! ## Own properties and the prototype chain -/

/-- The object with every value replaced by its image. -/
def mapValues {α β : Type} (g : α → β) (o : JsObject α) : JsObject β :=
  o.map (fun p => (p.1, g p.2))

theorem entries_mapValues {α β : Type} (g : α → β) (o : JsObject α) :
    entries (mapValues g o) = mapValues g (entries o) := by
  have hidx : indexEntries (mapValues g o)
      = (indexEntries o).map (fun ip => (ip.1, (ip.2.1, g ip.2.2))) := by
    unfold indexEntries mapValues
    rw [List.filterMap_map, List.map_filterMap]
    congr 1
    funext p
    simp only [Function.comp]
    cases arrayIndex p.1 <;> rfl
  have hname : nameEntries (mapValues g o) = mapValues g (nameEntries o) := by
    unfold nameEntries mapValues
    rw [List.filter_map]
    rfl
  unfold entries
  rw [hidx, hname]
  rw [← List.map_insertionSort (fun a b => a.1 ≤ b.1) (fun a b => a.1 ≤ b.1)
    (fun ip : Nat × (String × α) => (ip.1, (ip.2.1, g ip.2.2))) (indexEntries o)
    (fun a _ b _ => Iff.rfl)]
  simp only [mapValues, List.map_append, List.map_map]
  rfl

theorem keys_mapValues {α β : Type} (g : α → β) (o : JsObject α) :
    (mapValues g o).keys = o.keys := by
  simp [mapValues, JsObject.keys, List.map_map, Function.comp]

theorem get_mapValues {α β : Type} (g : α → β) (o : JsObject α) (k : String) :
    (mapValues g o).get k = (o.get k).map g := by
  induction o with
  | nil => rfl
  | cons p o ih =>
    obtain ⟨pk, pv⟩ := p
    simp only [mapValues, List.map_cons, JsObject.get] at ih ⊢
    split
    · rfl
    · exact ih

theorem set_mapValues {α β : Type} (g : α → β) (o : JsObject α) (k : String) (v : α) :
    (mapValues g o).set k (g v) = mapValues g (o.set k v) := by
  induction o with
  | nil => rfl
  | cons p o ih =>
    obtain ⟨pk, pv⟩ := p
    simp only [mapValues, List.map_cons, JsObject.set] at ih ⊢
    split
    · rfl
    · simp only [List.map_cons, ih]

theorem modify_mapValues {α β : Type} (g : α → β) (o : JsObject α) (k : String)
    (f : α → α) (f' : β → β) (h : ∀ a, f' (g a) = g (f a)) :
    (mapValues g o).modify k f' = mapValues g (o.modify k f) := by
  induction o with
  | nil => rfl
  | cons p o ih =>
    obtain ⟨pk, pv⟩ := p
    simp only [mapValues, List.map_cons, JsObject.modify] at ih ⊢
    split
    · simp only [List.map_cons, h]
    · simp only [List.map_cons, ih]

theorem upsert_mapValues {α β : Type} (g : α → β) (o : JsObject α) (k : String)
    (init : α) (f : α → α) (f' : β → β) (h : ∀ a, f' (g a) = g (f a)) :
    (mapValues g o).upsert k (g init) f' = mapValues g (o.upsert k init f) := by
  unfold JsObject.upsert
  rw [get_mapValues]
  cases o.get k with
  | none =>
    simp only [Option.map_none']
    rw [set_mapValues, modify_mapValues g _ k f f' h]
  | some v =>
    simp only [Option.map_some']
    rw [modify_mapValues g _ k f f' h]

theorem lookup_of_not_inherited {α : Type} (o : JsObject α) (k : String)
    (hk : k ∉ inheritedNames) :
    o.lookup k = match o.get k with
      | some v => .own v
      | none => .undefined := by
  unfold JsObject.lookup
  have : inheritedNames.contains k = false := by simpa using hk
  cases o.get k <;> simp [hk]

theorem lookup_of_get {α : Type} (o : JsObject α) (k : String) (v : α)
    (h : o.get k = some v) : o.lookup k = .own v := by
  unfold JsObject.lookup
  rw [h]

theorem lookup_inherited {α : Type} (o : JsObject α) (k : String)
    (hk : k ∈ inheritedNames) (ho : k ∉ o.keys) : o.lookup k = .builtin := by
  unfold JsObject.lookup
  have : inheritedNames.contains k = true := by simpa using hk
  rw [(JsObject.get_eq_none_iff o k).2 ho]
  simp [hk]

theorem assign_of_not_inherited {α : Type} (o : JsObject α) (k : String) (v : α)
    (hk : k ∉ inheritedNames) : o.assign k v = o.set k v := by
  unfold JsObject.assign
  have : k ≠ "__proto__" := by
    rintro rfl
    exact hk (by decide)
  simp [this]

/-! ## The dashboard loops and their own-property versions -/

/-- The accumulator of the own-property loop as the accumulator of the loop. -/
def QuestionAcc.ofOwn (d : QuestionAccOwn) : QuestionAcc :=
  { sum := .number d.sum, count := d.count, group := d.group }

theorem ratingValue_of_not_inherited (v : String) (h : v ∉ inheritedNames) :
    ratingValue v = .number (ratingScore v) := by
  unfold ratingValue ratingScore
  rw [lookup_of_not_inherited _ _ h]
  cases ratingValues.get v <;> rfl

theorem ratingValue_inherited (v : String) (h : v ∈ inheritedNames) :
    ratingValue v = .builtin := by
  revert h
  simp only [inheritedNames, List.mem_cons, List.mem_singleton, List.not_mem_nil, or_false]
  rintro (h | h | h | h | h | h | h | h | h | h | h | h) <;> subst h <;> rfl

/-- The `questionAverages` half of `ratingStep`. -/
def accStep (qa : JsObject QuestionAcc) (rating : Rating) : JsObject QuestionAcc :=
  (ratingStep (qa, []) rating).1

/-- The `ratingCounts` half of `ratingStep`. -/
def countStep (rc : JsObject JsValue) (rating : String) : JsObject JsValue :=
  (ratingStep ([], rc) ⟨"", "", rating⟩).2

theorem ratingStep_eq (st : JsObject QuestionAcc × JsObject JsValue) (r : Rating) :
    ratingStep st r = (accStep st.1 r, countStep st.2 r.rating) := rfl

theorem foldl_ratingStep (rs : List Rating) (st : JsObject QuestionAcc × JsObject JsValue) :
    rs.foldl ratingStep st
      = (rs.foldl accStep st.1, (rs.map (fun r => r.rating)).foldl countStep st.2) := by
  induction rs generalizing st with
  | nil => rfl
  | cons r rest ih =>
    rw [List.foldl_cons, ih, ratingStep_eq]
    rfl

theorem ratingLoop_eq (evaluationData : List Evaluation) :
    ratingLoop evaluationData = (allRatings evaluationData).foldl ratingStep ([], []) := by
  unfold ratingLoop allRatings
  generalize (([], []) : JsObject QuestionAcc × JsObject JsValue) = st
  induction evaluationData generalizing st with
  | nil => rfl
  | cons e rest ih => simp [List.flatMap_cons, List.foldl_append, ih]

theorem accStep_inherited (qa : JsObject QuestionAcc) (r : Rating)
    (hq : r.question ∈ inheritedNames) (ho : r.question ∉ qa.keys) : accStep qa r = qa := by
  unfold accStep ratingStep
  simp only [lookup_inherited qa r.question hq ho]

theorem accStep_ofOwn (qa : JsObject QuestionAccOwn) (r : Rating)
    (hq : r.question ∉ inheritedNames) (hr : r.rating ∉ inheritedNames) :
    accStep (mapValues QuestionAcc.ofOwn qa) r = mapValues QuestionAcc.ofOwn (accStepOwn qa r) := by
  unfold accStepOwn
  rw [← upsert_mapValues QuestionAcc.ofOwn qa r.question _ _
    (fun d => { sum := d.sum.add (ratingValue r.rating), count := d.count + 1, group := d.group })]
  · unfold accStep ratingStep JsObject.upsert
    simp only [lookup_of_not_inherited _ _ hq]
    cases hg : (mapValues QuestionAcc.ofOwn qa).get r.question with
    | none =>
      simp only [JsObject.get_set, if_true, JsObject.modify_modify]
      rfl
    | some d =>
      simp only [hg, JsObject.modify_modify]
  · intro a
    rw [ratingValue_of_not_inherited _ hr]
    rfl

theorem set_set {α : Type} (o : JsObject α) (k : String) (v w : α) :
    (o.set k v).set k w = o.set k w := by
  induction o with
  | nil => simp [JsObject.set]
  | cons p o ih =>
    obtain ⟨pk, pv⟩ := p
    by_cases h : pk = k
    · simp [JsObject.set, h]
    · simp [JsObject.set, h, ih]

theorem countStep_number (rc : JsObject Nat) (v : String) (hv : v ∉ inheritedNames) :
    countStep (mapValues JsValue.number rc) v = mapValues JsValue.number (rc.bump v) := by
  unfold countStep ratingStep JsObject.bump
  simp only [lookup_of_not_inherited _ _ hv, assign_of_not_inherited _ _ _ hv, get_mapValues]
  cases hg : rc.get v with
  | none =>
    simp only [Option.map_none', JsObject.get_set, if_true, set_set, Option.getD_none]
    rw [← set_mapValues]
    rfl
  | some n =>
    cases n with
    | zero =>
      simp only [Option.map_some', JsValue.truthy, bne_self_eq_false, Bool.false_eq_true,
        if_false, JsObject.get_set, if_true, set_set, Option.getD_some]
      rw [← set_mapValues]
      rfl
    | succ m =>
      have ht : (JsValue.number (m + 1)).truthy = true := by simp [JsValue.truthy]
      simp only [Option.map_some', ht, if_true, get_mapValues, hg, Option.getD_some]
      rw [← set_mapValues]
      rfl

theorem foldl_countStep_number (vs : List String) (rc : JsObject Nat)
    (h : ∀ v ∈ vs, v ∉ inheritedNames) :
    vs.foldl countStep (mapValues JsValue.number rc)
      = mapValues JsValue.number (vs.foldl JsObject.bump rc) := by
  induction vs generalizing rc with
  | nil => rfl
  | cons v rest ih =>
    rw [List.foldl_cons, countStep_number rc v (h v (List.mem_cons_self _ _)),
      ih _ (fun x hx => h x (List.mem_cons_of_mem _ hx))]
    rfl

theorem keys_accStepOwn_clean (qa : JsObject QuestionAccOwn) (r : Rating)
    (hq : r.question ∉ inheritedNames) (h : ∀ k ∈ qa.keys, k ∉ inheritedNames) :
    ∀ k ∈ (accStepOwn qa r).keys, k ∉ inheritedNames := by
  intro k hk
  unfold accStepOwn at hk
  rw [JsObject.keys_upsert] at hk
  split at hk
  · exact h k hk
  · rcases List.mem_append.1 hk with hk | hk
    · exact h k hk
    · rw [List.mem_singleton] at hk
      subst hk; exact hq

/-- The rating entries whose question text is no inherited name. -/
def ownQuestions (rs : List Rating) : List Rating :=
  rs.filter (fun r => !inheritedNames.contains r.question)

theorem foldl_accStep_ofOwn (rs : List Rating) (qa : JsObject QuestionAccOwn)
    (hr : ∀ r ∈ rs, r.rating ∉ inheritedNames) (hk : ∀ k ∈ qa.keys, k ∉ inheritedNames) :
    rs.foldl accStep (mapValues QuestionAcc.ofOwn qa)
      = mapValues QuestionAcc.ofOwn ((ownQuestions rs).foldl accStepOwn qa) := by
  induction rs generalizing qa with
  | nil => rfl
  | cons r rest ih =>
    rw [List.foldl_cons]
    by_cases hq : r.question ∈ inheritedNames
    · have hc : inheritedNames.contains r.question = true := by simpa using hq
      rw [accStep_inherited _ r hq (by rw [keys_mapValues]; exact fun hm => hk _ hm hq),
        ih qa (fun x hx => hr x (List.mem_cons_of_mem _ hx)) hk]
      simp [ownQuestions, List.filter_cons, hq]
    · have hc : inheritedNames.contains r.question = false := by simpa using hq
      rw [accStep_ofOwn qa r hq (hr r (List.mem_cons_self _ _)),
        ih _ (fun x hx => hr x (List.mem_cons_of_mem _ hx)) (keys_accStepOwn_clean qa r hq hk)]
      simp [ownQuestions, List.filter_cons, hq]

theorem averagesOf_ofOwn (qa : JsObject QuestionAccOwn) :
    averagesOf (mapValues QuestionAcc.ofOwn qa) = averagesOfOwn qa := by
  unfold averagesOf averagesOfOwn
  rw [entries_mapValues]
  simp only [mapValues, List.map_map]
  rfl

theorem tallyStep_number (o : JsObject Nat) (k : String) (hk : k ∉ inheritedNames) :
    tallyStep (mapValues JsValue.number o) k = mapValues JsValue.number (o.bump k) := by
  unfold tallyStep JsObject.bump
  simp only [lookup_of_not_inherited _ _ hk, assign_of_not_inherited _ _ _ hk, get_mapValues]
  cases hg : o.get k with
  | none =>
    simp only [Option.map_none', Option.getD_none]
    rw [← set_mapValues]
    rfl
  | some n =>
    cases n with
    | zero =>
      simp only [Option.map_some', JsValue.truthy, bne_self_eq_false, Bool.false_eq_true,
        if_false, Option.getD_some]
      rw [← set_mapValues]
      rfl
    | succ m =>
      have ht : (JsValue.number (m + 1)).truthy = true := by simp [JsValue.truthy]
      simp only [Option.map_some', ht, if_true, Option.getD_some]
      rw [← set_mapValues]
      rfl

theorem label_not_inherited (s : String) (h : s ∈ overallEvaluationOptions) :
    s ∉ inheritedNames := by
  revert h
  simp only [overallEvaluationOptions, List.mem_cons, List.mem_singleton, List.not_mem_nil,
    or_false]
  rintro (h | h | h | h | h) <;> subst h <;> decide

theorem sourceStep_number (st : JsObject Nat × JsObject Nat) (s : String)
    (hs : s ∉ inheritedNames) :
    sourceStep (mapValues JsValue.number st.1, mapValues JsValue.number st.2) s
      = (mapValues JsValue.number (sourceStepOwn st s).1,
         mapValues JsValue.number (sourceStepOwn st s).2) := by
  rw [sourceStepOwn_eq]
  unfold sourceStep
  by_cases h : s ∈ overallEvaluationOptions
  · have hc : overallEvaluationOptions.contains s = true := by simpa using h
    simp only [hc, if_true, h, tallyStep_number _ _ hs]
  · have hc : overallEvaluationOptions.contains s = false := by simpa using h
    simp only [hc, Bool.false_eq_true, if_false, h, tallyStep_number _ _ hs]

theorem foldl_sourceStep_number (ss : List String) (st : JsObject Nat × JsObject Nat)
    (h : ∀ s ∈ ss, s ∉ inheritedNames) :
    ss.foldl sourceStep (mapValues JsValue.number st.1, mapValues JsValue.number st.2)
      = (mapValues JsValue.number (ss.foldl sourceStepOwn st).1,
         mapValues JsValue.number (ss.foldl sourceStepOwn st).2) := by
  induction ss generalizing st with
  | nil => rfl
  | cons s rest ih =>
    rw [List.foldl_cons, sourceStep_number st s (h s (List.mem_cons_self _ _)),
      ih _ (fun x hx => h x (List.mem_cons_of_mem _ hx))]
    rfl

theorem sourceLoop_eq (evaluationData : List Evaluation) :
    sourceLoop evaluationData = (allSources evaluationData).foldl sourceStep ([], []) := by
  unfold sourceLoop allSources
  generalize (([], []) : JsObject JsValue × JsObject JsValue) = st
  induction evaluationData generalizing st with
  | nil => rfl
  | cons e rest ih =>
    cases h : e.sources <;> simp [List.flatMap_cons, List.foldl_append, ih, h]

theorem calculateAnalytics_of_ne_nil (evaluationData : List Evaluation)
    (h : evaluationData ≠ []) :
    calculateAnalytics evaluationData = some
      { totalResponses := evaluationData.length
        ratingCounts := (ratingLoop evaluationData).2
        questionAverages := averagesOf (ratingLoop evaluationData).1
        sourceCounts := (sourceLoop evaluationData).2
        overallEvaluationCounts := (sourceLoop evaluationData).1
        allSuggestions := suggestionLoop evaluationData } := by
  unfold calculateAnalytics
  have : evaluationData.length ≠ 0 := by
    intro h0
    exact h (List.length_eq_zero.1 h0)
  simp [this]

/-- An evaluation without the rating entries whose question text is an inherited
name. -/
def withOwnQuestions (e : Evaluation) : Evaluation :=
  { e with ratings := ownQuestions e.ratings }

theorem allRatings_withOwnQuestions (evaluationData : List Evaluation) :
    allRatings (evaluationData.map withOwnQuestions) = ownQuestions (allRatings evaluationData) := by
  induction evaluationData with
  | nil => rfl
  | cons e rest ih =>
    simp only [allRatings, List.map_cons, List.flatMap_cons, ownQuestions,
      List.filter_append] at ih ⊢
    rw [ih]
    rfl

theorem ratingCounts_eq_own (evaluationData : List Evaluation)
    (h : ∀ r ∈ allRatings evaluationData, r.rating ∉ inheritedNames) :
    (ratingLoop evaluationData).2
      = mapValues JsValue.number (ratingLoopOwn evaluationData).2 := by
  rw [ratingLoop_eq, ratingLoopOwn_eq, foldl_ratingStep, foldl_ratingStepOwn]
  exact foldl_countStep_number _ [] (by
    intro v hv
    obtain ⟨r, hr, rfl⟩ := List.mem_map.1 hv
    exact h r hr)

theorem questionAverages_eq_own (evaluationData : List Evaluation)
    (h : ∀ r ∈ allRatings evaluationData, r.rating ∉ inheritedNames) :
    averagesOf (ratingLoop evaluationData).1
      = averagesOfOwn (ratingLoopOwn (evaluationData.map withOwnQuestions)).1 := by
  rw [ratingLoop_eq, ratingLoopOwn_eq, foldl_ratingStep, foldl_ratingStepOwn,
    allRatings_withOwnQuestions]
  have := foldl_accStep_ofOwn (allRatings evaluationData) [] h (by simp [JsObject.keys])
  simp only [mapValues, List.map_nil] at this
  rw [this]
  exact averagesOf_ofOwn _

theorem sourceLoop_eq_own (evaluationData : List Evaluation)
    (h : ∀ s ∈ allSources evaluationData, s ∉ inheritedNames) :
    sourceLoop evaluationData
      = (mapValues JsValue.number (sourceLoopOwn evaluationData).1,
         mapValues JsValue.number (sourceLoopOwn evaluationData).2) := by
  rw [sourceLoop_eq, sourceLoopOwn_eq]
  exact foldl_sourceStep_number _ ([], []) h

theorem accStep_eq_upsert (qa : JsObject QuestionAcc) (r : Rating)
    (hq : r.question ∉ inheritedNames) :
    accStep qa r = qa.upsert r.question { sum := .number 0, count := 0, group := r.group }
      (fun d => { sum := d.sum.add (ratingValue r.rating), count := d.count + 1,
                  group := d.group }) := by
  unfold accStep ratingStep JsObject.upsert
  simp only [lookup_of_not_inherited _ _ hq]
  cases hg : qa.get r.question with
  | none =>
    simp only [JsObject.get_set, if_true, JsObject.modify_modify]
  | some d =>
    simp only [hg, JsObject.modify_modify]

/-- An average entry without its average: question text, group label and count. -/
def QuestionAverage.counted (e : QuestionAverage) : String × String × Nat :=
  (e.question, e.group, e.count)

theorem foldl_accStep_counted (rs : List Rating) (qa : JsObject QuestionAcc)
    (qa' : JsObject QuestionAccOwn)
    (h : mapValues (fun d : QuestionAcc => (d.count, d.group)) qa
      = mapValues (fun d : QuestionAccOwn => (d.count, d.group)) qa')
    (hk : ∀ k ∈ qa.keys, k ∉ inheritedNames) :
    mapValues (fun d : QuestionAcc => (d.count, d.group)) (rs.foldl accStep qa)
      = mapValues (fun d : QuestionAccOwn => (d.count, d.group))
          ((ownQuestions rs).foldl accStepOwn qa') := by
  induction rs generalizing qa qa' with
  | nil => exact h
  | cons r rest ih =>
    rw [List.foldl_cons]
    by_cases hq : r.question ∈ inheritedNames
    · rw [accStep_inherited _ r hq (fun hm => hk _ hm hq), ih qa qa' h hk]
      simp [ownQuestions, List.filter_cons, hq]
    · have hstep : mapValues (fun d : QuestionAcc => (d.count, d.group)) (accStep qa r)
          = mapValues (fun d : QuestionAccOwn => (d.count, d.group)) (accStepOwn qa' r) := by
        rw [accStep_eq_upsert qa r hq]
        unfold accStepOwn
        rw [← upsert_mapValues (fun d : QuestionAcc => (d.count, d.group)) qa r.question _ _
            (fun p => (p.1 + 1, p.2)) (fun _ => rfl),
          ← upsert_mapValues (fun d : QuestionAccOwn => (d.count, d.group)) qa' r.question _ _
            (fun p => (p.1 + 1, p.2)) (fun _ => rfl), h]
      have hk' : ∀ k ∈ (accStep qa r).keys, k ∉ inheritedNames := by
        intro k hkm
        rw [accStep_eq_upsert qa r hq, JsObject.keys_upsert] at hkm
        split at hkm
        · exact hk k hkm
        · rcases List.mem_append.1 hkm with hkm | hkm
          · exact hk k hkm
          · rw [List.mem_singleton] at hkm
            subst hkm; exact hq
      rw [ih _ _ hstep hk']
      simp [ownQuestions, List.filter_cons, hq]

theorem counted_eq_own (evaluationData : List Evaluation) :
    (averagesOf (ratingLoop evaluationData).1).map QuestionAverage.counted
      = (averagesOfOwn (ratingLoopOwn (evaluationData.map withOwnQuestions)).1).map
          QuestionAverage.counted := by
  rw [ratingLoop_eq, ratingLoopOwn_eq, foldl_ratingStep, foldl_ratingStepOwn,
    allRatings_withOwnQuestions]
  have := foldl_accStep_counted (allRatings evaluationData) [] [] rfl (by simp [JsObject.keys])
  unfold averagesOf averagesOfOwn
  have e1 := congrArg entries this
  rw [entries_mapValues, entries_mapValues] at e1
  simp only [mapValues, List.map_map] at e1 ⊢
  have e2 := congrArg (List.map (fun p : String × Nat × String => (p.1, p.2.2, p.2.1))) e1
  simp only [List.map_map] at e2
  exact e2

theorem map_withOwnQuestions_ne_nil (evaluationData : List Evaluation)
    (h : evaluationData ≠ []) : evaluationData.map withOwnQuestions ≠ [] := by
  cases evaluationData with
  | nil => exact absurd rfl h
  | cons e l => simp

theorem ratingsFor_ownQuestions (q : String) (hq : q ∉ inheritedNames) (rs : List Rating) :
    ratingsFor q (ownQuestions rs) = ratingsFor q rs := by
  unfold ratingsFor ownQuestions
  rw [List.filter_filter]
  apply List.filter_congr
  intro r _
  by_cases h : r.question = q
  · subst h
    simp [hq]
  · simp [h]

theorem mem_ownQuestions (rs : List Rating) (r : Rating) :
    r ∈ ownQuestions rs ↔ r ∈ rs ∧ r.question ∉ inheritedNames := by
  simp [ownQuestions, List.mem_filter]

theorem length_ownQuestions_le (rs : List Rating) : (ownQuestions rs).length ≤ rs.length :=
  List.length_filter_le _ _

/-- The analytics object and its own-property counterparts, on a non-empty input: the
averages are those of the own-property loop on the entries whose question text is no
inherited name, provided no rating value is an inherited name. -/
theorem analytics_averages (evaluationData : List Evaluation) (h : evaluationData ≠ [])
    (hr : ∀ r ∈ allRatings evaluationData, r.rating ∉ inheritedNames) :
    ∃ a a', calculateAnalytics evaluationData = some a ∧
      calculateAnalyticsOwn (evaluationData.map withOwnQuestions) = some a' ∧
      a.questionAverages = a'.questionAverages :=
  ⟨_, _, calculateAnalytics_of_ne_nil _ h,
    calculateAnalyticsOwn_of_ne_nil _ (map_withOwnQuestions_ne_nil _ h),
    questionAverages_eq_own evaluationData hr⟩

theorem analytics_counted (evaluationData : List Evaluation) (h : evaluationData ≠ []) :
    ∃ a a', calculateAnalytics evaluationData = some a ∧
      calculateAnalyticsOwn (evaluationData.map withOwnQuestions) = some a' ∧
      a.questionAverages.map QuestionAverage.counted
        = a'.questionAverages.map QuestionAverage.counted :=
  ⟨_, _, calculateAnalytics_of_ne_nil _ h,
    calculateAnalyticsOwn_of_ne_nil _ (map_withOwnQuestions_ne_nil _ h),
    counted_eq_own evaluationData⟩

theorem analytics_ratingCounts (evaluationData : List Evaluation) (h : evaluationData ≠ [])
    (hr : ∀ r ∈ allRatings evaluationData, r.rating ∉ inheritedNames) :
    ∃ a a', calculateAnalytics evaluationData = some a ∧
      calculateAnalyticsOwn evaluationData = some a' ∧
      a.ratingCounts = mapValues JsValue.number a'.ratingCounts :=
  ⟨_, _, calculateAnalytics_of_ne_nil _ h, calculateAnalyticsOwn_of_ne_nil _ h,
    ratingCounts_eq_own evaluationData hr⟩

theorem analytics_sources (evaluationData : List Evaluation) (h : evaluationData ≠ [])
    (hs : ∀ s ∈ allSources evaluationData, s ∉ inheritedNames) :
    ∃ a a', calculateAnalytics evaluationData = some a ∧
      calculateAnalyticsOwn evaluationData = some a' ∧
      a.overallEvaluationCounts = mapValues JsValue.number a'.overallEvaluationCounts ∧
      a.sourceCounts = mapValues JsValue.number a'.sourceCounts := by
  refine ⟨_, _, calculateAnalytics_of_ne_nil _ h, calculateAnalyticsOwn_of_ne_nil _ h, ?_, ?_⟩
  · simp only [sourceLoop_eq_own evaluationData hs]
  · simp only [sourceLoop_eq_own evaluationData hs]

theorem foldl_sourceStep (ss : List String) (st : JsObject JsValue × JsObject JsValue) :
    ss.foldl sourceStep st
      = ((ss.filter (fun s => decide (s ∈ overallEvaluationOptions))).foldl tallyStep st.1,
         (ss.filter (fun s => decide (s ∉ overallEvaluationOptions))).foldl tallyStep st.2) := by
  induction ss generalizing st with
  | nil => rfl
  | cons x rest ih =>
    rw [List.foldl_cons, ih]
    unfold sourceStep
    by_cases h : x ∈ overallEvaluationOptions
    · have hc : overallEvaluationOptions.contains x = true := by simpa using h
      simp [h, hc, List.filter_cons]
    · have hc : overallEvaluationOptions.contains x = false := by simpa using h
      simp [h, hc, List.filter_cons]

theorem foldl_tallyStep_number (ks : List String) (o : JsObject Nat)
    (h : ∀ k ∈ ks, k ∉ inheritedNames) :
    ks.foldl tallyStep (mapValues JsValue.number o)
      = mapValues JsValue.number (ks.foldl JsObject.bump o) := by
  induction ks generalizing o with
  | nil => rfl
  | cons k rest ih =>
    rw [List.foldl_cons, tallyStep_number o k (h k (List.mem_cons_self _ _)),
      ih _ (fun x hx => h x (List.mem_cons_of_mem _ hx))]
    rfl

theorem overall_eq_own (evaluationData : List Evaluation) :
    (sourceLoop evaluationData).1
      = mapValues JsValue.number (sourceLoopOwn evaluationData).1 := by
  rw [sourceLoop_eq, sourceLoopOwn_eq, foldl_sourceStep, foldl_sourceStepOwn]
  exact foldl_tallyStep_number _ [] (by
    intro k hk
    exact label_not_inherited k (by simpa using (List.mem_filter.1 hk).2))

theorem sourceCounts_eq_own (evaluationData : List Evaluation)
    (h : ∀ s ∈ allSources evaluationData, s ∉ inheritedNames) :
    (sourceLoop evaluationData).2
      = mapValues JsValue.number (sourceLoopOwn evaluationData).2 := by
  rw [sourceLoop_eq, sourceLoopOwn_eq, foldl_sourceStep, foldl_sourceStepOwn]
  exact foldl_tallyStep_number _ [] (fun k hk => h k (List.mem_filter.1 hk).1)

theorem get_number {o : JsObject Nat} {k : String} {c : Prop} [Decidable c] {n : Nat}
    (h : o.get k = if c then some n else none) :
    (mapValues JsValue.number o).get k = if c then some (.number n) else none := by
  rw [get_mapValues, h]
  split <;> rfl

/-! ## Absent analytics, recommendations, source tallies, rating distribution -/

/-- C7: `calculateAnalytics` yields the absent state exactly for the empty list, and for
a non-empty list an object whose `totalResponses` is the length of the list. -/
theorem calculateAnalytics_absent_iff_empty (evaluationData : List Evaluation) :
    (calculateAnalytics evaluationData = none ↔ evaluationData = []) ∧
    (evaluationData ≠ [] → ∃ a, calculateAnalytics evaluationData = some a ∧
      a.totalResponses = evaluationData.length) := by
  constructor
  · constructor
    · intro hnone
      by_contra hne
      rw [calculateAnalytics_of_ne_nil _ hne] at hnone
      exact Option.noConfusion hnone
    · intro he
      subst he
      rfl
  · intro hne
    exact ⟨_, calculateAnalytics_of_ne_nil _ hne, rfl⟩

/-- C6: for every list of evaluations (the empty one yields no analytics object), the
recommendation list is the concatenation, in evaluation order and then in per-evaluation
order, of exactly the suggestion entries with at least one non-empty field among name,
phone and email. -/
theorem recommendations_collected (evaluationData : List Evaluation) :
    (evaluationData = [] ∧ calculateAnalytics evaluationData = none) ∨
    ∃ a, calculateAnalytics evaluationData = some a ∧
      a.allSuggestions = (allSuggestionEntries evaluationData).filter hasContact ∧
      ∀ s : Suggestion, hasContact s = true ↔
        (NonEmptyField s.name ∨ NonEmptyField s.phone ∨ NonEmptyField s.email) := by
  by_cases h : evaluationData = []
  · left
    subst h
    exact ⟨rfl, rfl⟩
  · right
    exact ⟨_, calculateAnalytics_of_ne_nil _ h, suggestionLoop_eq _, hasContact_iff⟩

/-- One evaluation whose sources are two inherited property names. -/
def inheritedSourceEvaluations : List Evaluation :=
  [{ ratings := [], sources := some ["__proto__", "constructor"] }]

/-- C5 as stated fails on property names inherited from `Object.prototype`: of the two
sources `__proto__` and `constructor`, neither a label, the first increments no tally
and the second leaves a string, not the count 1, in the source tally. -/
theorem sources_partition_counterexample :
    "__proto__" ∉ overallEvaluationOptions ∧ "constructor" ∉ overallEvaluationOptions ∧
    (calculateAnalytics inheritedSourceEvaluations).map
        (fun a => (a.overallEvaluationCounts, a.sourceCounts))
      = some ([], [("constructor", .text)]) := by
  decide

/-- C5, amended: for every list of evaluations whose `sources` entries are no property
names inherited from `Object.prototype` (the empty list yields no analytics object),
every `sources` entry is counted in exactly one tally, the overall-evaluation tally when
it is one of the five labels and the source tally otherwise; the two tallies have
disjoint keys, their values are numbers and these add up to the number of entries. -/
theorem sources_partition (evaluationData : List Evaluation)
    (hs : ∀ s ∈ allSources evaluationData, s ∉ inheritedNames) :
    (evaluationData = [] ∧ calculateAnalytics evaluationData = none) ∨
    ∃ a, calculateAnalytics evaluationData = some a ∧
      (∀ s, a.overallEvaluationCounts.get s =
        if s ∈ ["Excellent", "Very Good", "Good", "Fair", "Poor"]
            ∧ s ∈ allSources evaluationData
        then some (.number ((allSources evaluationData).count s)) else none) ∧
      (∀ s, a.sourceCounts.get s =
        if s ∉ ["Excellent", "Very Good", "Good", "Fair", "Poor"]
            ∧ s ∈ allSources evaluationData
        then some (.number ((allSources evaluationData).count s)) else none) ∧
      (∀ s, ¬ (s ∈ a.overallEvaluationCounts.keys ∧ s ∈ a.sourceCounts.keys)) ∧
      a.overallEvaluationCounts.keys.Nodup ∧ a.sourceCounts.keys.Nodup ∧
      ∃ overall sources : JsObject Nat,
        a.overallEvaluationCounts = mapValues .number overall ∧
        a.sourceCounts = mapValues .number sources ∧
        tallyTotal overall + tallyTotal sources = (allSources evaluationData).length := by
  by_cases h : evaluationData = []
  · left
    subst h
    exact ⟨rfl, rfl⟩
  right
  obtain ⟨a, a', ha, ha', ho, hsc⟩ := analytics_sources evaluationData h hs
  rcases sources_partition_own evaluationData with ⟨he, _⟩ | ⟨b, hb, h1, h2, h3, h4, h5, h6⟩
  · exact absurd he h
  rw [ha'] at hb
  cases hb
  refine ⟨a, ha, ?_, ?_, ?_, ?_, ?_, a'.overallEvaluationCounts, a'.sourceCounts, ho, hsc, h6⟩
  · intro s
    rw [ho]
    exact get_number (h1 s)
  · intro s
    rw [hsc]
    exact get_number (h2 s)
  · intro s
    rw [ho, hsc, keys_mapValues, keys_mapValues]
    exact h3 s
  · rw [ho, keys_mapValues]; exact h4
  · rw [hsc, keys_mapValues]; exact h5

/-- Instance of C5 (amended) on `sampleEvaluations`: one label and three other
entries. -/
theorem sources_partition_witness :
    (∀ s ∈ allSources sampleEvaluations, s ∉ inheritedNames) ∧
    ∃ a, calculateAnalytics sampleEvaluations = some a ∧
      a.overallEvaluationCounts = [("Good", .number 1)] ∧
      a.sourceCounts = [("facebook", .number 2), ("other", .number 1)] ∧
      ∃ overall sources : JsObject Nat,
        a.overallEvaluationCounts = mapValues .number overall ∧
        a.sourceCounts = mapValues .number sources ∧
        tallyTotal overall + tallyTotal sources = (allSources sampleEvaluations).length := by
  refine ⟨by decide, ?_⟩
  rcases sources_partition sampleEvaluations (by decide) with ⟨he, _⟩ | ⟨a, ha, _, _, _, _, _, h6⟩
  · exact absurd he (by decide)
  · refine ⟨a, ha, ?_, ?_, h6⟩
    · have : calculateAnalytics sampleEvaluations = some a := ha
      have hv : (calculateAnalytics sampleEvaluations).map (fun a => a.overallEvaluationCounts)
          = some [("Good", .number 1)] := by decide
      rw [this] at hv
      exact Option.some.inj hv
    · have hv : (calculateAnalytics sampleEvaluations).map (fun a => a.sourceCounts)
          = some [("facebook", .number 2), ("other", .number 1)] := by decide
      rw [ha] at hv
      exact Option.some.inj hv

/-- One evaluation with the rating value `constructor`. -/
def inheritedRatingEvaluations : List Evaluation :=
  [{ ratings := [⟨"Presentation", "Instructors Knowledge", "constructor"⟩] }]

/-- One evaluation with the rating value `__proto__`. -/
def protoRatingEvaluations : List Evaluation :=
  [{ ratings := [⟨"Presentation", "Instructors Knowledge", "__proto__"⟩] }]

/-- C3 as stated fails on property names inherited from `Object.prototype`: for the
single rating entry `constructor` the bucket holds a string, not the count 1, and for
the single rating entry `__proto__` there is no bucket. -/
theorem rating_distribution_counterexample :
    (calculateAnalytics inheritedRatingEvaluations).map (fun a => a.ratingCounts)
      = some [("constructor", .text)] ∧
    (allRatings inheritedRatingEvaluations).countP (fun r => r.rating == "constructor") = 1 ∧
    (calculateAnalytics protoRatingEvaluations).map (fun a => a.ratingCounts) = some [] ∧
    (allRatings protoRatingEvaluations).countP (fun r => r.rating == "__proto__") = 1 := by
  decide

/-- C3, amended: when no rating value of the evaluations is a property name inherited
from `Object.prototype`, the bucket of a rating value holds the number of rating
entries, over all evaluations and questions, carrying that value; a value that never
occurs has no bucket, and no value has two buckets. -/
theorem rating_distribution (evaluationData : List Evaluation) (h : evaluationData ≠ [])
    (hr : ∀ r ∈ allRatings evaluationData, r.rating ∉ inheritedNames) :
    ∃ a, calculateAnalytics evaluationData = some a ∧
      (∀ v, a.ratingCounts.get v =
        if (allRatings evaluationData).countP (fun r => r.rating == v) = 0 then none
        else some (.number ((allRatings evaluationData).countP (fun r => r.rating == v)))) ∧
      a.ratingCounts.keys.Nodup := by
  obtain ⟨a, a', ha, ha', hrc⟩ := analytics_ratingCounts evaluationData h hr
  obtain ⟨b, hb, h1, h2⟩ := rating_distribution_own evaluationData h
  rw [ha'] at hb
  cases hb
  refine ⟨a, ha, ?_, ?_⟩
  · intro v
    rw [hrc, get_mapValues, h1 v]
    split <;> rfl
  · rw [hrc, keys_mapValues]; exact h2

/-- Instance of C3 (amended) on `sampleEvaluations`. -/
theorem rating_distribution_witness :
    sampleEvaluations ≠ [] ∧
    (∀ r ∈ allRatings sampleEvaluations, r.rating ∉ inheritedNames) ∧
    ∃ a, calculateAnalytics sampleEvaluations = some a ∧
      (∀ v, a.ratingCounts.get v =
        if (allRatings sampleEvaluations).countP (fun r => r.rating == v) = 0 then none
        else some (.number ((allRatings sampleEvaluations).countP (fun r => r.rating == v)))) ∧
      a.ratingCounts.keys.Nodup :=
  ⟨by decide, by decide, rating_distribution sampleEvaluations (by decide) (by decide)⟩

/-- C4 as stated fails: three evaluations with one rating each give rating-distribution
counts summing to 3, not to 3 × 12 = 36; and a rating value that is an inherited
property name gets no numeric bucket, as the single rating entry `__proto__`, which gets
none at all. -/
theorem rating_counts_total_counterexample :
    scenarioEvaluations ≠ [] ∧
    (calculateAnalytics scenarioEvaluations).map (fun a => a.ratingCounts)
      = some [("excellent", .number 3)] ∧
    scenarioEvaluations.length * catalogQuestionCount = 36 ∧
    (calculateAnalytics protoRatingEvaluations).map (fun a => a.ratingCounts) = some [] ∧
    (allRatings protoRatingEvaluations).length = 1 := by
  decide

/-- C4, amended: when no rating value of the evaluations is a property name inherited
from `Object.prototype`, the rating-distribution buckets hold numbers that sum to the
total number of rating entries of the evaluations; this is (number of evaluations) × 12
when every evaluation carries one rating entry per catalogue question. -/
theorem rating_counts_total (evaluationData : List Evaluation) (h : evaluationData ≠ [])
    (hr : ∀ r ∈ allRatings evaluationData, r.rating ∉ inheritedNames) :
    ∃ a counts, calculateAnalytics evaluationData = some a ∧
      a.ratingCounts = mapValues .number counts ∧
      tallyTotal counts = (allRatings evaluationData).length ∧
      catalogQuestionCount = 12 ∧
      ((∀ e ∈ evaluationData, e.ratings.length = catalogQuestionCount) →
        tallyTotal counts = evaluationData.length * 12) := by
  obtain ⟨a, a', ha, ha', hrc⟩ := analytics_ratingCounts evaluationData h hr
  obtain ⟨b, hb, h1, h2, h3⟩ := rating_counts_total_own evaluationData h
  rw [ha'] at hb
  cases hb
  exact ⟨a, a'.ratingCounts, ha, hrc, h1, h2, h3⟩

/-- Instance of C4 (amended) on two complete evaluations: the counts sum to 24. -/
theorem rating_counts_total_witness :
    [fullEvaluation, fullEvaluation] ≠ [] ∧
    (∀ r ∈ allRatings [fullEvaluation, fullEvaluation], r.rating ∉ inheritedNames) ∧
    ∃ a counts, calculateAnalytics [fullEvaluation, fullEvaluation] = some a ∧
      a.ratingCounts = mapValues .number counts ∧ tallyTotal counts = 24 := by
  refine ⟨by decide, by decide, ?_⟩
  obtain ⟨a, counts, ha, hc, _, _, h3⟩ :=
    rating_counts_total [fullEvaluation, fullEvaluation] (by decide) (by decide)
  exact ⟨a, counts, ha, hc, h3 (by decide)⟩

/-! ## Per-question averages -/

/-- One evaluation with a question text that is an inherited property name. -/
def inheritedQuestionEvaluations : List Evaluation :=
  [{ ratings := [⟨"Presentation", "constructor", "excellent"⟩] }]

/-- C1 as stated fails on property names inherited from `Object.prototype`: a question
text `constructor` gets no entry at all, and a rating value `constructor` turns the sum
of its question into a string, so that the reported average is `NaN`. -/
theorem question_average_counterexample :
    (calculateAnalytics inheritedQuestionEvaluations).map (fun a => a.questionAverages)
      = some [] ∧
    (calculateAnalytics inheritedRatingEvaluations).map (fun a => a.questionAverages)
      = some [{ question := "Instructors Knowledge", group := "Presentation",
                average := none, count := 1 }] := by
  decide

theorem withOwnQuestions_single (g q v : String) (hq : q ∉ inheritedNames) :
    withOwnQuestions { ratings := [⟨g, q, v⟩] } = { ratings := [⟨g, q, v⟩] } := by
  simp [withOwnQuestions, ownQuestions, List.filter_cons, hq]

/-- C1, amended: when no rating value of the evaluations is a property name inherited
from `Object.prototype`, then for a question text `q` that occurs in the ratings and is
no such name, `calculateAnalytics` reports exactly one entry for `q`; its count is the
number of rating entries with question `q` and its average is the quotient (sum of
their 4/3/2/1 scores) / count rounded to two decimals, that is, a hundredth `n / 100`
within `1 / 200` of the quotient.  The rounding goes through a binary64 quotient and is
shown for inputs of at most `2^43` rating entries, more than an engine can hold.  In
particular `n ≥ 1` evaluations with the single rating `excellent` for one question,
whose text is no inherited name, give the average `4.00` and the count `n`, for every
`n`. -/
theorem question_average :
    (∀ (evaluationData : List Evaluation) (q : String),
      evaluationData ≠ [] → (∃ r ∈ allRatings evaluationData, r.question = q) →
      q ∉ inheritedNames → (∀ r ∈ allRatings evaluationData, r.rating ∉ inheritedNames) →
      (allRatings evaluationData).length ≤ 2 ^ 43 →
      ∃ a e n, calculateAnalytics evaluationData = some a ∧
        a.questionAverages.filter (fun x => x.question == q) = [e] ∧
        e.count = (ratingsFor q (allRatings evaluationData)).length ∧
        e.average = some n ∧
        2 * (n * e.count) ≤ 200 * scoreSum (ratingsFor q (allRatings evaluationData)) + e.count ∧
        200 * scoreSum (ratingsFor q (allRatings evaluationData)) ≤ 2 * (n * e.count) + e.count) ∧
    (∀ (n : Nat) (g q : String), 1 ≤ n → q ∉ inheritedNames →
      (calculateAnalytics (List.replicate n { ratings := [⟨g, q, "excellent"⟩] })).map
          (fun a => a.questionAverages)
        = some [{ question := q, group := g, average := some 400, count := n }]) := by
  constructor
  · intro evaluationData q hne hq hqi hr hsize
    obtain ⟨a, a', ha, ha', hqa⟩ := analytics_averages evaluationData hne hr
    obtain ⟨r, hrm, hrq⟩ := hq
    obtain ⟨b, e, n, hb, h1, h2, h3, h4, h5⟩ :=
      question_average_own.1 (evaluationData.map withOwnQuestions) q
        (map_withOwnQuestions_ne_nil _ hne)
        ⟨r, by rw [allRatings_withOwnQuestions, mem_ownQuestions]; exact ⟨hrm, hrq ▸ hqi⟩, hrq⟩
        (by rw [allRatings_withOwnQuestions]; exact le_trans (length_ownQuestions_le _) hsize)
    rw [ha'] at hb
    cases hb
    rw [allRatings_withOwnQuestions, ratingsFor_ownQuestions q hqi] at h2 h4 h5
    exact ⟨a, e, n, ha, hqa ▸ h1, h2, h3, h4, h5⟩
  · intro n g q hn hqi
    have hne : List.replicate n ({ ratings := [⟨g, q, "excellent"⟩] } : Evaluation) ≠ [] := by
      cases n with
      | zero => omega
      | succ m => simp [List.replicate_succ]
    have hr : ∀ r ∈ allRatings (List.replicate n ({ ratings := [⟨g, q, "excellent"⟩] } : Evaluation)),
        r.rating ∉ inheritedNames := by
      intro r hrm
      simp only [allRatings, List.mem_flatMap, List.mem_replicate] at hrm
      obtain ⟨e, ⟨_, rfl⟩, hre⟩ := hrm
      simp only [List.mem_singleton] at hre
      subst hre
      show "excellent" ∉ inheritedNames
      decide
    obtain ⟨a, a', ha, ha', hqa⟩ := analytics_averages _ hne hr
    have hold := question_average_own.2 n g q hn
    rw [List.map_replicate, withOwnQuestions_single g q _ hqi] at ha'
    rw [ha'] at hold
    rw [ha]
    simp only [Option.map_some', Option.some.injEq] at hold ⊢
    rw [hqa]
    exact hold

/-- Instance of C1 (amended): the question "Well organized" of `sampleEvaluations`, and
three evaluations rated `excellent`. -/
theorem question_average_witness :
    "Well organized" ∉ inheritedNames ∧
    (∀ r ∈ allRatings sampleEvaluations, r.rating ∉ inheritedNames) ∧
    (∃ a e n, calculateAnalytics sampleEvaluations = some a ∧
      a.questionAverages.filter (fun x => x.question == "Well organized") = [e] ∧
      e.count = (ratingsFor "Well organized" (allRatings sampleEvaluations)).length ∧
      e.average = some n ∧
      2 * (n * e.count)
        ≤ 200 * scoreSum (ratingsFor "Well organized" (allRatings sampleEvaluations)) + e.count ∧
      200 * scoreSum (ratingsFor "Well organized" (allRatings sampleEvaluations))
        ≤ 2 * (n * e.count) + e.count) ∧
    (calculateAnalytics (List.replicate 3
        { ratings := [⟨"Presentation", "Instructors Knowledge", "excellent"⟩] })).map
          (fun a => a.questionAverages)
      = some [{ question := "Instructors Knowledge", group := "Presentation",
                average := some 400, count := 3 }] :=
  ⟨by decide, by decide,
    question_average.1 sampleEvaluations "Well organized" (by decide)
      ⟨⟨"Content Quality", "Well organized", "excellent"⟩, by decide, rfl⟩ (by decide)
      (by decide) (by decide),
    question_average.2 3 "Presentation" "Instructors Knowledge" (by decide) (by decide)⟩

/-- C2 as stated fails: an unanswered question is stored with rating `""`, scores 0, and
yields the average `0.00`, below `1.0`; and a rating value that is an inherited property
name yields the average `NaN`. -/
theorem average_bounds_counterexample :
    unansweredEvaluations ≠ [] ∧
    (calculateAnalytics unansweredEvaluations).map (fun a => a.questionAverages)
      = some [{ question := "Instructors Knowledge", group := "Presentation",
                average := some 0, count := 1 }] ∧
    (calculateAnalytics inheritedRatingEvaluations).map (fun a => a.questionAverages)
      = some [{ question := "Instructors Knowledge", group := "Presentation",
                average := none, count := 1 }] := by
  decide

/-- C2, amended: when no rating value of the evaluations is a property name inherited
from `Object.prototype`, every per-question average is a number of at most `4.00`, and
it is at least `1.00` when every rating entry carries one of the four enum values. -/
theorem average_bounds (evaluationData : List Evaluation) (h : evaluationData ≠ [])
    (hr : ∀ r ∈ allRatings evaluationData, r.rating ∉ inheritedNames) :
    ∃ a, calculateAnalytics evaluationData = some a ∧
      ∀ e ∈ a.questionAverages, ∃ n, e.average = some n ∧ n ≤ 400 ∧
        ((∀ r ∈ allRatings evaluationData,
            r.rating ∈ ["excellent", "very_good", "good", "needs_improvement"]) → 100 ≤ n) := by
  obtain ⟨a, a', ha, ha', hqa⟩ := analytics_averages evaluationData h hr
  obtain ⟨b, hb, hall⟩ :=
    average_bounds_own (evaluationData.map withOwnQuestions) (map_withOwnQuestions_ne_nil _ h)
  rw [ha'] at hb
  cases hb
  refine ⟨a, ha, fun e he => ?_⟩
  obtain ⟨n, hn, hle, hge⟩ := hall e (hqa ▸ he)
  refine ⟨n, hn, hle, fun henum => hge ?_⟩
  intro r hrm
  rw [allRatings_withOwnQuestions, mem_ownQuestions] at hrm
  exact henum r hrm.1

/-- Instance of C2 (amended) on two complete evaluations rated `good` throughout. -/
theorem average_bounds_witness :
    [fullEvaluation, fullEvaluation] ≠ [] ∧
    (∀ r ∈ allRatings [fullEvaluation, fullEvaluation], r.rating ∉ inheritedNames) ∧
    ∃ a, calculateAnalytics [fullEvaluation, fullEvaluation] = some a ∧
      ∀ e ∈ a.questionAverages, ∃ n, e.average = some n ∧ n ≤ 400 ∧ 100 ≤ n := by
  refine ⟨by decide, by decide, ?_⟩
  obtain ⟨a, ha, hb⟩ := average_bounds [fullEvaluation, fullEvaluation] (by decide) (by decide)
  refine ⟨a, ha, fun e he => ?_⟩
  obtain ⟨n, hn, hle, hge⟩ := hb e he
  exact ⟨n, hn, hle, hge (by decide)⟩

theorem find_ownQuestions (q : String) (hq : q ∉ inheritedNames) (rs : List Rating) :
    (ownQuestions rs).find? (fun r => r.question == q) = rs.find? (fun r => r.question == q) := by
  induction rs with
  | nil => rfl
  | cons r rest ih =>
    have hcons : ownQuestions (r :: rest)
        = if r.question ∈ inheritedNames then ownQuestions rest else r :: ownQuestions rest := by
      by_cases hr : r.question ∈ inheritedNames <;> simp [ownQuestions, List.filter_cons, hr]
    rw [hcons]
    by_cases hr : r.question ∈ inheritedNames
    · have hne : (r.question == q) = false := by
        rw [beq_eq_false_iff_ne]
        exact fun e => hq (e ▸ hr)
      rw [if_pos hr, ih, List.find?_cons, hne]
    · rw [if_neg hr, List.find?_cons, List.find?_cons, ih]

/-- The entries of the reported averages in terms of the rating entries: each stems
from the first rating entry of its question text, which is no inherited name. -/
theorem analytics_entries (evaluationData : List Evaluation) (h : evaluationData ≠ []) :
    ∃ a, calculateAnalytics evaluationData = some a ∧
      (a.questionAverages.map (fun e => e.question)).Nodup ∧
      (∀ q, q ∈ a.questionAverages.map (fun e => e.question) ↔
        q ∉ inheritedNames ∧ ∃ r ∈ allRatings evaluationData, r.question = q) ∧
      ∀ e ∈ a.questionAverages,
        ((allRatings evaluationData).find? (fun r => r.question == e.question)).map
            (fun r => r.group) = some e.group ∧
        e.count = (ratingsFor e.question (allRatings evaluationData)).length := by
  obtain ⟨a, a', ha, ha', hc⟩ := analytics_counted evaluationData h
  obtain ⟨b, hb, h1, h2, h3⟩ :=
    one_entry_per_question_own (evaluationData.map withOwnQuestions)
      (map_withOwnQuestions_ne_nil _ h)
  rw [ha'] at hb
  cases hb
  have hq : a.questionAverages.map (fun e => e.question)
      = a'.questionAverages.map (fun e => e.question) := by
    have := congrArg (List.map (fun p : String × String × Nat => p.1)) hc
    simpa only [List.map_map] using this
  have hmem : ∀ q, q ∈ a'.questionAverages.map (fun e => e.question) ↔
      q ∉ inheritedNames ∧ ∃ r ∈ allRatings evaluationData, r.question = q := by
    intro q
    rw [h2 q, allRatings_withOwnQuestions]
    constructor
    · rintro ⟨r, hr, rfl⟩
      rw [mem_ownQuestions] at hr
      exact ⟨hr.2, r, hr.1, rfl⟩
    · rintro ⟨hqi, r, hr, rfl⟩
      exact ⟨r, (mem_ownQuestions _ _).2 ⟨hr, hqi⟩, rfl⟩
  refine ⟨a, ha, hq ▸ h1, fun q => hq ▸ hmem q, ?_⟩
  intro e he
  have : e.counted ∈ a'.questionAverages.map QuestionAverage.counted :=
    hc ▸ List.mem_map.2 ⟨e, he, rfl⟩
  obtain ⟨e', he', hee⟩ := List.mem_map.1 this
  simp only [QuestionAverage.counted, Prod.mk.injEq] at hee
  obtain ⟨hq1, hg1, hc1⟩ := hee
  have hclean : e.question ∉ inheritedNames := by
    have : e'.question ∈ a'.questionAverages.map (fun e => e.question) :=
      List.mem_map.2 ⟨e', he', rfl⟩
    rw [hq1] at this
    exact ((hmem _).1 this).1
  obtain ⟨hf, hcount⟩ := h3 e' he'
  rw [allRatings_withOwnQuestions, hq1] at hf hcount
  rw [find_ownQuestions _ hclean] at hf
  rw [ratingsFor_ownQuestions _ hclean] at hcount
  exact ⟨hg1 ▸ hf, hc1 ▸ hcount⟩

/-- C8 as stated fails: two rating entries with the same question text and different
group labels produce a single average entry, under the first label; and a question
text that is a property name inherited from `Object.prototype` produces no entry. -/
theorem one_entry_per_pair_counterexample :
    regroupedEvaluations ≠ [] ∧
    (calculateAnalytics regroupedEvaluations).map (fun a => a.questionAverages)
      = some [{ question := "Pace", group := "Presentation", average := some 300, count := 2 }] ∧
    (calculateAnalytics inheritedQuestionEvaluations).map (fun a => a.questionAverages)
      = some [] := by
  decide

/-- C8, amended: there is exactly one average entry per distinct question text that is
no property name inherited from `Object.prototype`, and none for a question text that
is one; the entry carries the group label of the first rating entry with that question
text and counts all rating entries with that question text, whatever their group
label. -/
theorem one_entry_per_question (evaluationData : List Evaluation) (h : evaluationData ≠ []) :
    ∃ a, calculateAnalytics evaluationData = some a ∧
      (a.questionAverages.map (fun e => e.question)).Nodup ∧
      (∀ q, q ∈ a.questionAverages.map (fun e => e.question) ↔
        q ∉ inheritedNames ∧ ∃ r ∈ allRatings evaluationData, r.question = q) ∧
      ∀ e ∈ a.questionAverages,
        ((allRatings evaluationData).find? (fun r => r.question == e.question)).map
            (fun r => r.group) = some e.group ∧
        e.count = (ratingsFor e.question (allRatings evaluationData)).length :=
  analytics_entries evaluationData h

/-- Instance of C8 (amended) on `regroupedEvaluations`. -/
theorem one_entry_per_question_witness :
    regroupedEvaluations ≠ [] ∧
    ∃ a, calculateAnalytics regroupedEvaluations = some a ∧
      (a.questionAverages.map (fun e => e.question)).Nodup ∧
      (∀ q, q ∈ a.questionAverages.map (fun e => e.question) ↔
        q ∉ inheritedNames ∧ ∃ r ∈ allRatings regroupedEvaluations, r.question = q) ∧
      ∀ e ∈ a.questionAverages,
        ((allRatings regroupedEvaluations).find? (fun r => r.question == e.question)).map
            (fun r => r.group) = some e.group ∧
        e.count = (ratingsFor e.question (allRatings regroupedEvaluations)).length :=
  ⟨by decide, one_entry_per_question regroupedEvaluations (by decide)⟩

/-! ## Display order of the tallies -/

theorem jsSort_map {α β : Type} (f : α → β) (cmp : α → α → Int) (cmp' : β → β → Int)
    (h : ∀ a b, cmp' (f a) (f b) = cmp a b) (xs : List α) :
    jsSort cmp' (xs.map f) = (jsSort cmp xs).map f := by
  unfold jsSort
  exact (List.map_insertionSort (fun a b => cmp a b ≤ 0) (fun a b => cmp' a b ≤ 0) f xs
    (fun a _ b _ => by beta_reduce; rw [h])).symm

/-- One evaluation with an inherited property name among its sources. -/
def builtinSourceEvaluations : List Evaluation :=
  [{ ratings := [], sources := some ["facebook", "constructor", "website", "website"] }]

/-- C10 as stated fails when a source is a property name inherited from
`Object.prototype`: its tally is a string, the comparisons with it are undecided, and
the row of `facebook`, counted once, stays before the row of `website`, counted
twice. -/
theorem tallies_display_order_counterexample :
    (calculateAnalytics builtinSourceEvaluations).map displayedSources
      = some [("facebook", .number 1), ("constructor", .text), ("website", .number 2)] := by
  decide

/-- C10, amended: the overall-evaluation rows are displayed in the fixed label order
Excellent, Very Good, Good, Fair, Poor (every tally key is one of these labels and the
displayed positions strictly increase); the source rows are exactly the entries of the
source tally, and they are in non-increasing order of count when no source is a
property name inherited from `Object.prototype`. -/
theorem tallies_display_order (evaluationData : List Evaluation) (h : evaluationData ≠ []) :
    ∃ a, calculateAnalytics evaluationData = some a ∧
      (∀ k ∈ a.overallEvaluationCounts.keys,
        k ∈ ["Excellent", "Very Good", "Good", "Fair", "Poor"]) ∧
      (displayedOverall a).Perm a.overallEvaluationCounts ∧
      (displayedOverall a).Pairwise (fun x y =>
        jsIndexOf ["Excellent", "Very Good", "Good", "Fair", "Poor"] x.1
          < jsIndexOf ["Excellent", "Very Good", "Good", "Fair", "Poor"] y.1) ∧
      (displayedSources a).Perm a.sourceCounts ∧
      ((∀ s ∈ allSources evaluationData, s ∉ inheritedNames) →
        (displayedSources a).Pairwise (fun x y =>
          ∃ m n, x.2 = .number m ∧ y.2 = .number n ∧ n ≤ m)) := by
  obtain ⟨b, hb, hk, _, hov, _, _⟩ := tallies_display_order_own evaluationData h
  rw [calculateAnalyticsOwn_of_ne_nil _ h] at hb
  cases hb
  simp only at hk hov
  refine ⟨_, calculateAnalytics_of_ne_nil _ h, ?_, ?_, ?_, ?_, ?_⟩
  · simp only [overall_eq_own, keys_mapValues]
    exact hk
  · exact (jsSort_perm _ _).trans (entries_perm _)
  · unfold displayedOverall
    simp only [overall_eq_own, entries_mapValues]
    unfold mapValues
    rw [jsSort_map (fun p : String × Nat => (p.1, JsValue.number p.2))
      (fun x y => jsIndexOf ["Excellent", "Very Good", "Good", "Fair", "Poor"] x.1
          - jsIndexOf ["Excellent", "Very Good", "Good", "Fair", "Poor"] y.1) _ (fun _ _ => rfl)]
    rw [List.pairwise_map]
    exact hov
  · exact (jsSort_perm _ _).trans (entries_perm _)
  · intro hs
    unfold displayedSources
    simp only [sourceCounts_eq_own evaluationData hs, entries_mapValues]
    unfold mapValues
    rw [jsSort_map (fun p : String × Nat => (p.1, JsValue.number p.2))
      (fun x y => (y.2 : Int) - (x.2 : Int)) _ (fun _ _ => rfl)]
    rw [List.pairwise_map]
    exact (jsSort_sorted (fun x y : String × Nat => (y.2 : Int) - (x.2 : Int))
      (fun x => -(x.2 : Int)) (fun x y => by beta_reduce; omega) _).imp
      (fun {a b} hab => ⟨a.2, b.2, rfl, rfl, by omega⟩)

/-- Instance of C10 (amended) on `sampleEvaluations`. -/
theorem tallies_display_order_witness :
    sampleEvaluations ≠ [] ∧
    (∀ s ∈ allSources sampleEvaluations, s ∉ inheritedNames) ∧
    (calculateAnalytics sampleEvaluations).map displayedSources
      = some [("facebook", .number 2), ("other", .number 1)] ∧
    ∃ a, calculateAnalytics sampleEvaluations = some a ∧
      (displayedSources a).Pairwise (fun x y =>
        ∃ m n, x.2 = .number m ∧ y.2 = .number n ∧ n ≤ m) := by
  refine ⟨by decide, by decide, by decide, ?_⟩
  obtain ⟨a, ha, _, _, _, _, hs⟩ := tallies_display_order sampleEvaluations (by decide)
  exact ⟨a, ha, hs (by decide)⟩

/-! ## Grouped display of the per-question averages -/

theorem groupStep_eq_own (groups : JsObject (List QuestionAverage)) (item : QuestionAverage)
    (hg : item.group ∉ inheritedNames) :
    groupStep groups item = some (groupStepOwn groups item) := by
  unfold groupStep groupStepOwn
  simp only [lookup_of_not_inherited _ _ hg]
  cases hget : groups.get item.group with
  | none => simp only [JsObject.get_set, if_true]
  | some l => simp only [hget]

theorem foldlM_groupStep_eq_own (avgs : List QuestionAverage)
    (groups : JsObject (List QuestionAverage)) (hg : ∀ e ∈ avgs, e.group ∉ inheritedNames) :
    avgs.foldlM groupStep groups = some (avgs.foldl groupStepOwn groups) := by
  induction avgs generalizing groups with
  | nil => rfl
  | cons e rest ih =>
    rw [List.foldlM_cons, groupStep_eq_own groups e (hg e (List.mem_cons_self _ _))]
    exact ih _ (fun x hx => hg x (List.mem_cons_of_mem _ hx))

theorem groupedAverages_eq_own (avgs : List QuestionAverage)
    (hg : ∀ e ∈ avgs, e.group ∉ inheritedNames) :
    groupedAverages avgs = some (groupedAveragesOwn avgs) := by
  unfold groupedAverages groupedAveragesOwn
  rw [foldlM_groupStep_eq_own avgs [] hg]
  rfl

/-- One evaluation with a group label that is an inherited property name. -/
def inheritedGroupEvaluations : List Evaluation :=
  [{ ratings := [⟨"constructor", "Instructors Knowledge", "good"⟩] }]

/-- C9 as stated fails in three ways: group labels that are array-index numerals are
displayed in ascending numeric order; a group first seen on a question text that was
already filed under another group is displayed later than it was first seen; and with a
group label that is a property name inherited from `Object.prototype` the grouping
throws, so that nothing is displayed. -/
theorem grouped_display_counterexample :
    ((calculateAnalytics indexLabelEvaluations).map
        (fun a => (groupedAverages a.questionAverages).map (fun groups => groups.map Prod.fst))
        = some (some ["1", "2"]) ∧
      firstSeen ((allRatings indexLabelEvaluations).map (fun r => r.group)) = ["2", "1"]) ∧
    ((calculateAnalytics mixedGroupEvaluations).map
        (fun a => (groupedAverages a.questionAverages).map (fun groups => groups.map Prod.fst))
        = some (some ["Presentation", "Training Facilities", "Content Quality"]) ∧
      firstSeen ((allRatings mixedGroupEvaluations).map (fun r => r.group))
        = ["Presentation", "Content Quality", "Training Facilities"]) ∧
    (calculateAnalytics inheritedGroupEvaluations).map
        (fun a => (a.questionAverages, groupedAverages a.questionAverages))
      = some ([{ question := "Instructors Knowledge", group := "constructor",
                 average := some 200, count := 1 }], none) := by
  decide

/-- C9, amended: when no group label of the rating entries is a property name inherited
from `Object.prototype`, the averages are displayed grouped by group label, every
average entry in exactly one group, the one named by its label.  When moreover no
question text is such a name and no question text and no group label is an array-index
numeral, the entries are in the order in which their question texts were first seen
(hence also within each group) and the groups are in the order in which their labels
are first seen among the entries; when, beyond that, every question text is always rated
under the same group label, the groups are in the order in which they were first seen
in the rating entries. -/
theorem grouped_display (evaluationData : List Evaluation) (h : evaluationData ≠ [])
    (hgr : ∀ r ∈ allRatings evaluationData, r.group ∉ inheritedNames) :
    ∃ a groups, calculateAnalytics evaluationData = some a ∧
      groupedAverages a.questionAverages = some groups ∧
      (groups.map Prod.fst).Nodup ∧
      (∀ p ∈ groups, p.2 = a.questionAverages.filter (fun e => e.group == p.1) ∧ p.2 ≠ []) ∧
      (∀ e ∈ a.questionAverages, ∃ p ∈ groups, p.1 = e.group) ∧
      ((∀ r ∈ allRatings evaluationData,
          arrayIndex r.question = none ∧ arrayIndex r.group = none ∧
            r.question ∉ inheritedNames) →
        a.questionAverages.map (fun e => e.question)
          = firstSeen ((allRatings evaluationData).map (fun r => r.question)) ∧
        groups.map Prod.fst = firstSeen (a.questionAverages.map (fun e => e.group)) ∧
        ((∀ r ∈ allRatings evaluationData, ∀ r' ∈ allRatings evaluationData,
            r.question = r'.question → r.group = r'.group) →
          groups.map Prod.fst
            = firstSeen ((allRatings evaluationData).map (fun r => r.group)))) := by
  obtain ⟨a, ha, _, _, hent⟩ := analytics_entries evaluationData h
  obtain ⟨a₁, a', ha₁, ha', hc⟩ := analytics_counted evaluationData h
  rw [ha] at ha₁
  cases ha₁
  have hentry : ∀ e ∈ a.questionAverages, ∃ r ∈ allRatings evaluationData,
      r.question = e.question ∧ e.group = r.group ∧
        (allRatings evaluationData).find? (fun x => x.question == e.question) = some r := by
    intro e he
    obtain ⟨hf, _⟩ := hent e he
    cases hfind : (allRatings evaluationData).find? (fun x => x.question == e.question) with
    | none => rw [hfind] at hf; exact absurd hf (by simp)
    | some r =>
      rw [hfind] at hf
      have hq := List.find?_some hfind
      exact ⟨r, List.mem_of_find?_eq_some hfind, by simpa using hq,
        (Option.some.inj hf).symm, rfl⟩
  have hclean : ∀ e ∈ a.questionAverages, e.group ∉ inheritedNames := by
    intro e he
    obtain ⟨r, hr, _, hg, _⟩ := hentry e he
    rw [hg]
    exact hgr r hr
  refine ⟨a, _, ha, groupedAverages_eq_own _ hclean, ?_⟩
  generalize hrs : allRatings evaluationData = rs at *
  generalize a.questionAverages = avgs at *
  have hnd : (avgs.foldl groupStepOwn []).keys.Nodup := by
    rw [keys_foldl_groupStepOwn]
    exact nodup_firstSeen _
  have hperm : (groupedAveragesOwn avgs).Perm (avgs.foldl groupStepOwn []) := entries_perm _
  refine ⟨?_, ?_, ?_, ?_⟩
  · exact ((hperm.map Prod.fst).nodup_iff).2 hnd
  · intro p hp
    have hg := get_of_mem _ p hnd (hperm.mem_iff.1 hp)
    rw [get_foldl_groupStepOwn] at hg
    by_cases hnil : avgs.filter (fun e => e.group == p.1) = []
    · simp [hnil] at hg
    · simp only [hnil, if_false, Option.some.injEq] at hg
      rw [← hg]
      exact ⟨rfl, hnil⟩
  · intro e he
    have hnil : avgs.filter (fun x => x.group == e.group) ≠ [] := by
      intro hcon
      have : e ∈ avgs.filter (fun x => x.group == e.group) :=
        List.mem_filter.2 ⟨he, by simp⟩
      rw [hcon] at this
      simp at this
    have hg : (avgs.foldl groupStepOwn []).get e.group
        = some (avgs.filter (fun x => x.group == e.group)) := by
      rw [get_foldl_groupStepOwn]
      simp [hnil]
    exact ⟨_, hperm.mem_iff.2 (pair_mem_of_get _ _ _ hg), rfl⟩
  · intro hidx
    have hown : ownQuestions rs = rs := by
      unfold ownQuestions
      rw [List.filter_eq_self]
      intro r hr
      simpa using (hidx r hr).2.2
    have hq : avgs.map (fun e => e.question) = firstSeen (rs.map (fun r => r.question)) := by
      obtain ⟨b, hb, _, _, _, h4⟩ :=
        grouped_display_own (evaluationData.map withOwnQuestions)
          (map_withOwnQuestions_ne_nil _ h)
      rw [ha'] at hb
      cases hb
      rw [allRatings_withOwnQuestions] at h4
      rw [hrs, hown] at h4
      have h5 := (h4 (fun r hr => ⟨(hidx r hr).1, (hidx r hr).2.1⟩)).1
      rw [← h5]
      have := congrArg (List.map (fun p : String × String × Nat => p.1)) hc
      simpa only [List.map_map] using this
    have hg : (groupedAveragesOwn avgs).map Prod.fst = firstSeen (avgs.map (fun e => e.group)) := by
      rw [← keys_foldl_groupStepOwn]
      unfold groupedAveragesOwn
      rw [entries_eq_self]
      · rfl
      · intro k hk
        rw [keys_foldl_groupStepOwn, mem_firstSeen, List.mem_map] at hk
        obtain ⟨e, he, rfl⟩ := hk
        obtain ⟨r, hr, _, hgr', _⟩ := hentry e he
        rw [hgr']
        exact (hidx r hr).2.1
    refine ⟨hq, hg, ?_⟩
    intro hfun
    rw [hg]
    have h1 : avgs.map (fun e => e.group) = (avgs.map (fun e => e.question)).map
        (fun q => ((rs.find? (fun x => x.question == q)).map (fun r => r.group)).getD "") := by
      rw [List.map_map]
      apply List.map_congr_left
      intro e he
      obtain ⟨r, _, _, hgr', hfind⟩ := hentry e he
      simp [hfind, hgr']
    have h2 : rs.map (fun r => r.group) = (rs.map (fun r => r.question)).map
        (fun q => ((rs.find? (fun x => x.question == q)).map (fun r => r.group)).getD "") := by
      rw [List.map_map]
      apply List.map_congr_left
      intro r hr
      cases hf : rs.find? (fun x => x.question == r.question) with
      | none =>
        have := List.find?_eq_none.1 hf r hr
        simp at this
      | some r' =>
        have hm := List.mem_of_find?_eq_some hf
        have hq' := List.find?_some hf
        simp only [Function.comp, hf, Option.map_some', Option.getD_some]
        have hq2 : r'.question = r.question := by simpa using hq'
        exact hfun r hr r' hm hq2.symm
    rw [h1, hq, firstSeen_map_firstSeen, ← h2]

/-- Instance of C9 (amended) on `sampleEvaluations`, whose labels and question texts are
neither inherited names nor numerals and whose question texts keep their group: the
groups are displayed as first seen. -/
theorem grouped_display_witness :
    sampleEvaluations ≠ [] ∧
    (∀ r ∈ allRatings sampleEvaluations, r.group ∉ inheritedNames) ∧
    ∃ a groups, calculateAnalytics sampleEvaluations = some a ∧
      groupedAverages a.questionAverages = some groups ∧
      (groups.map Prod.fst).Nodup ∧
      (∀ e ∈ a.questionAverages, ∃ p ∈ groups, p.1 = e.group) ∧
      a.questionAverages.map (fun e => e.question)
        = firstSeen ((allRatings sampleEvaluations).map (fun r => r.question)) ∧
      groups.map Prod.fst
        = firstSeen ((allRatings sampleEvaluations).map (fun r => r.group)) := by
  refine ⟨by decide, by decide, ?_⟩
  obtain ⟨a, groups, ha, hg, h1, _, h3, h4⟩ :=
    grouped_display sampleEvaluations (by decide) (by decide)
  obtain ⟨h5, _, h7⟩ := h4 (by decide)
  exact ⟨a, groups, ha, hg, h1, h3, h5, h7 (by decide)⟩

/-! ## The instructor page and its own-property version -/

theorem getRatingValue_of_not_inherited (v : String) (h : v ∉ inheritedNames) :
    getRatingValue v = .number (instructorScore v) := by
  unfold getRatingValue instructorScore
  rw [lookup_of_not_inherited _ _ h]
  cases JsObject.get _ v <;> rfl

theorem getRatingValue_inherited (v : String) (h : v ∈ inheritedNames) :
    getRatingValue v = .builtin := by
  revert h
  simp only [inheritedNames, List.mem_cons, List.mem_singleton, List.not_mem_nil, or_false]
  rintro (h | h | h | h | h | h | h | h | h | h | h | h) <;> subst h <;> rfl

/-- The value of a sum once `+=` has added to `s` the values that `getRatingValue` gives
for the rating entries `l`, in order. -/
def addScores (s : JsValue) (l : List Rating) : JsValue :=
  l.foldl (fun s r => s.add (getRatingValue r.rating)) s

theorem addScores_append (s : JsValue) (l₁ l₂ : List Rating) :
    addScores s (l₁ ++ l₂) = addScores (addScores s l₁) l₂ := by
  unfold addScores
  rw [List.foldl_append]

theorem addScores_number (n : Nat) (l : List Rating)
    (h : ∀ r ∈ l, r.rating ∉ inheritedNames) :
    addScores (.number n) l = .number (n + instructorScoreSum l) := by
  induction l generalizing n with
  | nil => simp [addScores, instructorScoreSum]
  | cons r rest ih =>
    have hr := h r (List.mem_cons_self _ _)
    have ih' := ih (n + instructorScore r.rating) (fun x hx => h x (List.mem_cons_of_mem _ hx))
    simp only [addScores, List.foldl_cons, getRatingValue_of_not_inherited _ hr,
      JsValue.add] at ih' ⊢
    rw [ih']
    simp only [instructorScoreSum, List.map_cons, List.sum_cons, Nat.add_assoc]

theorem addScores_text (l : List Rating) : addScores .text l = .text := by
  induction l with
  | nil => rfl
  | cons r rest ih =>
    simp only [addScores, List.foldl_cons, JsValue.add] at ih ⊢
    exact ih

/-- A sum that has met a rating value with an inherited name is no number. -/
theorem addScores_of_inherited (n : Nat) (l : List Rating)
    (h : ∃ r ∈ l, r.rating ∈ inheritedNames) : addScores (.number n) l = .text := by
  induction l generalizing n with
  | nil =>
    obtain ⟨r, hr, _⟩ := h
    exact absurd hr (List.not_mem_nil _)
  | cons r rest ih =>
    by_cases hr : r.rating ∈ inheritedNames
    · simp only [addScores, List.foldl_cons, getRatingValue_inherited _ hr, JsValue.add]
      exact addScores_text rest
    · have hrest : ∃ x ∈ rest, x.rating ∈ inheritedNames := by
        obtain ⟨x, hx, hxi⟩ := h
        rcases List.mem_cons.1 hx with rfl | hx
        · exact absurd hxi hr
        · exact ⟨x, hx, hxi⟩
      have ih' := ih (n + instructorScore r.rating) hrest
      simp only [addScores, List.foldl_cons, getRatingValue_of_not_inherited _ hr,
        JsValue.add] at ih' ⊢
      exact ih'

/-- The accumulator of the own-property loops as the accumulator of the loops: the sum
is the one that `+=` builds from the rating entries of the evaluations pushed so far. -/
def InstructorAcc.ofOwn (a : InstructorAccOwn) : InstructorAcc :=
  { name := a.name
    sessions := a.sessions
    evaluations := a.evaluations
    totalRatings := a.totalRatings
    ratingSum := addScores (.number 0) (ratingEntries a.evaluations)
    feedbackCount := a.feedbackCount
    trends := a.trends }

/-- The finished instructor of the own-property version as the finished instructor. -/
def Instructor.ofOwn (host : Host) (i : InstructorOwn) : Instructor :=
  { name := i.name
    sessions := i.sessions
    evaluations := i.evaluations
    totalRatings := i.totalRatings
    ratingSum := addScores (.number 0) (ratingEntries i.evaluations)
    feedbackCount := i.feedbackCount
    trends := calculateTrends host i.evaluations
    avgRating := averageOrZero (addScores (.number 0) (ratingEntries i.evaluations)) i.totalRatings
    totalSessions := i.totalSessions
    totalEvaluations := i.totalEvaluations }

theorem finishInstructor_ofOwn (host : Host) (a : InstructorAccOwn) :
    finishInstructor host (InstructorAcc.ofOwn a)
      = Instructor.ofOwn host (finishInstructorOwn host a) := rfl

/-- A session whose instructor name is truthy and a name inherited from
`Object.prototype`. -/
def hasInheritedName (s : TrainingSession) : Bool :=
  match truthyName s.instructor_name with
  | some n => inheritedNames.contains n
  | none => false

theorem sessionStep_ofOwn (m : JsObject InstructorAccOwn) (s : TrainingSession)
    (hs : hasInheritedName s = false) :
    sessionStep (mapValues InstructorAcc.ofOwn m) s
      = some (mapValues InstructorAcc.ofOwn (sessionStepOwn m s)) := by
  unfold sessionStep sessionStepOwn
  cases hn : s.instructor_name with
  | none => rfl
  | some n =>
    by_cases h : n = ""
    · simp [h]
    · have hk : n ∉ inheritedNames := by
        simpa [hasInheritedName, truthyName, hn, h] using hs
      simp only [h, if_false]
      have hinit : (mapValues InstructorAcc.ofOwn m).set n
            { name := n, sessions := [], evaluations := [], totalRatings := 0,
              ratingSum := .number 0, feedbackCount := 0, trends := [] }
          = mapValues InstructorAcc.ofOwn (m.set n
            { name := n, sessions := [], evaluations := [], totalRatings := 0,
              ratingSum := 0, feedbackCount := 0, trends := [] }) :=
        set_mapValues InstructorAcc.ofOwn m n
          { name := n, sessions := [], evaluations := [], totalRatings := 0,
            ratingSum := 0, feedbackCount := 0, trends := [] }
      have hmod : ∀ o : JsObject InstructorAccOwn,
          (mapValues InstructorAcc.ofOwn o).modify n
              (fun i => { i with sessions := i.sessions ++ [s] })
            = mapValues InstructorAcc.ofOwn
                (o.modify n (fun i => { i with sessions := i.sessions ++ [s] })) :=
        fun o => modify_mapValues InstructorAcc.ofOwn o n _ _ (fun _ => rfl)
      have hlook : ∀ o : JsObject InstructorAccOwn,
          (mapValues InstructorAcc.ofOwn o).lookup n = match o.get n with
            | some v => .own (InstructorAcc.ofOwn v)
            | none => .undefined := by
        intro o
        rw [lookup_of_not_inherited _ _ hk, get_mapValues]
        cases o.get n <;> rfl
      cases hg : m.get n with
      | none =>
        have h1 := hlook m
        rw [hg] at h1
        simp only [h1]
        rw [hinit, hlook, JsObject.get_set]
        simp only [if_true]
        rw [hmod]
      | some v =>
        have h1 := hlook m
        rw [hg] at h1
        simp only [h1]
        rw [hmod]

theorem sessionStep_inherited (m : JsObject InstructorAcc) (s : TrainingSession)
    (hs : hasInheritedName s = true) (hm : ∀ k ∈ m.keys, k ∉ inheritedNames) :
    sessionStep m s = none := by
  unfold sessionStep
  cases hn : s.instructor_name with
  | none => simp [hasInheritedName, truthyName, hn] at hs
  | some n =>
    by_cases h : n = ""
    · simp [hasInheritedName, truthyName, hn, h] at hs
    · have hk : n ∈ inheritedNames := by
        simpa [hasInheritedName, truthyName, hn, h] using hs
      have hb : m.lookup n = .builtin := lookup_inherited m n hk (fun hmem => hm n hmem hk)
      simp only [h, if_false, hb]

theorem keys_sessionStepOwn_clean (m : JsObject InstructorAccOwn) (s : TrainingSession)
    (hs : hasInheritedName s = false) (hm : ∀ k ∈ m.keys, k ∉ inheritedNames) :
    ∀ k ∈ (sessionStepOwn m s).keys, k ∉ inheritedNames := by
  rw [sessionStepOwn_eq]
  cases hn : truthyName s.instructor_name with
  | none => exact hm
  | some n =>
    have hk : n ∉ inheritedNames := by
      simpa [hasInheritedName, hn] using hs
    intro k hmem
    simp only at hmem
    rw [JsObject.keys_upsert] at hmem
    split at hmem
    · exact hm k hmem
    · rcases List.mem_append.1 hmem with h | h
      · exact hm k h
      · simp only [List.mem_singleton] at h
        subst h
        exact hk

/-- The session loop throws exactly when a session carries a truthy inherited name, and
otherwise does what the own-property loop does. -/
theorem foldlM_sessionStep (sessions : List TrainingSession) (m : JsObject InstructorAccOwn)
    (hm : ∀ k ∈ m.keys, k ∉ inheritedNames) :
    sessions.foldlM sessionStep (mapValues InstructorAcc.ofOwn m)
      = if sessions.any hasInheritedName then none
        else some (mapValues InstructorAcc.ofOwn (sessions.foldl sessionStepOwn m)) := by
  induction sessions generalizing m with
  | nil => rfl
  | cons s rest ih =>
    rw [List.foldlM_cons, List.any_cons, List.foldl_cons]
    cases hs : hasInheritedName s with
    | true =>
      rw [sessionStep_inherited _ s hs (by rw [keys_mapValues]; exact hm)]
      rfl
    | false =>
      rw [sessionStep_ofOwn m s hs]
      simp only [Option.some_bind, Bool.false_or]
      exact ih _ (keys_sessionStepOwn_clean m s hs hm)

theorem foldl_rating_modify_js (rs : List Rating) (m : JsObject InstructorAcc) (n : String) :
    rs.foldl (fun m rating =>
        (JsObject.modify m n (fun i => { i with totalRatings := i.totalRatings + 1 })).modify n
          (fun i => { i with ratingSum := i.ratingSum.add (getRatingValue rating.rating) })) m
      = m.modify n (fun i => { i with
          totalRatings := i.totalRatings + rs.length
          ratingSum := addScores i.ratingSum rs }) := by
  induction rs generalizing m with
  | nil =>
    simp only [List.foldl_nil, List.length_nil, addScores, Nat.add_zero]
    exact (modify_fixed m n _ (fun _ => rfl)).symm
  | cons r rest ih =>
    rw [List.foldl_cons, ih, JsObject.modify_modify, JsObject.modify_modify]
    congr 1
    funext i
    simp only [addScores, List.foldl_cons, List.length_cons, InstructorAcc.mk.injEq, true_and,
      and_true]
    omega

/-- The update that one evaluation applies to the accumulator of its instructor. -/
def pushEvaluation (e : JoinedEvaluation) (i : InstructorAcc) : InstructorAcc :=
  { i with
    evaluations := i.evaluations ++ [e]
    totalRatings := i.totalRatings + e.evaluation.ratings.length
    ratingSum := addScores i.ratingSum e.evaluation.ratings
    feedbackCount := i.feedbackCount + (if truthy e.evaluation.additional_comments then 1 else 0) }

theorem ratingEntries_append (l₁ l₂ : List JoinedEvaluation) :
    ratingEntries (l₁ ++ l₂) = ratingEntries l₁ ++ ratingEntries l₂ := by
  simp [ratingEntries]

theorem pushEvaluation_ofOwn (e : JoinedEvaluation) (a : InstructorAccOwn) :
    pushEvaluation e (InstructorAcc.ofOwn a) = InstructorAcc.ofOwn (addEvaluation e a) := by
  simp only [pushEvaluation, InstructorAcc.ofOwn, addEvaluation, ratingEntries_append,
    addScores_append, InstructorAcc.mk.injEq, true_and, and_true]
  simp [ratingEntries]

theorem evaluationStep_of_get (m : JsObject InstructorAcc) (e : JoinedEvaluation) (n : String)
    (v : InstructorAcc) (hn : truthyName e.session.instructor_name = some n)
    (hg : m.get n = some v) :
    evaluationStep m e = some (m.modify n (pushEvaluation e)) := by
  obtain ⟨hname, hne⟩ := (truthyName_eq_some _ _).1 hn
  unfold evaluationStep
  simp only [hname, hne, if_false, lookup_of_get m n v hg]
  rw [foldl_rating_modify_js]
  by_cases ht : truthy e.evaluation.additional_comments = true
  · simp only [ht, if_true, JsObject.modify_modify]
    congr 2
    funext i
    simp [pushEvaluation, ht]
  · have ht' : truthy e.evaluation.additional_comments = false := by simpa using ht
    simp only [ht', Bool.false_eq_true, if_false, JsObject.modify_modify]
    congr 2
    funext i
    simp [pushEvaluation, ht']

theorem evaluationStep_ofOwn (m : JsObject InstructorAccOwn) (e : JoinedEvaluation)
    (hs : hasInheritedName e.session = false) :
    evaluationStep (mapValues InstructorAcc.ofOwn m) e
      = some (mapValues InstructorAcc.ofOwn (evaluationStepOwn m e)) := by
  rw [evaluationStepOwn_eq]
  cases hn : truthyName e.session.instructor_name with
  | none =>
    unfold evaluationStep
    cases hname : e.session.instructor_name with
    | none => rfl
    | some n =>
      by_cases h : n = ""
      · simp [h]
      · simp [truthyName, hname, h] at hn
  | some n =>
    have hk : n ∉ inheritedNames := by
      simpa [hasInheritedName, hn] using hs
    simp only
    rw [← modify_mapValues InstructorAcc.ofOwn m n (addEvaluation e) (pushEvaluation e)
      (pushEvaluation_ofOwn e)]
    cases hg : m.get n with
    | some v =>
      exact evaluationStep_of_get _ e n (InstructorAcc.ofOwn v) hn
        (by rw [get_mapValues, hg]; rfl)
    | none =>
      obtain ⟨hname, hne⟩ := (truthyName_eq_some _ _).1 hn
      have hg' : (mapValues InstructorAcc.ofOwn m).get n = none := by
        rw [get_mapValues, hg]; rfl
      have hl : (mapValues InstructorAcc.ofOwn m).lookup n = .undefined := by
        rw [lookup_of_not_inherited _ _ hk, hg']
      have hfix : (mapValues InstructorAcc.ofOwn m).modify n (pushEvaluation e)
          = mapValues InstructorAcc.ofOwn m := by
        have hnk : n ∉ (mapValues InstructorAcc.ofOwn m).keys :=
          (JsObject.get_eq_none_iff _ n).1 hg'
        generalize mapValues InstructorAcc.ofOwn m = o at hnk
        induction o with
        | nil => rfl
        | cons p rest ih =>
          obtain ⟨a, b⟩ := p
          simp only [JsObject.keys, List.map_cons, List.mem_cons, not_or] at hnk
          have hne2 : ¬ a = n := fun h => hnk.1 h.symm
          simp only [JsObject.modify, hne2, if_false]
          rw [ih hnk.2]
      unfold evaluationStep
      simp only [hname, hne, if_false, hl, hfix]

/-- The evaluation loop on sessions without an inherited name does what the own-property
loop does. -/
theorem foldlM_evaluationStep (es : List JoinedEvaluation) (m : JsObject InstructorAccOwn)
    (hes : ∀ e ∈ es, hasInheritedName e.session = false) :
    es.foldlM evaluationStep (mapValues InstructorAcc.ofOwn m)
      = some (mapValues InstructorAcc.ofOwn (es.foldl evaluationStepOwn m)) := by
  induction es generalizing m with
  | nil => rfl
  | cons e rest ih =>
    rw [List.foldlM_cons, List.foldl_cons, evaluationStep_ofOwn m e
      (hes e (List.mem_cons_self _ _))]
    exact ih _ (fun x hx => hes x (List.mem_cons_of_mem _ hx))

theorem session_of_mem_allEvaluations (sessions : List TrainingSession)
    (fetch : String → List Evaluation) (e : JoinedEvaluation)
    (he : e ∈ allEvaluations sessions fetch) : e.session ∈ sessions := by
  unfold allEvaluations at he
  simp only [List.mem_flatMap, List.mem_map] at he
  obtain ⟨s, hs, x, _, rfl⟩ := he
  exact hs

/-- The function `loadInstructorRatings` throws exactly when a session carries a truthy
name inherited from `Object.prototype`, and otherwise publishes the list of the
own-property version, the sums being those that `+=` builds. -/
theorem loadInstructorRatings_eq_own (host : Host) (sessions : List TrainingSession)
    (fetch : String → List Evaluation) :
    loadInstructorRatings host sessions fetch
      = if sessions.any hasInheritedName then none
        else some ((loadInstructorRatingsOwn host sessions fetch).map (Instructor.ofOwn host)) := by
  unfold loadInstructorRatings
  have h1 := foldlM_sessionStep sessions [] (fun k hk => absurd hk (List.not_mem_nil _))
  simp only [mapValues, List.map_nil] at h1
  rw [h1]
  cases hany : sessions.any hasInheritedName with
  | true => rfl
  | false =>
    simp only [Bool.false_eq_true, if_false]
    have hes : ∀ e ∈ allEvaluations sessions fetch, hasInheritedName e.session = false := by
      intro e he
      have hmem := session_of_mem_allEvaluations sessions fetch e he
      cases hh : hasInheritedName e.session with
      | false => rfl
      | true =>
        have : sessions.any hasInheritedName = true := List.any_eq_true.2 ⟨_, hmem, hh⟩
        rw [hany] at this
        exact absurd this (by simp)
    have h2 := foldlM_evaluationStep (allEvaluations sessions fetch)
      (sessions.foldl sessionStepOwn []) hes
    simp only [mapValues] at h2 ⊢
    rw [h2]
    simp only
    rw [loadInstructorRatingsOwn_eq]
    unfold instructorMapOf
    have := entries_mapValues InstructorAcc.ofOwn
      ((allEvaluations sessions fetch).foldl evaluationStepOwn (sessions.foldl sessionStepOwn []))
    simp only [mapValues] at this
    rw [this]
    simp only [List.map_map]
    congr 1

/-! ## Monthly trends on the prototype chain -/

/-- A month key contains a dash and so is none of the inherited names. -/
theorem monthKey_not_inherited (host : Host) (t : Int) : monthKey host t ∉ inheritedNames := by
  intro h
  have hdash : '-' ∈ (monthKey host t).data := by
    simp [monthKey, String.data_append]
  have hall : ∀ n ∈ inheritedNames, '-' ∉ n.data := by decide
  exact hall _ h hdash

theorem foldl_month_modify_js (rs : List Rating) (m : JsObject MonthAcc) (k : String) :
    rs.foldl (fun md rating =>
        (JsObject.modify md k
          (fun d => { d with sum := d.sum.add (getRatingValue rating.rating) })).modify
          k (fun d => { d with count := d.count + 1 })) m
      = m.modify k (fun d => { count := d.count + rs.length, sum := addScores d.sum rs }) := by
  induction rs generalizing m with
  | nil =>
    simp only [List.foldl_nil, List.length_nil, addScores, Nat.add_zero]
    exact (modify_fixed m k _ (fun _ => rfl)).symm
  | cons r rest ih =>
    rw [List.foldl_cons, ih, JsObject.modify_modify, JsObject.modify_modify]
    congr 1
    funext d
    simp only [addScores, List.foldl_cons, List.length_cons, MonthAcc.mk.injEq, and_true]
    omega

theorem trendStep_eq (host : Host) (md : JsObject MonthAcc) (e : JoinedEvaluation) :
    trendStep host md e =
      JsObject.upsert md (monthKey host e.evaluation.submitted_at)
        { count := 0, sum := .number 0 }
        (fun d => { count := d.count + e.evaluation.ratings.length,
                    sum := addScores d.sum e.evaluation.ratings }) := by
  unfold trendStep JsObject.upsert
  simp only
  rw [foldl_month_modify_js, lookup_of_not_inherited _ _ (monthKey_not_inherited host _)]
  cases md.get (monthKey host e.evaluation.submitted_at) <;> rfl

theorem foldl_trendStep (host : Host) (es : List JoinedEvaluation) :
    es.foldl (trendStep host) [] = es.foldl (fun (md : JsObject MonthAcc) e =>
      JsObject.upsert md (monthKey host e.evaluation.submitted_at)
        { count := 0, sum := .number 0 }
        (fun d => { count := d.count + e.evaluation.ratings.length,
                    sum := addScores d.sum e.evaluation.ratings })) [] := by
  congr 1
  funext md e
  exact trendStep_eq host md e

theorem foldl_month_some_js (es : List JoinedEvaluation) (d : MonthAcc) :
    es.foldl (fun v e => some
        ({ count := (v.getD { count := 0, sum := .number 0 }).count
             + e.evaluation.ratings.length,
           sum := addScores (v.getD { count := 0, sum := .number 0 }).sum
             e.evaluation.ratings } : MonthAcc)) (some d)
      = some { count := d.count + (ratingEntries es).length,
               sum := addScores d.sum (ratingEntries es) } := by
  induction es generalizing d with
  | nil => simp [ratingEntries, addScores]
  | cons e rest ih =>
    rw [List.foldl_cons]
    simp only [Option.getD_some]
    rw [ih]
    simp only [ratingEntries, List.flatMap_cons, List.length_append, addScores_append,
      Option.some.injEq, MonthAcc.mk.injEq, and_true]
    omega

/-- The accumulator of a month key after the loop of `calculateTrends`. -/
theorem get_foldl_trendStep (host : Host) (es : List JoinedEvaluation) (k : String) :
    (es.foldl (trendStep host) []).get k =
      if evaluationsOfMonth host k es = [] then none
      else some { count := (ratingEntries (evaluationsOfMonth host k es)).length,
                  sum := addScores (.number 0)
                    (ratingEntries (evaluationsOfMonth host k es)) } := by
  rw [foldl_trendStep, get_foldl_upsert
    (fun e : JoinedEvaluation => monthKey host e.evaluation.submitted_at)
    (fun _ => ({ count := 0, sum := .number 0 } : MonthAcc))
    (fun e d => { count := d.count + e.evaluation.ratings.length,
                  sum := addScores d.sum e.evaluation.ratings }) es [] k]
  unfold evaluationsOfMonth
  cases es.filter (fun e => monthKey host e.evaluation.submitted_at == k) with
  | nil => rfl
  | cons e l =>
    rw [List.foldl_cons]
    simp only [JsObject.get, Option.getD_none]
    rw [foldl_month_some_js]
    simp only [ratingEntries, List.flatMap_cons, List.length_append, addScores_append,
      Nat.zero_add, if_false, reduceCtorEq]

theorem keys_foldl_trendStep (host : Host) (es : List JoinedEvaluation) :
    (es.foldl (trendStep host) []).keys
      = firstSeen (es.map (fun e => monthKey host e.evaluation.submitted_at)) := by
  rw [foldl_trendStep, keys_foldl_upsert
    (fun e : JoinedEvaluation => monthKey host e.evaluation.submitted_at)
    (fun _ => ({ count := 0, sum := .number 0 } : MonthAcc))
    (fun e d => { count := d.count + e.evaluation.ratings.length,
                  sum := addScores d.sum e.evaluation.ratings }) es []]
  simp [JsObject.keys]

theorem calculateTrends_perm (host : Host) (es : List JoinedEvaluation) :
    (calculateTrends host es).Perm ((es.foldl (trendStep host) []).map (fun p =>
      ({ month := p.1, avgRating := p.2.sum.divToFixed2 p.2.count, count := p.2.count }
        : Trend))) :=
  (jsSort_perm _ _).trans ((entries_perm _).map _)

/-- Every bucket is the bucket of the month key of some evaluation, with the count of
the rating entries of that month and the printed average of the sum that `+=` builds
from them. -/
theorem mem_calculateTrends (host : Host) (es : List JoinedEvaluation) (t : Trend)
    (ht : t ∈ calculateTrends host es) :
    evaluationsOfMonth host t.month es ≠ [] ∧
    t.count = (ratingEntries (evaluationsOfMonth host t.month es)).length ∧
    t.avgRating = (addScores (.number 0)
        (ratingEntries (evaluationsOfMonth host t.month es))).divToFixed2
      (ratingEntries (evaluationsOfMonth host t.month es)).length := by
  obtain ⟨p, hp, rfl⟩ := List.mem_map.1 ((calculateTrends_perm host es).mem_iff.1 ht)
  have hnd : (es.foldl (trendStep host) []).keys.Nodup := by
    rw [keys_foldl_trendStep]
    exact nodup_firstSeen _
  have hg := get_of_mem _ p hnd hp
  rw [get_foldl_trendStep] at hg
  by_cases h : evaluationsOfMonth host p.1 es = []
  · simp [h] at hg
  · simp only [h, if_false, Option.some.injEq] at hg
    simp only
    refine ⟨h, ?_, ?_⟩ <;> rw [← hg]

theorem trend_month_mem_js (host : Host) (es : List JoinedEvaluation) (t : Trend)
    (ht : t ∈ calculateTrends host es) :
    ∃ e ∈ es, monthKey host e.evaluation.submitted_at = t.month := by
  obtain ⟨h, _⟩ := mem_calculateTrends host es t ht
  obtain ⟨e, he⟩ := List.exists_mem_of_ne_nil _ h
  obtain ⟨h1, h2⟩ := List.mem_filter.1 he
  exact ⟨e, h1, by simpa using h2⟩

theorem months_calculateTrends (host : Host) (es : List JoinedEvaluation) :
    ((calculateTrends host es).map (fun t => t.month)).Perm
      (firstSeen (es.map (fun e => monthKey host e.evaluation.submitted_at))) := by
  rw [← keys_foldl_trendStep]
  have := (calculateTrends_perm host es).map (fun t => t.month)
  rw [List.map_map] at this
  exact this

theorem divToFixed2_number (s c : Nat) : (JsValue.number s).divToFixed2 c = toFixed2 s c := rfl

theorem divToFixed2_text (c : Nat) : JsValue.text.divToFixed2 c = none := rfl

/-- An evaluation with a rating entry of value `constructor` next to one of value
`excellent`, submitted on 2024-03-15 (UTC). -/
def inheritedTrendEvaluations : List JoinedEvaluation :=
  [ { evaluation := { ratings := [⟨"Presentation", "Instructors Knowledge", "excellent"⟩,
                                  ⟨"Content Quality", "Well organized", "constructor"⟩],
                      submitted_at := 1710460800000 },
      session := { id := "s1", instructor_name := some "Kaleb" } } ]

/-- C15, counterexample: for one evaluation of March 2024 with the rating values
`excellent` and `constructor`, the bucket of `2024-03` counts 2 rating entries and its
average is `NaN`, whereas the 5/4/3/2 scores, 5 and 0, average to `2.50`. -/
theorem trends_buckets_counterexample :
    calculateTrends utcHost inheritedTrendEvaluations
      = [{ month := "2024-03", avgRating := none, count := 2 }] ∧
    toFixed2 (instructorScoreSum (ratingEntries inheritedTrendEvaluations)) 2 = some 250 := by
  decide

/-- C15, amended: `calculateTrends` returns one bucket per distinct month key of the
evaluations, a key standing for one calendar year-month of the host; the buckets are in
ascending order of the key without repetition; the count of a bucket is the number of
rating entries of the evaluations of its month.  When none of these rating entries has
a rating value that names a property inherited from `Object.prototype`, the average of
the bucket is `toFixed(2)` of (sum of their 5/4/3/2 scores) / count, a hundredth within
`1 / 200` of that quotient when the bucket has a rating entry (shown for at most `2^42`
rating entries); when one of them has such a value, the average is `NaN`.  The sort
relies on a consistent `localeCompare`. -/
theorem trends_buckets (host : Host) (hcmp : ConsistentComparator host.localeCompare)
    (evaluations : List JoinedEvaluation)
    (hsize : (ratingEntries evaluations).length ≤ 2 ^ 42) :
    ((calculateTrends host evaluations).map (fun t => t.month)).Nodup ∧
    (∀ k, k ∈ (calculateTrends host evaluations).map (fun t => t.month) ↔
      ∃ e ∈ evaluations, monthKey host e.evaluation.submitted_at = k) ∧
    (∀ t₁ t₂ : Int, monthKey host t₁ = monthKey host t₂ ↔
      host.getFullYear t₁ = host.getFullYear t₂ ∧ host.getMonth t₁ = host.getMonth t₂) ∧
    (calculateTrends host evaluations).Pairwise
      (fun a b => host.localeCompare a.month b.month ≤ 0 ∧ a.month ≠ b.month) ∧
    ∀ t ∈ calculateTrends host evaluations,
      t.count = (ratingEntries (evaluationsOfMonth host t.month evaluations)).length ∧
      ((∀ r ∈ ratingEntries (evaluationsOfMonth host t.month evaluations),
          r.rating ∉ inheritedNames) →
        t.avgRating = toFixed2
          (instructorScoreSum (ratingEntries (evaluationsOfMonth host t.month evaluations)))
          t.count ∧
        (t.count ≠ 0 → ∃ n, t.avgRating = some n ∧
          2 * (n * t.count)
            ≤ 200 * instructorScoreSum
                (ratingEntries (evaluationsOfMonth host t.month evaluations))
              + t.count ∧
          200 * instructorScoreSum (ratingEntries (evaluationsOfMonth host t.month evaluations))
            ≤ 2 * (n * t.count) + t.count)) ∧
      ((∃ r ∈ ratingEntries (evaluationsOfMonth host t.month evaluations),
          r.rating ∈ inheritedNames) → t.avgRating = none) := by
  have hperm := months_calculateTrends host evaluations
  have hnd : ((calculateTrends host evaluations).map (fun t => t.month)).Nodup :=
    hperm.nodup_iff.2 (nodup_firstSeen _)
  refine ⟨hnd, ?_, monthKey_eq_iff host, ?_, ?_⟩
  · intro k
    rw [hperm.mem_iff, mem_firstSeen, List.mem_map]
  · have hsorted : (calculateTrends host evaluations).Pairwise
        (fun a b => host.localeCompare a.month b.month ≤ 0) :=
      jsSort_sorted_of_consistent (fun a b : Trend => host.localeCompare a.month b.month)
        (fun a b => hcmp.1 a.month b.month)
        (fun a b c => hcmp.2 a.month b.month c.month) _
    exact List.Pairwise.and hsorted (List.pairwise_map.1 hnd)
  · intro t ht
    obtain ⟨_, hc, ha⟩ := mem_calculateTrends host evaluations t ht
    refine ⟨hc, ?_, ?_⟩
    · intro hclean
      rw [addScores_number 0 _ hclean, Nat.zero_add, divToFixed2_number] at ha
      refine ⟨by rw [ha, hc], ?_⟩
      intro hne
      obtain ⟨n, hn⟩ := toFixed2_isSome
        (instructorScoreSum (ratingEntries (evaluationsOfMonth host t.month evaluations)))
        t.count hne
      have hle : t.count ≤ 2 ^ 42 := by
        rw [hc]
        exact le_trans (length_ratingEntries_filter _ _) hsize
      have hsum : instructorScoreSum
          (ratingEntries (evaluationsOfMonth host t.month evaluations)) ≤ 8 * t.count := by
        have := instructorScoreSum_le
          (ratingEntries (evaluationsOfMonth host t.month evaluations))
        rw [hc]
        omega
      exact ⟨n, by rw [ha, ← hc, hn], toFixed2_nearest8 _ _ n hne hsum hle hn⟩
    · intro hbad
      rw [addScores_of_inherited 0 _ hbad, divToFixed2_text] at ha
      exact ha

/-- C15, witness: four evaluations of one session, submitted in November 2023, twice
in March 2024 and in January 2024, fall into three buckets in ascending order of
the key. -/
theorem trends_buckets_witness :
    ConsistentComparator utcHost.localeCompare ∧
    (ratingEntries trendEvaluations).length ≤ 2 ^ 42 ∧
    ((calculateTrends utcHost trendEvaluations).map (fun t => t.month)).Nodup ∧
    (calculateTrends utcHost trendEvaluations).map (fun t => (t.month, t.avgRating, t.count))
      = [("2023-11", some 400, 1), ("2024-01", none, 0), ("2024-03", some 367, 3)] :=
  ⟨utcHost_consistent, by decide,
    (trends_buckets utcHost utcHost_consistent trendEvaluations (by decide)).1, by decide⟩

/-! ## Instructor aggregation on the prototype chain -/

theorem any_hasInheritedName_eq_false (sessions : List TrainingSession)
    (h : ∀ s ∈ sessions, ∀ n, s.instructor_name = some n → n ∉ inheritedNames) :
    sessions.any hasInheritedName = false := by
  rw [List.any_eq_false]
  intro s hs
  unfold hasInheritedName
  cases hn : truthyName s.instructor_name with
  | none => simp
  | some n =>
    have := h s hs n ((truthyName_eq_some _ _).1 hn).1
    simpa using this

theorem any_hasInheritedName_eq_true (sessions : List TrainingSession)
    (h : ∃ s ∈ sessions, ∃ n, s.instructor_name = some n ∧ n ∈ inheritedNames) :
    sessions.any hasInheritedName = true := by
  obtain ⟨s, hs, n, hn, hi⟩ := h
  rw [List.any_eq_true]
  refine ⟨s, hs, ?_⟩
  have hne : n ≠ "" := by
    rintro rfl
    exact absurd hi (by decide)
  have : truthyName s.instructor_name = some n := (truthyName_eq_some _ _).2 ⟨hn, hne⟩
  simp [hasInheritedName, this, hi]

/-- Without a session of an inherited name, `loadInstructorRatings` publishes the list
of the own-property version. -/
theorem loadInstructorRatings_of_clean (host : Host) (sessions : List TrainingSession)
    (fetch : String → List Evaluation)
    (h : ∀ s ∈ sessions, ∀ n, s.instructor_name = some n → n ∉ inheritedNames) :
    loadInstructorRatings host sessions fetch
      = some ((loadInstructorRatingsOwn host sessions fetch).map (Instructor.ofOwn host)) := by
  rw [loadInstructorRatings_eq_own, any_hasInheritedName_eq_false sessions h]
  rfl

/-- With a session of an inherited name, `loadInstructorRatings` throws. -/
theorem loadInstructorRatings_of_inherited (host : Host) (sessions : List TrainingSession)
    (fetch : String → List Evaluation)
    (h : ∃ s ∈ sessions, ∃ n, s.instructor_name = some n ∧ n ∈ inheritedNames) :
    loadInstructorRatings host sessions fetch = none := by
  rw [loadInstructorRatings_eq_own, any_hasInheritedName_eq_true sessions h]
  rfl

/-- Every element of a published list is the finished expected accumulator of a name
that some session carries. -/
theorem mem_loadInstructorRatings (host : Host) (sessions : List TrainingSession)
    (fetch : String → List Evaluation) (l : List Instructor)
    (hl : loadInstructorRatings host sessions fetch = some l) (i : Instructor) :
    i ∈ l ↔ ∃ k, sessionsOf k sessions ≠ [] ∧
      i = Instructor.ofOwn host
        (finishInstructorOwn host (expectedAcc k sessions (allEvaluations sessions fetch))) := by
  rw [loadInstructorRatings_eq_own] at hl
  cases hany : sessions.any hasInheritedName with
  | true => simp [hany] at hl
  | false =>
    simp only [hany, Bool.false_eq_true, if_false, Option.some.injEq] at hl
    subst hl
    rw [List.mem_map]
    constructor
    · rintro ⟨j, hj, rfl⟩
      obtain ⟨k, hk, rfl⟩ := (mem_loadInstructorRatingsOwn host sessions fetch j).1 hj
      exact ⟨k, hk, rfl⟩
    · rintro ⟨k, hk, rfl⟩
      exact ⟨_, (mem_loadInstructorRatingsOwn host sessions fetch _).2 ⟨k, hk, rfl⟩, rfl⟩

theorem averageOrZero_number (s c : Nat) :
    averageOrZero (.number s) c = some (averageOrZeroOwn s c) := by
  unfold averageOrZero averageOrZeroOwn
  by_cases h : 0 < c
  · obtain ⟨n, hn⟩ := toFixed2_isSome s c (by omega)
    simp [h, JsValue.divToFixed2, hn]
  · simp [h]

theorem averageOrZero_text (c : Nat) (h : 0 < c) : averageOrZero .text c = none := by
  simp [averageOrZero, h, JsValue.divToFixed2]

/-- The average of the finished expected accumulator of a name. -/
theorem avgRating_expected (host : Host) (k : String) (sessions : List TrainingSession)
    (es : List JoinedEvaluation) :
    (Instructor.ofOwn host (finishInstructorOwn host (expectedAcc k sessions es))).avgRating
      = averageOrZero (addScores (.number 0) (ratingEntries (evaluationsOf k es)))
          (ratingEntries (evaluationsOf k es)).length := rfl

theorem avgRating_expected_clean (host : Host) (k : String) (sessions : List TrainingSession)
    (es : List JoinedEvaluation)
    (h : ∀ r ∈ ratingEntries (evaluationsOf k es), r.rating ∉ inheritedNames) :
    (Instructor.ofOwn host (finishInstructorOwn host (expectedAcc k sessions es))).avgRating
      = some (finishInstructorOwn host (expectedAcc k sessions es)).avgRating := by
  rw [avgRating_expected, addScores_number 0 _ h, Nat.zero_add, averageOrZero_number]
  rfl

/-- One session of the instructor "Kaleb" with one evaluation whose rating values are
`excellent` and `constructor`. -/
def inheritedRatingSessions : List TrainingSession :=
  [{ id := "s1", instructor_name := some "Kaleb" }]

/-- The evaluations stored for the session of `inheritedRatingSessions`. -/
def inheritedRatingStore : String → List Evaluation := fun id =>
  if id = "s1" then
    [{ ratings := [⟨"Presentation", "Instructors Knowledge", "excellent"⟩,
                   ⟨"Content Quality", "Well organized", "constructor"⟩] }]
  else []

/-- Two sessions, the first of an instructor named `constructor`, the second of the
instructor "Kaleb". -/
def inheritedNameSessions : List TrainingSession :=
  [{ id := "s1", instructor_name := some "constructor" },
   { id := "s2", instructor_name := some "Kaleb" }]

/-- C11, counterexample: for the instructor "Kaleb" with one evaluation whose rating
values are `excellent` and `constructor`, the average is `NaN`, whereas the 5/4/3/2
scores of the two rating entries, 5 and 0, average to `2.50`; and with a session of an
instructor named `constructor` the loop throws and no average is published, for
"Kaleb" or anyone else. -/
theorem instructor_average_counterexample :
    (loadInstructorRatings utcHost inheritedRatingSessions inheritedRatingStore).map
        (fun l => l.map (fun i => (i.name, i.avgRating, i.totalSessions, i.totalEvaluations)))
      = some [("Kaleb", none, 1, 1)] ∧
    toFixed2 (instructorScoreSum
      (ratingsOfInstructor "Kaleb" inheritedRatingSessions inheritedRatingStore)) 2 = some 250 ∧
    loadInstructorRatings utcHost inheritedNameSessions kalebStore = none := by
  decide

/-- C11, amended: when no session has an instructor name that names a property
inherited from `Object.prototype`, and no rating entry of the instructor has such a
rating value, then for an instructor name carried by some session the published list
holds exactly one entry of that name; its `avgRating`, in hundredths, is within
`1 / 200` of (sum of the 5/4/3/2 scores) / (number of rating entries) over all rating
entries of all evaluations of all sessions carrying the name, and it is 0 when there is
no such entry.  The rounding goes through a binary64 quotient and is shown for at most
`2^42` rating entries.  For two sessions, one with two evaluations scoring 5 and 4 and
one with none, the average is `4.50` (with 2 sessions and 2 evaluations). -/
theorem instructor_average :
    (∀ (host : Host) (sessions : List TrainingSession) (fetch : String → List Evaluation)
        (name : String),
      name ≠ "" → (∃ s ∈ sessions, s.instructor_name = some name) →
      (∀ s ∈ sessions, ∀ n, s.instructor_name = some n → n ∉ inheritedNames) →
      (∀ r ∈ ratingsOfInstructor name sessions fetch, r.rating ∉ inheritedNames) →
      (ratingsOfInstructor name sessions fetch).length ≤ 2 ^ 42 →
      ∃ l i x, loadInstructorRatings host sessions fetch = some l ∧
        l.filter (fun y => y.name == name) = [i] ∧ i.avgRating = some x ∧
        (ratingsOfInstructor name sessions fetch = [] → x = 0) ∧
        2 * (x * (ratingsOfInstructor name sessions fetch).length)
          ≤ 200 * instructorScoreSum (ratingsOfInstructor name sessions fetch)
            + (ratingsOfInstructor name sessions fetch).length ∧
        200 * instructorScoreSum (ratingsOfInstructor name sessions fetch)
          ≤ 2 * (x * (ratingsOfInstructor name sessions fetch).length)
            + (ratingsOfInstructor name sessions fetch).length) ∧
    (∀ host : Host, (loadInstructorRatings host kalebSessions kalebStore).map
        (fun l => l.map (fun i => (i.name, i.avgRating, i.totalSessions, i.totalEvaluations)))
      = some [("Kaleb", some 450, 2, 2)]) := by
  constructor
  · intro host sessions fetch name hn hs hclean hr hsize
    obtain ⟨i, hfilter, hzero, hnear⟩ :=
      instructor_average_own.1 host sessions fetch name hn hs hsize
    have hk : sessionsOf name sessions ≠ [] := (sessionsOf_ne_nil_iff _ _).2 ⟨hn, hs⟩
    have hi : i = finishInstructorOwn host
        (expectedAcc name sessions (allEvaluations sessions fetch)) := by
      have := loadInstructorRatingsOwn_filter host sessions fetch name hk
      rw [hfilter] at this
      exact List.singleton_injective this
    refine ⟨_, Instructor.ofOwn host i, i.avgRating,
      loadInstructorRatings_of_clean host sessions fetch hclean, ?_, ?_, hzero, hnear⟩
    · rw [List.filter_map]
      have : ((fun y : Instructor => y.name == name) ∘ Instructor.ofOwn host)
          = fun x : InstructorOwn => x.name == name := rfl
      rw [this, hfilter]
      rfl
    · rw [hi]
      apply avgRating_expected_clean
      rw [ratingEntries_evaluationsOf name hn]
      exact hr
  · intro host
    have h : kalebSessions.any hasInheritedName = false := by decide
    rw [loadInstructorRatings_eq_own, h]
    show _ = some [("Kaleb", averageOrZero (.number 9) 2, 2, 2)]
    rfl

/-- C11, witness: the scenario of "Kaleb" satisfies the hypotheses, and its entry has
the average `4.50`. -/
theorem instructor_average_witness :
    "Kaleb" ≠ "" ∧ (∃ s ∈ kalebSessions, s.instructor_name = some "Kaleb") ∧
    (∀ s ∈ kalebSessions, ∀ n, s.instructor_name = some n → n ∉ inheritedNames) ∧
    (∀ r ∈ ratingsOfInstructor "Kaleb" kalebSessions kalebStore, r.rating ∉ inheritedNames) ∧
    (ratingsOfInstructor "Kaleb" kalebSessions kalebStore).length ≤ 2 ^ 42 ∧
    (loadInstructorRatings utcHost kalebSessions kalebStore).map
        (fun l => l.map (fun i => (i.name, i.avgRating, i.totalSessions, i.totalEvaluations)))
      = some [("Kaleb", some 450, 2, 2)] :=
  ⟨by decide, by decide, by decide, by decide, by decide, instructor_average.2 utcHost⟩

/-- C12, counterexample: for the instructor "Kaleb" with one evaluation whose rating
values are `excellent` and `constructor`, the published `avgRating` is `NaN`, which
lies in no interval. -/
theorem instructor_average_bounds_counterexample :
    (loadInstructorRatings utcHost inheritedRatingSessions inheritedRatingStore).map
        (fun l => l.map (fun i => (i.name, i.avgRating, i.totalEvaluations)))
      = some [("Kaleb", none, 1)] := by
  decide

/-- C12, amended: when no session has an instructor name that names a property
inherited from `Object.prototype`, a list is published; and in every published list an
instructor with zero evaluations has `avgRating` 0, an instructor none of whose rating
entries has a rating value naming such a property has an `avgRating` in `[0, 5.00]` (a
natural number of hundredths, at most 500), and an instructor with such a rating value
has the `avgRating` `NaN`. -/
theorem instructor_average_bounds (host : Host) (sessions : List TrainingSession)
    (fetch : String → List Evaluation) :
    ((∀ s ∈ sessions, ∀ n, s.instructor_name = some n → n ∉ inheritedNames) →
      ∃ l, loadInstructorRatings host sessions fetch = some l) ∧
    ∀ l, loadInstructorRatings host sessions fetch = some l → ∀ i ∈ l,
      (i.totalEvaluations = 0 → i.avgRating = some 0) ∧
      ((∀ r ∈ ratingEntries i.evaluations, r.rating ∉ inheritedNames) →
        ∃ x, i.avgRating = some x ∧ 0 ≤ x ∧ x ≤ 500) ∧
      ((∃ r ∈ ratingEntries i.evaluations, r.rating ∈ inheritedNames) →
        i.avgRating = none) := by
  refine ⟨fun h => ⟨_, loadInstructorRatings_of_clean host sessions fetch h⟩, ?_⟩
  intro l hl i hi
  obtain ⟨k, _, rfl⟩ := (mem_loadInstructorRatings host sessions fetch l hl i).1 hi
  refine ⟨?_, ?_, ?_⟩
  · intro h0
    have h0' : (evaluationsOf k (allEvaluations sessions fetch)).length = 0 := h0
    rw [avgRating_expected, List.length_eq_zero.1 h0']
    rfl
  · intro hclean
    refine ⟨_, avgRating_expected_clean host k sessions _ hclean, Nat.zero_le _, ?_⟩
    simp only [finishInstructorOwn, expectedAcc]
    exact averageOrZeroOwn_le _ _ (instructorScoreSum_le _)
  · intro hbad
    have hbad' : ∃ r ∈ ratingEntries (evaluationsOf k (allEvaluations sessions fetch)),
        r.rating ∈ inheritedNames := hbad
    rw [avgRating_expected, addScores_of_inherited 0 _ hbad']
    apply averageOrZero_text
    obtain ⟨r, hr, _⟩ := hbad'
    exact List.length_pos_of_mem hr

/-- C12, witness: in the scenario of "Kaleb" a list is published and the average of
every instructor in it lies in `[0, 5.00]`. -/
theorem instructor_average_bounds_witness :
    (∀ s ∈ kalebSessions, ∀ n, s.instructor_name = some n → n ∉ inheritedNames) ∧
    ∃ l, loadInstructorRatings utcHost kalebSessions kalebStore = some l ∧
      ∀ i ∈ l, (∀ r ∈ ratingEntries i.evaluations, r.rating ∉ inheritedNames) ∧
        ∃ x, i.avgRating = some x ∧ 0 ≤ x ∧ x ≤ 500 := by
  refine ⟨by decide, ?_⟩
  obtain ⟨l, hl⟩ :=
    (instructor_average_bounds utcHost kalebSessions kalebStore).1 (by decide)
  refine ⟨l, hl, ?_⟩
  intro i hi
  have hproj : (loadInstructorRatings utcHost kalebSessions kalebStore).map
      (fun l => l.map (fun i => ratingEntries i.evaluations))
        = some [[⟨"Presentation", "Instructors Knowledge", "excellent"⟩,
                 ⟨"Presentation", "Instructors Knowledge", "very_good"⟩]] := by
    decide
  rw [hl] at hproj
  simp only [Option.map_some', Option.some.injEq] at hproj
  have hm : ratingEntries i.evaluations ∈ l.map (fun i => ratingEntries i.evaluations) :=
    List.mem_map_of_mem _ hi
  rw [hproj, List.mem_singleton] at hm
  have hclean : ∀ r ∈ ratingEntries i.evaluations, r.rating ∉ inheritedNames := by
    rw [hm]
    decide
  exact ⟨hclean,
    ((instructor_average_bounds utcHost kalebSessions kalebStore).2 l hl i hi).2.1 hclean⟩

/-! ## Sessions without an instructor name; one entry per name -/

theorem any_hasInheritedName_filter (sessions : List TrainingSession) :
    (sessions.filter (fun s => truthy s.instructor_name)).any hasInheritedName
      = sessions.any hasInheritedName := by
  induction sessions with
  | nil => rfl
  | cons s rest ih =>
    by_cases hs : truthy s.instructor_name = true
    · simp only [List.filter_cons, hs, if_true, List.any_cons, ih]
    · have hs' : truthy s.instructor_name = false := by simpa using hs
      have : hasInheritedName s = false := by
        simp [hasInheritedName, truthyName_of_not_truthy _ hs']
      simp only [List.filter_cons, hs', Bool.false_eq_true, if_false, List.any_cons, ih, this,
        Bool.false_or]

/-- C13: sessions lacking an instructor name are excluded entirely: the outcome is the
one obtained from the sessions that have a name, so a nameless session and its
evaluations contribute to no entry, total, sum, count or trend; every entry of a
published list has a non-empty name, and all its sessions and the parent sessions of
all its evaluations carry that name. -/
theorem nameless_sessions_excluded (host : Host) (sessions : List TrainingSession)
    (fetch : String → List Evaluation) :
    loadInstructorRatings host sessions fetch
      = loadInstructorRatings host (sessions.filter (fun s => truthy s.instructor_name)) fetch ∧
    ∀ l, loadInstructorRatings host sessions fetch = some l → ∀ i ∈ l,
      i.name ≠ "" ∧ (∀ s ∈ i.sessions, s.instructor_name = some i.name) ∧
      (∀ e ∈ i.evaluations, e.session.instructor_name = some i.name) ∧
      (∀ t ∈ i.trends, ∃ e ∈ i.evaluations,
        monthKey host e.evaluation.submitted_at = t.month) := by
  constructor
  · rw [loadInstructorRatings_eq_own, loadInstructorRatings_eq_own,
      any_hasInheritedName_filter, ← (nameless_sessions_excluded_own host sessions fetch).1]
  · intro l hl i hi
    obtain ⟨k, hk, rfl⟩ := (mem_loadInstructorRatings host sessions fetch l hl i).1 hi
    have hk' := ((sessionsOf_ne_nil_iff _ _).1 hk).1
    refine ⟨hk', ?_, ?_, ?_⟩
    · intro s hs
      have hs' : s ∈ sessionsOf k sessions := hs
      have := (List.mem_filter.1 hs').2
      exact ((truthyName_eq_some _ _).1 (by simpa using this)).1
    · intro e he
      have he' : e ∈ evaluationsOf k (allEvaluations sessions fetch) := he
      have := (List.mem_filter.1 he').2
      exact ((truthyName_eq_some _ _).1 (by simpa using this)).1
    · intro t ht
      exact trend_month_mem_js host _ t ht

/-- The sessions of "Kaleb" followed by a session without an instructor name and a
session whose instructor name is empty. -/
def namelessSessions : List TrainingSession :=
  kalebSessions ++ [{ id := "s3", instructor_name := none },
                    { id := "s4", instructor_name := some "" }]

/-- C13, witness: with two nameless sessions added to the scenario of "Kaleb", the
published list is the one of the scenario, and its entry carries the name "Kaleb". -/
theorem nameless_sessions_excluded_witness :
    loadInstructorRatings utcHost namelessSessions (fun _ =>
        [{ ratings := [⟨"Presentation", "Instructors Knowledge", "good"⟩] }])
      = loadInstructorRatings utcHost kalebSessions (fun _ =>
        [{ ratings := [⟨"Presentation", "Instructors Knowledge", "good"⟩] }]) ∧
    ∃ l, loadInstructorRatings utcHost namelessSessions (fun _ =>
        [{ ratings := [⟨"Presentation", "Instructors Knowledge", "good"⟩] }]) = some l ∧
      ∀ i ∈ l, i.name ≠ "" := by
  have h := nameless_sessions_excluded utcHost namelessSessions (fun _ =>
    [{ ratings := [⟨"Presentation", "Instructors Knowledge", "good"⟩] }])
  refine ⟨h.1, ?_⟩
  obtain ⟨l, hl⟩ : ∃ l, loadInstructorRatings utcHost namelessSessions (fun _ =>
      [{ ratings := [⟨"Presentation", "Instructors Knowledge", "good"⟩] }]) = some l :=
    ⟨_, loadInstructorRatings_of_clean _ _ _ (by decide)⟩
  exact ⟨l, hl, fun i hi => (h.2 l hl i hi).1⟩

/-- C14, counterexample: with a session of an instructor named `constructor` next to a
session of "Kaleb", the session loop throws and no list is published, so that no entry
stands for either name. -/
theorem one_entry_per_instructor_counterexample :
    loadInstructorRatings utcHost inheritedNameSessions kalebStore = none ∧
    (∃ s ∈ inheritedNameSessions, s.instructor_name = some "Kaleb") := by
  decide

/-- C14, amended: when no session has an instructor name that names a property
inherited from `Object.prototype`, the published list holds exactly one entry per
distinct non-empty instructor name of the sessions; its `totalSessions` is the number of
sessions with that name (with or without evaluations) and its `totalEvaluations` is the
number of evaluations whose parent session has that name.  With a session of such a
name nothing is published. -/
theorem one_entry_per_instructor (host : Host) (sessions : List TrainingSession)
    (fetch : String → List Evaluation) :
    ((∀ s ∈ sessions, ∀ n, s.instructor_name = some n → n ∉ inheritedNames) →
      ∃ l, loadInstructorRatings host sessions fetch = some l ∧
        (l.map (fun i => i.name)).Nodup ∧
        (∀ name, name ∈ l.map (fun i => i.name) ↔
          name ≠ "" ∧ ∃ s ∈ sessions, s.instructor_name = some name) ∧
        ∀ i ∈ l,
          i.totalSessions
            = (sessions.filter (fun s => s.instructor_name == some i.name)).length ∧
          i.totalEvaluations = ((allEvaluations sessions fetch).filter
            (fun e => e.session.instructor_name == some i.name)).length) ∧
    ((∃ s ∈ sessions, ∃ n, s.instructor_name = some n ∧ n ∈ inheritedNames) →
      loadInstructorRatings host sessions fetch = none) := by
  refine ⟨?_, loadInstructorRatings_of_inherited host sessions fetch⟩
  intro hclean
  obtain ⟨hnd, hnames, htot⟩ := one_entry_per_instructor_own host sessions fetch
  have hmap : ((loadInstructorRatingsOwn host sessions fetch).map (Instructor.ofOwn host)).map
      (fun i => i.name) = (loadInstructorRatingsOwn host sessions fetch).map (fun i => i.name) := by
    rw [List.map_map]
    rfl
  refine ⟨_, loadInstructorRatings_of_clean host sessions fetch hclean, ?_, ?_, ?_⟩
  · rw [hmap]
    exact hnd
  · intro name
    rw [hmap]
    exact hnames name
  · intro i hi
    obtain ⟨j, hj, rfl⟩ := List.mem_map.1 hi
    exact htot j hj

/-- C14, witness: the scenario of "Kaleb" publishes one entry, of that name, with 2
sessions and 2 evaluations. -/
theorem one_entry_per_instructor_witness :
    (∀ s ∈ kalebSessions, ∀ n, s.instructor_name = some n → n ∉ inheritedNames) ∧
    ∃ l, loadInstructorRatings utcHost kalebSessions kalebStore = some l ∧
      (l.map (fun i => i.name)).Nodup ∧
      (∀ name, name ∈ l.map (fun i => i.name) ↔
        name ≠ "" ∧ ∃ s ∈ kalebSessions, s.instructor_name = some name) ∧
      ∀ i ∈ l,
        i.totalSessions
          = (kalebSessions.filter (fun s => s.instructor_name == some i.name)).length ∧
        i.totalEvaluations = ((allEvaluations kalebSessions kalebStore).filter
          (fun e => e.session.instructor_name == some i.name)).length :=
  ⟨by decide, (one_entry_per_instructor utcHost kalebSessions kalebStore).1 (by decide)⟩

/-! ## The two rating scales -/

/-- C20, counterexample: the value `constructor` is outside the enum, and both
mappings give for it the built-in function `Object` of the prototype chain, not 0. -/
theorem rating_scales_counterexample :
    "constructor" ∉ ["excellent", "very_good", "good", "needs_improvement"] ∧
    ratingValue "constructor" = .builtin ∧ getRatingValue "constructor" = .builtin ∧
    ratingValue "constructor" ≠ .number 0 ∧ getRatingValue "constructor" ≠ .number 0 := by
  decide

/-- C20, amended: the four enum values score 4/3/2/1 in the session-level analytics and
5/4/3/2 in the instructor-level analytics, one more for each value; every other value
scores 0 in both unless it names a property inherited from `Object.prototype`, and for
such a name both mappings give the inherited built-in object. -/
theorem rating_scales :
    (ratingValue "excellent" = .number 4 ∧ ratingValue "very_good" = .number 3 ∧
      ratingValue "good" = .number 2 ∧ ratingValue "needs_improvement" = .number 1) ∧
    (getRatingValue "excellent" = .number 5 ∧ getRatingValue "very_good" = .number 4 ∧
      getRatingValue "good" = .number 3 ∧ getRatingValue "needs_improvement" = .number 2) ∧
    (∀ v ∈ ["excellent", "very_good", "good", "needs_improvement"],
      getRatingValue v = (ratingValue v).add (.number 1)) ∧
    (∀ v, v ∉ ["excellent", "very_good", "good", "needs_improvement"] →
      v ∉ inheritedNames → ratingValue v = .number 0 ∧ getRatingValue v = .number 0) ∧
    (∀ v, v ∈ inheritedNames → ratingValue v = .builtin ∧ getRatingValue v = .builtin) := by
  refine ⟨by decide, by decide, by decide, ?_, ?_⟩
  · intro v hv hi
    rw [ratingValue_of_not_inherited v hi, getRatingValue_of_not_inherited v hi,
      (rating_scales_own.2.2.2 v hv).1, (rating_scales_own.2.2.2 v hv).2]
    exact ⟨rfl, rfl⟩
  · intro v hv
    exact ⟨ratingValue_inherited v hv, getRatingValue_inherited v hv⟩

/-- C20, witness: the value `fair` is outside the enum and no inherited name, and
scores 0 on both scales. -/
theorem rating_scales_witness :
    "fair" ∉ ["excellent", "very_good", "good", "needs_improvement"] ∧
    "fair" ∉ inheritedNames ∧
    ratingValue "fair" = .number 0 ∧ getRatingValue "fair" = .number 0 :=
  ⟨by decide, by decide, rating_scales.2.2.2.1 "fair" (by decide) (by decide)⟩

/-! ## Filtering and sorting of the instructor list -/

/-- The list after the search filter. -/
def searchStage (host : Host) (searchQuery : String) (data : List Instructor) : List Instructor :=
  if searchQuery != "" then
    data.filter (fun instructor =>
      jsIncludes (host.toLowerCase instructor.name) (host.toLowerCase searchQuery))
  else data

/-- The list after the rating filter. -/
def bandStage (filterRating : RatingFilter) (data : List Instructor) : List Instructor :=
  match filterRating with
  | .all => data
  | .band minRating => data.filter (fun instructor => inBand minRating instructor.avgRating)

/-- The list after the time-range filter. -/
def windowStage (host : Host) (now : Int) (timeRange : TimeRange) (data : List Instructor) :
    List Instructor :=
  match cutoffDate host now timeRange with
  | none => data
  | some cutoff => data.filterMap (restrictToWindow cutoff)

theorem getFilteredAndSortedInstructors_eq (host : Host) (data : List Instructor)
    (q : String) (fr : RatingFilter) (tr : TimeRange) (sb : SortBy) (now : Int) :
    getFilteredAndSortedInstructors host data q fr tr sb now
      = jsSort (sortComparator host sb)
          (windowStage host now tr (bandStage fr (searchStage host q data))) := by
  unfold getFilteredAndSortedInstructors windowStage bandStage searchStage
  cases fr <;> rfl

theorem foldl_window_acc (es : List JoinedEvaluation) (acc : JsValue × Nat) :
    es.foldl (fun acc e =>
        e.evaluation.ratings.foldl
          (fun acc r => (acc.1.add (getRatingValue r.rating), acc.2 + 1)) acc)
      acc
      = (addScores acc.1 (ratingEntries es), acc.2 + (ratingEntries es).length) := by
  have inner : ∀ (rs : List Rating) (acc : JsValue × Nat),
      rs.foldl (fun acc r => (acc.1.add (getRatingValue r.rating), acc.2 + 1)) acc
        = (addScores acc.1 rs, acc.2 + rs.length) := by
    intro rs
    induction rs with
    | nil => intro acc; simp [addScores]
    | cons r rest ih =>
      intro acc
      rw [List.foldl_cons, ih]
      simp only [addScores, List.foldl_cons, List.length_cons, Prod.mk.injEq, true_and]
      omega
  induction es generalizing acc with
  | nil => simp [ratingEntries, addScores]
  | cons e rest ih =>
    rw [List.foldl_cons, inner, ih]
    simp only [ratingEntries, List.flatMap_cons, List.length_append, addScores_append,
      Prod.mk.injEq, true_and]
    omega

/-- The time-range map body in closed form. -/
theorem restrictToWindow_eq (cutoff : Int) (i : Instructor) :
    restrictToWindow cutoff i =
      if recentEvaluations cutoff i = [] then none
      else some { i with
        avgRating := averageOrZero
          (addScores (.number 0) (ratingEntries (recentEvaluations cutoff i)))
          (ratingEntries (recentEvaluations cutoff i)).length
        totalEvaluations := (recentEvaluations cutoff i).length } := by
  unfold restrictToWindow
  simp only [foldl_window_acc, Nat.zero_add, List.length_eq_zero]

theorem mem_bandStage (n : Nat) (data : List Instructor) (i : Instructor)
    (hi : i ∈ bandStage (.band n) data) :
    i ∈ data ∧ ∃ x, i.avgRating = some x ∧ 100 * n ≤ x ∧ x ≤ 100 * n + 99 := by
  unfold bandStage at hi
  obtain ⟨h1, h2⟩ := List.mem_filter.1 hi
  refine ⟨h1, ?_⟩
  cases ha : i.avgRating with
  | none => simp [inBand, ha] at h2
  | some x =>
    simp only [inBand, ha, Bool.and_eq_true, decide_eq_true_eq] at h2
    exact ⟨x, rfl, h2.1, h2.2⟩

theorem searchStage_sublist (host : Host) (q : String) (data : List Instructor) :
    ∀ i ∈ searchStage host q data, i ∈ data := by
  intro i hi
  unfold searchStage at hi
  split at hi
  · exact (List.mem_filter.1 hi).1
  · exact hi

/-- The instructor list of the dated scenario: "Kaleb" with one evaluation scoring 4
submitted on 2023-11-14 and one scoring 5 submitted on 2024-03-15 (UTC). -/
def datedInstructors : List Instructor :=
  (loadInstructorRatings utcHost [{ id := "s1", instructor_name := some "Kaleb" }]
    (fun _ =>
      [{ ratings := [⟨"Presentation", "Instructors Knowledge", "excellent"⟩],
         submitted_at := 1710460800000 },
       { ratings := [⟨"Presentation", "Instructors Knowledge", "very_good"⟩],
         submitted_at := 1700000000000 }])).getD []

/-- C16 as stated fails: with the band 4 and the time range "month" on 2024-03-21, the
instructor whose all-time average is `4.50` passes the band test and is then returned
with the average `5.00` of the evaluations in the window. -/
theorem rating_band_counterexample :
    datedInstructors.map (fun i => (i.name, i.avgRating)) = [("Kaleb", some 450)] ∧
    (getFilteredAndSortedInstructors utcHost datedInstructors "" (.band 4) .month .rating
        1711000000000).map (fun i => (i.name, i.avgRating)) = [("Kaleb", some 500)] := by
  decide

/-- C16, amended: with the rating filter set to a band `n` (in particular one of the
bands `1..5` of the select), every instructor returned stems from an instructor of
`instructorData` whose own (all-time) `avgRating` is a number in `[n, n + 0.99]`; with
the time range `'all'` it is returned unchanged, so that this is the reported
`avgRating`, and with another time range it is returned as recomputed over the
window. -/
theorem rating_band (host : Host) (data : List Instructor) (q : String) (n : Nat)
    (tr : TimeRange) (sb : SortBy) (now : Int) (r : Instructor)
    (hr : r ∈ getFilteredAndSortedInstructors host data q (.band n) tr sb now) :
    ∃ i ∈ data, (∃ x, i.avgRating = some x ∧ 100 * n ≤ x ∧ x ≤ 100 * n + 99) ∧
      (tr = .all → r = i) ∧
      (∀ c, cutoffDate host now tr = some c → restrictToWindow c i = some r) := by
  rw [getFilteredAndSortedInstructors_eq] at hr
  have hr' := (jsSort_perm _ _).mem_iff.1 hr
  unfold windowStage at hr'
  cases hc : cutoffDate host now tr with
  | none =>
    rw [hc] at hr'
    obtain ⟨h1, h2⟩ := mem_bandStage n _ r hr'
    refine ⟨r, searchStage_sublist host q data r h1, h2, fun _ => rfl, ?_⟩
    intro c hc'
    exact Option.noConfusion hc'
  | some c =>
    rw [hc] at hr'
    obtain ⟨i, hi, hir⟩ := List.mem_filterMap.1 hr'
    obtain ⟨h1, h2⟩ := mem_bandStage n _ i hi
    refine ⟨i, searchStage_sublist host q data i h1, h2, ?_, ?_⟩
    · intro htr
      rw [htr] at hc
      exact Option.noConfusion hc
    · intro c' hc'
      cases hc'
      exact hir

/-- Instance of C16 (amended) on the dated scenario, band 4, time range "month". -/
theorem rating_band_witness :
    ∃ r, r ∈ getFilteredAndSortedInstructors utcHost datedInstructors "" (.band 4) .month
        .rating 1711000000000 ∧
      ∃ i ∈ datedInstructors, (∃ x, i.avgRating = some x ∧ 100 * 4 ≤ x ∧ x ≤ 100 * 4 + 99) ∧
        (TimeRange.month = TimeRange.all → r = i) ∧
        (∀ c, cutoffDate utcHost 1711000000000 .month = some c →
          restrictToWindow c i = some r) :=
  match h : getFilteredAndSortedInstructors utcHost datedInstructors "" (.band 4) .month
      .rating 1711000000000 with
  | [] => absurd h (by decide)
  | r :: _ =>
    ⟨r, by simp, rating_band utcHost datedInstructors "" 4 .month .rating 1711000000000
      r (by rw [h]; exact List.mem_cons_self _ _)⟩

/-- The instructor list of a dated scenario with an inherited rating value: "Kaleb"
with one evaluation scoring 4 submitted on 2023-11-14 and one with the rating values
`excellent` and `constructor` submitted on 2024-03-15 (UTC). -/
def datedInheritedInstructors : List Instructor :=
  (loadInstructorRatings utcHost [{ id := "s1", instructor_name := some "Kaleb" }]
    (fun _ =>
      [{ ratings := [⟨"Presentation", "Instructors Knowledge", "excellent"⟩,
                     ⟨"Content Quality", "Well organized", "constructor"⟩],
         submitted_at := 1710460800000 },
       { ratings := [⟨"Presentation", "Instructors Knowledge", "very_good"⟩],
         submitted_at := 1700000000000 }])).getD []

/-- C17, counterexample: on 2024-03-21 the time range "month" keeps "Kaleb" with the
one evaluation of the window, whose rating values are `excellent` and `constructor`;
the reported average is `NaN`, whereas the 5/4/3/2 scores of the two rating entries of
the window, 5 and 0, average to `2.50`. -/
theorem time_window_counterexample :
    cutoffDate utcHost 1711000000000 .month = some 1708494400000 ∧
    (getFilteredAndSortedInstructors utcHost datedInheritedInstructors "" .all .month .rating
        1711000000000).map (fun i => (i.name, i.avgRating, i.totalEvaluations))
      = [("Kaleb", none, 1)] ∧
    datedInheritedInstructors.map (fun i => toFixed2
        (instructorScoreSum (ratingEntries (i.evaluations.filter
          (fun e => decide ((1708494400000 : Int) ≤ e.evaluation.submitted_at)))))
        (ratingEntries (i.evaluations.filter
          (fun e => decide ((1708494400000 : Int) ≤ e.evaluation.submitted_at)))).length)
      = [some 250] := by
  decide

/-- C17, amended: for the cutoff instant of a time range other than `'all'`, the result
holds exactly the instructors that pass the other filters and have an evaluation
submitted at or after the cutoff, each as rewritten by the time-range filter: an
instructor is dropped exactly when all its evaluations precede the cutoff; a kept one
reports as `totalEvaluations` the number of its evaluations in the window and as
`avgRating` 0 when they carry no rating entry.  When none of the rating entries of the
window has a rating value that names a property inherited from `Object.prototype`, the
reported `avgRating` is a hundredth within `1 / 200` of (sum of 5/4/3/2 scores) /
(number of rating entries) over those evaluations (shown for at most `2^42` rating
entries); when one of them has such a value, it is `NaN`. -/
theorem time_window (host : Host) (data : List Instructor) (q : String) (fr : RatingFilter)
    (tr : TimeRange) (sb : SortBy) (now c : Int) (hc : cutoffDate host now tr = some c) :
    (getFilteredAndSortedInstructors host data q fr tr sb now).Perm
      ((getFilteredAndSortedInstructors host data q fr .all sb now).filterMap
        (restrictToWindow c)) ∧
    ∀ i : Instructor,
      (restrictToWindow c i = none ↔ ∀ e ∈ i.evaluations, e.evaluation.submitted_at < c) ∧
      ∀ r, restrictToWindow c i = some r →
        r.name = i.name ∧
        r.totalEvaluations
          = (i.evaluations.filter (fun e => decide (c ≤ e.evaluation.submitted_at))).length ∧
        (ratingEntries (i.evaluations.filter
            (fun e => decide (c ≤ e.evaluation.submitted_at))) = [] →
          r.avgRating = some 0) ∧
        ((∀ x ∈ ratingEntries (i.evaluations.filter
            (fun e => decide (c ≤ e.evaluation.submitted_at))), x.rating ∉ inheritedNames) →
          ∃ a, r.avgRating = some a ∧
          ((ratingEntries (i.evaluations.filter
              (fun e => decide (c ≤ e.evaluation.submitted_at)))).length ≤ 2 ^ 42 →
            2 * (a * (ratingEntries (i.evaluations.filter
                (fun e => decide (c ≤ e.evaluation.submitted_at)))).length)
              ≤ 200 * instructorScoreSum (ratingEntries (i.evaluations.filter
                  (fun e => decide (c ≤ e.evaluation.submitted_at))))
                + (ratingEntries (i.evaluations.filter
                  (fun e => decide (c ≤ e.evaluation.submitted_at)))).length ∧
            200 * instructorScoreSum (ratingEntries (i.evaluations.filter
                (fun e => decide (c ≤ e.evaluation.submitted_at))))
              ≤ 2 * (a * (ratingEntries (i.evaluations.filter
                  (fun e => decide (c ≤ e.evaluation.submitted_at)))).length)
                + (ratingEntries (i.evaluations.filter
                  (fun e => decide (c ≤ e.evaluation.submitted_at)))).length)) ∧
        ((∃ x ∈ ratingEntries (i.evaluations.filter
            (fun e => decide (c ≤ e.evaluation.submitted_at))), x.rating ∈ inheritedNames) →
          r.avgRating = none) := by
  constructor
  · rw [getFilteredAndSortedInstructors_eq, getFilteredAndSortedInstructors_eq]
    have h1 : windowStage host now tr (bandStage fr (searchStage host q data))
        = (bandStage fr (searchStage host q data)).filterMap (restrictToWindow c) := by
      unfold windowStage
      rw [hc]
    have h2 : windowStage host now .all (bandStage fr (searchStage host q data))
        = bandStage fr (searchStage host q data) := rfl
    rw [h1, h2]
    exact (jsSort_perm _ _).trans ((jsSort_perm _ _).filterMap _).symm
  · intro i
    rw [restrictToWindow_eq]
    have hrec : recentEvaluations c i
        = i.evaluations.filter (fun e => decide (c ≤ e.evaluation.submitted_at)) := rfl
    rw [hrec]
    constructor
    · by_cases hnil : i.evaluations.filter
          (fun e => decide (c ≤ e.evaluation.submitted_at)) = []
      · simp only [hnil, if_true, true_iff]
        intro e he
        have := (List.filter_eq_nil_iff.1 hnil) e he
        simpa using this
      · simp only [hnil, if_false, reduceCtorEq, false_iff]
        intro hall
        apply hnil
        rw [List.filter_eq_nil_iff]
        intro e he
        have := hall e he
        simp only [decide_eq_true_eq]
        omega
    · intro r hr
      by_cases hnil : i.evaluations.filter
          (fun e => decide (c ≤ e.evaluation.submitted_at)) = []
      · simp [hnil] at hr
      · simp only [hnil, if_false, Option.some.injEq] at hr
        subst hr
        refine ⟨rfl, rfl, ?_, ?_, ?_⟩
        · intro h0
          simp only
          rw [h0]
          rfl
        · intro hclean
          simp only
          rw [addScores_number 0 _ hclean, Nat.zero_add, averageOrZero_number]
          exact ⟨_, rfl, fun hsize =>
            averageOrZeroOwn_nearest _ _ (instructorScoreSum_le _) hsize⟩
        · intro hbad
          simp only
          rw [addScores_of_inherited 0 _ hbad]
          apply averageOrZero_text
          obtain ⟨x, hx, _⟩ := hbad
          exact List.length_pos_of_mem hx

/-- Instance of C17 (amended) on the dated scenario: on 2024-03-21 the time range
"month" keeps "Kaleb" with the one evaluation of the window. -/
theorem time_window_witness :
    cutoffDate utcHost 1711000000000 .month = some 1708494400000 ∧
    (getFilteredAndSortedInstructors utcHost datedInstructors "" .all .month .rating
        1711000000000).Perm
      ((getFilteredAndSortedInstructors utcHost datedInstructors "" .all .all .rating
        1711000000000).filterMap (restrictToWindow 1708494400000)) ∧
    (getFilteredAndSortedInstructors utcHost datedInstructors "" .all .month .rating
        1711000000000).map (fun i => (i.name, i.avgRating, i.totalEvaluations))
      = [("Kaleb", some 500, 1)] :=
  ⟨by decide,
    (time_window utcHost datedInstructors "" .all .month .rating 1711000000000 1708494400000
      (by decide)).1,
    by decide⟩

theorem jsSort_congr {α : Type} (cmp cmp' : α → α → Int) (xs : List α)
    (h : ∀ a ∈ xs, ∀ b ∈ xs, (cmp a b ≤ 0 ↔ cmp' a b ≤ 0)) :
    jsSort cmp xs = jsSort cmp' xs := by
  unfold jsSort
  have := List.map_insertionSort (fun a b => cmp a b ≤ 0) (fun a b => cmp' a b ≤ 0) id xs
    (fun a ha b hb => h a ha b hb)
  simpa using this

/-- Sorting by rating a list whose averages are all numbers orders it by non-increasing
average. -/
theorem jsSort_rating_sorted (host : Host) (xs : List Instructor)
    (h : ∀ i ∈ xs, i.avgRating ≠ none) :
    (jsSort (sortComparator host .rating) xs).Pairwise
      (fun a b => ∃ x y, a.avgRating = some x ∧ b.avgRating = some y ∧ y ≤ x) := by
  have hsome : ∀ i ∈ xs, ∃ x, i.avgRating = some x := by
    intro i hi
    cases ha : i.avgRating with
    | none => exact absurd ha (h i hi)
    | some x => exact ⟨x, rfl⟩
  have hcongr : jsSort (sortComparator host .rating) xs
      = jsSort (fun a b : Instructor =>
          ((b.avgRating.getD 0 : Nat) : Int) - ((a.avgRating.getD 0 : Nat) : Int)) xs := by
    apply jsSort_congr
    intro a ha b hb
    obtain ⟨x, hx⟩ := hsome a ha
    obtain ⟨y, hy⟩ := hsome b hb
    simp only [sortComparator, averageCompare, hx, hy, Option.getD_some]
  have hsorted := jsSort_sorted
    (fun a b : Instructor =>
      ((b.avgRating.getD 0 : Nat) : Int) - ((a.avgRating.getD 0 : Nat) : Int))
    (fun i => -((i.avgRating.getD 0 : Nat) : Int))
    (fun x y => by beta_reduce; omega) xs
  rw [hcongr]
  refine hsorted.imp_of_mem ?_
  intro a b ha hb hab
  obtain ⟨x, hx⟩ := hsome a ((jsSort_perm _ _).mem_iff.1 ha)
  obtain ⟨y, hy⟩ := hsome b ((jsSort_perm _ _).mem_iff.1 hb)
  rw [hx, hy] at hab
  simp only [Option.getD_some] at hab
  exact ⟨x, y, hx, hy, by omega⟩

/-- Three sessions of the instructors "Abel", "Beza" and "Chala". -/
def rankedSessions : List TrainingSession :=
  [{ id := "s1", instructor_name := some "Abel" },
   { id := "s2", instructor_name := some "Beza" },
   { id := "s3", instructor_name := some "Chala" }]

/-- One evaluation per session of `rankedSessions`, rated `good` for "Abel",
`constructor` for "Beza" and `excellent` for "Chala". -/
def rankedStore : String → List Evaluation := fun id =>
  if id = "s1" then [{ ratings := [⟨"Presentation", "Instructors Knowledge", "good"⟩] }]
  else if id = "s2" then
    [{ ratings := [⟨"Presentation", "Instructors Knowledge", "constructor"⟩] }]
  else [{ ratings := [⟨"Presentation", "Instructors Knowledge", "excellent"⟩] }]

/-- The instructor list published for `rankedSessions`. -/
def rankedInstructors : List Instructor :=
  (loadInstructorRatings utcHost rankedSessions rankedStore).getD []

/-- C18, counterexample: for the instructors "Abel" (average `3.00`), "Beza" (rated
`constructor`, average `NaN`) and "Chala" (average `5.00`), the sort by rating leaves
the list as it is, "Abel" before "Chala": every difference with `NaN` is `NaN`, which
the sort reads as 0. -/
theorem sorted_result_counterexample :
    rankedInstructors.map (fun i => (i.name, i.avgRating))
      = [("Abel", some 300), ("Beza", none), ("Chala", some 500)] ∧
    (getFilteredAndSortedInstructors utcHost rankedInstructors "" .all .all .rating 0).map
        (fun i => (i.name, i.avgRating))
      = [("Abel", some 300), ("Beza", none), ("Chala", some 500)] := by
  decide

/-- C18, amended: the result is ordered by non-increasing `avgRating` for the sort key
`rating` when every reported `avgRating` is a number, by non-decreasing name in the
order of `localeCompare` for `name` (given a consistent `localeCompare`), and by
non-increasing `totalSessions` for `sessions`; sorting neither adds nor removes
instructors: the result is a permutation of the filtered list, whatever the sort key,
and of `instructorData` itself when no filter is active. -/
theorem sorted_result (host : Host) (hcmp : ConsistentComparator host.localeCompare)
    (data : List Instructor) (q : String) (fr : RatingFilter) (tr : TimeRange) (now : Int) :
    ((∀ i ∈ getFilteredAndSortedInstructors host data q fr tr .rating now,
        i.avgRating ≠ none) →
      (getFilteredAndSortedInstructors host data q fr tr .rating now).Pairwise
        (fun a b => ∃ x y, a.avgRating = some x ∧ b.avgRating = some y ∧ y ≤ x)) ∧
    (getFilteredAndSortedInstructors host data q fr tr .name now).Pairwise
      (fun a b => host.localeCompare a.name b.name ≤ 0) ∧
    (getFilteredAndSortedInstructors host data q fr tr .sessions now).Pairwise
      (fun a b => b.totalSessions ≤ a.totalSessions) ∧
    (∀ sb sb' : SortBy, (getFilteredAndSortedInstructors host data q fr tr sb now).Perm
      (getFilteredAndSortedInstructors host data q fr tr sb' now)) ∧
    (∀ sb : SortBy, (getFilteredAndSortedInstructors host data "" .all .all sb now).Perm data) := by
  simp only [getFilteredAndSortedInstructors_eq]
  refine ⟨?_, ?_, ?_, ?_, ?_⟩
  · intro hnum
    exact jsSort_rating_sorted host _
      (fun i hi => hnum i ((jsSort_perm _ _).mem_iff.2 hi))
  · exact jsSort_sorted_of_consistent (sortComparator host .name)
      (fun a b => hcmp.1 a.name b.name) (fun a b c => hcmp.2 a.name b.name c.name) _
  · exact (jsSort_sorted (sortComparator host .sessions) (fun x => -(x.totalSessions : Int))
      (fun x y => by simp only [sortComparator]; omega) _).imp (fun {a b} hab => by omega)
  · intro sb sb'
    exact (jsSort_perm _ _).trans (jsSort_perm _ _).symm
  · intro sb
    exact jsSort_perm _ _

/-- Three instructors for the sort instances. -/
def sortSample : List Instructor :=
  [ { name := "Meron", sessions := [], evaluations := [], totalRatings := 0,
      ratingSum := .number 0, feedbackCount := 0, trends := [], avgRating := some 350,
      totalSessions := 3, totalEvaluations := 0 },
    { name := "Abel", sessions := [], evaluations := [], totalRatings := 0,
      ratingSum := .number 0, feedbackCount := 0, trends := [], avgRating := some 475,
      totalSessions := 1, totalEvaluations := 0 },
    { name := "Kaleb", sessions := [], evaluations := [], totalRatings := 0,
      ratingSum := .number 0, feedbackCount := 0, trends := [], avgRating := some 450,
      totalSessions := 2, totalEvaluations := 0 } ]

/-- Instance of C18 (amended) on `sortSample` in the UTC host. -/
theorem sorted_result_witness :
    ConsistentComparator utcHost.localeCompare ∧
    (∀ i ∈ getFilteredAndSortedInstructors utcHost sortSample "" .all .all .rating 0,
      i.avgRating ≠ none) ∧
    (getFilteredAndSortedInstructors utcHost sortSample "" .all .all .rating 0).Pairwise
      (fun a b => ∃ x y, a.avgRating = some x ∧ b.avgRating = some y ∧ y ≤ x) ∧
    (getFilteredAndSortedInstructors utcHost sortSample "" .all .all .rating 0).map
        (fun i => i.name) = ["Abel", "Kaleb", "Meron"] ∧
    (getFilteredAndSortedInstructors utcHost sortSample "" .all .all .sessions 0).map
        (fun i => i.name) = ["Meron", "Kaleb", "Abel"] ∧
    (getFilteredAndSortedInstructors utcHost sortSample "" .all .all .name 0).Pairwise
      (fun a b => utcHost.localeCompare a.name b.name ≤ 0) :=
  ⟨utcHost_consistent, by decide,
    (sorted_result utcHost utcHost_consistent sortSample "" .all .all 0).1 (by decide),
    by decide, by decide,
    (sorted_result utcHost utcHost_consistent sortSample "" .all .all 0).2.1⟩

/-- C19: with a non-empty search query and no other filter, the result holds exactly
the instructors whose lower-cased name contains the lower-cased query as a substring;
with the empty query it holds all instructors. -/
theorem search_filter (host : Host) (data : List Instructor) (q : String) (sb : SortBy)
    (now : Int) :
    (q ≠ "" → (getFilteredAndSortedInstructors host data q .all .all sb now).Perm
      (data.filter (fun i =>
        decide ((host.toLowerCase q).data <:+: (host.toLowerCase i.name).data)))) ∧
    (getFilteredAndSortedInstructors host data "" .all .all sb now).Perm data := by
  simp only [getFilteredAndSortedInstructors_eq]
  constructor
  · intro hq
    have : searchStage host q data = data.filter (fun i =>
        decide ((host.toLowerCase q).data <:+: (host.toLowerCase i.name).data)) := by
      unfold searchStage jsIncludes
      simp [hq]
    have h2 : windowStage host now .all (bandStage .all (searchStage host q data))
        = searchStage host q data := rfl
    rw [h2, this]
    exact jsSort_perm _ _
  · exact jsSort_perm _ _

/-- Instance of C19 on `sortSample`: the query "EB" selects "Kaleb". -/
theorem search_filter_witness :
    (getFilteredAndSortedInstructors utcHost sortSample "EB" .all .all .name 0).map
        (fun i => i.name) = ["Kaleb"] ∧
    (getFilteredAndSortedInstructors utcHost sortSample "EB" .all .all .name 0).Perm
      (sortSample.filter (fun i =>
        decide ((utcHost.toLowerCase "EB").data <:+: (utcHost.toLowerCase i.name).data))) :=
  ⟨by decide, (search_filter utcHost sortSample "EB" .name 0).1 (by decide)⟩

/-! ## The hundredths embedding of parsed averages

`avgRating` is `parseFloat` of a two-decimal numeral (or the number 0) and is kept as
that numeral in hundredths, `NaN` being `none`.  The lemmas of this section relate the
comparisons on hundredths used by `getFilteredAndSortedInstructors` to the binary64
comparisons of the source. -/

/-- The double parsed from the numeral `h / 100`, as `(m, s)` for `m * 2^(-s)`. -/
def parsedDouble (h : Nat) : Nat × Nat :=
  if h = 0 then (0, 0) else divDouble h 100

/-- Comparison `a <= b` of two non-negative doubles `m * 2^(-s)`. -/
def doubleLe (a b : Nat × Nat) : Prop := a.1 * 2 ^ b.2 ≤ b.1 * 2 ^ a.2

instance (a b : Nat × Nat) : Decidable (doubleLe a b) := by
  unfold doubleLe
  infer_instance

/-- The double `minRating + 0.99` for an integer `minRating`: the exact sum of the
integer and of the double parsed from `0.99`, rounded to binary64. -/
def bandUpper (n : Nat) : Nat × Nat :=
  divDouble (n * 2 ^ (parsedDouble 99).2 + (parsedDouble 99).1) (2 ^ (parsedDouble 99).2)

/-- Scaled rounding is monotone against integers: a quotient of at least `c` rounds to
a double of at least `c`. -/
theorem divDouble_ge (p q c : Nat) (hq : q ≠ 0) (hc : c * q ≤ p) :
    c * 2 ^ (divDouble p q).2 ≤ (divDouble p q).1 := by
  obtain ⟨_, hnear⟩ := divDouble_near p q hq
  generalize (divDouble p q).1 = m at *
  generalize 2 ^ (divDouble p q).2 = S at *
  have h1 : 2 * (c * q * S) ≤ 2 * (p * S) := by
    have := Nat.mul_le_mul_right S hc
    omega
  have h2 : (2 * (c * S)) * q ≤ (2 * m + 1) * q := by
    calc (2 * (c * S)) * q = 2 * (c * q * S) := by ring
      _ ≤ 2 * (p * S) := h1
      _ ≤ 2 * m * q + q := hnear
      _ = (2 * m + 1) * q := by ring
  have h3 : 2 * (c * S) ≤ 2 * m + 1 := Nat.le_of_mul_le_mul_right h2 (Nat.pos_of_ne_zero hq)
  omega

set_option maxRecDepth 200000 in
theorem band_small : ∀ n, n < 6 → ∀ h, h < 600 →
    ((doubleLe (n, 0) (parsedDouble h) ∧ doubleLe (parsedDouble h) (bandUpper n)) ↔
      (100 * n ≤ h ∧ h ≤ 100 * n + 99)) := by
  decide

theorem bandUpper_lt : ∀ n, n < 6 → (bandUpper n).1 < 6 * 2 ^ (bandUpper n).2 := by
  decide

/-- The band test of the source, `x >= n && x <= n + 0.99` on doubles, selects exactly
the hundredths from `100 n` to `100 n + 99`, for the bands of the select. -/
theorem band_embedding (n h : Nat) (hn : n < 6) :
    (doubleLe (n, 0) (parsedDouble h) ∧ doubleLe (parsedDouble h) (bandUpper n)) ↔
      (100 * n ≤ h ∧ h ≤ 100 * n + 99) := by
  by_cases hh : h < 600
  · exact band_small n hn h hh
  · constructor
    · rintro ⟨_, hle⟩
      exfalso
      have hne : h ≠ 0 := by omega
      have hge := divDouble_ge h 100 6 (by norm_num) (by omega)
      have hlt := bandUpper_lt n hn
      unfold doubleLe parsedDouble at hle
      simp only [hne, if_false] at hle
      have hS : 0 < 2 ^ (divDouble h 100).2 := by positivity
      generalize (divDouble h 100).1 = m at *
      generalize 2 ^ (divDouble h 100).2 = S at *
      generalize (bandUpper n).1 = M at *
      generalize 2 ^ (bandUpper n).2 = T at *
      have h1 : 6 * (S * T) ≤ m * T := by
        calc 6 * (S * T) = 6 * S * T := by ring
          _ ≤ m * T := Nat.mul_le_mul_right T hge
      have h2 : M * S < 6 * (S * T) := by
        calc M * S < 6 * T * S := Nat.mul_lt_mul_of_pos_right hlt hS
          _ = 6 * (S * T) := by ring
      omega
    · rintro ⟨_, h2⟩
      omega

/-- Numerals below `2^52` hundredths are scaled by at least `2^7` when parsed. -/
theorem parsedDouble_scale (h : Nat) (hne : h ≠ 0) (hb : h < 2 ^ 52) :
    2 ^ 7 ≤ 2 ^ (divDouble h 100).2 := by
  have h1 := (ilog2_spec h hne).1
  have hl : ilog2 h < 52 := (Nat.pow_lt_pow_iff_right (by norm_num)).1 (lt_of_le_of_lt h1 hb)
  have h100 : ilog2 100 = 6 := by decide
  apply Nat.pow_le_pow_right (by norm_num)
  unfold divDouble
  simp only [h100]
  split <;> omega

/-- Parsing is strictly monotone: a smaller numeral parses to a smaller double. -/
theorem parsedDouble_lt (h₁ h₂ : Nat) (hlt : h₁ < h₂) (hb : h₂ < 2 ^ 52) :
    ¬ doubleLe (parsedDouble h₂) (parsedDouble h₁) := by
  have hne2 : h₂ ≠ 0 := by omega
  obtain ⟨_, n2b⟩ := divDouble_near h₂ 100 (by norm_num)
  have hS2 := parsedDouble_scale h₂ hne2 hb
  unfold doubleLe parsedDouble
  simp only [hne2, if_false]
  generalize (divDouble h₂ 100).1 = m₂ at *
  generalize 2 ^ (divDouble h₂ 100).2 = S₂ at *
  by_cases hne1 : h₁ = 0
  · simp only [hne1, if_true, pow_zero, Nat.mul_one, Nat.zero_mul, Nat.le_zero_eq]
    intro hm
    rw [hm] at n2b
    have h3 : 1 * S₂ ≤ h₂ * S₂ := Nat.mul_le_mul_right _ (by omega)
    norm_num at hS2
    omega
  · simp only [hne1, if_false]
    obtain ⟨n1a, _⟩ := divDouble_near h₁ 100 (by norm_num)
    have hS1 := parsedDouble_scale h₁ hne1 (by omega)
    generalize (divDouble h₁ 100).1 = m₁ at *
    generalize 2 ^ (divDouble h₁ 100).2 = S₁ at *
    norm_num at hS1 hS2
    intro hle
    -- scaled error bounds
    have f1 : 100 * (m₁ * S₂) ≤ h₁ * (S₁ * S₂) + 50 * S₂ := by
      have := Nat.mul_le_mul_right S₂ n1a
      have e1 : 2 * m₁ * 100 * S₂ = 2 * (100 * (m₁ * S₂)) := by ring
      have e2 : (2 * (h₁ * S₁) + 100) * S₂ = 2 * (h₁ * (S₁ * S₂) + 50 * S₂) := by ring
      rw [e1, e2] at this
      omega
    have f2 : h₂ * (S₁ * S₂) ≤ 100 * (m₂ * S₁) + 50 * S₁ := by
      have := Nat.mul_le_mul_right S₁ n2b
      have e1 : 2 * (h₂ * S₂) * S₁ = 2 * (h₂ * (S₁ * S₂)) := by ring
      have e2 : (2 * m₂ * 100 + 100) * S₁ = 2 * (100 * (m₂ * S₁) + 50 * S₁) := by ring
      rw [e1, e2] at this
      omega
    have f3 : h₁ * (S₁ * S₂) + S₁ * S₂ ≤ h₂ * (S₁ * S₂) := by
      have := Nat.mul_le_mul_right (S₁ * S₂) (show h₁ + 1 ≤ h₂ by omega)
      have e : (h₁ + 1) * (S₁ * S₂) = h₁ * (S₁ * S₂) + S₁ * S₂ := by ring
      rw [e] at this
      exact this
    have f4 : 128 * S₁ ≤ S₁ * S₂ := by
      have := Nat.mul_le_mul_left S₁ hS2
      calc 128 * S₁ = S₁ * 128 := by ring
        _ ≤ S₁ * S₂ := this
    have f5 : 128 * S₂ ≤ S₁ * S₂ := Nat.mul_le_mul_right S₂ hS1
    have hle' : m₂ * S₁ ≤ m₁ * S₂ := hle
    omega

/-- On numerals below `2^52` hundredths, the comparison of the parsed doubles is the
comparison of the numerals; hence so is the sign of their difference. -/
theorem parsedDouble_le_iff (h₁ h₂ : Nat) (hb₁ : h₁ < 2 ^ 52) (hb₂ : h₂ < 2 ^ 52) :
    doubleLe (parsedDouble h₁) (parsedDouble h₂) ↔ h₁ ≤ h₂ := by
  constructor
  · intro hle
    by_contra hcon
    exact parsedDouble_lt h₂ h₁ (by omega) hb₁ hle
  · intro hle
    rcases Nat.eq_or_lt_of_le hle with heq | hlt
    · subst heq
      exact Nat.le_refl _
    · have := parsedDouble_lt h₁ h₂ hlt hb₂
      unfold doubleLe at this ⊢
      omega

/-! ## The submitted ratings follow the catalogue (C21, C22) -/

/-- The (group label, question text) pairs of the catalogue, groups in catalogue order
and questions in order within each group. -/
def catalogPairs : List (String × String) :=
  ratingQuestions.flatMap (fun g => g.questions.map (fun q => (g.group, q)))

/-- The rating keys of the catalogue questions, in catalogue order. -/
def catalogKeys : List String :=
  ratingQuestions.enum.flatMap (fun g => g.2.questions.enum.map (fun q => ratingKey g.1 q.1))

/-- The values of the rating radio buttons. -/
def ratingEnum : List String := optionValues ratingOptions

theorem ratingEnum_eq : ratingEnum = ["excellent", "very_good", "good", "needs_improvement"] := by
  decide

theorem catalogKeys_eq :
    catalogKeys
      = ["0-0", "0-1", "0-2", "0-3", "1-0", "1-1", "1-2", "1-3", "1-4", "2-0", "2-1", "2-2"] := by
  decide

theorem ratingsArray_rating (formData : FormData) :
    (ratingsArray formData).map (fun r => r.rating)
      = catalogKeys.map (fun k => orEmpty (formData.ratings.get k)) := by
  rfl

theorem ratingsArray_pairs (formData : FormData) :
    (ratingsArray formData).map (fun r => (r.group, r.question)) = catalogPairs := by
  rfl

theorem orEmpty_cases (o : JsObject String) (k : String)
    (h : ∀ p ∈ o, p.2 ∈ ratingEnum) :
    (orEmpty (o.get k) ∈ ratingEnum ∧ (o.get k).isSome) ∨
      (orEmpty (o.get k) = "" ∧ o.get k = none) := by
  cases hg : o.get k with
  | none => right; exact ⟨rfl, rfl⟩
  | some v => left; exact ⟨h _ (pair_mem_of_get o k v hg), rfl⟩

theorem handleRatingChange_enum (groupIndex questionIndex : Nat) (value : String)
    (prev : FormData) (hv : value ∈ ratingEnum) (h : ∀ p ∈ prev.ratings, p.2 ∈ ratingEnum) :
    ∀ p ∈ (handleRatingChange groupIndex questionIndex value prev).ratings, p.2 ∈ ratingEnum := by
  intro p hp
  simp only [handleRatingChange] at hp
  generalize ratingKey groupIndex questionIndex = k at hp
  generalize prev.ratings = o at h hp
  induction o with
  | nil =>
    simp only [JsObject.set, List.mem_singleton] at hp
    subst hp; exact hv
  | cons q o ih =>
    obtain ⟨qk, qv⟩ := q
    simp only [JsObject.set] at hp
    split at hp
    · rcases List.mem_cons.1 hp with rfl | hp
      · exact hv
      · exact h _ (List.mem_cons_of_mem _ hp)
    · rcases List.mem_cons.1 hp with rfl | hp
      · exact h _ (List.mem_cons_self _ _)
      · exact ih (fun p hp => h _ (List.mem_cons_of_mem _ hp)) hp

/-- A form state in which every catalogue question has been answered through
`handleRatingChange`. -/
def answeredForm : FormData :=
  [(0, 0, "excellent"), (0, 1, "good"), (0, 2, "very_good"), (0, 3, "good"),
   (1, 0, "excellent"), (1, 1, "needs_improvement"), (1, 2, "good"), (1, 3, "good"),
   (1, 4, "very_good"), (2, 0, "good"), (2, 1, "excellent"), (2, 2, "good"),
   (0, 1, "excellent")].foldl
    (fun fd a => handleRatingChange a.1 a.2.1 a.2.2 fd) initialFormData

/-- C21: for every form state, the ratings sequence built by `handleSubmit` has one
entry per catalogue question, 12 in all, and the group labels and question texts of its
entries are, position by position, those of the catalogue, taking groups in catalogue
order and questions in order within each group. -/
theorem ratings_follow_catalog (trainingSessionId : String) (formData : FormData) :
    (handleSubmit trainingSessionId formData).ratings.length = catalogQuestionCount ∧
    catalogQuestionCount = 12 ∧
    (handleSubmit trainingSessionId formData).ratings.map (fun r => (r.group, r.question))
      = catalogPairs ∧
    ∀ i, ((handleSubmit trainingSessionId formData).ratings.get? i).map
        (fun r => (r.group, r.question)) = catalogPairs.get? i := by
  have hp : (handleSubmit trainingSessionId formData).ratings.map
      (fun r => (r.group, r.question)) = catalogPairs := ratingsArray_pairs formData
  have hl : (handleSubmit trainingSessionId formData).ratings.length = 12 := by
    have := congrArg List.length hp
    simpa using this
  refine ⟨hl, rfl, hp, ?_⟩
  intro i
  rw [← hp]
  simp [List.getElem?_map]

/-- C22, counterexample: submitted from the initial form state, every one of the 12
entries carries the empty string as its rating, which is none of the four enum
values. -/
theorem submitted_ratings_counterexample :
    (handleSubmit "session-1" initialFormData).ratings.map (fun r => r.rating)
      = List.replicate 12 "" ∧
    "" ∉ ratingEnum ∧
    ¬ ∀ r ∈ (handleSubmit "session-1" initialFormData).ratings, r.rating ∈ ratingEnum := by
  decide

/-- C22, amended: for every form state whose stored ratings are values of the rating
radio buttons, the rating of each submitted entry is the stored value of its question
or, when the form state stores none, the empty string; so every entry carries one of
the four enum values or the empty string, and all of them carry an enum value when every
catalogue question has a stored answer. -/
theorem submitted_ratings (trainingSessionId : String) (formData : FormData)
    (h : ∀ p ∈ formData.ratings, p.2 ∈ ratingEnum) :
    (handleSubmit trainingSessionId formData).ratings.map (fun r => r.rating)
      = catalogKeys.map (fun k => orEmpty (formData.ratings.get k)) ∧
    (∀ k ∈ catalogKeys, (orEmpty (formData.ratings.get k) = "" ↔ formData.ratings.get k = none)) ∧
    (∀ r ∈ (handleSubmit trainingSessionId formData).ratings,
      r.rating ∈ ratingEnum ∨ r.rating = "") ∧
    ((∀ k ∈ catalogKeys, (formData.ratings.get k).isSome) →
      ∀ r ∈ (handleSubmit trainingSessionId formData).ratings, r.rating ∈ ratingEnum) := by
  have hm : ∀ r ∈ (handleSubmit trainingSessionId formData).ratings,
      ∃ k ∈ catalogKeys, r.rating = orEmpty (formData.ratings.get k) := by
    intro r hr
    have : r.rating ∈ (ratingsArray formData).map (fun r => r.rating) :=
      List.mem_map.2 ⟨r, hr, rfl⟩
    rw [ratingsArray_rating] at this
    obtain ⟨k, hk, he⟩ := List.mem_map.1 this
    exact ⟨k, hk, he.symm⟩
  refine ⟨ratingsArray_rating formData, ?_, ?_, ?_⟩
  · intro k _
    rcases orEmpty_cases formData.ratings k h with ⟨h1, h2⟩ | ⟨h1, h2⟩
    · constructor
      · intro he
        rw [he] at h1
        exact absurd h1 (by decide)
      · intro hn
        rw [hn] at h2
        exact absurd h2 (by decide)
    · exact ⟨fun _ => h2, fun _ => h1⟩
  · intro r hr
    obtain ⟨k, _, he⟩ := hm r hr
    rcases orEmpty_cases formData.ratings k h with ⟨h1, _⟩ | ⟨h1, _⟩
    · left; rw [he]; exact h1
    · right; rw [he]; exact h1
  · intro hall r hr
    obtain ⟨k, hk, he⟩ := hm r hr
    rcases orEmpty_cases formData.ratings k h with ⟨h1, _⟩ | ⟨_, h2⟩
    · rw [he]; exact h1
    · have := hall k hk
      rw [h2] at this
      exact absurd this (by decide)

/-- C22, witness: a form answered in full through `handleRatingChange`. -/
theorem submitted_ratings_witness :
    (∀ p ∈ answeredForm.ratings, p.2 ∈ ratingEnum) ∧
    (∀ k ∈ catalogKeys, (answeredForm.ratings.get k).isSome) ∧
    ∀ r ∈ (handleSubmit "session-1" answeredForm).ratings, r.rating ∈ ratingEnum :=
  ⟨by decide, by decide,
    (submitted_ratings "session-1" answeredForm (by decide)).2.2.2 (by decide)⟩

/-! ## The submitted suggestions (C23) -/

/-- The evaluation records stored for a list of submissions, each a route parameter, a
form state and the time value assigned to the row. -/
def storedSubmissions (submissions : List (String × FormData × Int)) : List Evaluation :=
  submissions.map (fun s => storedEvaluation (handleSubmit s.1 s.2.1) s.2.2)

theorem allSuggestionEntries_stored (submissions : List (String × FormData × Int)) :
    allSuggestionEntries (storedSubmissions submissions)
      = submissions.flatMap (fun s => s.2.1.suggestions.filter hasContact) := by
  induction submissions with
  | nil => rfl
  | cons s l ih =>
    simp only [allSuggestionEntries, storedSubmissions, List.map_cons, List.flatMap_cons] at ih ⊢
    rw [ih]
    rfl

/-- C23: the suggestions submitted by `handleSubmit` are the entries of the form's
suggestions with a populated name, phone or email, in their order; and over the stored
records of form submissions the dashboard's recommendation collection drops nothing: it
is the concatenation of their suggestions. -/
theorem submitted_suggestions (submissions : List (String × FormData × Int))
    (h : submissions ≠ []) :
    (∀ s ∈ submissions,
      (handleSubmit s.1 s.2.1).suggestions = s.2.1.suggestions.filter hasContact ∧
      List.Sublist (handleSubmit s.1 s.2.1).suggestions s.2.1.suggestions ∧
      ∀ x, x ∈ (handleSubmit s.1 s.2.1).suggestions ↔
        x ∈ s.2.1.suggestions ∧
          (NonEmptyField x.name ∨ NonEmptyField x.phone ∨ NonEmptyField x.email)) ∧
    ∃ a, calculateAnalytics (storedSubmissions submissions) = some a ∧
      a.allSuggestions = allSuggestionEntries (storedSubmissions submissions) ∧
      a.allSuggestions = submissions.flatMap (fun s => (handleSubmit s.1 s.2.1).suggestions) := by
  refine ⟨?_, ?_⟩
  · intro s _
    refine ⟨rfl, List.filter_sublist _, ?_⟩
    intro x
    show x ∈ s.2.1.suggestions.filter hasContact ↔ _
    rw [List.mem_filter, hasContact_iff]
  · have hne : storedSubmissions submissions ≠ [] := by
      cases submissions with
      | nil => exact absurd rfl h
      | cons s l => simp [storedSubmissions]
    have hf : (allSuggestionEntries (storedSubmissions submissions)).filter hasContact
        = allSuggestionEntries (storedSubmissions submissions) := by
      rw [List.filter_eq_self]
      intro x hx
      rw [allSuggestionEntries_stored] at hx
      obtain ⟨s, _, hxs⟩ := List.mem_flatMap.1 hx
      exact (List.mem_filter.1 hxs).2
    refine ⟨_, calculateAnalytics_of_ne_nil _ hne, ?_, ?_⟩
    · show suggestionLoop _ = _
      rw [suggestionLoop_eq, hf]
    · show suggestionLoop _ = _
      rw [suggestionLoop_eq, hf, allSuggestionEntries_stored]
      rfl

/-- Two form states with recommendation rows, some of them blank. -/
def suggestionSubmissions : List (String × FormData × Int) :=
  [ ("session-1",
      { suggestions := [ { name := some "Sara", phone := some "", email := some "" },
                         { name := some "", phone := some "", email := some "" },
                         { name := some "", phone := some "0911", email := some "" } ] }, 10),
    ("session-2", initialFormData, 20),
    ("session-2",
      { suggestions := [ { name := some "", phone := some "", email := some "a@b.c" } ] }, 30) ]

/-- C23, witness: three submissions, one of them with no populated row. -/
theorem submitted_suggestions_witness :
    suggestionSubmissions ≠ [] ∧
    ∃ a, calculateAnalytics (storedSubmissions suggestionSubmissions) = some a ∧
      a.allSuggestions =
        [ { name := some "Sara", phone := some "", email := some "" },
          { name := some "", phone := some "0911", email := some "" },
          { name := some "", phone := some "", email := some "a@b.c" } ] := by
  refine ⟨by decide, ?_⟩
  obtain ⟨_, a, ha, _, h3⟩ := submitted_suggestions suggestionSubmissions (by decide)
  exact ⟨a, ha, h3.trans (by decide)⟩

/-! ## The authentication gate (C24) -/

theorem renderRoute_cases (s : RouteState) :
    (renderRoute s = .children ↔ s.loading = false ∧ s.user.isSome) ∧
    (s.loading = true → renderRoute s = .pending) ∧
    (s.loading = false → s.user = none → renderRoute s = .redirect "/login") := by
  obtain ⟨loading, user⟩ := s
  cases loading <;> cases user <;> simp [renderRoute]

/-- A setter call that leaves `loading` alone. -/
def isSetUser : SetterCall → Bool
  | .setUser _ => true
  | .setLoading _ => false

theorem statesFrom_loading (calls : List SetterCall) (s : RouteState)
    (h : ∀ c ∈ calls, isSetUser c = true) :
    ∀ s' ∈ statesFrom s calls, s'.loading = s.loading := by
  induction calls generalizing s with
  | nil =>
    intro s' hs
    simp only [statesFrom, List.mem_singleton] at hs
    rw [hs]
  | cons c cs ih =>
    intro s' hs
    simp only [statesFrom, List.mem_cons] at hs
    rcases hs with rfl | hs
    · rfl
    · have hc := h c (List.mem_cons_self _ _)
      rw [ih (applySetter s c) (fun c hc => h c (List.mem_cons_of_mem _ hc)) s' hs]
      cases c with
      | setUser u => rfl
      | setLoading b => exact absurd hc (by simp [isSetUser])

theorem self_mem_statesFrom (calls : List SetterCall) (s : RouteState) :
    s ∈ statesFrom s calls := by
  cases calls <;> simp [statesFrom]

/-- C24: in every state a mounted `ProtectedRoute` goes through, the children are
rendered exactly when `loading` is false and a user is present; while `loading` is true
the pending indicator is rendered whatever the user value is; when `loading` is false
with no user the gate redirects to `/login`.  The initial state is one of these states,
and until the `getSession` promise has resolved every state renders the pending
indicator, whatever the auth-change callbacks delivered. -/
theorem gate_render (callbacks : List Callback) :
    initialRouteState ∈ routeStates callbacks ∧
    (∀ s ∈ routeStates callbacks,
      (renderRoute s = .children ↔ s.loading = false ∧ s.user.isSome) ∧
      (s.loading = true → renderRoute s = .pending) ∧
      (s.loading = false → s.user = none → renderRoute s = .redirect "/login")) ∧
    ((∀ session, Callback.getSessionThen session ∉ callbacks) →
      ∀ s ∈ routeStates callbacks, renderRoute s = .pending) := by
  refine ⟨self_mem_statesFrom _ _, fun s _ => renderRoute_cases s, ?_⟩
  intro hno s hs
  have hcalls : ∀ c ∈ callbacks.flatMap setterCalls, isSetUser c = true := by
    intro c hc
    obtain ⟨cb, hcb, hc⟩ := List.mem_flatMap.1 hc
    cases cb with
    | getSessionThen session => exact absurd hcb (hno session)
    | onAuthStateChange session =>
      simp only [setterCalls, List.mem_singleton] at hc
      rw [hc]; rfl
  have hl := statesFrom_loading _ initialRouteState hcalls s hs
  exact (renderRoute_cases s).2.1 hl

/-- C24, witness: an auth-change callback delivers a signed-in session before the
`getSession` promise has resolved; the pending indicator stays. -/
theorem gate_render_witness :
    (∀ session, Callback.getSessionThen session ∉
      [Callback.onAuthStateChange (some { user := some { id := "u1" } })]) ∧
    routeStates [Callback.onAuthStateChange (some { user := some { id := "u1" } })]
      = [{ loading := true, user := none }, { loading := true, user := some { id := "u1" } }] ∧
    ∀ s ∈ routeStates [Callback.onAuthStateChange (some { user := some { id := "u1" } })],
      renderRoute s = .pending :=
  ⟨by simp, by decide,
    (gate_render [Callback.onAuthStateChange (some { user := some { id := "u1" } })]).2.2
      (by simp)⟩

/-! ## Submitting and then aggregating (C25) -/

theorem set_of_not_mem {α : Type} (o : JsObject α) (k : String) (v : α) (h : k ∉ o.keys) :
    o.set k v = o ++ [(k, v)] := by
  induction o with
  | nil => rfl
  | cons p o ih =>
    obtain ⟨pk, pv⟩ := p
    simp only [JsObject.keys, List.map_cons, List.mem_cons, not_or] at h
    have hne : ¬ pk = k := fun e => h.1 e.symm
    simp only [JsObject.set, hne, if_false, List.cons_append]
    rw [ih h.2]

theorem foldl_bump_fresh (ks : List String) (o : JsObject Nat) (hn : ks.Nodup)
    (hd : ∀ k ∈ ks, k ∉ o.keys) :
    ks.foldl JsObject.bump o = o ++ ks.map (fun k => (k, 1)) := by
  induction ks generalizing o with
  | nil => simp
  | cons k ks ih =>
    have hk : k ∉ o.keys := hd k (List.mem_cons_self _ _)
    have hb : o.bump k = o ++ [(k, 1)] := by
      unfold JsObject.bump
      rw [(JsObject.get_eq_none_iff o k).2 hk, set_of_not_mem o k _ hk]
      rfl
    rw [List.foldl_cons, hb, ih _ (List.nodup_cons.1 hn).2]
    · simp
    · intro k' hk'
      simp only [JsObject.keys, List.map_append, List.map_cons, List.map_nil, List.mem_append,
        List.mem_singleton, not_or]
      refine ⟨hd k' (List.mem_cons_of_mem _ hk'), ?_⟩
      rintro rfl
      exact (List.nodup_cons.1 hn).1 hk'

/-- C25: no referral-source option value of the catalogue is one of the five
overall-evaluation labels, which are the values of the form's overall-evaluation
options; so for the stored record of a submission with a duplicate-free list of
catalogue source options and an overall label, the dashboard tallies the label once in
the overall tally, each selected source once in the referral tally, and nothing else. -/
theorem submit_then_aggregate (trainingSessionId : String) (formData : FormData)
    (submitted_at : Int) (hS : formData.sources.Nodup)
    (hsub : ∀ s ∈ formData.sources, s ∈ optionValues sourceOptions)
    (hL : formData.overallEvaluation ∈ optionValues additionalSourceOptions) :
    (∀ v ∈ optionValues sourceOptions, v ∉ overallEvaluationOptions) ∧
    optionValues additionalSourceOptions = overallEvaluationOptions ∧
    (handleSubmit trainingSessionId formData).sources
      = formData.sources ++ [formData.overallEvaluation] ∧
    ∃ a, calculateAnalytics
        [storedEvaluation (handleSubmit trainingSessionId formData) submitted_at] = some a ∧
      a.overallEvaluationCounts = [(formData.overallEvaluation, .number 1)] ∧
      a.sourceCounts = formData.sources.map (fun s => (s, .number 1)) := by
  have hdis : ∀ v ∈ optionValues sourceOptions, v ∉ overallEvaluationOptions := by decide
  have hsame : optionValues additionalSourceOptions = overallEvaluationOptions := by decide
  have hLo : formData.overallEvaluation ∈ overallEvaluationOptions := hsame ▸ hL
  have hne : (formData.overallEvaluation != "") = true := by
    rw [bne_iff_ne]
    intro he
    rw [he] at hLo
    exact absurd hLo (by decide)
  have hsrc : (handleSubmit trainingSessionId formData).sources
      = formData.sources ++ [formData.overallEvaluation] := by
    simp only [handleSubmit, hne, if_true]
  refine ⟨hdis, hsame, hsrc, _, calculateAnalytics_of_ne_nil _ (by simp), ?_⟩
  have hall : allSources
      [storedEvaluation (handleSubmit trainingSessionId formData) submitted_at]
      = formData.sources ++ [formData.overallEvaluation] := by
    simp [allSources, storedEvaluation, hsrc]
  have h1 : (formData.sources ++ [formData.overallEvaluation]).filter
      (fun s => decide (s ∈ overallEvaluationOptions)) = [formData.overallEvaluation] := by
    rw [List.filter_append, List.filter_eq_nil_iff.2, List.nil_append]
    · simp [hLo]
    · intro s hs
      simpa using hdis s (hsub s hs)
  have h2 : (formData.sources ++ [formData.overallEvaluation]).filter
      (fun s => decide (s ∉ overallEvaluationOptions)) = formData.sources := by
    rw [List.filter_append, List.filter_eq_self.2, List.filter_eq_nil_iff.2, List.append_nil]
    · intro s hs
      rw [List.mem_singleton] at hs
      subst hs
      simpa using hLo
    · intro s hs
      simpa using hdis s (hsub s hs)
  have hclean : ∀ s ∈ allSources
      [storedEvaluation (handleSubmit trainingSessionId formData) submitted_at],
      s ∉ inheritedNames := by
    intro s hs
    rw [hall, List.mem_append, List.mem_singleton] at hs
    rcases hs with hs | rfl
    · have hcat : ∀ v ∈ optionValues sourceOptions, v ∉ inheritedNames := by decide
      exact hcat s (hsub s hs)
    · exact label_not_inherited _ hLo
  show (sourceLoop _).1 = _ ∧ (sourceLoop _).2 = _
  rw [overall_eq_own, sourceCounts_eq_own _ hclean, sourceLoopOwn_eq, hall,
    foldl_sourceStepOwn, h1, h2]
  refine ⟨rfl, ?_⟩
  show mapValues JsValue.number (formData.sources.foldl JsObject.bump []) = _
  rw [foldl_bump_fresh _ _ hS (by simp [JsObject.keys])]
  simp [mapValues]

/-- A form state with two selected sources and an overall label, reached through the
handlers. -/
def sourcedForm : FormData :=
  handleOverallEvaluationChange "Very Good"
    (handleSourceChange "colleague" (handleSourceChange "facebook" initialFormData))

/-- C25, witness: two sources and the label `Very Good`. -/
theorem submit_then_aggregate_witness :
    sourcedForm.sources.Nodup ∧
    (∀ s ∈ sourcedForm.sources, s ∈ optionValues sourceOptions) ∧
    sourcedForm.overallEvaluation ∈ optionValues additionalSourceOptions ∧
    ∃ a, calculateAnalytics [storedEvaluation (handleSubmit "session-1" sourcedForm) 7] = some a ∧
      a.overallEvaluationCounts = [("Very Good", .number 1)] ∧
      a.sourceCounts = [("facebook", .number 1), ("colleague", .number 1)] :=
  ⟨by decide, by decide, by decide,
    (submit_then_aggregate "session-1" sourcedForm 7 (by decide) (by decide) (by decide)).2.2.2⟩

/-! ## The selected sources (C26) -/

/-- The form state after a sequence of `handleSourceChange` calls on the initial
state. -/
def toggles (values : List String) : FormData :=
  values.foldl (fun fd v => handleSourceChange v fd) initialFormData

theorem sources_handleSourceChange (v : String) (fd : FormData) :
    (handleSourceChange v fd).sources =
      if v ∈ fd.sources then fd.sources.filter (fun s => s != v) else fd.sources ++ [v] := by
  simp [handleSourceChange]

theorem mem_handleSourceChange (v w : String) (fd : FormData) :
    w ∈ (handleSourceChange v fd).sources ↔
      if w = v then w ∉ fd.sources else w ∈ fd.sources := by
  rw [sources_handleSourceChange]
  by_cases hv : v ∈ fd.sources
  · by_cases hw : w = v
    · subst hw; simp [hv]
    · simp [hv, hw]
  · by_cases hw : w = v
    · subst hw; simp [hv]
    · simp [hv, hw]

theorem nodup_handleSourceChange (v : String) (fd : FormData) (h : fd.sources.Nodup) :
    (handleSourceChange v fd).sources.Nodup := by
  rw [sources_handleSourceChange]
  by_cases hv : v ∈ fd.sources
  · simp only [hv, if_true]; exact h.filter _
  · simp only [hv, if_false]
    exact List.Nodup.append h (List.nodup_singleton v) (by simpa using hv)

theorem toggles_concat (values : List String) (v : String) :
    toggles (values ++ [v]) = handleSourceChange v (toggles values) := by
  simp [toggles, List.foldl_append]

theorem nodup_toggles (values : List String) : (toggles values).sources.Nodup := by
  induction values using List.reverseRecOn with
  | nil => exact List.nodup_nil
  | append_singleton l a ih => rw [toggles_concat]; exact nodup_handleSourceChange a _ ih

theorem mem_toggles (values : List String) (v : String) :
    v ∈ (toggles values).sources ↔ Odd (values.count v) := by
  induction values using List.reverseRecOn with
  | nil => simp [toggles, initialFormData]
  | append_singleton l a ih =>
    rw [toggles_concat, mem_handleSourceChange, List.count_append]
    by_cases hva : v = a
    · subst hva
      simp only [if_true, List.count_singleton_self, Nat.odd_add_one, ih]
    · have : List.count v [a] = 0 := by
        rw [List.count_eq_zero]; simpa using hva
      simp only [hva, if_false, this, Nat.add_zero, ih]

/-- C26, counterexample: with `facebook` and `twitter` selected in that order, toggling
`facebook` twice yields the list with `twitter` first. -/
theorem toggled_sources_counterexample :
    (toggles ["facebook", "twitter"]).sources = ["facebook", "twitter"] ∧
    (handleSourceChange "facebook"
      (handleSourceChange "facebook" (toggles ["facebook", "twitter"]))).sources
        = ["twitter", "facebook"] ∧
    (handleSourceChange "facebook"
      (handleSourceChange "facebook" (toggles ["facebook", "twitter"]))).sources
        ≠ (toggles ["facebook", "twitter"]).sources := by
  decide

/-- C26, amended: starting from the initial empty list, after any sequence of
`handleSourceChange` toggles the sources list has no duplicate and a value is present
iff it was toggled an odd number of times; toggling the same value twice in succession
restores the previous selection up to order: the list itself when the value was not
selected, and otherwise the list with the value moved to its end. -/
theorem toggled_sources (values : List String) (v : String) :
    (toggles values).sources.Nodup ∧
    (v ∈ (toggles values).sources ↔ Odd (values.count v)) ∧
    List.Perm (handleSourceChange v (handleSourceChange v (toggles values))).sources
      (toggles values).sources ∧
    (v ∉ (toggles values).sources →
      (handleSourceChange v (handleSourceChange v (toggles values))).sources
        = (toggles values).sources) ∧
    (v ∈ (toggles values).sources →
      (handleSourceChange v (handleSourceChange v (toggles values))).sources
        = (toggles values).sources.filter (fun s => s != v) ++ [v]) := by
  have hn := nodup_toggles values
  refine ⟨hn, mem_toggles values v, ?_, ?_, ?_⟩
  · rw [List.perm_ext_iff_of_nodup
      (nodup_handleSourceChange v _ (nodup_handleSourceChange v _ hn)) hn]
    intro w
    rw [mem_handleSourceChange, mem_handleSourceChange]
    by_cases hw : w = v
    · simp [hw]
    · simp [hw]
  · intro hv
    rw [sources_handleSourceChange v (handleSourceChange v _),
      sources_handleSourceChange v (toggles values)]
    simp only [hv, if_false, List.mem_append, List.mem_singleton, or_true, if_true,
      List.filter_append]
    rw [List.filter_eq_self.2, List.filter_eq_nil_iff.2, List.append_nil]
    · intro s hs
      rw [List.mem_singleton] at hs
      simp [hs]
    · intro s hs
      have : s ≠ v := fun e => hv (e ▸ hs)
      simpa using this
  · intro hv
    rw [sources_handleSourceChange v (handleSourceChange v _),
      sources_handleSourceChange v (toggles values)]
    simp only [hv, if_true]
    have : v ∉ (toggles values).sources.filter (fun s => s != v) := by
      simp [List.mem_filter]
    simp only [this, if_false]

/-- C26, witness: `facebook`, selected first of two, is toggled twice. -/
theorem toggled_sources_witness :
    "facebook" ∈ (toggles ["facebook", "twitter"]).sources ∧
    (handleSourceChange "facebook"
      (handleSourceChange "facebook" (toggles ["facebook", "twitter"]))).sources
        = ["twitter", "facebook"] :=
  ⟨by decide,
    ((toggled_sources ["facebook", "twitter"] "facebook").2.2.2.2 (by decide)).trans
      (by decide)⟩

/-! ## The averaging divisions (C27) -/

theorem accumulator_count_own (rs : List Rating) (p : String × QuestionAccOwn)
    (hp : p ∈ rs.foldl accStepOwn []) : 1 ≤ p.2.count := by
  obtain ⟨r, l, _, _, hc, _⟩ := averages_entry rs _
    ((mem_averagesOfOwn (rs.foldl accStepOwn []) _).2 ⟨p, hp, rfl⟩)
  simp only [List.length_cons] at hc
  omega

theorem ratingLoop_fst (evaluationData : List Evaluation) :
    (ratingLoop evaluationData).1 = (allRatings evaluationData).foldl accStep [] := by
  rw [ratingLoop_eq, foldl_ratingStep]

theorem accumulator_count (rs : List Rating) (p : String × QuestionAcc)
    (hp : p ∈ rs.foldl accStep []) : 1 ≤ p.2.count := by
  have hb := foldl_accStep_counted rs [] [] rfl (by simp [JsObject.keys])
  have hm : (p.1, (p.2.count, p.2.group))
      ∈ mapValues (fun d : QuestionAcc => (d.count, d.group)) (rs.foldl accStep []) :=
    List.mem_map.2 ⟨p, hp, rfl⟩
  rw [hb] at hm
  obtain ⟨p', hp', he⟩ := List.mem_map.1 hm
  have hc := accumulator_count_own (ownQuestions rs) p' hp'
  simp only [Prod.mk.injEq] at he
  omega

theorem mem_averagesOf (qa : JsObject QuestionAcc) (e : QuestionAverage) :
    e ∈ averagesOf qa ↔ ∃ p ∈ qa, e =
      { question := p.1, group := p.2.group, average := p.2.sum.divToFixed2 p.2.count,
        count := p.2.count } := by
  unfold averagesOf
  rw [List.mem_map]
  constructor
  · rintro ⟨p, hp, rfl⟩
    exact ⟨p, (entries_perm qa).mem_iff.1 hp, rfl⟩
  · rintro ⟨p, hp, rfl⟩
    exact ⟨p, (entries_perm qa).mem_iff.2 hp, rfl⟩

theorem trend_count (host : Host) (es : List JoinedEvaluation)
    (h : ∀ e ∈ es, e.evaluation.ratings ≠ []) (t : Trend) (ht : t ∈ calculateTrends host es) :
    1 ≤ t.count := by
  obtain ⟨hne, hc, _⟩ := mem_calculateTrends host es t ht
  rw [hc]
  cases hm : evaluationsOfMonth host t.month es with
  | nil => exact absurd hm hne
  | cons e l =>
    have hmem : e ∈ es := by
      have : e ∈ evaluationsOfMonth host t.month es := hm ▸ List.mem_cons_self _ _
      exact (List.mem_filter.1 this).1
    have hr := h e hmem
    simp only [ratingEntries, List.flatMap_cons, List.length_append]
    have : 1 ≤ e.evaluation.ratings.length := by
      cases hrr : e.evaluation.ratings with
      | nil => exact absurd hrr hr
      | cons _ _ => simp
    omega

/-- C27: in `calculateAnalytics` every per-question accumulator has a count of at least
1, for every input, so that no average is a quotient by zero, and every reported
average is a numeral when no rating value names a property inherited from
`Object.prototype`; in `calculateTrends` every month bucket has a count of at least 1
provided every evaluation of the list has at least one rating entry, and then a numeral
as its average when no rating value of the month names such a property, while in
general the count of a bucket is the number of rating entries of its month's
evaluations, 0 (with the average of `0/0`) when they carry none. -/
theorem counts_positive (host : Host) (evaluationData : List Evaluation)
    (evaluations : List JoinedEvaluation) :
    (∀ p ∈ (ratingLoop evaluationData).1, 1 ≤ p.2.count) ∧
    (∀ a, calculateAnalytics evaluationData = some a →
      ∀ e ∈ a.questionAverages, 1 ≤ e.count ∧
        ((∀ r ∈ allRatings evaluationData, r.rating ∉ inheritedNames) → e.average.isSome)) ∧
    ((∀ e ∈ evaluations, e.evaluation.ratings ≠ []) →
      ∀ t ∈ calculateTrends host evaluations, 1 ≤ t.count ∧
        ((∀ r ∈ ratingEntries (evaluationsOfMonth host t.month evaluations),
          r.rating ∉ inheritedNames) → t.avgRating.isSome)) ∧
    (∀ t ∈ calculateTrends host evaluations,
      t.count = (ratingEntries (evaluationsOfMonth host t.month evaluations)).length ∧
      (ratingEntries (evaluationsOfMonth host t.month evaluations) = [] →
        t.count = 0 ∧ t.avgRating = none)) := by
  refine ⟨?_, ?_, ?_, ?_⟩
  · intro p hp
    rw [ratingLoop_fst] at hp
    exact accumulator_count _ p hp
  · intro a ha e he
    have hne : evaluationData ≠ [] := by
      rintro rfl
      simp [calculateAnalytics] at ha
    rw [calculateAnalytics_of_ne_nil _ hne] at ha
    cases ha
    simp only at he
    have he' := he
    rw [ratingLoop_fst] at he
    obtain ⟨p, hp, rfl⟩ := (mem_averagesOf _ _).1 he
    have hc := accumulator_count _ p hp
    refine ⟨hc, ?_⟩
    intro hclean
    rw [questionAverages_eq_own evaluationData hclean, ratingLoopOwn_eq,
      foldl_ratingStepOwn] at he'
    obtain ⟨r, l, _, _, hcount, havg⟩ := averages_entry _ _ he'
    rw [havg]
    obtain ⟨n, hn⟩ := toFixed2_isSome (scoreSum (r :: l)) (r :: l).length (by simp)
    rw [hn]
    rfl
  · intro h t ht
    have hc := trend_count host evaluations h t ht
    refine ⟨hc, ?_⟩
    intro hclean
    obtain ⟨_, hcount, havg⟩ := mem_calculateTrends host evaluations t ht
    rw [hcount] at hc
    rw [addScores_number 0 _ hclean, Nat.zero_add, divToFixed2_number] at havg
    obtain ⟨n, hn⟩ := toFixed2_isSome
      (instructorScoreSum (ratingEntries (evaluationsOfMonth host t.month evaluations)))
      (ratingEntries (evaluationsOfMonth host t.month evaluations)).length (by omega)
    rw [havg, hn]; rfl
  · intro t ht
    obtain ⟨_, hcount, havg⟩ := mem_calculateTrends host evaluations t ht
    refine ⟨hcount, ?_⟩
    intro hnil
    rw [hcount, havg, hnil]
    exact ⟨rfl, rfl⟩

/-- C27, witness: the evaluations of `trendEvaluations` that carry rating entries give
buckets with positive counts, while the whole list, whose only evaluation of 2024-01
carries none, gives that month a bucket with count 0. -/
theorem counts_positive_witness :
    (∀ e ∈ trendEvaluations.take 3, e.evaluation.ratings ≠ []) ∧
    (∀ t ∈ calculateTrends utcHost (trendEvaluations.take 3), 1 ≤ t.count) ∧
    ({ month := "2024-01", avgRating := none, count := 0 } : Trend)
      ∈ calculateTrends utcHost trendEvaluations :=
  ⟨by decide,
    fun t ht =>
      ((counts_positive utcHost sampleEvaluations (trendEvaluations.take 3)).2.2.1
        (by decide) t ht).1,
    by decide⟩

/-! ## Instructors rated on the enum (C28) -/

theorem instructorScore_ge (v : String) (h : v ∈ ratingEnum) : 2 ≤ instructorScore v := by
  rw [ratingEnum_eq] at h
  simp only [List.mem_cons, List.mem_singleton, List.not_mem_nil, or_false] at h
  rcases h with h | h | h | h <;> subst h <;> decide

theorem ratingEnum_not_inherited (v : String) (h : v ∈ ratingEnum) : v ∉ inheritedNames := by
  rw [ratingEnum_eq] at h
  simp only [List.mem_cons, List.mem_singleton, List.not_mem_nil, or_false] at h
  rcases h with h | h | h | h <;> subst h <;> decide

theorem instructorScoreSum_ge (l : List Rating) (h : ∀ r ∈ l, r.rating ∈ ratingEnum) :
    2 * l.length ≤ instructorScoreSum l := by
  induction l with
  | nil => simp [instructorScoreSum]
  | cons r rest ih =>
    have := instructorScore_ge r.rating (h r (List.mem_cons_self _ _))
    have := ih (fun x hx => h x (List.mem_cons_of_mem _ hx))
    simp only [instructorScoreSum, List.map_cons, List.sum_cons, List.length_cons] at this ⊢
    omega

theorem averageOrZeroOwn_ge (s c : Nat) (hc : c ≠ 0) (h : 2 * c ≤ s) :
    200 ≤ averageOrZeroOwn s c := by
  obtain ⟨n, hn⟩ := toFixed2_isSome s c hc
  have := toFixed2_ge s c 2 n hc h hn
  simp only [averageOrZeroOwn, Nat.pos_of_ne_zero hc, if_true, hn, Option.getD_some]
  omega

theorem mem_result_all (host : Host) (data : List Instructor) (q : String) (n : Nat)
    (sb : SortBy) (now : Int) (r : Instructor)
    (hr : r ∈ getFilteredAndSortedInstructors host data q (.band n) .all sb now) :
    r ∈ data ∧ ∃ x, r.avgRating = some x ∧ 100 * n ≤ x ∧ x ≤ 100 * n + 99 := by
  rw [getFilteredAndSortedInstructors_eq] at hr
  have hr := (jsSort_perm _ _).mem_iff.1 hr
  simp only [windowStage, cutoffDate] at hr
  obtain ⟨h1, h2⟩ := mem_bandStage n _ r hr
  exact ⟨searchStage_sublist host q data r h1, h2⟩

theorem result_of_zero (host : Host) (i : Instructor) (q : String) (n : Nat) (hn : 1 ≤ n)
    (tr : TimeRange) (sb : SortBy) (now : Int) (h0 : i.avgRating = some 0) :
    getFilteredAndSortedInstructors host [i] q (.band n) tr sb now = [] := by
  rw [getFilteredAndSortedInstructors_eq]
  have hb : bandStage (.band n) (searchStage host q [i]) = [] := by
    rw [List.eq_nil_iff_forall_not_mem]
    intro r hr
    obtain ⟨h1, x, hx, h2, _⟩ := mem_bandStage n _ r hr
    have := searchStage_sublist host q [i] r h1
    rw [List.mem_singleton] at this
    subst this
    rw [h0] at hx
    cases hx
    omega
  rw [hb]
  simp only [windowStage]
  cases cutoffDate host now tr <;> rfl

/-- C28: an instructor of the list published by `loadInstructorRatings` all of whose
rating entries use one of the four enum values has `avgRating` 0, when there is no
rating entry, or an `avgRating` in `[2, 5]`; hence with time range "all" the band 1
(averages in `[1, 1.99]`) selects no such instructor, and an instructor with
`avgRating` 0 is selected by none of the bands from 1 on, whatever the other
controls. -/
theorem enum_rated_instructor (host : Host) (sessions : List TrainingSession)
    (fetch : String → List Evaluation) (l : List Instructor)
    (hl : loadInstructorRatings host sessions fetch = some l) (i : Instructor) (hi : i ∈ l)
    (henum : ∀ e ∈ i.evaluations, ∀ r ∈ e.evaluation.ratings, r.rating ∈ ratingEnum) :
    ((ratingEntries i.evaluations = [] ∧ i.avgRating = some 0) ∨
      (ratingEntries i.evaluations ≠ [] ∧
        ∃ x, i.avgRating = some x ∧ 200 ≤ x ∧ x ≤ 500)) ∧
    (∀ data q sb now, i ∉ getFilteredAndSortedInstructors host data q (.band 1) .all sb now) ∧
    (i.avgRating = some 0 → ∀ n, 1 ≤ n →
      (∀ data q sb now, i ∉ getFilteredAndSortedInstructors host data q (.band n) .all sb now) ∧
      (∀ q tr sb now, getFilteredAndSortedInstructors host [i] q (.band n) tr sb now = [])) := by
  have hfirst : (ratingEntries i.evaluations = [] ∧ i.avgRating = some 0) ∨
      (ratingEntries i.evaluations ≠ [] ∧
        ∃ x, i.avgRating = some x ∧ 200 ≤ x ∧ x ≤ 500) := by
    obtain ⟨k, _, rfl⟩ := (mem_loadInstructorRatings host sessions fetch l hl i).1 hi
    have henum' : ∀ r ∈ ratingEntries (evaluationsOf k (allEvaluations sessions fetch)),
        r.rating ∈ ratingEnum := by
      intro r hr
      obtain ⟨e, he, hre⟩ := List.mem_flatMap.1 hr
      exact henum e he r hre
    have hclean : ∀ r ∈ ratingEntries (evaluationsOf k (allEvaluations sessions fetch)),
        r.rating ∉ inheritedNames :=
      fun r hr => ratingEnum_not_inherited _ (henum' r hr)
    have havg := avgRating_expected_clean host k sessions (allEvaluations sessions fetch) hclean
    by_cases hnil : ratingEntries (evaluationsOf k (allEvaluations sessions fetch)) = []
    · left
      refine ⟨hnil, ?_⟩
      rw [avgRating_expected, hnil]
      rfl
    · right
      refine ⟨hnil, _, havg, ?_, ?_⟩
      · simp only [finishInstructorOwn, expectedAcc]
        apply averageOrZeroOwn_ge
        · intro h0
          exact hnil (List.length_eq_zero.1 h0)
        · exact instructorScoreSum_ge _ henum'
      · simp only [finishInstructorOwn, expectedAcc]
        exact averageOrZeroOwn_le _ _ (instructorScoreSum_le _)
  refine ⟨hfirst, ?_, ?_⟩
  · intro data q sb now hmem
    obtain ⟨_, x, hx, h2, h3⟩ := mem_result_all host data q 1 sb now i hmem
    rcases hfirst with ⟨_, h0⟩ | ⟨_, y, hy, h200, _⟩
    · rw [h0] at hx
      cases hx
      omega
    · rw [hy] at hx
      cases hx
      omega
  · intro h0 n hn
    refine ⟨?_, ?_⟩
    · intro data q sb now hmem
      obtain ⟨_, x, hx, h2, _⟩ := mem_result_all host data q n sb now i hmem
      rw [h0] at hx
      cases hx
      omega
    · intro q tr sb now
      exact result_of_zero host i q n hn tr sb now h0

/-- The entry of "Kaleb" in the scenario. -/
def kalebInstructor : Instructor :=
  finishInstructor utcHost
    { name := "Kaleb"
      sessions := kalebSessions
      evaluations := allEvaluations kalebSessions kalebStore
      totalRatings := 2
      ratingSum := .number 9
      feedbackCount := 0
      trends := [] }

/-- C28, witness: the instructor of the scenario of "Kaleb", rated `excellent` and
`very_good`, has the average 4.50. -/
theorem enum_rated_instructor_witness :
    loadInstructorRatings utcHost kalebSessions kalebStore = some [kalebInstructor] ∧
    kalebInstructor ∈ [kalebInstructor] ∧
    (∀ e ∈ kalebInstructor.evaluations, ∀ r ∈ e.evaluation.ratings, r.rating ∈ ratingEnum) ∧
    kalebInstructor.avgRating = some 450 ∧
    ((ratingEntries kalebInstructor.evaluations = [] ∧ kalebInstructor.avgRating = some 0) ∨
      (ratingEntries kalebInstructor.evaluations ≠ [] ∧
        ∃ x, kalebInstructor.avgRating = some x ∧ 200 ≤ x ∧ x ≤ 500)) :=
  ⟨by decide, by decide, by decide, by decide,
    (enum_rated_instructor utcHost kalebSessions kalebStore [kalebInstructor] (by decide)
      kalebInstructor (by decide) (by decide)).1⟩

/-! ## The time-window filter leaves the rest alone (C29) -/

/-- The state of a run of the function on array objects: the arrays that existed before
the call are unchanged, and `filtered` refers to a newer array with the elements `v`. -/
def FreshArray (store : ArrayStore) (st : ArrayStore × Nat) (v : List Instructor) : Prop :=
  store.length ≤ st.2 ∧ st.2 < st.1.length ∧
    (∀ ref, ref < store.length → st.1.read ref = store.read ref) ∧ st.1.read st.2 = v

theorem read_alloc_old (store : ArrayStore) (xs : List Instructor) (ref : Nat)
    (h : ref < store.length) : (store.alloc xs).1.read ref = store.read ref := by
  simp only [ArrayStore.alloc, ArrayStore.read, List.getD_eq_getElem?_getD]
  rw [List.getElem?_append_left h]

theorem read_alloc_new (store : ArrayStore) (xs : List Instructor) :
    (store.alloc xs).1.read (store.alloc xs).2 = xs := by
  simp [ArrayStore.alloc, ArrayStore.read, List.getD_eq_getElem?_getD]

theorem freshArray_alloc (store : ArrayStore) (st : ArrayStore × Nat) (v w : List Instructor)
    (h : FreshArray store st v) : FreshArray store (st.1.alloc w) w := by
  obtain ⟨h1, h2, h3, _⟩ := h
  refine ⟨?_, ?_, ?_, read_alloc_new _ _⟩
  · simp only [ArrayStore.alloc]; omega
  · simp [ArrayStore.alloc]
  · intro ref hr
    rw [read_alloc_old _ _ _ (by omega)]
    exact h3 ref hr

theorem freshArray_run (host : Host) (store : ArrayStore) (instructorData : Nat)
    (q : String) (fr : RatingFilter) (tr : TimeRange) (now : Int) :
    ∃ st, FreshArray store st
        (windowStage host now tr (bandStage fr (searchStage host q (store.read instructorData)))) ∧
      ∀ sb, getFilteredAndSortedInstructorsIn host store instructorData q fr tr sb now
        = (st.1.write st.2 (jsSort (sortComparator host sb) (st.1.read st.2)), st.2) := by
  have h0 : FreshArray store (store.alloc (store.read instructorData))
      (store.read instructorData) :=
    ⟨Nat.le_refl _, by simp [ArrayStore.alloc], fun ref hr => read_alloc_old _ _ _ hr,
      read_alloc_new _ _⟩
  generalize hs0 : store.alloc (store.read instructorData) = st0 at h0
  have h1 : ∃ st1, FreshArray store st1 (searchStage host q (store.read instructorData)) ∧
      st1 = (if q != "" then
        st0.1.alloc ((st0.1.read st0.2).filter (fun instructor =>
          jsIncludes (host.toLowerCase instructor.name) (host.toLowerCase q)))
        else st0) := by
    refine ⟨_, ?_, rfl⟩
    unfold searchStage
    split
    · rw [h0.2.2.2]; exact freshArray_alloc _ _ _ _ h0
    · exact h0
  obtain ⟨st1, h1, hs1⟩ := h1
  have h2 : ∃ st2, FreshArray store st2
      (bandStage fr (searchStage host q (store.read instructorData))) ∧
      st2 = (match fr with
        | .all => st1
        | .band minRating =>
          st1.1.alloc ((st1.1.read st1.2).filter (fun instructor =>
            inBand minRating instructor.avgRating))) := by
    refine ⟨_, ?_, rfl⟩
    unfold bandStage
    cases fr with
    | all => exact h1
    | band n => simp only; rw [h1.2.2.2]; exact freshArray_alloc _ _ _ _ h1
  obtain ⟨st2, h2, hs2⟩ := h2
  have h3 : ∃ st3, FreshArray store st3
      (windowStage host now tr (bandStage fr (searchStage host q (store.read instructorData)))) ∧
      st3 = (match cutoffDate host now tr with
        | none => st2
        | some cutoff =>
          st2.1.alloc ((st2.1.read st2.2).filterMap (restrictToWindow cutoff))) := by
    refine ⟨_, ?_, rfl⟩
    unfold windowStage
    cases cutoffDate host now tr with
    | none => exact h2
    | some c => simp only; rw [h2.2.2.2]; exact freshArray_alloc _ _ _ _ h2
  obtain ⟨st3, h3, hs3⟩ := h3
  refine ⟨st3, h3, ?_⟩
  intro sb
  subst hs3 hs2 hs1 hs0
  cases fr <;> rfl

theorem read_write_same (store : ArrayStore) (ref : Nat) (xs : List Instructor)
    (h : ref < store.length) : (store.write ref xs).read ref = xs := by
  simp [ArrayStore.write, ArrayStore.read, List.getD_eq_getElem?_getD, List.getElem?_set, h]

theorem read_write_other (store : ArrayStore) (ref ref' : Nat) (xs : List Instructor)
    (h : ref ≠ ref') : (store.write ref xs).read ref' = store.read ref' := by
  simp [ArrayStore.write, ArrayStore.read, List.getD_eq_getElem?_getD, List.getElem?_set, h]

theorem restrictToWindow_frame (cutoff : Int) (i r : Instructor)
    (h : restrictToWindow cutoff i = some r) :
    r.toInstructorAcc = i.toInstructorAcc ∧ r.totalSessions = i.totalSessions := by
  rw [restrictToWindow_eq] at h
  split at h
  · exact absurd h (by simp)
  · cases h
    exact ⟨rfl, rfl⟩

theorem mem_windowStage (host : Host) (now : Int) (tr : TimeRange) (data : List Instructor)
    (r : Instructor) (hr : r ∈ windowStage host now tr data) :
    ∃ i ∈ data, r.toInstructorAcc = i.toInstructorAcc ∧ r.totalSessions = i.totalSessions := by
  unfold windowStage at hr
  cases hc : cutoffDate host now tr with
  | none =>
    rw [hc] at hr
    exact ⟨r, hr, rfl, rfl⟩
  | some c =>
    rw [hc] at hr
    obtain ⟨i, hi, hir⟩ := List.mem_filterMap.1 hr
    exact ⟨i, hi, restrictToWindow_frame c i r hir⟩

theorem bandStage_subset (fr : RatingFilter) (data : List Instructor) :
    ∀ i ∈ bandStage fr data, i ∈ data := by
  intro i hi
  cases fr with
  | all => exact hi
  | band n => exact (List.mem_filter.1 hi).1

/-- C29: the time-window step changes only `avgRating` and `totalEvaluations`: an
instructor it keeps has the name, sessions, evaluations, feedback count, trends (and the
stored rating totals) and the `totalSessions` of the unfiltered entry, so every returned
instructor agrees on these fields with an entry of `instructorData`; and on array
objects the call leaves the array of `instructorData`, like every array that existed
before it, with the elements it had, the returned array being a new one that holds the
result. -/
theorem window_frame (host : Host) (store : ArrayStore) (instructorData : Nat)
    (searchQuery : String) (filterRating : RatingFilter) (timeRange : TimeRange)
    (sortBy : SortBy) (now : Int) (h : instructorData < store.length) :
    (∀ cutoff i r, restrictToWindow cutoff i = some r →
      r.toInstructorAcc = i.toInstructorAcc ∧ r.totalSessions = i.totalSessions) ∧
    (∀ r ∈ getFilteredAndSortedInstructors host (store.read instructorData) searchQuery
        filterRating timeRange sortBy now,
      ∃ i ∈ store.read instructorData,
        r.toInstructorAcc = i.toInstructorAcc ∧ r.totalSessions = i.totalSessions) ∧
    (getFilteredAndSortedInstructorsIn host store instructorData searchQuery filterRating
        timeRange sortBy now).1.read instructorData = store.read instructorData ∧
    (∀ ref, ref < store.length →
      (getFilteredAndSortedInstructorsIn host store instructorData searchQuery filterRating
        timeRange sortBy now).1.read ref = store.read ref) ∧
    store.length ≤ (getFilteredAndSortedInstructorsIn host store instructorData searchQuery
        filterRating timeRange sortBy now).2 ∧
    (getFilteredAndSortedInstructorsIn host store instructorData searchQuery filterRating
        timeRange sortBy now).1.read
      (getFilteredAndSortedInstructorsIn host store instructorData searchQuery filterRating
        timeRange sortBy now).2
      = getFilteredAndSortedInstructors host (store.read instructorData) searchQuery
          filterRating timeRange sortBy now := by
  obtain ⟨st, ⟨h1, h2, h3, h4⟩, hrun⟩ :=
    freshArray_run host store instructorData searchQuery filterRating timeRange now
  have hold : ∀ ref, ref < store.length →
      (getFilteredAndSortedInstructorsIn host store instructorData searchQuery filterRating
        timeRange sortBy now).1.read ref = store.read ref := by
    intro ref hr
    rw [hrun sortBy]
    simp only
    rw [read_write_other _ _ _ _ (by omega)]
    exact h3 ref hr
  refine ⟨restrictToWindow_frame, ?_, hold _ h, hold, ?_, ?_⟩
  · intro r hr
    rw [getFilteredAndSortedInstructors_eq] at hr
    have hr := (jsSort_perm _ _).mem_iff.1 hr
    obtain ⟨i, hi, hir⟩ := mem_windowStage host now timeRange _ r hr
    exact ⟨i, searchStage_sublist host searchQuery _ i (bandStage_subset _ _ i hi), hir⟩
  · rw [hrun sortBy]; exact h1
  · rw [hrun sortBy]
    simp only
    rw [read_write_same _ _ _ h2, h4, getFilteredAndSortedInstructors_eq]

/-- C29, witness: the instructor of `datedInstructors` under the time range "month" on
2024-03-21, sorted by rating: the returned entry differs from the stored one in
`avgRating` and `totalEvaluations` only, and the stored array is as before. -/
theorem window_frame_witness :
    (0 : Nat) < [datedInstructors].length ∧
    (getFilteredAndSortedInstructorsIn utcHost [datedInstructors] 0 "" .all .month .rating
      1711015200000).1.read 0 = datedInstructors ∧
    (getFilteredAndSortedInstructors utcHost datedInstructors "" .all .month .rating
      1711015200000).map (fun r => (r.avgRating, r.totalEvaluations)) = [(some 500, 1)] ∧
    datedInstructors.map (fun r => (r.avgRating, r.totalEvaluations)) = [(some 450, 2)] :=
  ⟨by decide,
    (window_frame utcHost [datedInstructors] 0 "" .all .month .rating 1711015200000
      (by decide)).2.2.1,
    by decide, by decide⟩

/-! ## Attribution by the parent session only (C30) -/

/-- An evaluation with the `instructor_name` recorded on it erased. -/
def withoutInstructorName (e : Evaluation) : Evaluation := { e with instructor_name := none }

/-- A joined evaluation with the `instructor_name` recorded on the evaluation erased. -/
def withoutRecordedName (e : JoinedEvaluation) : JoinedEvaluation :=
  { e with evaluation := withoutInstructorName e.evaluation }

/-- An instructor entry with the recorded names of its evaluations erased. -/
def withoutRecordedNames (i : Instructor) : Instructor :=
  { i with evaluations := i.evaluations.map withoutRecordedName }

/-- The reported fields of an instructor entry: name, average, number of sessions, number
of evaluations, feedback count and trends. -/
def instructorSummary (i : Instructor) :
    String × Option Nat × Nat × Nat × Nat × List Trend :=
  (i.name, i.avgRating, i.totalSessions, i.totalEvaluations, i.feedbackCount, i.trends)

/-- An accumulator of the own-property loops with the recorded names of its evaluations
erased. -/
def accWithoutRecordedNamesOwn (a : InstructorAccOwn) : InstructorAccOwn :=
  { a with evaluations := a.evaluations.map withoutRecordedName }

/-- An entry of the own-property version with the recorded names of its evaluations
erased. -/
def withoutRecordedNamesOwn (i : InstructorOwn) : InstructorOwn :=
  { i with evaluations := i.evaluations.map withoutRecordedName }

theorem eq_of_keys_get {α : Type} (o o' : JsObject α) (hk : o.keys = o'.keys)
    (hn : o.keys.Nodup) (hg : ∀ k, o.get k = o'.get k) : o = o' := by
  induction o generalizing o' with
  | nil =>
    cases o' with
    | nil => rfl
    | cons p o' => simp [JsObject.keys] at hk
  | cons p o ih =>
    cases o' with
    | nil => simp [JsObject.keys] at hk
    | cons p' o' =>
      obtain ⟨pk, pv⟩ := p
      obtain ⟨pk', pv'⟩ := p'
      simp only [JsObject.keys, List.map_cons, List.cons.injEq] at hk
      obtain ⟨hk1, hk2⟩ := hk
      subst hk1
      have hn' := List.nodup_cons.1 hn
      have hv := hg pk
      simp only [JsObject.get, if_true, Option.some.injEq] at hv
      subst hv
      congr 1
      apply ih o' hk2 hn'.2
      intro k
      by_cases hkk : pk = k
      · subst hkk
        rw [(JsObject.get_eq_none_iff o pk).2 hn'.1,
          (JsObject.get_eq_none_iff o' pk).2 (by rw [← show JsObject.keys o = JsObject.keys o' from hk2]; exact hn'.1)]
      · have := hg k
        simpa only [JsObject.get, hkk, if_false] using this

theorem allEvaluations_erase (sessions : List TrainingSession)
    (fetch : String → List Evaluation) :
    allEvaluations sessions (fun id => (fetch id).map withoutInstructorName)
      = (allEvaluations sessions fetch).map withoutRecordedName := by
  unfold allEvaluations
  induction sessions with
  | nil => rfl
  | cons s l ih =>
    simp only [List.flatMap_cons, List.map_append, List.map_map] at ih ⊢
    rw [ih]
    rfl

theorem evaluationsOf_erase (k : String) (l : List JoinedEvaluation) :
    evaluationsOf k (l.map withoutRecordedName) = (evaluationsOf k l).map withoutRecordedName := by
  unfold evaluationsOf
  rw [List.filter_map]
  rfl

theorem ratingEntries_erase (l : List JoinedEvaluation) :
    ratingEntries (l.map withoutRecordedName) = ratingEntries l := by
  induction l with
  | nil => rfl
  | cons e l ih =>
    simp only [ratingEntries, List.map_cons, List.flatMap_cons] at ih ⊢
    rw [ih]
    rfl

theorem expectedAcc_erase (k : String) (sessions : List TrainingSession)
    (l : List JoinedEvaluation) :
    expectedAcc k sessions (l.map withoutRecordedName)
      = accWithoutRecordedNamesOwn (expectedAcc k sessions l) := by
  simp only [expectedAcc, accWithoutRecordedNamesOwn, evaluationsOf_erase, ratingEntries_erase,
    List.countP_map]
  rfl

theorem instructorMapOf_erase (sessions : List TrainingSession)
    (fetch : String → List Evaluation) :
    instructorMapOf sessions (fun id => (fetch id).map withoutInstructorName)
      = mapValues accWithoutRecordedNamesOwn (instructorMapOf sessions fetch) := by
  apply eq_of_keys_get
  · rw [keys_mapValues, keys_instructorMapOf, keys_instructorMapOf]
  · exact nodup_keys_instructorMapOf _ _
  · intro k
    rw [get_mapValues, get_instructorMapOf, get_instructorMapOf, allEvaluations_erase,
      expectedAcc_erase]
    split <;> rfl

theorem calculateTrendsOwn_erase (host : Host) (l : List JoinedEvaluation) :
    calculateTrendsOwn host (l.map withoutRecordedName) = calculateTrendsOwn host l := by
  unfold calculateTrendsOwn
  rw [List.foldl_map]
  rfl

theorem calculateTrends_erase (host : Host) (l : List JoinedEvaluation) :
    calculateTrends host (l.map withoutRecordedName) = calculateTrends host l := by
  unfold calculateTrends
  rw [List.foldl_map]
  rfl

theorem finishInstructorOwn_erase (host : Host) (a : InstructorAccOwn) :
    finishInstructorOwn host (accWithoutRecordedNamesOwn a)
      = withoutRecordedNamesOwn (finishInstructorOwn host a) := by
  simp only [finishInstructorOwn, accWithoutRecordedNamesOwn, withoutRecordedNamesOwn,
    calculateTrendsOwn_erase, List.length_map]

theorem loadInstructorRatingsOwn_erase (host : Host) (sessions : List TrainingSession)
    (fetch : String → List Evaluation) :
    loadInstructorRatingsOwn host sessions (fun id => (fetch id).map withoutInstructorName)
      = (loadInstructorRatingsOwn host sessions fetch).map withoutRecordedNamesOwn := by
  rw [loadInstructorRatingsOwn_eq, loadInstructorRatingsOwn_eq, instructorMapOf_erase,
    entries_mapValues]
  simp only [mapValues, List.map_map]
  apply List.map_congr_left
  intro p _
  exact finishInstructorOwn_erase host p.2

theorem ofOwn_erase (host : Host) (i : InstructorOwn) :
    Instructor.ofOwn host (withoutRecordedNamesOwn i)
      = withoutRecordedNames (Instructor.ofOwn host i) := by
  simp only [Instructor.ofOwn, withoutRecordedNamesOwn, withoutRecordedNames,
    ratingEntries_erase, calculateTrends_erase]

theorem loadInstructorRatings_erase (host : Host) (sessions : List TrainingSession)
    (fetch : String → List Evaluation) :
    loadInstructorRatings host sessions (fun id => (fetch id).map withoutInstructorName)
      = (loadInstructorRatings host sessions fetch).map (List.map withoutRecordedNames) := by
  rw [loadInstructorRatings_eq_own, loadInstructorRatings_eq_own,
    loadInstructorRatingsOwn_erase]
  cases sessions.any hasInheritedName with
  | true => rfl
  | false =>
    simp only [Bool.false_eq_true, if_false, Option.map_some', List.map_map, Option.some.injEq]
    apply List.map_congr_left
    intro i _
    exact ofOwn_erase host i

/-- C30: two evaluation stores that differ solely in the `instructor_name` recorded on
the evaluations themselves give, for the same sessions, the same outcome and the same
instructor entries: the entries are equal once the recorded names are erased from the
evaluations they list, so their names, averages, totals, feedback counts and trends are
identical. -/
theorem session_attribution (host : Host) (sessions : List TrainingSession)
    (fetchA fetchB : String → List Evaluation)
    (h : ∀ id, (fetchA id).map withoutInstructorName = (fetchB id).map withoutInstructorName) :
    (loadInstructorRatings host sessions fetchA).map (List.map withoutRecordedNames)
      = (loadInstructorRatings host sessions fetchB).map (List.map withoutRecordedNames) ∧
    (loadInstructorRatings host sessions fetchA).map (List.map instructorSummary)
      = (loadInstructorRatings host sessions fetchB).map (List.map instructorSummary) := by
  have hf : (fun id => (fetchA id).map withoutInstructorName)
      = (fun id => (fetchB id).map withoutInstructorName) := funext h
  have hmain : (loadInstructorRatings host sessions fetchA).map (List.map withoutRecordedNames)
      = (loadInstructorRatings host sessions fetchB).map (List.map withoutRecordedNames) := by
    rw [← loadInstructorRatings_erase, ← loadInstructorRatings_erase, hf]
  refine ⟨hmain, ?_⟩
  have hs : ∀ o : Option (List Instructor),
      o.map (List.map instructorSummary)
        = (o.map (List.map withoutRecordedNames)).map (List.map instructorSummary) := by
    intro o
    cases o with
    | none => rfl
    | some l =>
      simp only [Option.map_some', List.map_map]
      rfl
  rw [hs, hmain, ← hs]

/-- The store of `kalebStore` with another instructor name recorded on every
evaluation. -/
def renamedStore : String → List Evaluation := fun id =>
  (kalebStore id).map (fun e => { e with instructor_name := some "Abel" })

/-- C30, witness: the evaluations of the scenario of "Kaleb" with the name "Abel"
recorded on them still count for "Kaleb". -/
theorem session_attribution_witness :
    (∀ id, (renamedStore id).map withoutInstructorName
      = (kalebStore id).map withoutInstructorName) ∧
    renamedStore "s1" ≠ kalebStore "s1" ∧
    (loadInstructorRatings utcHost kalebSessions renamedStore).map (List.map instructorSummary)
      = (loadInstructorRatings utcHost kalebSessions kalebStore).map
          (List.map instructorSummary) ∧
    (loadInstructorRatings utcHost kalebSessions renamedStore).map
        (List.map (fun i => (i.name, i.avgRating, i.totalEvaluations)))
      = some [("Kaleb", some 450, 2)] :=
  ⟨fun id => by simp only [renamedStore, List.map_map]; rfl, by decide,
    (session_attribution utcHost kalebSessions renamedStore kalebStore
      (fun id => by simp only [renamedStore, List.map_map]; rfl)).2,
    by decide⟩

end EvalForm
